import Mathlib

/-!
# Converter service: account matching, money parsing, dates and text normalisation

Shallow embedding of `service-converter/internal/core/converter/service.go`.

Go strings are embedded as lists of Unicode code points (`Str`); the inputs of
interest are valid UTF-8, for which the byte-level library functions used by the
source (`HasPrefix`, `ReplaceAll`, `LastIndex` order, ...) agree with their
code-point versions.  Where the source takes a byte length (`len`), the embedding
takes the UTF-8 byte length (`byteLen`).
-/

namespace Converter

/-- Go `string`, as the list of its code points. -/
abbrev Str := List Char

/-! ## Library functions of package `strings` and `unicode` -/

/-- Go `len(s)`: the number of bytes of the UTF-8 encoding. -/
def byteLen (s : Str) : Nat := (s.map Char.utf8Size).sum

/-- Go `unicode.IsSpace`: the code points with the White_Space property. -/
def isSpace (c : Char) : Bool :=
  let n := c.toNat
  (9 ≤ n && n ≤ 13) || n == 32 || n == 133 || n == 160 || n == 5760 ||
  (8192 ≤ n && n ≤ 8202) || n == 8232 || n == 8233 || n == 8239 || n == 8287 || n == 12288

/-- Go `strings.TrimLeft(s, unicode.IsSpace)`-style removal of leading white space. -/
def trimLeft : Str → Str
  | [] => []
  | c :: cs => if isSpace c then trimLeft cs else c :: cs

/-- Go `strings.TrimSpace`. -/
def trimSpace (s : Str) : Str := (trimLeft (trimLeft s).reverse).reverse

/-- Go `strings.HasPrefix(s, p)`. -/
def hasPrefixStr (s p : Str) : Bool := p.isPrefixOf s

/-- Go `strings.HasSuffix(s, p)`. -/
def hasSuffixStr (s p : Str) : Bool := p.reverse.isPrefixOf s.reverse

/-- ASCII decimal digit (`\d` of RE2, `r >= '0' && r <= '9'`). -/
def isDigit (c : Char) : Bool := 48 ≤ c.toNat && c.toNat ≤ 57

/-- The class `\s` of Go regular expressions (RE2): tab, newline, form feed, carriage
return and space. -/
def isReSpace (c : Char) : Bool :=
  let n := c.toNat
  n == 9 || n == 10 || n == 12 || n == 13 || n == 32

/-- Members of the character class `[A-Z0-9 ]`. -/
def isUpperAlnumSpace (c : Char) : Bool :=
  let n := c.toNat
  (65 ≤ n && n ≤ 90) || (48 ≤ n && n ≤ 57) || n == 32

/-- Worker of `replaceRuns`; `inRun` tells that the previous character belonged to a
run that has already been replaced. -/
def replaceRunsAux (p : Char → Bool) : Bool → Str → Str
  | _, [] => []
  | inRun, c :: cs =>
    if p c then
      (if inRun then replaceRunsAux p true cs else ' ' :: replaceRunsAux p true cs)
    else c :: replaceRunsAux p false cs

/-- Go `regexp.MustCompile("[class]+").ReplaceAllString(s, " ")`: every maximal run of
characters of the class `p` is replaced by one space. -/
def replaceRuns (p : Char → Bool) (s : Str) : Str := replaceRunsAux p false s

/-! ## normalizeText -/

/-- The Unicode data used by `normalizeText`, which live in `golang.org/x/text` and the Go
runtime, not in this repository: canonical decomposition (`norm.NFD`), membership in
the category Mn (`unicode.Is(unicode.Mn, r)`) and the upper-case mapping applied per
code point by `strings.ToUpper`. -/
structure UnicodeTables where
  nfd : Str → Str
  isMn : Char → Bool
  toUpper : Char → Char

/-- Source `normalizeText` (service.go 47-56): NFD, drop the marks of category Mn,
upper-case, replace runs outside `[A-Z0-9 ]` by a space, replace runs of `\s` by a
space, trim. -/
def normalizeText (u : UnicodeTables) (str : Str) : Str :=
  let result := (u.nfd str).filter (fun r => !u.isMn r)
  let result := result.map u.toUpper
  let result := replaceRuns (fun c => !isUpperAlnumSpace c) result
  let result := replaceRuns isReSpace result
  trimSpace result

/-- The Unicode data leave text over `[A-Z0-9 ]` alone: it is in normal form D, holds no
mark of category Mn and is its own upper case. -/
def AsciiStable (u : UnicodeTables) : Prop :=
  (∀ s : Str, (∀ c ∈ s, isUpperAlnumSpace c = true) → u.nfd s = s) ∧
  (∀ c, isUpperAlnumSpace c = true → u.isMn c = false ∧ u.toUpper c = c)

/-- Canonical decompositions of the accented letters of the Latin-1 block (U+00C0 to
U+00FF), from the Unicode character database; the other code points of that block and
all of ASCII have none. -/
def latin1Decomp (c : Char) : Str :=
  let n := c.toNat
  let mk (base mark : Nat) : Str := [Char.ofNat base, Char.ofNat mark]
  -- upper case
  if n == 0xC0 then mk 65 0x300 else if n == 0xC1 then mk 65 0x301
  else if n == 0xC2 then mk 65 0x302 else if n == 0xC3 then mk 65 0x303
  else if n == 0xC4 then mk 65 0x308 else if n == 0xC5 then mk 65 0x30A
  else if n == 0xC7 then mk 67 0x327
  else if n == 0xC8 then mk 69 0x300 else if n == 0xC9 then mk 69 0x301
  else if n == 0xCA then mk 69 0x302 else if n == 0xCB then mk 69 0x308
  else if n == 0xCC then mk 73 0x300 else if n == 0xCD then mk 73 0x301
  else if n == 0xCE then mk 73 0x302 else if n == 0xCF then mk 73 0x308
  else if n == 0xD1 then mk 78 0x303
  else if n == 0xD2 then mk 79 0x300 else if n == 0xD3 then mk 79 0x301
  else if n == 0xD4 then mk 79 0x302 else if n == 0xD5 then mk 79 0x303
  else if n == 0xD6 then mk 79 0x308
  else if n == 0xD9 then mk 85 0x300 else if n == 0xDA then mk 85 0x301
  else if n == 0xDB then mk 85 0x302 else if n == 0xDC then mk 85 0x308
  else if n == 0xDD then mk 89 0x301
  -- lower case
  else if n == 0xE0 then mk 97 0x300 else if n == 0xE1 then mk 97 0x301
  else if n == 0xE2 then mk 97 0x302 else if n == 0xE3 then mk 97 0x303
  else if n == 0xE4 then mk 97 0x308 else if n == 0xE5 then mk 97 0x30A
  else if n == 0xE7 then mk 99 0x327
  else if n == 0xE8 then mk 101 0x300 else if n == 0xE9 then mk 101 0x301
  else if n == 0xEA then mk 101 0x302 else if n == 0xEB then mk 101 0x308
  else if n == 0xEC then mk 105 0x300 else if n == 0xED then mk 105 0x301
  else if n == 0xEE then mk 105 0x302 else if n == 0xEF then mk 105 0x308
  else if n == 0xF1 then mk 110 0x303
  else if n == 0xF2 then mk 111 0x300 else if n == 0xF3 then mk 111 0x301
  else if n == 0xF4 then mk 111 0x302 else if n == 0xF5 then mk 111 0x303
  else if n == 0xF6 then mk 111 0x308
  else if n == 0xF9 then mk 117 0x300 else if n == 0xFA then mk 117 0x301
  else if n == 0xFB then mk 117 0x302 else if n == 0xFC then mk 117 0x308
  else if n == 0xFD then mk 121 0x301 else if n == 0xFF then mk 121 0x308
  else [c]

/-- Upper-case mapping of `unicode.ToUpper` on ASCII and the Latin-1 block. -/
def latin1ToUpper (c : Char) : Char :=
  let n := c.toNat
  if 97 ≤ n && n ≤ 122 then Char.ofNat (n - 32)
  else if 0xE0 ≤ n && n ≤ 0xFE && n != 0xF7 then Char.ofNat (n - 32)
  else if n == 0xFF then Char.ofNat 0x178
  else if n == 0xB5 then Char.ofNat 0x39C
  else c

/-- Unicode data restricted to ASCII, the Latin-1 block and the combining diacritical
marks U+0300 to U+036F (all of category Mn).  On strings of these code points in which
no two combining marks follow each other, `norm.NFD` is the concatenation of the
per-character decompositions. -/
def latin1Tables : UnicodeTables where
  nfd := fun s => s.flatMap latin1Decomp
  isMn := fun c => 0x300 ≤ c.toNat && c.toNat ≤ 0x36F
  toUpper := latin1ToUpper

/-! ## stripLeadingNumberPrefix -/

/-- Drop a leading run of characters of class `p` (a greedy `p*`). -/
def dropClass (p : Char → Bool) : Str → Str
  | [] => []
  | c :: cs => if p c then dropClass p cs else c :: cs

/-- The capture of `(.*)$` at the current position: the rest of the text, when it holds
no newline (`.` does not match a newline in RE2). -/
def restOfLine (s : Str) : Option Str := if s.contains '\n' then none else some s

/-- Match of the regular expression `^\s*\d+\s*[-:]\s*(.*)$`; returns the capture. -/
def matchNumSepPrefix (s : Str) : Option Str :=
  let s1 := dropClass isReSpace s
  let s2 := dropClass isDigit s1
  if s2.length == s1.length then none
  else
    match dropClass isReSpace s2 with
    | c :: s3 => if c == '-' || c == ':' then restOfLine (dropClass isReSpace s3) else none
    | [] => none

/-- Match of the regular expression `^\s*\d+\s+(.*)$`; returns the capture. -/
def matchNumSpacePrefix (s : Str) : Option Str :=
  let s1 := dropClass isReSpace s
  let s2 := dropClass isDigit s1
  if s2.length == s1.length then none
  else
    let s3 := dropClass isReSpace s2
    if s3.length == s2.length then none else restOfLine s3

/-- Source `stripLeadingNumberPrefix` (service.go 1787-1802). -/
def stripLeadingNumberPrefix (s : Str) : Str :=
  if s == [] then s
  else
    match matchNumSepPrefix s with
    | some m => trimSpace m
    | none =>
      match matchNumSpacePrefix s with
      | some m => trimSpace m
      | none => s

/-! ## Chart of accounts and the two matchers -/

/-- Source `accEntry` (service.go 870-874), a record of the Pagamentos chart. -/
structure accEntry where
  ID : Str
  Classif : Str
  Desc : Str
deriving DecidableEq, Repr

/-- Source `ContaEntry` (service.go 1517-1521), a record of the Recebimentos chart. -/
structure ContaEntry where
  Code : Str
  Classf : Str
  Desc : Str
deriving DecidableEq, Repr

/-- Go `map[string][]accEntry`: a missing key is `none`. -/
abbrev AccMap := Str → Option (List accEntry)

/-- Go `map[string][]ContaEntry`: a missing key is `none`. -/
abbrev ContaMap := Str → Option (List ContaEntry)

/-- Assignment `m[k] = v` of a Go map. -/
def mapSet {α : Type} (m : Str → Option α) (k : Str) (v : α) : Str → Option α :=
  fun k2 => if k2 = k then some v else m k2

/-- Go `m[k]` for a slice-valued map: the nil slice when the key is missing. -/
def mapGet {α : Type} (m : Str → Option (List α)) (k : Str) : List α := (m k).getD []

/-- The fuzzy search `closestmatch.New(keys, []int{3, 4, 5}).Closest(query)` of the
library `github.com/schollz/closestmatch`, which is not part of this repository: any
function from the candidate keys and the query to a key, the empty string for no match. -/
abbrev Closest := List Str → Str → Str

/-- Insertion of `a` into a list sorted by `less`, after the elements that are not
greater than it. -/
def insertStable {α : Type} (less : α → α → Bool) (a : α) : List α → List α
  | [] => [a]
  | b :: l => if less b a then b :: insertStable less a l else a :: b :: l

/-- Go `sort.SliceStable`: the stable sort by `less`, whose result is determined by the
input; written as an insertion sort. -/
def sortSliceStable {α : Type} (less : α → α → Bool) : List α → List α
  | [] => []
  | a :: l => insertStable less a (sortSliceStable less l)

/-- The contract of Go `sort.Slice` (an unstable sort whose algorithm lives in the Go
runtime), for the comparisons `less(a, b) = key(a) > key(b)` by a numeric key that the
source uses: the result is a permutation of the input, in descending order of the key. -/
def SortContract {α : Type} (srt : (α → α → Bool) → List α → List α) : Prop :=
  ∀ (key : α → Nat) (l : List α),
    (srt (fun a b => decide (key a > key b)) l).Perm l ∧
    (srt (fun a b => decide (key a > key b)) l).Pairwise (fun a b => key b ≤ key a)

/-- The test `strings.HasPrefix(e.Classif, p)` for some `p` of the list (the inner loops
of `pickBest` and of the key filter). -/
def matchesAny (prefixes : List Str) (classif : Str) : Bool :=
  prefixes.any (fun p => hasPrefixStr classif p)

/-- Closure `pickBest` of `buscarContaAtolini` (service.go 960-986).  Returns the chosen
entry together with the content of the slice `entries` after the call: with no
prefixes `candidates` aliases `entries`, so the in-place `sort.SliceStable` reorders the
caller's slice; with prefixes the sort works on the fresh slice `filtered`.  The sorted
slice is as long as its input, so the branch for an empty one is never taken. -/
def pickBest (entries : List accEntry) (prefixes : List Str) :
    Option (accEntry × List accEntry) :=
  let less := fun (a b : accEntry) => decide (byteLen a.Classif > byteLen b.Classif)
  if prefixes.length > 0 then
    let filtered := entries.filter (fun e => matchesAny prefixes e.Classif)
    if filtered.length > 0 then
      match sortSliceStable less filtered with
      | [] => none
      | b :: _ => some (b, entries)
    else none
  else
    if entries.length == 0 then none
    else
      match sortSliceStable less entries with
      | [] => none
      | b :: rest => some (b, b :: rest)

/-- Closure `tryKey` of `buscarContaAtolini` (service.go 988-998): the trimmed code and
the map after the call (changed only through the slice that `pickBest` sorted). -/
def tryKey (contasMap : AccMap) (classPrefixes : List Str) (key : Str) :
    Option (Str × AccMap) :=
  if key == [] then none
  else
    match contasMap key with
    | some entries =>
      if entries.length > 0 then
        match pickBest entries classPrefixes with
        | some (be, entries2) => some (trimSpace be.ID, mapSet contasMap key entries2)
        | none => none
      else none
    | none => none

/-- The keys of `descricaoIndex` that have at least one entry passing the prefix filter
(service.go 1013-1025 and 1634-1646). -/
def filterKeys {α : Type} (classif : α → Str) (m : Str → Option (List α))
    (descricaoIndex : List Str) (classPrefixes : List Str) : List Str :=
  descricaoIndex.filter (fun k => (mapGet m k).any (fun e => matchesAny classPrefixes (classif e)))

/-- The sentinel account code. -/
def sentinel : Str := "999999".toList

/-- Source `buscarContaAtolini` (service.go 948-1052); returns the code and the chart
map as the call leaves it. -/
def buscarContaAtolini (u : UnicodeTables) (closest : Closest) (texto : Str)
    (contasMap : AccMap) (descricaoIndex : List Str) (classPrefixes : List Str) :
    Str × AccMap :=
  let t := trimSpace texto
  if t == [] then (sentinel, contasMap)
  else
    let descNorm := normalizeText u t
    if descNorm == [] then (sentinel, contasMap)
    else
      let altNorm := stripLeadingNumberPrefix descNorm
      -- 1) exact
      match tryKey contasMap classPrefixes descNorm with
      | some r => r
      | none =>
        match (if altNorm != descNorm then tryKey contasMap classPrefixes altNorm else none) with
        | some r => r
        | none =>
          -- 2) fuzzy
          let filteredKeys := filterKeys accEntry.Classif contasMap descricaoIndex classPrefixes
          if classPrefixes.length > 0 && filteredKeys.length == 0 then (sentinel, contasMap)
          else
            let candidateKeys := if classPrefixes.length > 0 then filteredKeys else descricaoIndex
            if candidateKeys.length > 0 then
              let m := closest candidateKeys descNorm
              match (if m != [] then tryKey contasMap classPrefixes m else none) with
              | some r => r
              | none =>
                if altNorm != descNorm then
                  let matchAlt := closest candidateKeys altNorm
                  match (if matchAlt != [] then tryKey contasMap classPrefixes matchAlt
                         else none) with
                  | some r => r
                  | none => (sentinel, contasMap)
                else (sentinel, contasMap)
            else (sentinel, contasMap)

/-- Closure `pickBestEntry` of `findContaCodigoByDescricao` (service.go 1584-1611); as
`pickBest`, with the unstable `sort.Slice`, taken as the parameter `srt` (see
`SortContract`). -/
def pickBestEntry (srt : (ContaEntry → ContaEntry → Bool) → List ContaEntry → List ContaEntry)
    (entries : List ContaEntry) (prefixes : List Str) :
    Option (ContaEntry × List ContaEntry) :=
  let less := fun (a b : ContaEntry) => decide (byteLen a.Classf > byteLen b.Classf)
  if prefixes.length > 0 then
    let filtered := entries.filter (fun e => matchesAny prefixes e.Classf)
    if filtered.length > 0 then
      match srt less filtered with
      | [] => none
      | b :: _ => some (b, entries)
    else none
  else
    if entries.length == 0 then none
    else
      match srt less entries with
      | [] => none
      | b :: rest => some (b, b :: rest)

/-- The repeated block `if entries, ok := contasMap[key]; ok && len(entries) > 0 { if be,
ok2 := pickBestEntry(...); ok2 { return TrimSpace(be.Code) } }` of
`findContaCodigoByDescricao` (service.go 1614-1618, 1623-1627, 1658-1662, 1668-1672). -/
def lookupEntry (srt : (ContaEntry → ContaEntry → Bool) → List ContaEntry → List ContaEntry)
    (contasMap : ContaMap) (classPrefixes : List Str) (key : Str) :
    Option (Str × ContaMap) :=
  match contasMap key with
  | some entries =>
    if entries.length > 0 then
      match pickBestEntry srt entries classPrefixes with
      | some (be, entries2) => some (trimSpace be.Code, mapSet contasMap key entries2)
      | none => none
    else none
  | none => none

/-- Source `findContaCodigoByDescricao` (service.go 1577-1679); returns the code and the
chart map as the call leaves it. -/
def findContaCodigoByDescricao (u : UnicodeTables) (closest : Closest)
    (srt : (ContaEntry → ContaEntry → Bool) → List ContaEntry → List ContaEntry)
    (descricao : Str) (descricaoIndex : List Str) (contasMap : ContaMap)
    (classPrefixes : List Str) : Str × ContaMap :=
  if trimSpace descricao == [] then (sentinel, contasMap)
  else
    let descNorm := normalizeText u descricao
    -- 1) exact
    match lookupEntry srt contasMap classPrefixes descNorm with
    | some r => r
    | none =>
      let alt := stripLeadingNumberPrefix descNorm
      match (if alt != descNorm then lookupEntry srt contasMap classPrefixes alt else none) with
      | some r => r
      | none =>
        -- 2) fuzzy
        let filteredKeys := filterKeys ContaEntry.Classf contasMap descricaoIndex classPrefixes
        if classPrefixes.length > 0 && filteredKeys.length == 0 then (sentinel, contasMap)
        else
          let candidateKeys := if classPrefixes.length > 0 then filteredKeys else descricaoIndex
          if candidateKeys.length > 0 then
            let m := closest candidateKeys descNorm
            match (if m != [] then lookupEntry srt contasMap classPrefixes m else none) with
            | some r => r
            | none =>
              if alt != descNorm then
                let match2 := closest candidateKeys alt
                match (if match2 != [] then lookupEntry srt contasMap classPrefixes match2
                       else none) with
                | some r => r
                | none => (sentinel, contasMap)
              else (sentinel, contasMap)
          else (sentinel, contasMap)

/-- A record with classification `classif` satisfies the prefix list `P`: there is no
filter, or the classification starts with one of the prefixes. -/
def satisfies (P : List Str) (classif : Str) : Prop := P = [] ∨ ∃ p ∈ P, p <+: classif

/-! ### A small chart, for concrete instances -/

/-- A Pagamentos chart with two keys: "CAIXA" (classification 1.1.1) and "BANCO X"
(two records, classifications 2.1 and 2.1.05). -/
def demoAccMap : AccMap := fun k =>
  if k = "CAIXA".toList then
    some [⟨"10".toList, "1.1.1".toList, "Caixa".toList⟩]
  else if k = "BANCO X".toList then
    some [⟨"20".toList, "2.1".toList, "Banco X".toList⟩,
          ⟨" 21 ".toList, "2.1.05".toList, "Banco X".toList⟩]
  else none

/-- The same chart for Recebimentos. -/
def demoContaMap : ContaMap := fun k =>
  (demoAccMap k).map (fun l => l.map (fun e => ⟨e.ID, e.Classif, e.Desc⟩))

/-- The key order of the demo chart. -/
def demoIndex : List Str := ["CAIXA".toList, "BANCO X".toList]

/-- A fuzzy search that always answers with the last candidate key. -/
def demoClosest : Closest := fun keys _ => keys.getLast?.getD []

/-! ## IEEE 754 binary64 arithmetic (Go `float64`)

Finite values are embedded as the rational number they denote; every arithmetic
operation computes the exact result and rounds it to the nearest representable value,
ties to even, as the hardware does.  The sign of a zero is not represented: the
embedded code never divides by a zero and compares zeros only with `>=`. -/

/-- A `float64`: a finite value, an infinity or NaN. -/
inductive F64 where
  | fin (q : ℚ)
  | inf (neg : Bool)
  | nan
deriving DecidableEq, Repr

/-- Floor of the binary logarithm of a positive natural number; the first argument is
fuel. -/
def natLog2Aux : Nat → Nat → Nat
  | 0, _ => 0
  | fuel + 1, n => if n < 2 then 0 else natLog2Aux fuel (n / 2) + 1

/-- Floor of the binary logarithm of a positive natural number. -/
def natLog2 (n : Nat) : Nat := natLog2Aux n n

/-- Floor of the binary logarithm of a positive rational: the `e` with
`2^e ≤ q < 2^(e+1)`. -/
def floorLog2 (q : ℚ) : ℤ :=
  let e0 : ℤ := (natLog2 q.num.natAbs : ℤ) - (natLog2 q.den : ℤ)
  if (2 : ℚ) ^ e0 ≤ q then e0 else e0 - 1

/-- Nearest integer, ties to the even one. -/
def roundNearestEven (x : ℚ) : ℤ :=
  let f := ⌊x⌋
  let r := x - f
  if r < 1 / 2 then f
  else if 1 / 2 < r then f + 1
  else if f % 2 = 0 then f else f + 1

/-- Rounding of a positive magnitude to 53 significant bits; below `2^-1022` the spacing
stays `2^-1074` (the subnormal numbers). -/
def roundMag (a : ℚ) : ℚ :=
  let e := max (floorLog2 a) (-1022)
  (roundNearestEven (a / 2 ^ (e - 52)) : ℚ) * 2 ^ (e - 52)

/-- Rounding of an exact result to binary64: to the nearest representable value, ties to
even; a magnitude that rounds to `2^1024` or more becomes an infinity. -/
def roundF64 (q : ℚ) : F64 :=
  if q = 0 then F64.fin 0
  else
    let r := roundMag |q|
    if (2 : ℚ) ^ (1024 : ℤ) ≤ r then F64.inf (decide (q < 0))
    else F64.fin (if q < 0 then -r else r)

/-- Unary minus of `float64`. -/
def F64.neg : F64 → F64
  | .fin q => .fin (-q)
  | .inf b => .inf (!b)
  | .nan => .nan

/-- Product of two `float64`. -/
def F64.mul : F64 → F64 → F64
  | .fin a, .fin b => roundF64 (a * b)
  | .fin a, .inf s => if a = 0 then .nan else .inf (decide (a < 0) != s)
  | .inf s, .fin b => if b = 0 then .nan else .inf (s != decide (b < 0))
  | .inf s, .inf t => .inf (s != t)
  | _, _ => .nan

/-- Sum of two `float64`. -/
def F64.add : F64 → F64 → F64
  | .fin a, .fin b => roundF64 (a + b)
  | .fin _, .inf s => .inf s
  | .inf s, .fin _ => .inf s
  | .inf s, .inf t => if s = t then .inf s else .nan
  | _, _ => .nan

/-- Difference of two `float64`. -/
def F64.sub (x y : F64) : F64 := x.add y.neg

/-- Quotient of two `float64` by a non-zero divisor (a zero divisor is taken as `+0`). -/
def F64.div : F64 → F64 → F64
  | .fin a, .fin b =>
    if b = 0 then (if a = 0 then .nan else .inf (decide (a < 0))) else roundF64 (a / b)
  | .fin _, .inf _ => .fin 0
  | .inf s, .fin b => .inf (s != decide (b < 0))
  | _, _ => .nan

/-- The comparison `x >= y` of `float64`. -/
def F64.ge : F64 → F64 → Bool
  | .fin a, .fin b => decide (b ≤ a)
  | .fin _, .inf s => s
  | .inf s, .fin _ => !s
  | .inf s, .inf t => !s || t
  | _, _ => false

/-- The comparison `x > y` of `float64`. -/
def F64.gt : F64 → F64 → Bool
  | .fin a, .fin b => decide (b < a)
  | .fin _, .inf s => s
  | .inf s, .fin _ => !s
  | .inf s, .inf t => !s && t
  | _, _ => false

/-- The comparison `x < y` of `float64`. -/
def F64.lt (x y : F64) : Bool := y.gt x

/-- Truncation of a rational toward zero. -/
def truncQ (q : ℚ) : ℤ := if 0 ≤ q then ⌊q⌋ else ⌈q⌉

/-- The result of converting to `int64` a `float64` that `int64` cannot represent; the
Go specification leaves it to the implementation (on amd64 it is always `-2^63`). -/
abbrev ConvOverflow := F64 → ℤ

/-- The amd64 behaviour of an out-of-range conversion (`CVTTSD2SQ`). -/
def amd64Conv : ConvOverflow := fun _ => -2 ^ 63

/-- Go conversion `int64(x)` of a `float64`: truncation toward zero. -/
def toInt64 (ovf : ConvOverflow) : F64 → ℤ
  | .fin q => if -2 ^ 63 ≤ truncQ q ∧ truncQ q < 2 ^ 63 then truncQ q else ovf (.fin q)
  | x => ovf x

/-- Go conversion `float64(n)` of an `int64`. -/
def ofInt64 (n : ℤ) : F64 := roundF64 n

/-- Wrap-around of `int64` arithmetic. -/
def wrap64 (n : ℤ) : ℤ := (n + 2 ^ 63) % 2 ^ 64 - 2 ^ 63

/-! ## `strconv.ParseFloat` -/

/-- The errors of `strconv.ParseFloat`. -/
inductive NumError where
  | badSyntax
  | outOfRange
deriving DecidableEq, Repr

deriving instance DecidableEq for Except

/-- Value of a decimal digit. -/
def digitVal (c : Char) : Nat := c.toNat - 48

/-- Value of a string of decimal digits. -/
def decimalValue (ds : Str) : Nat := ds.foldl (fun acc c => 10 * acc + digitVal c) 0

/-- The exponent accumulated by `readFloat`: digits are folded in while the value is
below 10000. -/
def expValue (ds : Str) : Nat := ds.foldl (fun e c => if e < 10000 then 10 * e + digitVal c else e) 0

/-- The exponent part of a decimal literal: empty, or `e`/`E`, an optional sign and at
least one digit up to the end of the text. -/
def parseExponent (s : Str) : Option ℤ :=
  match s with
  | [] => some 0
  | c :: r =>
    if c == 'e' || c == 'E' then
      let (neg, ds) :=
        match r with
        | '+' :: ds => (false, ds)
        | '-' :: ds => (true, ds)
        | ds => (false, ds)
      if ds != [] && ds.all isDigit then
        some (if neg then -(expValue ds : ℤ) else (expValue ds : ℤ))
      else none
    else none

/-- The number denoted by an unsigned decimal literal `digits[.digits][exponent]` with at
least one mantissa digit. -/
def parseDecimal (s : Str) : Option ℚ :=
  let ip := s.takeWhile isDigit
  let r1 := s.dropWhile isDigit
  let (fp, r2) :=
    match r1 with
    | '.' :: t => (t.takeWhile isDigit, t.dropWhile isDigit)
    | _ => ([], r1)
  if ip.length + fp.length == 0 then none
  else
    match parseExponent r2 with
    | some e => some ((decimalValue (ip ++ fp) : ℚ) / 10 ^ fp.length * 10 ^ e)
    | none => none

/-- Value of a hexadecimal digit. -/
def hexDigitVal (c : Char) : Option Nat :=
  let n := c.toNat
  if 48 ≤ n ∧ n ≤ 57 then some (n - 48)
  else if 97 ≤ n ∧ n ≤ 102 then some (n - 87)
  else if 65 ≤ n ∧ n ≤ 70 then some (n - 55)
  else none

/-- A hexadecimal digit. -/
def isHexDigit (c : Char) : Bool := (hexDigitVal c).isSome

/-- Value of a string of hexadecimal digits. -/
def hexValue (ds : Str) : Nat := ds.foldl (fun acc c => 16 * acc + (hexDigitVal c).getD 0) 0

/-- The exponent part of a hexadecimal literal, which is mandatory: `p`/`P`, an optional
sign and at least one decimal digit up to the end of the text. -/
def parseBinExponent (s : Str) : Option ℤ :=
  match s with
  | [] => none
  | c :: r =>
    if c == 'p' || c == 'P' then
      let (neg, ds) :=
        match r with
        | '+' :: ds => (false, ds)
        | '-' :: ds => (true, ds)
        | ds => (false, ds)
      if ds != [] && ds.all isDigit then
        some (if neg then -(expValue ds : ℤ) else (expValue ds : ℤ))
      else none
    else none

/-- The number denoted by the text after the prefix `0x` of a hexadecimal literal:
`hexdigits[.hexdigits]p[+-]digits` with at least one mantissa digit. -/
def parseHex (s : Str) : Option ℚ :=
  let ip := s.takeWhile isHexDigit
  let r1 := s.dropWhile isHexDigit
  let (fp, r2) :=
    match r1 with
    | '.' :: t => (t.takeWhile isHexDigit, t.dropWhile isHexDigit)
    | _ => ([], r1)
  if ip.length + fp.length == 0 then none
  else
    match parseBinExponent r2 with
    | some e => some ((hexValue (ip ++ fp) : ℚ) / 16 ^ fp.length * 2 ^ e)
    | none => none

/-- The number denoted by an unsigned literal without underscores, as `readFloat` of
`strconv` reads it: hexadecimal when the text starts with `0x` or `0X` and goes on,
decimal otherwise. -/
def parseUnsigned (s : Str) : Option ℚ :=
  match s with
  | '0' :: x :: c :: r =>
    if x == 'x' || x == 'X' then parseHex (c :: r) else parseDecimal s
  | _ => parseDecimal s

/-- ASCII lower case of a letter, as `commonPrefixLenIgnoreCase` of `strconv` folds it. -/
def lowerASCII (c : Char) : Char :=
  if 65 ≤ c.toNat ∧ c.toNat ≤ 90 then Char.ofNat (c.toNat + 32) else c

/-- The special values of `strconv.ParseFloat` (function `special`), for a text that is
one of them from end to end: `inf` and `infinity` with an optional sign, and `nan`
without one, in any mix of cases. -/
def special (s : Str) : Option F64 :=
  let (sign, body) : Option Bool × Str :=
    match s with
    | '+' :: r => (some false, r)
    | '-' :: r => (some true, r)
    | r => (none, r)
  let w := body.map lowerASCII
  if w = "inf".toList ∨ w = "infinity".toList then some (.inf (sign.getD false))
  else if sign = none ∧ w = "nan".toList then some .nan
  else none

/-- The loop of `underscoreOK` of `strconv`: `saw` is the kind of the last character, `0`
for a digit (or the base prefix), `_` for an underscore, `!` for anything else. -/
def underscoreLoop (hex : Bool) : Char → Str → Bool
  | saw, [] => saw != '_'
  | saw, c :: r =>
    if isDigit c || (hex && isHexDigit c) then underscoreLoop hex '0' r
    else if c == '_' then
      if saw != '0' then false else underscoreLoop hex '_' r
    else if saw == '_' then false
    else underscoreLoop hex '!' r

/-- Function `underscoreOK` of `strconv`: every underscore of the text stands between two
digits, or between a base prefix and a digit. -/
def underscoreOK (s : Str) : Bool :=
  let s1 :=
    match s with
    | '+' :: r => r
    | '-' :: r => r
    | r => r
  match s1 with
  | '0' :: x :: r =>
    if x == 'b' || x == 'B' || x == 'o' || x == 'O' || x == 'x' || x == 'X' then
      underscoreLoop (x == 'x' || x == 'X') '0' r
    else underscoreLoop false '^' s1
  | _ => underscoreLoop false '^' s1

/-- A signed literal without underscores: the nearest `float64` to the number written,
or a range error when that is an infinity. -/
def parseFloatCore (s : Str) : Except NumError F64 :=
  let (neg, body) :=
    match s with
    | '+' :: r => (false, r)
    | '-' :: r => (true, r)
    | r => (false, r)
  match parseUnsigned body with
  | none => .error .badSyntax
  | some q =>
    match roundF64 (if neg then -q else q) with
    | .fin v => .ok (.fin v)
    | _ => .error .outOfRange

/-- Go `strconv.ParseFloat(s, 64)`, a function of the Go library, embedded from its
documented syntax: the special values `inf`, `infinity` and `nan`; decimal literals
`[+-]digits[.digits][e[+-]digits]` and hexadecimal ones
`[+-]0xhexdigits[.hexdigits]p[+-]digits`, whose digits may be separated by underscores
where `underscoreOK` allows it (the reading loops skip the underscores).  The result is
the nearest `float64` to the number written, or a range error when that is an
infinity; the sign of a zero is not represented. -/
def parseFloat (s : Str) : Except NumError F64 :=
  match special s with
  | some f => .ok f
  | none =>
    if s.contains '_' then
      if underscoreOK s then parseFloatCore (s.filter (fun c => c != '_'))
      else .error .badSyntax
    else parseFloatCore s

/-! ## parseBRLNumber and mathRound -/

/-- Worker of `replaceAll`: the number of characters of a match still to skip. -/
def replaceAllAux (old new : Str) : Nat → Str → Str
  | _, [] => []
  | skip + 1, _ :: cs => replaceAllAux old new skip cs
  | 0, c :: cs =>
    if old.isPrefixOf (c :: cs) then new ++ replaceAllAux old new (old.length - 1) cs
    else c :: replaceAllAux old new 0 cs

/-- Go `strings.ReplaceAll(s, old, new)` for a non-empty `old`. -/
def replaceAll (s old new : Str) : Str := replaceAllAux old new 0 s

/-- Go `strings.TrimPrefix`. -/
def trimPrefixStr (s p : Str) : Str := if hasPrefixStr s p then s.drop p.length else s

/-- Go `strings.TrimSuffix`. -/
def trimSuffixStr (s p : Str) : Str :=
  if hasSuffixStr s p then s.take (s.length - p.length) else s

/-- Go `strings.LastIndex(s, c)` for a one-character `c`, counted in code points (the
source only compares two such indices). -/
def lastIndex (s : Str) (c : Char) : ℤ :=
  if s.contains c then (s.length : ℤ) - 1 - (s.reverse.indexOf c : ℤ) else -1

/-- The loop `pow := 1.0; for i := 0; i < precision; i++ { pow *= 10 }` of `mathRound`. -/
def powLoop (precision : Nat) : F64 :=
  (List.range precision).foldl (fun p _ => p.mul (.fin 10)) (.fin 1)

/-- The `float64` that `mathRound` converts to `int64`: `val*pow + 0.5` for `val >= 0`,
`val*pow - 0.5` otherwise. -/
def mathRoundArg (val : F64) (precision : Nat) : F64 :=
  if val.ge (.fin 0) then (val.mul (powLoop precision)).add (.fin (1 / 2))
  else (val.mul (powLoop precision)).sub (.fin (1 / 2))

/-- Source `mathRound` (service.go 173-182). -/
def mathRound (ovf : ConvOverflow) (val : F64) (precision : Nat) : F64 :=
  (ofInt64 (toInt64 ovf (mathRoundArg val precision))).div (powLoop precision)

/-- The value is finite and its truncation lies strictly inside the `int64` range, so
that the conversion of the value and of its negation are both exact. -/
def inInt64 : F64 → Bool
  | .fin q => decide (-2 ^ 63 < truncQ q) && decide (truncQ q < 2 ^ 63)
  | _ => false

/-- Source `parseBRLNumber`, lines 131-157: the rightmost separator becomes the decimal
point, then everything but digits and points is dropped. -/
def brlSeparators (s : Str) : Str :=
  let lastDot := lastIndex s '.'
  let lastComma := lastIndex s ','
  let s :=
    if lastComma > lastDot then
      replaceAll (replaceAll s ".".toList []) ",".toList ".".toList
    else if lastDot > lastComma then
      if s.count '.' > 1 then
        let parts := s.splitOn '.'
        let decimalPart := parts.getLast?.getD []
        let intPart := parts.dropLast.flatten
        intPart ++ ".".toList ++ decimalPart
      else s
    else
      replaceAll (replaceAll s ".".toList []) ",".toList ".".toList
  s.filter (fun r => isDigit r || r == '.')

/-- Source `parseBRLNumber`, lines 108-160: the text handed to `strconv.ParseFloat` and
the sign flag `neg`; `none` on the three paths that return `0.0, nil` before the
conversion. -/
def brlScan (val : Str) : Option (Bool × Str) :=
  let s := trimSpace val
  if s == [] then none
  else
    let s := replaceAll s "R$".toList []
    let s := replaceAll s " ".toList []
    let s := replaceAll s [Char.ofNat 0xA0] []
    let s := trimSpace s
    if s == [] then none
    else
      -- signs and parentheses
      let paren := hasPrefixStr s "(".toList && hasSuffixStr s ")".toList
      let s := if paren then trimPrefixStr (trimSuffixStr s ")".toList) "(".toList else s
      let minus := hasPrefixStr s "-".toList
      let s := if minus then trimPrefixStr s "-".toList else s
      let neg := paren || minus
      let filtered := brlSeparators s
      if filtered == [] then none else some (neg, filtered)

/-- Source `parseBRLNumber` (service.go 107-171): `brlScan`, then lines 162-170. -/
def parseBRLNumber (ovf : ConvOverflow) (val : Str) : Except NumError F64 :=
  match brlScan val with
  | none => .ok (.fin 0)
  | some (neg, filtered) =>
    match parseFloat filtered with
    | .error e => .error e
    | .ok f =>
      let f := if neg then f.neg else f
      .ok (mathRound ovf f 2)

/-! ## Dates (package `time`)

A `time.Time` in UTC is embedded as the number of nanoseconds since 1970-01-01T00:00:00Z;
the calendar is the proleptic Gregorian one that package `time` uses. -/

/-- Leap years of the Gregorian calendar. -/
def isLeap (y : ℤ) : Bool := y % 4 == 0 && (y % 100 != 0 || y % 400 == 0)

/-- Number of days of month `m` in year `y` (`daysIn` of package `time`). -/
def daysIn (m : ℤ) (y : ℤ) : ℤ :=
  if m == 2 then (if isLeap y then 29 else 28)
  else if m == 4 || m == 6 || m == 9 || m == 11 then 30 else 31

/-- A calendar date. -/
structure Date where
  year : ℤ
  month : ℤ
  day : ℤ
deriving DecidableEq, Repr

/-- Number of days from 1970-01-01 to the given date. -/
def daysFromCivil (d : Date) : ℤ :=
  let y := if d.month ≤ 2 then d.year - 1 else d.year
  let era := y / 400
  let yoe := y - era * 400
  let mp := if d.month > 2 then d.month - 3 else d.month + 9
  let doy := (153 * mp + 2) / 5 + d.day - 1
  let doe := yoe * 365 + yoe / 4 - yoe / 100 + doy
  era * 146097 + doe - 719468

/-- The date that lies `z0` days after 1970-01-01. -/
def civilFromDays (z0 : ℤ) : Date :=
  let z := z0 + 719468
  let era := z / 146097
  let doe := z - era * 146097
  let yoe := (doe - doe / 1460 + doe / 36524 - doe / 146096) / 365
  let y := yoe + era * 400
  let doy := doe - (365 * yoe + yoe / 4 - yoe / 100)
  let mp := (5 * doy + 2) / 153
  let d := doy - (153 * mp + 2) / 5 + 1
  let m := if mp < 10 then mp + 3 else mp - 9
  ⟨if m ≤ 2 then y + 1 else y, m, d⟩

/-- Nanoseconds of a day. -/
def nsPerDay : ℤ := 86400000000000

/-- Go `time.Date(y, m, d, 0, 0, 0, 0, time.UTC)`, in nanoseconds since 1970. -/
def timeOfDate (d : Date) : ℤ := daysFromCivil d * nsPerDay

/-- The calendar date of a `time.Time` in UTC. -/
def dateOfTime (t : ℤ) : Date := civilFromDays (t / nsPerDay)

/-- Character of a decimal digit. -/
def digitChar (d : Nat) : Char := Char.ofNat (48 + d)

/-- The decimal digits of `n`, least significant first; the first argument is fuel. -/
def digitsLE : Nat → Nat → List Nat
  | 0, _ => []
  | fuel + 1, n => if n = 0 then [] else (n % 10) :: digitsLE fuel (n / 10)

/-- The decimal digits of `n`, most significant first, padded with zeros to `width`. -/
def padDigits (width : Nat) (n : Nat) : Str :=
  let ds := ((digitsLE n n).reverse).map digitChar
  List.replicate (width - ds.length) '0' ++ ds

/-- The helper `appendInt(b, x, width)` of package `time`. -/
def appendInt (x : ℤ) (width : Nat) : Str :=
  if x < 0 then '-' :: padDigits width (-x).toNat else padDigits width x.toNat

/-- Go `t.Format("02/01/2006")` of a date. -/
def formatDMY (d : Date) : Str :=
  appendInt d.day 2 ++ '/' :: appendInt d.month 2 ++ '/' :: appendInt d.year 4

/-- The validation at the end of `time.Parse`: month 1 to 12, day 1 to the length of the
month. -/
def validDate (d : Date) : Bool :=
  decide (1 ≤ d.month) && decide (d.month ≤ 12) && decide (1 ≤ d.day) &&
    decide (d.day ≤ daysIn d.month d.year)

/-- Go `time.Parse("02/01/2006", s)`: two digits, a slash, two digits, a slash, four
digits and nothing else, denoting a valid date. -/
def parseDMY (s : Str) : Option Date :=
  match s with
  | [d1, d2, s1, m1, m2, s2, y1, y2, y3, y4] =>
    if s1 == '/' && s2 == '/' && [d1, d2, m1, m2, y1, y2, y3, y4].all isDigit then
      let d : Date := ⟨decimalValue [y1, y2, y3, y4], decimalValue [m1, m2],
        decimalValue [d1, d2]⟩
      if validDate d then some d else none
    else none
  | _ => none

/-- Go `time.Parse("2006-01-02", s)`. -/
def parseYMD (s : Str) : Option Date :=
  match s with
  | [y1, y2, y3, y4, s1, m1, m2, s2, d1, d2] =>
    if s1 == '-' && s2 == '-' && [d1, d2, m1, m2, y1, y2, y3, y4].all isDigit then
      let d : Date := ⟨decimalValue [y1, y2, y3, y4], decimalValue [m1, m2],
        decimalValue [d1, d2]⟩
      if validDate d then some d else none
    else none
  | _ => none

/-- Source `excelSerialToDate` (service.go 1086-1093); `time.Hour` is 3600000000000
nanoseconds, a `time.Duration` is an `int64`. -/
def excelSerialToDate (ovf : ConvOverflow) (serial : F64) : ℤ :=
  let base := timeOfDate ⟨1899, 12, 30⟩
  let frac := serial.sub (ofInt64 (toInt64 ovf serial))
  let duration := wrap64 (wrap64 (toInt64 ovf serial * 24) * 3600000000000)
  let duration := wrap64 (duration +
    toInt64 ovf ((frac.mul (.fin 24)).mul (ofInt64 3600000000000)))
  base + duration

/-- The test `f > 35000 && f < 47000` on the result of `strconv.ParseFloat`. -/
def serialInRange (f : F64) : Bool := f.gt (.fin 35000) && f.lt (.fin 47000)

/-- Source `parseDateDayFirst` (service.go 1681-1700).  The slice `s[:10]` is taken in
bytes by the source; it can only parse when its ten bytes are ASCII, in which case it is
the first ten code points. -/
def parseDateDayFirst (ovf : ConvOverflow) (s : Str) : Option Str :=
  let s := trimSpace s
  if s == [] then none
  else
    match parseDMY s with
    | some t => some (formatDMY t)
    | none =>
      match (if byteLen s ≥ 10 then parseYMD (s.take 10) else none) with
      | some t => some (formatDMY t)
      | none =>
        match parseFloat s with
        | .ok f =>
          if serialInRange f then some (formatDMY (dateOfTime (excelSerialToDate ovf f)))
          else none
        | .error _ => none

/-- Word characters of RE2 (`\w`), which decide the word boundary `\b`. -/
def isWordChar (c : Char) : Bool :=
  let n := c.toNat
  (48 ≤ n && n ≤ 57) || (65 ≤ n && n ≤ 90) || (97 ≤ n && n ≤ 122) || n == 95

/-- The text ends or goes on with a character that is not a word character (the closing
`\b` after a digit). -/
def boundaryAfter (rest : Str) : Bool :=
  match rest with
  | [] => true
  | c :: _ => !isWordChar c

/-- Match of `\d{2}/\d{2}/\d{4}\b` at the head of the text. -/
def matchDMYAt (s : Str) : Option Str :=
  match s with
  | d1 :: d2 :: s1 :: m1 :: m2 :: s2 :: y1 :: y2 :: y3 :: y4 :: rest =>
    if s1 == '/' && s2 == '/' && [d1, d2, m1, m2, y1, y2, y3, y4].all isDigit &&
        boundaryAfter rest then
      some [d1, d2, s1, m1, m2, s2, y1, y2, y3, y4]
    else none
  | _ => none

/-- Match of `\d{4}-\d{2}-\d{2}\b` at the head of the text. -/
def matchYMDAt (s : Str) : Option Str :=
  match s with
  | y1 :: y2 :: y3 :: y4 :: s1 :: m1 :: m2 :: s2 :: d1 :: d2 :: rest =>
    if s1 == '-' && s2 == '-' && [d1, d2, m1, m2, y1, y2, y3, y4].all isDigit &&
        boundaryAfter rest then
      some [y1, y2, y3, y4, s1, m1, m2, s2, d1, d2]
    else none
  | _ => none

/-- Go `FindString` for a pattern `\b...` that starts with a digit: the match at the
leftmost position that is preceded by no word character; `prevWord` tells whether the
character before the current position is a word character. -/
def findFrom (matchAt : Str → Option Str) : Bool → Str → Option Str
  | _, [] => none
  | prevWord, c :: cs =>
    match (if prevWord then none else matchAt (c :: cs)) with
    | some m => some m
    | none => findFrom matchAt (isWordChar c) cs

/-- Source `findDateInRow` (service.go 1059-1084). -/
def findDateInRow (ovf : ConvOverflow) : List Str → Option Str
  | [] => none
  | c :: row =>
    let clean := trimSpace c
    if clean == [] then findDateInRow ovf row
    else
      match findFrom matchDMYAt false clean with
      | some m => some m
      | none =>
        match (findFrom matchYMDAt false clean).bind parseYMD with
        | some t => some (formatDMY t)
        | none =>
          match parseFloat clean with
          | .ok f =>
            if serialInRange f then some (formatDMY (dateOfTime (excelSerialToDate ovf f)))
            else findDateInRow ovf row
          | .error _ => findDateInRow ovf row

/-- The decimal text of a natural number. -/
def decimalText (n : Nat) : Str := padDigits 1 n

/-- Characters that the first lines of `parseBRLNumber` neither trim nor delete. -/
def keptChar (c : Char) : Prop :=
  isSpace c = false ∧ c ≠ 'R' ∧ c ≠ ' ' ∧ c ≠ Char.ofNat 0xA0

/-- A decimal digit or one of the separators `,` and `.`. -/
def isNumChar (c : Char) : Bool := isDigit c || c == ',' || c == '.'

/-- The number written by the plain decimal text `ip.fp` (integer digits `ip`, fraction
digits `fp`). -/
def plainValue (ip fp : Str) : ℚ := (decimalValue ip : ℚ) + (decimalValue fp : ℚ) / 10 ^ fp.length

/-! ## The chart loaders

Decoding the file (ISO-8859-1, then `encoding/csv` with `;` as separator) is done by
library code; the loaders are embedded from the outcome of `reader.ReadAll()` on, which
is either an error or the list of records. -/

/-- The loop variables of the two loaders: the map from key to entries (`byDesc`,
`contasMap`), the slice `order` and the set `seen`. -/
structure IndexState (α : Type) where
  byKey : Str → Option (List α)
  order : List Str
  seen : Str → Option Bool

/-- The statements that store an entry, the same in both loaders (service.go 923-931
and 1559-1567): `m[key] = append(m[key], e)`, then
`if !seen[key] { seen[key] = true; order = append(order, key) }`. -/
def storeEntry {α : Type} (st : IndexState α) (key : Str) (e : α) : IndexState α :=
  let byKey := mapSet st.byKey key (mapGet st.byKey key ++ [e])
  if !((st.seen key).getD false) then
    ⟨byKey, st.order ++ [key], mapSet st.seen key true⟩
  else ⟨byKey, st.order, st.seen⟩

/-- The record loop of the two loaders (service.go 894-932 and 1542-1568), which differ
in their guards only: `accept rec` is the key and the entry stored for the record,
`none` when the body takes a `continue`. -/
def buildIndex {α : Type} (accept : List Str → Option (Str × α))
    (records : List (List Str)) : IndexState α :=
  records.foldl
    (fun st rec =>
      match accept rec with
      | none => st
      | some (key, e) => storeEntry st key e)
    ⟨fun _ => none, [], fun _ => none⟩

/-- Go `rec[i]` for an index below `len(rec)`. -/
def field (rec : List Str) (i : Nat) : Str := rec.getD i []

/-- The guards of the loop body of `lerPlanoContasAtolini` (service.go 895-922): the key
and the entry that the body stores for the record, `none` when a `continue` is taken.
`numericID s` stands for `strconv.ParseFloat(s, 64)` returning no error. -/
def accOfRecord (u : UnicodeTables) (numericID : Str → Bool) (rec : List Str) :
    Option (Str × accEntry) :=
  if rec.length < 3 then none
  else
    let rawID := trimSpace (field rec 0)
    let classif := trimSpace (field rec 1)
    let desc := trimSpace (field rec 2)
    if desc == [] || rawID == [] then none
    else
      let idForParse := replaceAll rawID ".".toList []
      let idForParse := replaceAll idForParse ",".toList ".".toList
      if idForParse == [] then none
      else if !numericID idForParse then none
      else
        let id := trimSuffixStr rawID ".0".toList
        let key := normalizeText u desc
        if key == [] then none
        else some (key, ⟨id, classif, desc⟩)

/-- Source `lerPlanoContasAtolini` (service.go 878-944), from the outcome `readAll` of
`reader.ReadAll()`: the map and the key order.  The final loop sorts every list of the
map with `sort.SliceStable`, longest classification first. -/
def lerPlanoContasAtolini {ε : Type} (u : UnicodeTables) (numericID : Str → Bool)
    (readAll : Except ε (List (List Str))) : Except ε (AccMap × List Str) :=
  match readAll with
  | .error err => .error err
  | .ok records =>
    let st := buildIndex (accOfRecord u numericID) records
    let less := fun (a b : accEntry) => decide (byteLen a.Classif > byteLen b.Classif)
    .ok (fun k => (st.byKey k).map (sortSliceStable less), st.order)

/-- The guards of the loop body of `lerContasRecebimentos` (service.go 1543-1558): the
key and the entry stored for the record, `none` when a `continue` is taken. -/
def contaOfRecord (u : UnicodeTables) (rec : List Str) : Option (Str × ContaEntry) :=
  if rec.length < 3 then none
  else
    let code := trimSpace (field rec 0)
    let classif := trimSpace (field rec 1)
    let desc := trimSpace (field rec 2)
    if code == [] || desc == [] then none
    else
      let descNorm := normalizeText u desc
      if descNorm == [] then none
      else some (descNorm, ⟨code, classif, desc⟩)

/-- Source `lerContasRecebimentos` (service.go 1526-1571), from the outcome `readAll` of
`reader.ReadAll()`: the key order and the map.  No list is sorted here. -/
def lerContasRecebimentos {ε : Type} (u : UnicodeTables)
    (readAll : Except ε (List (List Str))) : Except ε (List Str × ContaMap) :=
  match readAll with
  | .error err => .error err
  | .ok records =>
    let st := buildIndex (contaOfRecord u) records
    .ok (st.order, st.byKey)

/-- The test `strconv.ParseFloat(s, 64)` returns no error (service.go 912), on the
embedding `parseFloat`. -/
def decimalID (s : Str) : Bool :=
  match parseFloat s with
  | .ok _ => true
  | .error _ => false

/-- The entries stored under the key `k` among the accepted pairs of key and entry, in
file order. -/
def entriesUnder {α : Type} (accepted : List (Str × α)) (k : Str) : List α :=
  (accepted.filter (fun p => decide (p.1 = k))).map Prod.snd

/-- What the record loop maintains, for the pairs `accepted` stored so far: every key
maps to its entries in file order, `order` lists the keys once each in the order of
their first appearance, and `seen` is the set of the keys of `order`. -/
def IndexInv {α : Type} (st : IndexState α) (accepted : List (Str × α)) : Prop :=
  (∀ k, st.byKey k =
    if k ∈ accepted.map Prod.fst then some (entriesUnder accepted k) else none) ∧
  st.order.Nodup ∧
  (∀ k, k ∈ st.order ↔ k ∈ accepted.map Prod.fst) ∧
  (∀ k, (st.seen k).getD false = true ↔ k ∈ st.order) ∧
  st.order.Pairwise (fun a b =>
    (accepted.map Prod.fst).findIdx (fun x => decide (x = a)) <
      (accepted.map Prod.fst).findIdx (fun x => decide (x = b)))

/-- The records of a small chart file: two accounts with the description "Caixa", the
shorter classification first, one record with an empty classification, and three rows
that the loaders skip. -/
def demoRecords : List (List Str) :=
  [["1".toList, "1.1".toList, "Caixa".toList],
   ["2".toList, "1.1.01".toList, " CAIXA ".toList, "x".toList],
   ["3".toList, [], "Banco".toList],
   ["4".toList, "2".toList],
   [[], "2".toList, "Sem codigo".toList],
   ["5".toList, "2".toList, "---".toList]]

/-! ## The Pagamentos scan

The rows are those that `loadGenericExcel` decoded from the workbook.  The closures
`trimmedCell`, `lowerCell` and `upperCell` of the source keep per-row caches that are
invalidated by `advanceRow` at every row, and every call passes the current row, so
they are embedded as the functions that they cache. -/

/-- Go `strings.Contains`. -/
def containsStr (s sub : Str) : Bool := s.tails.any (fun t => sub.isPrefixOf t)

/-- Go `strings.Join`. -/
def joinStr (parts : List Str) (sep : Str) : Str := sep.intercalate parts

/-- Go `strings.Replace(s, old, new, 1)` for a non-empty `old`. -/
def replaceFirst (old new : Str) : Str → Str
  | [] => []
  | c :: cs =>
    if old.isPrefixOf (c :: cs) then new ++ (c :: cs).drop old.length
    else c :: replaceFirst old new cs

/-- Lower-case mapping of `unicode.ToLower` on ASCII and the Latin-1 block, for concrete
instances. -/
def latin1ToLower (c : Char) : Char :=
  let n := c.toNat
  if 65 ≤ n && n ≤ 90 then Char.ofNat (n + 32)
  else if 0xC0 ≤ n && n ≤ 0xDE && n != 0xD7 then Char.ofNat (n + 32)
  else c

/-- Source `sanitizeForCSV` (service.go 60-104): the two loops trim the white space of
`unicode.IsSpace` at both ends, the third drops CR, LF and TAB and writes a space for
every other code point below 32. -/
def sanitizeForCSV (s : Str) : Str :=
  if s == [] then []
  else
    let body := trimSpace s
    if body == [] then []
    else
      body.filterMap (fun r =>
        if r == '\r' || r == '\n' || r == '\t' then none
        else if r.toNat < 32 then some ' '
        else some r)

/-- Go `fmt.Sprintf("%.2f", val)`: the exact value rounded to two decimals, ties to
even, with a minus sign for negative values; the embedded values are never a negative
zero. -/
def formatFixed2 : F64 → Str
  | .nan => "NaN".toList
  | .inf false => "+Inf".toList
  | .inf true => "-Inf".toList
  | .fin q =>
    let n := (roundNearestEven (|q| * 100)).toNat
    (if q < 0 then ['-'] else []) ++ decimalText (n / 100) ++ '.' :: padDigits 2 (n % 100)

/-- Source `formatTwoDecimalsComma` (service.go 184-186). -/
def formatTwoDecimalsComma (val : F64) : Str :=
  replaceFirst ".".toList ",".toList (formatFixed2 val)

/-- Source `AtoliniPagamentosOutputRow` (domain/models.go). -/
structure AtoliniPagamentosOutputRow where
  Data : Str
  Debito : Str
  DescricaoConta : Str
  Credito : Str
  DescricaoCredito : Str
  Valor : Str
  Historico : Str
  ValorOriginal : Str
  ValorPago : Str
  ValorJuros : Str
  ValorMulta : Str
  ValorDesconto : Str
  ValorDespesas : Str
  VarCam : Str
  ValorLiqPagoBanco : Str
deriving DecidableEq, Repr

/-- Closure `buildCacheKey` (service.go 1193-1203, 1923-1933). -/
def buildCacheKey (upperDesc suffix : Str) : Str :=
  if suffix == [] then upperDesc else upperDesc ++ '|' :: suffix

/-- Closure `trimmedCell` (service.go 1233-1242): the trimmed cell, the empty string
outside the row. -/
def trimmedCell (row : List Str) (idx : ℤ) : Str :=
  if idx < 0 ∨ idx ≥ row.length then [] else trimSpace (row.getD idx.toNat [])

/-- Closure `lowerCell` (service.go 1244-1253); `lower` is `unicode.ToLower`, which
`strings.ToLower` applies to every code point. -/
def lowerCell (lower : Char → Char) (row : List Str) (idx : ℤ) : Str :=
  if idx < 0 ∨ idx ≥ row.length then [] else (trimmedCell row idx).map lower

/-- Closure `upperCell` (service.go 1255-1264). -/
def upperCell (u : UnicodeTables) (row : List Str) (idx : ℤ) : Str :=
  if idx < 0 ∨ idx ≥ row.length then [] else (trimmedCell row idx).map u.toUpper

/-- Closure `rowHasPrefixN` (service.go 1266-1279). -/
def rowHasPrefixN (lower : Char → Char) (row : List Str) (n : Nat) (prefixes : List Str) :
    Bool :=
  let n := if n > row.length then row.length else n
  (List.range n).any (fun i =>
    prefixes.any (fun p => hasPrefixStr (lowerCell lower row i) p))

/-- Closure `updateBlockDateIfHeader` (service.go 1282-1310): the new block date when
the row is a date header from which a date can be read, `none` when the closure
returns false and leaves the block date alone. -/
def updateBlockDateIfHeader (ovf : ConvOverflow) (lower : Char → Char) (row : List Str) :
    Option Str :=
  let maxScan := if 6 > row.length then row.length else 6
  match (List.range maxScan).find?
      (fun i => containsStr (lowerCell lower row i) "data de pag".toList) with
  | none => none
  | some labelCol =>
    match [(9 : ℤ), labelCol + 1, labelCol + 2].findSome?
        (fun ci => parseDateDayFirst ovf (trimmedCell row ci)) with
    | some d => some d
    | none => findDateInRow ovf row

/-- The array `bankHints` of `ProcessAtoliniPagamentos` (service.go 1312). -/
def bankHintsPagamentos : List Str :=
  ["SICRED".toList, "BANCO".toList, "BRADESCO".toList, "ITAU".toList, "SANTAND".toList,
   "CAIXA".toList, "BB".toList, "CAIXA GERAL".toList, "REBATE".toList, "BAIXA DEVOL".toList]

/-- Closure `isBankishUpper` (service.go 1314-1324). -/
def isBankishUpper (upper : Str) : Bool :=
  if upper == [] then false else bankHintsPagamentos.any (fun h => containsStr upper h)

/-- Closure `pickValor` (service.go 1326-1340), over `valueColumns`. -/
def pickValor (ovf : ConvOverflow) (row : List Str) : Option F64 :=
  [(8 : ℤ), 10, 11, 12, 9].findSome? (fun ci =>
    let v := trimmedCell row ci
    if v == [] || v == "0,00".toList then none
    else
      match parseBRLNumber ovf v with
      | .ok parsed => some parsed
      | .error _ => none)

/-- Closure `formatMoney` (service.go 1342-1351). -/
def formatMoney (ovf : ConvOverflow) (row : List Str) (idx : ℤ) : Str :=
  let raw := trimmedCell row idx
  if raw == [] then []
  else
    match parseBRLNumber ovf raw with
    | .ok parsed => formatTwoDecimalsComma parsed
    | .error _ => raw

/-- Closure `pickBanco` (service.go 1353-1363). -/
def pickBanco (u : UnicodeTables) (row : List Str) : Str × Str :=
  if isBankishUpper (upperCell u row 19) then (trimmedCell row 19, upperCell u row 19)
  else
    match [(18 : ℤ), 20, 21].find? (fun c => isBankishUpper (upperCell u row c)) with
    | some c => (trimmedCell row c, upperCell u row c)
    | none => ([], [])

/-- Closure `extractDoc` (service.go 1365-1383): the first trimmed cell with three
digits or more. -/
def extractDoc (row : List Str) : Str :=
  ((List.range row.length).findSome? (fun i =>
    let c := trimmedCell row i
    if byteLen c < 3 then none
    else if (c.filter isDigit).length ≥ 3 then some c
    else none)).getD []

/-- The variables of the loop of `ProcessAtoliniPagamentos`: the block date, the
`Histórico` flag, the two caches, the chart map (which `buscarContaAtolini` may reorder)
and the output rows. -/
structure PagState where
  blockDate : Str
  blockDateSanitized : Str
  inHistorico : Bool
  debCache : Str → Option Str
  credCache : Str → Option Str
  contasMap : AccMap
  out : List AtoliniPagamentosOutputRow

/-- The memo text of an output row (service.go 1414-1423). -/
def pagHistorico (row : List Str) (descDeb : Str) : Str :=
  let dcol := trimmedCell row 3
  if dcol != [] then
    if descDeb != [] then descDeb ++ " NF ".toList ++ dcol else " NF ".toList ++ dcol
  else
    let doc := extractDoc row
    if doc != [] && descDeb != [] then descDeb ++ " NF ".toList ++ doc else descDeb

/-- The output row appended at the end of the loop body (service.go 1451-1467). -/
def pagOutputRow (ovf : ConvOverflow) (row : List Str) (blockDateSanitized debID descDeb
    credID descCred : Str) (val : F64) (hist : Str) : AtoliniPagamentosOutputRow :=
  { Data := blockDateSanitized
    Debito := sanitizeForCSV debID
    DescricaoConta := sanitizeForCSV descDeb
    Credito := sanitizeForCSV credID
    DescricaoCredito := sanitizeForCSV descCred
    Valor := sanitizeForCSV (formatTwoDecimalsComma val)
    Historico := sanitizeForCSV hist
    ValorOriginal := sanitizeForCSV (formatMoney ovf row 7)
    ValorPago := sanitizeForCSV (formatMoney ovf row 8)
    ValorJuros := sanitizeForCSV (formatMoney ovf row 9)
    ValorMulta := sanitizeForCSV (formatMoney ovf row 11)
    ValorDesconto := sanitizeForCSV (formatMoney ovf row 12)
    ValorDespesas := sanitizeForCSV (formatMoney ovf row 13)
    VarCam := sanitizeForCSV (formatMoney ovf row 15)
    ValorLiqPagoBanco := sanitizeForCSV (formatMoney ovf row 17) }

/-- The cached resolution of a description (service.go 1431-1439 and 1441-1449): the
code, the cache and the chart map after it. -/
def resolveCached (u : UnicodeTables) (closest : Closest) (descricaoIndex : List Str)
    (prefixes : List Str) (desc upperDesc : Str) (cache : Str → Option Str)
    (contasMap : AccMap) : Str × (Str → Option Str) × AccMap :=
  if desc != [] then
    let key := buildCacheKey upperDesc (joinStr prefixes ",".toList)
    match cache key with
    | some id => (id, cache, contasMap)
    | none =>
      let r := buscarContaAtolini u closest desc contasMap descricaoIndex prefixes
      (r.1, mapSet cache key r.1, r.2)
  else ([], cache, contasMap)

/-- The loop body of `ProcessAtoliniPagamentos` (service.go 1386-1468). -/
def pagamentosStep (u : UnicodeTables) (lower : Char → Char) (ovf : ConvOverflow)
    (closest : Closest) (descricaoIndex debitPrefixes creditPrefixes : List Str)
    (st : PagState) (row : List Str) : PagState :=
  match updateBlockDateIfHeader ovf lower row with
  | some d => { st with blockDate := d, blockDateSanitized := sanitizeForCSV d }
  | none =>
    if rowHasPrefixN lower row 3 ["histórico".toList, "historico".toList] then
      { st with inHistorico := true }
    else if rowHasPrefixN lower row 3 ["total do histórico".toList,
        "total do historico".toList, "total da data".toList] then
      { st with inHistorico := false }
    else if !st.inHistorico || st.blockDate == [] then st
    else
      match pickValor ovf row with
      | none => st
      | some val =>
        let descDeb := trimmedCell row 1
        let hist := pagHistorico row descDeb
        let banco := pickBanco u row
        let deb := resolveCached u closest descricaoIndex debitPrefixes descDeb
          (upperCell u row 1) st.debCache st.contasMap
        let cred := resolveCached u closest descricaoIndex creditPrefixes banco.1 banco.2
          st.credCache deb.2.2
        { st with
          debCache := deb.2.1
          credCache := cred.2.1
          contasMap := cred.2.2
          out := st.out ++ [pagOutputRow ovf row st.blockDateSanitized deb.1 descDeb cred.1
            banco.1 val hist] }

/-- The loop of `ProcessAtoliniPagamentos` (service.go 1176-1468) over the decoded rows,
from the chart that `lerPlanoContasAtolini` returned. -/
def scanPagamentos (u : UnicodeTables) (lower : Char → Char) (ovf : ConvOverflow)
    (closest : Closest) (contasMap : AccMap) (descricaoIndex debitPrefixes
    creditPrefixes : List Str) (rows : List (List Str)) : PagState :=
  rows.foldl (pagamentosStep u lower ovf closest descricaoIndex debitPrefixes creditPrefixes)
    ⟨[], [], false, fun _ => none, fun _ => none, contasMap, []⟩

/-- The resolution of a description by a direct call of the matcher, with no cache. -/
def resolveDirect (u : UnicodeTables) (closest : Closest) (descricaoIndex : List Str)
    (prefixes : List Str) (desc : Str) (contasMap : AccMap) : Str × AccMap :=
  if desc != [] then buscarContaAtolini u closest desc contasMap descricaoIndex prefixes
  else ([], contasMap)

/-- The loop body of `ProcessAtoliniPagamentos` with every resolution replaced by a
direct call of `buscarContaAtolini`; the caches stay empty. -/
def pagamentosStepDirect (u : UnicodeTables) (lower : Char → Char) (ovf : ConvOverflow)
    (closest : Closest) (descricaoIndex debitPrefixes creditPrefixes : List Str)
    (st : PagState) (row : List Str) : PagState :=
  match updateBlockDateIfHeader ovf lower row with
  | some d => { st with blockDate := d, blockDateSanitized := sanitizeForCSV d }
  | none =>
    if rowHasPrefixN lower row 3 ["histórico".toList, "historico".toList] then
      { st with inHistorico := true }
    else if rowHasPrefixN lower row 3 ["total do histórico".toList,
        "total do historico".toList, "total da data".toList] then
      { st with inHistorico := false }
    else if !st.inHistorico || st.blockDate == [] then st
    else
      match pickValor ovf row with
      | none => st
      | some val =>
        let descDeb := trimmedCell row 1
        let hist := pagHistorico row descDeb
        let banco := pickBanco u row
        let deb := resolveDirect u closest descricaoIndex debitPrefixes descDeb st.contasMap
        let cred := resolveDirect u closest descricaoIndex creditPrefixes banco.1 deb.2
        { st with
          contasMap := cred.2
          out := st.out ++ [pagOutputRow ovf row st.blockDateSanitized deb.1 descDeb cred.1
            banco.1 val hist] }

/-- The scan of Pagamentos with direct resolutions. -/
def scanPagamentosDirect (u : UnicodeTables) (lower : Char → Char) (ovf : ConvOverflow)
    (closest : Closest) (contasMap : AccMap) (descricaoIndex debitPrefixes
    creditPrefixes : List Str) (rows : List (List Str)) : PagState :=
  rows.foldl
    (pagamentosStepDirect u lower ovf closest descricaoIndex debitPrefixes creditPrefixes)
    ⟨[], [], false, fun _ => none, fun _ => none, contasMap, []⟩

/-- The records that `gerarCSVAtoliniPagamentos` (service.go 1473-1512) hands to the CSV
writer: the header, then one record per output row. -/
def gerarCSVAtoliniPagamentos (rows : List AtoliniPagamentosOutputRow) : List (List Str) :=
  (["Data".toList, "Débito".toList, "Descrição Débito".toList,
    "Crédito".toList, "Descrição Crédito".toList, "Valor".toList,
    "histórico".toList, "Valor Original".toList, "Valor Pago".toList,
    "Valor Juros".toList, "Valor Multa".toList, "Valor Desconto".toList,
    "Valor Despesas".toList, "Var Cam".toList, "Valor Liq Pago Banco".toList].map
      sanitizeForCSV) ::
  rows.map (fun row =>
    [row.Data, row.Debito, row.DescricaoConta, row.Credito, row.DescricaoCredito,
     row.Valor, row.Historico, row.ValorOriginal, row.ValorPago, row.ValorJuros,
     row.ValorMulta, row.ValorDesconto, row.ValorDespesas, row.VarCam,
     row.ValorLiqPagoBanco])

/-- Source `ProcessAtoliniPagamentos` (service.go 1169-1471), from the outcomes of
reading the two files: `contas` is the outcome of `reader.ReadAll()` on the chart file,
`workbook` that of `loadGenericExcel`; the result is the list of records written to the
CSV output. -/
def ProcessAtoliniPagamentos {ε : Type} (u : UnicodeTables) (lower : Char → Char)
    (ovf : ConvOverflow) (closest : Closest) (numericID : Str → Bool)
    (workbook contas : Except ε (List (List Str)))
    (debitPrefixes creditPrefixes : List Str) : Except ε (List (List Str)) :=
  match lerPlanoContasAtolini u numericID contas with
  | .error err => .error err
  | .ok (contasMap, descricaoIndex) =>
    match workbook with
    | .error err => .error err
    | .ok rows =>
      .ok (gerarCSVAtoliniPagamentos
        (scanPagamentos u lower ovf closest contasMap descricaoIndex debitPrefixes
          creditPrefixes rows).out)

/-- Unicode data for the Latin-1 block together with U+0345 (combining Greek
ypogegrammeni: category Mn, no decomposition, upper case U+0399) and U+03B9 (Greek small
letter iota: no decomposition, upper case U+0399), from the Unicode character database. -/
def greekIotaTables : UnicodeTables where
  nfd := latin1Tables.nfd
  isMn := fun c => latin1Tables.isMn c
  toUpper := fun c =>
    if c.toNat == 0x345 || c.toNat == 0x3B9 then Char.ofNat 0x399 else latin1ToUpper c

/-- A chart file with the accounts "AB" and "A B". -/
def iotaChart : List (List Str) :=
  [["1".toList, "1".toList, "AB".toList], ["2".toList, "2".toList, "A B".toList]]

/-- A Pagamentos sheet: a date header, the start of a `Histórico` block, and two
transaction lines whose descriptions are "A", U+0345, "B" and "A", U+03B9, "B". -/
def iotaRows : List (List Str) :=
  [["Data de pagamento: 10/05/2024".toList],
   ["Histórico:".toList],
   [[], "A\u0345B".toList, [], [], [], [], [], [], "10,00".toList],
   [[], "A\u03b9B".toList, [], [], [], [], [], [], "20,00".toList]]

/-- A Pagamentos sheet: the date header "Data de pagamento: 10/05/2024", a "Histórico:"
row, and a transaction line with the description "Caixa" in column B, the document
number in column D and the value in column I. -/
def demoPagRows : List (List Str) :=
  [["Data de pagamento: 10/05/2024".toList],
   ["Histórico:".toList],
   [[], "Caixa".toList, [], "123".toList, [], [], [], [], "150,00".toList]]

/-! ## The Recebimentos scan

The three regular expressions of the scan start with `^\s*\d+\s*-`, which has one way to
match: the classes of white space, digits and the hyphen are disjoint, so each run is
taken whole.  The lookbacks read the rows before the current one, so the loop body
takes the sheet and the index of the row. -/

/-- Source `AtoliniRecebimentosOutputRow` (domain/models.go). -/
structure AtoliniRecebimentosOutputRow where
  Data : Str
  DescricaoCredito : Str
  ContaCredito : Str
  DescricaoDebito : Str
  ContaDebito : Str
  Historico : Str
  ValorPrincipal : Str
  Juros : Str
  Desconto : Str
  DespBanco : Str
  DespCartorio : Str
  VlLiqPago : Str
deriving DecidableEq, Repr

/-- The text that follows the match of `^\s*\d+\s*-` at the start of `s`. -/
def afterNumHyphen (s : Str) : Option Str :=
  let s1 := dropClass isReSpace s
  let s2 := dropClass isDigit s1
  if s2.length == s1.length then none
  else
    match dropClass isReSpace s2 with
    | c :: s3 => if c == '-' then some s3 else none
    | [] => none

/-- Match of `\s+.+$` on the whole of `t`: some split of `t` has one white-space
character or more before a remainder that is not empty and holds no newline. -/
def matchSpacesText (t : Str) : Bool :=
  (List.range t.length).any (fun k =>
    decide (1 ≤ k) && (t.take k).all isReSpace && !(t.drop k).contains '\n')

/-- Source `isLancamento` (service.go 1752-1757), with `recebimentoLancamentoRegex`
`^\s*\d+\s*-\s+.+$`. -/
def isLancamento (cell : Str) : Bool :=
  if cell == [] then false
  else
    match afterNumHyphen cell with
    | some t => matchSpacesText t
    | none => false

/-- Source `extractAfterHyphen` (service.go 1705-1713), with `extractAfterHyphenRegex`
`^\s*\d+\s*-\s*(.*)$`. -/
def extractAfterHyphen (cell : Str) : Str :=
  if cell == [] then []
  else
    match (afterNumHyphen cell).bind (fun t => restOfLine (dropClass isReSpace t)) with
    | some m => trimSpace m
    | none => []

/-- Length of the match of `\s*.+` at the head of `t` (Go `FindString`, which prefers
the longer white-space run): the run gives characters back until one that is no newline
follows, and `.+` goes on to the end of the line. -/
def matchSpacesLine (t : Str) : Option Nat :=
  let run := (t.takeWhile isReSpace).length
  ((List.range (run + 1)).reverse.find? (fun k =>
    match t.drop k with
    | c :: _ => c != '\n'
    | [] => false)).map
    (fun k => k + ((t.drop k).takeWhile (fun c => c != '\n')).length)

/-- The result of `FindString` for `^\s*\d+\s*-\s*.+` (service.go 1885): the matched
text, the empty string when there is no match. -/
def findNumHyphenLine (c : Str) : Str :=
  match afterNumHyphen c with
  | some t =>
    match matchSpacesLine t with
    | some n => c.take (c.length - t.length + n)
    | none => []
  | none => []

/-- Source `isDataMarker` (service.go 1715-1720). -/
def isDataMarker (u : UnicodeTables) (cell : Str) : Bool :=
  if cell == [] then false
  else hasPrefixStr ((trimSpace cell).map u.toUpper) "DATA:".toList

/-- Source `isPortadorMarker` (service.go 1722-1731). -/
def isPortadorMarker (u : UnicodeTables) (cell : Str) : Bool :=
  if cell == [] then false
  else
    let up := (trimSpace cell).map u.toUpper
    containsStr up "PORTADOR".toList || containsStr up "PORTADOR DO PAGAMENTO".toList ||
      containsStr up "PORTADOR:".toList

/-- The index of the first cell that passes `p`, or -1 (the loops of
`findDataMarkerIndex`, `findPortadorIndex` and of `lancIdx`). -/
def firstIndex (p : Str → Bool) (row : List Str) : ℤ :=
  if row.any p then (row.findIdx p : ℤ) else -1

/-- Source `findDataMarkerIndex` (service.go 1734-1741). -/
def findDataMarkerIndex (u : UnicodeTables) (row : List Str) : ℤ :=
  firstIndex (isDataMarker u) row

/-- Source `findPortadorIndex` (service.go 1743-1750). -/
def findPortadorIndex (u : UnicodeTables) (row : List Str) : ℤ :=
  firstIndex (isPortadorMarker u) row

/-- Go `strings.TrimRight(s, ":")`. -/
def trimRightColon (s : Str) : Str := (s.reverse.dropWhile (fun c => c == ':')).reverse

/-- Source `cleanPortadorText` (service.go 1762-1783).  The cuts `s[len(marker):]` are at
byte offsets after a prefix whose upper case is the marker; only ASCII letters have the
letters of the markers as their upper case, so the offset counts code points. -/
def cleanPortadorText (u : UnicodeTables) (s : Str) : Str :=
  if s == [] then []
  else
    let s0 := trimRightColon (trimSpace s)
    let s1 :=
      if hasPrefixStr (s0.map u.toUpper) "PORTADOR DO PAGAMENTO".toList then
        trimSpace (s0.drop 21)
      else s0
    let s2 :=
      if hasPrefixStr (s1.map u.toUpper) "PORTADOR".toList then trimSpace (s1.drop 8)
      else s1
    trimSpace s2

/-- The text after the first colon of `s`, when the colon is not its last byte (the test
`idx != -1 && idx+1 < len(s)` and the slice `s[idx+1:]`). -/
def afterColon (s : Str) : Option Str :=
  match s.dropWhile (fun c => c != ':') with
  | _ :: rest => if rest == [] then none else some rest
  | [] => none

/-- The first occurrences of the elements of a list, in order. -/
def dedupFirst : List ℤ → List ℤ
  | [] => []
  | a :: l => a :: (dedupFirst l).filter (fun b => b != a)

/-- The indices that a loop with the guards `if idx < 0 || idx >= len(row) { continue }`
and `if seen[idx] { continue }; seen[idx] = true` goes on with, in order: those inside
the row, each at its first occurrence. -/
def visitOrder (row : List Str) (indices : List ℤ) : List ℤ :=
  dedupFirst (indices.filter (fun i => decide (0 ≤ i ∧ i < row.length)))

/-- Source `pickPortadorFromRow` (service.go 1807-1859). -/
def pickPortadorFromRow (u : UnicodeTables) (row : List Str) (markerIdx : ℤ) : Str :=
  let fromMarker : Option Str :=
    if 0 ≤ markerIdx ∧ markerIdx < row.length then
      let valMarker := trimSpace (row.getD markerIdx.toNat [])
      if valMarker != [] then
        match afterColon valMarker with
        | some rest =>
          let part := trimSpace rest
          if part != [] && !isPortadorMarker u part then
            let cleaned := cleanPortadorText u part
            if cleaned != [] then some cleaned else none
          else none
        | none => none
      else none
    else none
  match fromMarker with
  | some cleaned => cleaned
  | none =>
    let searchOrder := ([1, 2, -1, -2, 3, -3, 4, -4].map (fun delta => markerIdx + delta)) ++
      (List.range 13).map Int.ofNat
    ((visitOrder row searchOrder).findSome? (fun idx =>
      let val := trimSpace (row.getD idx.toNat [])
      if val == [] then none
      else if isPortadorMarker u val then none
      else
        let cleaned := cleanPortadorText u val
        if cleaned == [] then none else some cleaned)).getD []

/-- The number of cells of the row with a non-empty trimmed text (`nonEmpty`). -/
def countNonEmpty (row : List Str) : Nat := (row.filter (fun cc => trimSpace cc != [])).length

/-- The body of the loop of `findLastPortadorBefore` (service.go 1870-1898) for one
earlier row: the text it returns, or `none` when the loop goes on. -/
def portadorOfEarlierRow (u : UnicodeTables) (row : List Str) : Option Str :=
  let pIdx := findPortadorIndex u row
  let fromMarker : Option Str :=
    if pIdx != -1 then
      let val := pickPortadorFromRow u row pIdx
      if val != [] then some val
      else (((row.drop (pIdx.toNat + 1)).take 6).find? (fun c => c != [])).map
        (cleanPortadorText u)
    else none
  match fromMarker with
  | some val => some val
  | none =>
    match row.find? (fun c => findNumHyphenLine c != []) with
    | some c => if countNonEmpty row ≤ 6 then some (cleanPortadorText u (findNumHyphenLine c))
                else none
    | none => none

/-- Source `findLastPortadorBefore` (service.go 1863-1901): the rows `idx-1` down to
`max(idx-lookback, 0)`; `none` is the result `("", false)`. -/
def findLastPortadorBefore (u : UnicodeTables) (sheet : List (List Str)) (idx lookback : Nat) :
    Option Str :=
  ((sheet.take idx).reverse.take lookback).findSome? (portadorOfEarlierRow u)

/-- The labels that `findDateInPreviousRows` looks for (service.go 1114). -/
def dateLabelsPrevious : List Str :=
  ["data de pagamento".toList, "data do pagamento".toList, "data pagamento".toList,
   "data de receb".toList, "data do receb".toList, "data receb".toList, "dt receb".toList,
   "data baixa".toList]

/-- The body of the loop of `findDateInPreviousRows` (service.go 1102-1138) for one
earlier row. -/
def dateOfEarlierRow (ovf : ConvOverflow) (lower : Char → Char) (row : List Str) :
    Option Str :=
  let maxScan := if row.length > 6 then 6 else row.length
  match (List.range maxScan).findSome? (fun col =>
      let cell := trimSpace (row.getD col [])
      if cell == [] then none
      else if dateLabelsPrevious.any (fun k => containsStr (cell.map lower) k) then
        match (afterColon cell).bind (fun rest => parseDateDayFirst ovf (trimSpace rest)) with
        | some d => some d
        | none =>
          match [col + 1, col + 2, col + 3].findSome? (fun offset =>
              if offset ≥ row.length then none
              else parseDateDayFirst ovf (trimSpace (row.getD offset []))) with
          | some d => some d
          | none => findDateInRow ovf row
      else none) with
  | some d => some d
  | none => findDateInRow ovf row

/-- Source `findDateInPreviousRows` (service.go 1095-1141). -/
def findDateInPreviousRows (ovf : ConvOverflow) (lower : Char → Char)
    (sheet : List (List Str)) (idx lookback : Nat) : Option Str :=
  ((sheet.take idx).reverse.take lookback).findSome? (dateOfEarlierRow ovf lower)

/-- The struct `columnHints` of `ProcessAtoliniRecebimentos` (service.go 2017-2027): a
column index for each field, -1 while none is known. -/
structure columnHints where
  doc : ℤ
  historico : ℤ
  valorPrincipal : ℤ
  juros : ℤ
  desconto : ℤ
  despBanco : ℤ
  despCartorio : ℤ
  vlLiqPago : ℤ
  banco : ℤ
deriving DecidableEq, Repr

/-- The flags `docHit` ... `bancoHit` of `updateColumnHints` (service.go 2042-2052). -/
structure hintHits where
  docHit : Bool
  histHit : Bool
  principalHit : Bool
  jurosHit : Bool
  descHit : Bool
  despBcoHit : Bool
  despCartHit : Bool
  vlLiqHit : Bool
  bancoHit : Bool
deriving DecidableEq, Repr

/-- The keyword test of the document column (service.go 2060). -/
def kwDoc (upper : Str) : Bool :=
  containsStr upper "DOCUMENT".toList || hasPrefixStr upper "DOC".toList

/-- The keyword test of the memo column (service.go 2066). -/
def kwHist (upper : Str) : Bool := containsStr upper "HIST".toList

/-- The keyword test of the principal value (service.go 2072). -/
def kwPrincipal (upper : Str) : Bool :=
  containsStr upper "VALOR PRINC".toList || containsStr upper "VL PRINC".toList ||
    containsStr upper "VLR PRINC".toList

/-- The keyword test of the interest column (service.go 2078). -/
def kwJuros (upper : Str) : Bool := containsStr upper "JUROS".toList

/-- The keyword test of the discount column (service.go 2084). -/
def kwDesconto (upper : Str) : Bool :=
  containsStr upper "DESCONTO".toList || containsStr upper "DESC.".toList

/-- The keyword test of the bank expense column (service.go 2090). -/
def kwDespBanco (upper : Str) : Bool :=
  containsStr upper "DESP".toList && containsStr upper "BANC".toList

/-- The keyword test of the notary expense column (service.go 2096). -/
def kwDespCartorio (upper : Str) : Bool :=
  containsStr upper "DESP".toList && containsStr upper "CART".toList

/-- The keyword test of the net value column (service.go 2102). -/
def kwVlLiq (upper : Str) : Bool :=
  containsStr upper "VL".toList && containsStr upper "LIQ".toList

/-- The keyword test of the bank column (service.go 2108). -/
def kwBanco (upper : Str) : Bool :=
  containsStr upper "BANCO".toList || containsStr upper "INSTITU".toList

/-- The assignment `if hint == -1 { hint = idx }`. -/
def setIfUnset (hint idx : ℤ) : ℤ := if hint == -1 then idx else hint

/-- The nine `if` blocks of the loop of `updateColumnHints` for one non-empty cell
(service.go 2060-2113); each block reads and writes its own flag and its own hint. -/
def hintsCell (upper : Str) (idx : ℤ) (s : columnHints × hintHits) : columnHints × hintHits :=
  ({ doc := if !s.2.docHit && kwDoc upper then setIfUnset s.1.doc idx else s.1.doc
     historico :=
       if !s.2.histHit && kwHist upper then setIfUnset s.1.historico idx else s.1.historico
     valorPrincipal :=
       if kwPrincipal upper then setIfUnset s.1.valorPrincipal idx else s.1.valorPrincipal
     juros := if kwJuros upper then setIfUnset s.1.juros idx else s.1.juros
     desconto := if kwDesconto upper then setIfUnset s.1.desconto idx else s.1.desconto
     despBanco := if kwDespBanco upper then setIfUnset s.1.despBanco idx else s.1.despBanco
     despCartorio :=
       if kwDespCartorio upper then setIfUnset s.1.despCartorio idx else s.1.despCartorio
     vlLiqPago := if kwVlLiq upper then setIfUnset s.1.vlLiqPago idx else s.1.vlLiqPago
     banco := if kwBanco upper then setIfUnset s.1.banco idx else s.1.banco },
   { docHit := s.2.docHit || kwDoc upper
     histHit := s.2.histHit || kwHist upper
     principalHit := s.2.principalHit || kwPrincipal upper
     jurosHit := s.2.jurosHit || kwJuros upper
     descHit := s.2.descHit || kwDesconto upper
     despBcoHit := s.2.despBcoHit || kwDespBanco upper
     despCartHit := s.2.despCartHit || kwDespCartorio upper
     vlLiqHit := s.2.vlLiqHit || kwVlLiq upper
     bancoHit := s.2.bancoHit || kwBanco upper })

/-- The count `hits` of `updateColumnHints` (service.go 2116-2145). -/
def hitCount (t : hintHits) : Nat :=
  [t.docHit, t.histHit, t.principalHit, t.jurosHit, t.descHit, t.despBcoHit, t.despCartHit,
   t.vlLiqHit, t.bancoHit].count true

/-- The loop of `updateColumnHints` (service.go 2054-2114) over the cells `idxs`. -/
def hintsLoop (u : UnicodeTables) (row : List Str) (idxs : List Nat)
    (s : columnHints × hintHits) : columnHints × hintHits :=
  idxs.foldl (fun s idx =>
    let upper := upperCell u row idx
    if upper == [] then s else hintsCell upper idx s) s

/-- Closure `updateColumnHints` (service.go 2041-2146): the hints after the call and the
returned flag `hits >= 3`. -/
def updateColumnHints (u : UnicodeTables) (hints : columnHints) (row : List Str) :
    columnHints × Bool :=
  let s := hintsLoop u row (List.range row.length)
    (hints, ⟨false, false, false, false, false, false, false, false, false⟩)
  (s.1, decide (hitCount s.2 ≥ 3))

/-- The array `bankHints` of `ProcessAtoliniRecebimentos` (service.go 2148). -/
def bankHints : List Str :=
  ["SICRED".toList, "SICOOB".toList, "BANCO".toList, "BRADESCO".toList, "ITAU".toList,
   "ITAÚ".toList, "SANTAND".toList, "CAIXA".toList, "CEF".toList, "BB".toList, "COOP".toList,
   "COOPER".toList, "FINANC".toList, "REBATE".toList, "BAIXA DEVOL".toList]

/-- Closure `isBankish` (service.go 2150-2160). -/
def isBankish (upper : Str) : Bool :=
  if upper == [] then false else bankHints.any (fun hint => containsStr upper hint)

/-- Closure `firstNonEmpty` (service.go 2162-2177). -/
def firstNonEmpty (row : List Str) (indices : List ℤ) : Str :=
  ((visitOrder row indices).findSome? (fun idx =>
    let val := trimmedCell row idx
    if val != [] then some val else none)).getD []

/-- Closure `parseValueFrom` (service.go 2179-2199); `none` is the result `(0, false)`. -/
def parseValueFrom (ovf : ConvOverflow) (row : List Str) (indices : List ℤ) : Option F64 :=
  (visitOrder row indices).findSome? (fun idx =>
    let val := trimmedCell row idx
    if val == [] then none
    else
      match parseBRLNumber ovf val with
      | .ok parsed => some parsed
      | .error _ => none)

/-- Closure `buildCandidates` (service.go 2200-2229). -/
def buildCandidates (lancIdx : ℤ) (abs rel : List ℤ) : List ℤ :=
  if abs.length + rel.length == 0 then []
  else
    dedupFirst (abs.filter (fun idx => decide (0 ≤ idx)) ++
      (rel.map (fun off => lancIdx + off)).filter (fun idx => decide (0 ≤ idx)))

/-- The loop over `candidates` of `pickDescricaoCredito` with its closure `tryIndex`
(service.go 2247-2285): the first cell whose cleaned text looks like a bank, else the
fallback, which is the first cleaned text met when the base text is empty. -/
def creditLoop (u : UnicodeTables) (row : List Str) : List ℤ → Str × Str → Str × Str
  | [], fallback => fallback
  | idx :: rest, fallback =>
    let raw := trimmedCell row idx
    if raw == [] then creditLoop u row rest fallback
    else
      let cleaned0 := trimSpace (stripLeadingNumberPrefix raw)
      let cleaned := if cleaned0 == [] then raw else cleaned0
      let upper := cleaned.map u.toUpper
      if isBankish upper then (cleaned, upper)
      else creditLoop u row rest (if fallback.1 == [] then (cleaned, upper) else fallback)

/-- Closure `pickDescricaoCredito` (service.go 2231-2288): the description and its upper
case. -/
def pickDescricaoCredito (u : UnicodeTables) (hints : columnHints) (row : List Str)
    (lancIdx : ℤ) : Str × Str :=
  let base0 := stripLeadingNumberPrefix (extractAfterHyphen (trimmedCell row lancIdx))
  let base1 := if base0 == [] then stripLeadingNumberPrefix (trimmedCell row lancIdx) else base0
  let base := trimSpace base1
  let baseUpper := base.map u.toUpper
  if base != [] && isBankish baseUpper then (base, baseUpper)
  else
    let candidates := [hints.banco, lancIdx + 6, lancIdx + 5, lancIdx + 7, 18, 19, 20, 21, 22,
      17, 16, 15] ++ (List.range row.length).reverse.map Int.ofNat
    creditLoop u row (visitOrder row candidates) (base, baseUpper)

/-- The statement `if candidate == "" { if d, ok := ...; ok { candidate = d } }`. -/
def orDate (candidate : Str) (d : Option Str) : Str :=
  if candidate == [] then
    match d with
    | some d => d
    | none => candidate
  else candidate

/-- The first block of `updateBlockDate` (service.go 2300-2326): the candidate read at a
`DATA:` marker. -/
def markerDate (ovf : ConvOverflow) (u : UnicodeTables) (row : List Str) : Str :=
  let dIdx := findDataMarkerIndex u row
  if dIdx != -1 then
    let marker := trimmedCell row dIdx
    let c0 : Str :=
      match (afterColon marker).bind (fun rest => parseDateDayFirst ovf (trimSpace rest)) with
      | some d => d
      | none => []
    let c1 := orDate c0 (parseDateDayFirst ovf (trimmedCell row (dIdx + 1)))
    let c2 := orDate c1 (parseDateDayFirst ovf (trimmedCell row (dIdx + 2)))
    let c3 := orDate c2 (parseDateDayFirst ovf (trimmedCell row 2))
    orDate c3 (findDateInRow ovf row)
  else []

/-- The label test of the second block of `updateBlockDate` (service.go 2335). -/
def isReceiptLabel (low : Str) : Bool :=
  containsStr low "data do receb".toList || containsStr low "data de receb".toList ||
    containsStr low "data receb".toList || containsStr low "dt receb".toList ||
    (containsStr low "data".toList && containsStr low "baix".toList)

/-- The loop of the second block of `updateBlockDate` (service.go 2329-2358) over the
columns `is`: the candidate it ends with. -/
def labelDate (ovf : ConvOverflow) (lower : Char → Char) (row : List Str) : List Nat → Str
  | [] => []
  | i :: is =>
    let low := lowerCell lower row i
    if low == [] then labelDate ovf lower row is
    else if isReceiptLabel low then
      match findDateInRow ovf [row.getD i []] with
      | some d => d
      | none =>
        let c0 : Str :=
          match [(i : ℤ) + 1, i + 2, i + 3].findSome?
              (fun idx => parseDateDayFirst ovf (trimmedCell row idx)) with
          | some d => d
          | none => []
        let c1 := orDate c0 (findDateInRow ovf row)
        if c1 != [] then c1 else labelDate ovf lower row is
    else labelDate ovf lower row is

/-- Closure `updateBlockDate` (service.go 2290-2373): the candidate date (the empty
string when none was found; otherwise the new block date) and the returned flag. -/
def updateBlockDate (ovf : ConvOverflow) (u : UnicodeTables) (lower : Char → Char)
    (row : List Str) (lancIdx : ℤ) : Str × Bool :=
  let nonEmpty := countNonEmpty row
  let c1 := markerDate ovf u row
  let c2 := if c1 == [] then labelDate ovf lower row (List.range (min row.length 6)) else c1
  let c3 := if c2 == [] && lancIdx == -1 && nonEmpty == 1 then orDate c2 (findDateInRow ovf row)
    else c2
  if c3 != [] then (c3, decide (lancIdx = -1 ∧ nonEmpty ≤ 6)) else ([], false)

/-- The variables of the loop of `ProcessAtoliniRecebimentos`: the block date, the
current debit party and its code, the column hints, the two caches, the chart map (which
`findContaCodigoByDescricao` may reorder) and the output rows. -/
structure RecState where
  blockDate : Str
  blockDateSanitized : Str
  currentDescDebito : Str
  currentCodDebito : Str
  hints : columnHints
  debCache : Str → Option Str
  credCache : Str → Option Str
  contasMap : ContaMap
  finalRows : List AtoliniRecebimentosOutputRow

/-- Closure `setCurrentDebit` (service.go 1935-1955). -/
def setCurrentDebit (u : UnicodeTables) (closest : Closest)
    (srt : (ContaEntry → ContaEntry → Bool) → List ContaEntry → List ContaEntry)
    (descricaoIndex debitPrefixes : List Str) (st : RecState) (desc : Str) : RecState :=
  let desc := trimSpace desc
  if desc == [] then { st with currentDescDebito := [], currentCodDebito := sentinel }
  else
    let key := buildCacheKey (desc.map u.toUpper) (joinStr debitPrefixes ",".toList)
    match st.debCache key with
    | some code => { st with currentDescDebito := desc, currentCodDebito := code }
    | none =>
      let r := findContaCodigoByDescricao u closest srt desc descricaoIndex st.contasMap
        debitPrefixes
      let code := if r.1 == [] then sentinel else r.1
      { st with
        currentDescDebito := desc
        currentCodDebito := code
        debCache := mapSet st.debCache key code
        contasMap := r.2 }

/-- The text `descDeb` of the Portador branch of the loop (service.go 2395-2407). -/
def portadorText (u : UnicodeTables) (row : List Str) (pIdx : ℤ) : Str :=
  let descDeb := pickPortadorFromRow u row pIdx
  if descDeb == [] then
    (((row.drop (pIdx.toNat + 1)).take 6).findSome? (fun c =>
      let candidate := trimSpace c
      if candidate == [] then none
      else
        let cleaned := cleanPortadorText u candidate
        if cleaned != [] then some cleaned else none)).getD []
  else descDeb

/-- The credit code of a transaction line (service.go 2443-2456): the code, the credit
cache and the chart map after it. -/
def resolveCredit (u : UnicodeTables) (closest : Closest)
    (srt : (ContaEntry → ContaEntry → Bool) → List ContaEntry → List ContaEntry)
    (descricaoIndex creditPrefixes : List Str) (descCredito descCreditoUpper : Str)
    (cache : Str → Option Str) (contasMap : ContaMap) : Str × (Str → Option Str) × ContaMap :=
  if descCredito != [] then
    let key := buildCacheKey descCreditoUpper (joinStr creditPrefixes ",".toList)
    match cache key with
    | some cached => (cached, cache, contasMap)
    | none =>
      let r := findContaCodigoByDescricao u closest srt descCredito descricaoIndex contasMap
        creditPrefixes
      let code := if r.1 == [] then sentinel else r.1
      (code, mapSet cache key code, r.2)
  else (sentinel, cache, contasMap)

/-- The memo text of an output row (service.go 2458-2472). -/
def recHistorico (hints : columnHints) (row : List Str) (lancIdx : ℤ) (descCredito : Str) :
    Str :=
  let doc := firstNonEmpty row (buildCandidates lancIdx [hints.doc, 4, 5] [4, 5, 3])
  let histBase := firstNonEmpty row
    (buildCandidates lancIdx [hints.historico, 9, 8, 10] [9, 8, 10, 7])
  let h0 := trimSpace histBase
  let h1 := if h0 != [] then h0 ++ " ".toList else h0
  let h2 := h1 ++ "CONFORME DOCUMENTO ".toList ++ trimSpace doc
  let h3 := if descCredito != [] then h2 ++ " DE ".toList ++ descCredito else h2
  sanitizeForCSV (trimSpace h3)

/-- The text of a value column of an output row (service.go 2474-2486 and 2495-2500):
the first candidate cell that parses, zero when none does. -/
def recValor (ovf : ConvOverflow) (row : List Str) (lancIdx : ℤ) (abs rel : List ℤ) : Str :=
  sanitizeForCSV (formatTwoDecimalsComma
    ((parseValueFrom ovf row (buildCandidates lancIdx abs rel)).getD (.fin 0)))

/-- The effective date of a transaction line (service.go 2421-2434): the block date, else
a date of the sixty rows before, else a date of the row itself; with its sanitised
text. -/
def effectiveDate (ovf : ConvOverflow) (lower : Char → Char) (rows : List (List Str))
    (rIdx : Nat) (row : List Str) (st : RecState) : Str × Str :=
  let e0 : Str × Str := (st.blockDate, st.blockDateSanitized)
  let e1 : Str × Str :=
    if e0.1 == [] then
      match findDateInPreviousRows ovf lower rows rIdx 60 with
      | some d => (d, sanitizeForCSV d)
      | none => e0
    else e0
  if e1.1 == [] then
    match findDateInRow ovf row with
    | some d => (d, sanitizeForCSV d)
    | none => e1
  else e1

/-- The debit party of a transaction line (service.go 2436-2440): when none is at hand,
the one that `findLastPortadorBefore` finds in the sixty rows before. -/
def debitAtLancamento (u : UnicodeTables) (closest : Closest)
    (srt : (ContaEntry → ContaEntry → Bool) → List ContaEntry → List ContaEntry)
    (descricaoIndex debitPrefixes : List Str) (rows : List (List Str)) (rIdx : Nat)
    (st : RecState) : RecState :=
  if st.currentDescDebito == [] then
    match findLastPortadorBefore u rows rIdx 60 with
    | some p => setCurrentDebit u closest srt descricaoIndex debitPrefixes st p
    | none => st
  else st

/-- The output row appended at the end of the loop body (service.go 2488-2501). -/
def recOutputRow (ovf : ConvOverflow) (hints : columnHints) (row : List Str) (lancIdx : ℤ)
    (effectiveDateSanitized descCredito codCredito currentDescDebito
      currentCodDebito : Str) : AtoliniRecebimentosOutputRow :=
  { Data := sanitizeForCSV effectiveDateSanitized
    DescricaoCredito := sanitizeForCSV descCredito
    ContaCredito := sanitizeForCSV codCredito
    DescricaoDebito := sanitizeForCSV currentDescDebito
    ContaDebito := sanitizeForCSV currentCodDebito
    Historico := recHistorico hints row lancIdx descCredito
    ValorPrincipal := recValor ovf row lancIdx [hints.valorPrincipal, 12, 11, 13]
      [12, 11, 13, 10]
    Juros := recValor ovf row lancIdx [hints.juros, 13, 12, 14] [13, 12, 14]
    Desconto := recValor ovf row lancIdx [hints.desconto, 14, 13, 15] [14, 13, 15]
    DespBanco := recValor ovf row lancIdx [hints.despBanco, 15, 14, 16] [15, 14, 16]
    DespCartorio := recValor ovf row lancIdx [hints.despCartorio, 16, 15, 17] [16, 15, 17]
    VlLiqPago := recValor ovf row lancIdx [hints.vlLiqPago, 17, 16, 18, 19] [17, 16, 18] }

/-- The end of the loop body for a transaction line (service.go 2442-2502), from the
sanitised effective date and the state with the debit party: the credit side, the
fields of the row, and the append. -/
def appendLancamento (u : UnicodeTables) (ovf : ConvOverflow) (closest : Closest)
    (srt : (ContaEntry → ContaEntry → Bool) → List ContaEntry → List ContaEntry)
    (descricaoIndex creditPrefixes : List Str) (row : List Str) (lancIdx : ℤ)
    (effectiveDateSanitized : Str) (st1 : RecState) : RecState :=
  let dc := pickDescricaoCredito u st1.hints row lancIdx
  let cred := resolveCredit u closest srt descricaoIndex creditPrefixes dc.1 dc.2
    st1.credCache st1.contasMap
  { st1 with
    credCache := cred.2.1
    contasMap := cred.2.2
    finalRows := st1.finalRows ++ [recOutputRow ovf st1.hints row lancIdx
      effectiveDateSanitized dc.1 cred.1 st1.currentDescDebito st1.currentCodDebito] }

/-- The part of the loop body of `ProcessAtoliniRecebimentos` that emits a ledger row for
a transaction line (service.go 2421-2502). -/
def emitLancamento (u : UnicodeTables) (lower : Char → Char) (ovf : ConvOverflow)
    (closest : Closest)
    (srt : (ContaEntry → ContaEntry → Bool) → List ContaEntry → List ContaEntry)
    (descricaoIndex debitPrefixes creditPrefixes : List Str) (rows : List (List Str))
    (rIdx : Nat) (row : List Str) (lancIdx : ℤ) (st : RecState) : RecState :=
  appendLancamento u ovf closest srt descricaoIndex creditPrefixes row lancIdx
    (effectiveDate ovf lower rows rIdx row st).2
    (debitAtLancamento u closest srt descricaoIndex debitPrefixes rows rIdx st)

/-- The assignments of `updateBlockDate` to the block date (service.go 2367-2370), made
when it found a candidate. -/
def applyBlockDate (st : RecState) (candidate : Str) : RecState :=
  if candidate != [] then
    { st with blockDate := candidate, blockDateSanitized := sanitizeForCSV candidate }
  else st

/-- The Portador branch of the loop body (service.go 2394-2415). -/
def portadorBranch (u : UnicodeTables) (closest : Closest)
    (srt : (ContaEntry → ContaEntry → Bool) → List ContaEntry → List ContaEntry)
    (descricaoIndex debitPrefixes : List Str) (row : List Str) (pIdx : ℤ) (st : RecState) :
    RecState :=
  let descDeb := portadorText u row pIdx
  if trimSpace descDeb == [] then
    { st with currentDescDebito := [], currentCodDebito := sentinel }
  else setCurrentDebit u closest srt descricaoIndex debitPrefixes st descDeb

/-- The loop body of `ProcessAtoliniRecebimentos` (service.go 2375-2503) for the row at
index `rIdx` of the sheet `rows`. -/
def recebimentosStep (u : UnicodeTables) (lower : Char → Char) (ovf : ConvOverflow)
    (closest : Closest)
    (srt : (ContaEntry → ContaEntry → Bool) → List ContaEntry → List ContaEntry)
    (descricaoIndex debitPrefixes creditPrefixes : List Str) (rows : List (List Str))
    (st : RecState) (rIdx : Nat) : RecState :=
  let row := rows.getD rIdx []
  let lancIdx := firstIndex isLancamento row
  let bd := updateBlockDate ovf u lower row lancIdx
  let st1 := applyBlockDate st bd.1
  if bd.2 then st1
  else
    let hs := updateColumnHints u st1.hints row
    let st2 := { st1 with hints := hs.1 }
    if hs.2 then st2
    else
      let pIdx := findPortadorIndex u row
      if pIdx != -1 then portadorBranch u closest srt descricaoIndex debitPrefixes row pIdx st2
      else if lancIdx == -1 then st2
      else
        emitLancamento u lower ovf closest srt descricaoIndex debitPrefixes creditPrefixes rows
          rIdx row lancIdx st2

/-- The variables of `ProcessAtoliniRecebimentos` before the first row (service.go
1910-1921 and 2029-2039). -/
def recInit (contasMap : ContaMap) : RecState :=
  { blockDate := []
    blockDateSanitized := []
    currentDescDebito := []
    currentCodDebito := sentinel
    hints := ⟨-1, -1, -1, -1, -1, -1, -1, -1, -1⟩
    debCache := fun _ => none
    credCache := fun _ => none
    contasMap := contasMap
    finalRows := [] }

/-- The state of the loop of `ProcessAtoliniRecebimentos` after the first `n` rows of the
sheet. -/
def scanRecebimentosUpTo (u : UnicodeTables) (lower : Char → Char) (ovf : ConvOverflow)
    (closest : Closest)
    (srt : (ContaEntry → ContaEntry → Bool) → List ContaEntry → List ContaEntry)
    (contasMap : ContaMap) (descricaoIndex debitPrefixes creditPrefixes : List Str)
    (rows : List (List Str)) (n : Nat) : RecState :=
  (List.range n).foldl
    (recebimentosStep u lower ovf closest srt descricaoIndex debitPrefixes creditPrefixes rows)
    (recInit contasMap)

/-- The loop of `ProcessAtoliniRecebimentos` (service.go 2375-2503) over the decoded
rows, from the chart that `lerContasRecebimentos` returned. -/
def scanRecebimentos (u : UnicodeTables) (lower : Char → Char) (ovf : ConvOverflow)
    (closest : Closest)
    (srt : (ContaEntry → ContaEntry → Bool) → List ContaEntry → List ContaEntry)
    (contasMap : ContaMap) (descricaoIndex debitPrefixes creditPrefixes : List Str)
    (rows : List (List Str)) : RecState :=
  scanRecebimentosUpTo u lower ovf closest srt contasMap descricaoIndex debitPrefixes
    creditPrefixes rows rows.length

/-- The header record of `gerarCSVAtoliniRecebimentos` (service.go 2512-2515). -/
def recebimentosHeader : List Str :=
  ["Data".toList, "Descrição Credito".toList, "conta crédito".toList,
   "Descrição Débito".toList, "conta Debito".toList, "Histórico".toList,
   "valor Principal".toList, "Juros".toList, "Desconto".toList, "Desp Banco".toList,
   "Desp Cartório".toList, "VlLiq Pago".toList].map sanitizeForCSV

/-- The record of an output row (service.go 2521-2534): every field sanitised again. -/
def recebimentosRecord (row : AtoliniRecebimentosOutputRow) : List Str :=
  [sanitizeForCSV row.Data, sanitizeForCSV row.DescricaoCredito,
   sanitizeForCSV row.ContaCredito, sanitizeForCSV row.DescricaoDebito,
   sanitizeForCSV row.ContaDebito, sanitizeForCSV row.Historico,
   sanitizeForCSV row.ValorPrincipal, sanitizeForCSV row.Juros,
   sanitizeForCSV row.Desconto, sanitizeForCSV row.DespBanco,
   sanitizeForCSV row.DespCartorio, sanitizeForCSV row.VlLiqPago]

/-- The records that `gerarCSVAtoliniRecebimentos` (service.go 2506-2542) hands to the
CSV writer: the header, then one record per output row. -/
def recebimentosRecords (rows : List AtoliniRecebimentosOutputRow) : List (List Str) :=
  recebimentosHeader :: rows.map recebimentosRecord

/-- The ways in which `ProcessAtoliniRecebimentos` returns an error: an input could not
be read, or the output holds a code point that the encoder does not support. -/
inductive ProcessError (ε : Type) where
  | input (err : ε)
  | unsupported (r : Char)
deriving DecidableEq, Repr

/-- Source `gerarCSVAtoliniRecebimentos` (service.go 2506-2542).  The writer sends the
records through the encoder `charmap.Windows1252.NewEncoder()` of `golang.org/x/text`,
which is not part of this repository: `repertoire` tells the code points it can encode,
and, as that library documents, a code point outside it makes the write fail, so that
the function returns a non-nil error (`writer.Write` or `writer.Error()`).  The
separators, quotes and line ends that the writer adds are ASCII. -/
def gerarCSVAtoliniRecebimentos {ε : Type} (repertoire : Char → Bool)
    (rows : List AtoliniRecebimentosOutputRow) : Except (ProcessError ε) (List (List Str)) :=
  let records := recebimentosRecords rows
  match records.flatten.flatten.find? (fun r => !repertoire r) with
  | some r => .error (.unsupported r)
  | none => .ok records

/-- Source `ProcessAtoliniRecebimentos` (service.go 1903-2504), from the outcomes of
reading the two files, as `ProcessAtoliniPagamentos`. -/
def ProcessAtoliniRecebimentos {ε : Type} (u : UnicodeTables) (lower : Char → Char)
    (ovf : ConvOverflow) (closest : Closest)
    (srt : (ContaEntry → ContaEntry → Bool) → List ContaEntry → List ContaEntry)
    (repertoire : Char → Bool) (workbook contas : Except ε (List (List Str)))
    (debitPrefixes creditPrefixes : List Str) :
    Except (ProcessError ε) (List (List Str)) :=
  match lerContasRecebimentos u contas with
  | .error err => .error (.input err)
  | .ok (descricaoIndex, contasMap) =>
    match workbook with
    | .error err => .error (.input err)
    | .ok rows =>
      gerarCSVAtoliniRecebimentos repertoire
        (scanRecebimentos u lower ovf closest srt contasMap descricaoIndex debitPrefixes
          creditPrefixes rows).finalRows

/-- The code points that the Windows-1252 encoder of `golang.org/x/text` supports: ASCII,
the Latin-1 block from U+00A0, and the twenty-seven characters of the bytes 0x80 to
0x9F; the bytes 0x81, 0x8D, 0x8F, 0x90 and 0x9D stand for no character, and the encoder
rejects the C1 controls of the same numbers. -/
def windows1252 (r : Char) : Bool :=
  let n := r.toNat
  n < 0x80 || (0xA0 ≤ n && n ≤ 0xFF) ||
    [0x20AC, 0x201A, 0x0192, 0x201E, 0x2026, 0x2020, 0x2021, 0x02C6, 0x2030, 0x0160, 0x2039,
     0x0152, 0x017D, 0x2018, 0x2019, 0x201C, 0x201D, 0x2022, 0x2013, 0x2014, 0x02DC, 0x2122,
     0x0161, 0x203A, 0x0153, 0x017E, 0x0178].contains n

/-- The row has a cell that `updateColumnHints` reads (its upper-case text is not empty)
and that passes the keyword test `kw`. -/
def hasKeyword (u : UnicodeTables) (row : List Str) (kw : Str → Bool) : Bool :=
  (List.range row.length).any (fun (idx : Nat) =>
    upperCell u row idx != [] && kw (upperCell u row idx))

/-- The number of keyword categories that the row contains. -/
def keywordCategories (u : UnicodeTables) (row : List Str) : Nat :=
  ([kwDoc, kwHist, kwPrincipal, kwJuros, kwDesconto, kwDespBanco, kwDespCartorio, kwVlLiq,
    kwBanco].filter (hasKeyword u row)).length

/-- The column of the first cell of the row that passes the keyword test `kw`, or -1. -/
def firstKeywordColumn (u : UnicodeTables) (row : List Str) (kw : Str → Bool) : ℤ :=
  match (List.range row.length).find? (fun (idx : Nat) =>
      upperCell u row idx != [] && kw (upperCell u row idx)) with
  | some idx => (idx : ℤ)
  | none => -1

/-- Every field of the hints `a` that holds a column index holds the same index in `b`. -/
def hintsKept (a b : columnHints) : Prop :=
  (a.doc ≠ -1 → b.doc = a.doc) ∧ (a.historico ≠ -1 → b.historico = a.historico) ∧
  (a.valorPrincipal ≠ -1 → b.valorPrincipal = a.valorPrincipal) ∧
  (a.juros ≠ -1 → b.juros = a.juros) ∧ (a.desconto ≠ -1 → b.desconto = a.desconto) ∧
  (a.despBanco ≠ -1 → b.despBanco = a.despBanco) ∧
  (a.despCartorio ≠ -1 → b.despCartorio = a.despCartorio) ∧
  (a.vlLiqPago ≠ -1 → b.vlLiqPago = a.vlLiqPago) ∧ (a.banco ≠ -1 → b.banco = a.banco)

/-- The loop body of `ProcessAtoliniRecebimentos` consumes the row as a block-date header:
`updateBlockDate` returns true (service.go 2386-2388). -/
def isBlockDateRow (ovf : ConvOverflow) (u : UnicodeTables) (lower : Char → Char)
    (row : List Str) : Bool :=
  (updateBlockDate ovf u lower row (firstIndex isLancamento row)).2

/-- The loop body consumes the row as a column-header row: it is no block-date header and
`updateColumnHints` returns true (service.go 2390-2392), which it does for three keyword
categories or more, whatever the hints. -/
def isColumnHeaderRow (ovf : ConvOverflow) (u : UnicodeTables) (lower : Char → Char)
    (row : List Str) : Bool :=
  !isBlockDateRow ovf u lower row && decide (3 ≤ keywordCategories u row)

/-- The loop body takes the Portador branch (service.go 2394-2415): the row is neither a
block-date header nor a column-header row and has a Portador marker. -/
def isPortadorRow (ovf : ConvOverflow) (u : UnicodeTables) (lower : Char → Char)
    (row : List Str) : Bool :=
  !isBlockDateRow ovf u lower row && !decide (3 ≤ keywordCategories u row) &&
    findPortadorIndex u row != -1

/-- The row has a cell that matches the transaction pattern and is consumed neither as
a block-date header nor as a column-header row nor as a Portador row. -/
def emitsLancamento (ovf : ConvOverflow) (u : UnicodeTables) (lower : Char → Char)
    (row : List Str) : Bool :=
  row.any isLancamento && !isBlockDateRow ovf u lower row &&
    !isColumnHeaderRow ovf u lower row && !isPortadorRow ovf u lower row

/-- No hint known: the hints before the first row. -/
def noHints : columnHints := ⟨-1, -1, -1, -1, -1, -1, -1, -1, -1⟩

/-- A Recebimentos sheet: the block date "Data: 10/05/2024", the row "Portador: 7 - Banco
X", and a transaction line "123 - Caixa" with the document in column E, the memo in
column J and the six values in columns M to R. -/
def demoRecRows : List (List Str) :=
  [["Data: 10/05/2024".toList],
   ["Portador: 7 - Banco X".toList],
   ["123 - Caixa".toList, [], [], [], "NF 55".toList, [], [], [], [], "venda".toList, [], [],
    "150,00".toList, "1,50".toList, "0,00".toList, "2,00".toList, "0,00".toList,
    "149,50".toList]]

/-- A Recebimentos sheet: a Portador row that names no party, then two transaction
lines. -/
def lookbackRows : List (List Str) :=
  [["Portador:".toList], ["123 - FULANO".toList], ["456 - BELTRANO".toList]]

/-- A Recebimentos sheet: a header row with the keywords of three categories in the
columns A to C, then a row with the same keywords in other columns. -/
def headerRows : List (List Str) :=
  [["Documento".toList, "Histórico".toList, "Juros".toList],
   ["x".toList, "Juros".toList, "Documento".toList, "Histórico".toList]]

/-- A Recebimentos sheet: the row "Portador: 7 - Banco X", then two transaction lines. -/
def portadorRows : List (List Str) :=
  [["Portador: 7 - Banco X".toList], ["123 - FULANO".toList], ["456 - BELTRANO".toList]]

/-- On every list made of entries of one key of the chart `m`, `srt` orders by
classification length as the stable sort does.  The contract of `sort.Slice` alone gives
this for a chart whose keys hold entries of pairwise different classification lengths,
and the insertion sort that `sort.Slice` runs on short slices gives it for a chart whose
keys hold few entries. -/
def sortsStably (srt : (ContaEntry → ContaEntry → Bool) → List ContaEntry → List ContaEntry)
    (m : ContaMap) : Prop :=
  ∀ k l l2, m k = some l → l2.Subperm l →
    srt (fun a b => decide (byteLen a.Classf > byteLen b.Classf)) l2 =
      sortSliceStable (fun a b => decide (byteLen a.Classf > byteLen b.Classf)) l2

/-- The cell `idx` lies inside the row, its trimmed text is not empty and
`parseBRLNumber` returns no error for it. -/
def parsesAt (ovf : ConvOverflow) (row : List Str) (idx : ℤ) : Bool :=
  decide (0 ≤ idx ∧ idx < row.length) && trimmedCell row idx != [] &&
    (match parseBRLNumber ovf (trimmedCell row idx) with
     | .ok _ => true
     | .error _ => false)

/-- The value of the first candidate of the list, in its order, that lies inside the
row, has a trimmed text that is not empty and parses without error; `none` when there is
no such candidate. -/
def firstParsed (ovf : ConvOverflow) (row : List Str) (indices : List ℤ) : Option F64 :=
  match indices.find? (parsesAt ovf row) with
  | some idx =>
    (match parseBRLNumber ovf (trimmedCell row idx) with
     | .ok parsed => some parsed
     | .error _ => none)
  | none => none

/-- The trimmed text of the first candidate of the list, in its order, that lies inside
the row and has a trimmed text that is not empty; the empty text when there is none. -/
def firstText (row : List Str) (indices : List ℤ) : Str :=
  match indices.find? (fun (idx : ℤ) => decide (0 ≤ idx ∧ idx < row.length) &&
      trimmedCell row idx != []) with
  | some idx => trimmedCell row idx
  | none => []

/-- The text of a value field of a ledger row: the value, or zero for `none`, with two
decimals and a comma. -/
def moneyText (v : Option F64) : Str :=
  sanitizeForCSV (formatTwoDecimalsComma (v.getD (.fin 0)))

/-- A Recebimentos sheet: one transaction line whose transaction cell is in column B, with
"1,00" in column M (index 12) and "2,00" in column N (index 13, which is twelve columns
after the transaction cell). -/
def shiftedRows : List (List Str) :=
  [[[], "123 - Caixa".toList, [], [], [], [], [], [], [], [], [], [], "1,00".toList,
    "2,00".toList]]

/-- A Recebimentos sheet: one transaction line whose text after the hyphen starts with the
control character U+0001. -/
def controlRows : List (List Str) := [["1 - \x01Banco X".toList]]

/-! ## The request handlers -/

/-- Source `getPrefixesFromForm` (internal/api/handlers/converter_handler.go 28-43), from
the value `c.PostForm(formKey)` of the form field; the nil slice is the empty list. -/
def getPrefixesFromForm (prefixesStr : Str) : List Str :=
  if prefixesStr == [] then []
  else
    (prefixesStr.splitOn ',').foldl (fun prefixes part =>
      let trimmed := trimSpace part
      if trimmed != [] then prefixes ++ [trimmed] else prefixes) []

/-- The loop `for i := start; i >= end; i--` of `findDateInPreviousRows` (service.go
1101-1137) with its reads `sheet[i]`: `n` iterations are left and the next one reads the
row `i`.  The error is the run-time panic of an index out of range. -/
def previousRowsLoop (ovf : ConvOverflow) (lower : Char → Char) (sheet : List (List Str)) :
    Nat → ℤ → Except Unit (Option Str)
  | 0, _ => .ok none
  | n + 1, i =>
    if i < 0 ∨ i ≥ sheet.length then .error ()
    else
      match dateOfEarlierRow ovf lower (sheet.getD i.toNat []) with
      | some d => .ok (some d)
      | none => previousRowsLoop ovf lower sheet n (i - 1)

/-- Source `findDateInPreviousRows` (service.go 1095-1139) on `int` arguments, with the
reads of the sheet explicit: `start := idx - 1`, `end := idx - lookback`, raised to 0 when
negative, and the loop from `start` down to `end`, which runs `start - end + 1` times when
that is positive.  (For `idx` and `lookback` that are not negative the two differences do
not overflow.) -/
def findDateInPreviousRowsInt (ovf : ConvOverflow) (lower : Char → Char)
    (sheet : List (List Str)) (idx lookback : ℤ) : Except Unit (Option Str) :=
  let start := idx - 1
  let end0 := idx - lookback
  let end1 := if end0 < 0 then 0 else end0
  previousRowsLoop ovf lower sheet (start - end1 + 1).toNat start

/-- A sheet: a row with a date, a row with another date, a row without a date, and a
fourth row. -/
def datedRows : List (List Str) :=
  [["01/02/2024".toList], ["Data de pagamento: 10/05/2024".toList], ["x".toList],
   ["y".toList]]

/-- A Recebimentos sheet: a Portador row that names a party, a Portador row that names
none, and a transaction line. -/
def clearedRows : List (List Str) :=
  [["Portador: 7 - Banco X".toList], ["Portador:".toList], ["123 - FULANO".toList]]

/-- A Recebimentos sheet: a Portador row that names no party, then two transaction lines
with more than six cells that are not empty. -/
def noPartyRows : List (List Str) :=
  [["Portador:".toList],
   ["123 - Caixa".toList, [], [], [], "NF 55".toList, [], [], [], [], "venda".toList, [], [],
    "150,00".toList, "1,50".toList, "0,00".toList, "2,00".toList, "0,00".toList,
    "149,50".toList],
   ["124 - Caixa".toList, [], [], [], "NF 56".toList, [], [], [], [], "venda".toList, [], [],
    "50,00".toList, "0,00".toList, "0,00".toList, "0,00".toList, "0,00".toList,
    "50,00".toList]]

/-- The characters of the dates that the scans read: a digit, a slash, or the minus sign
that `Format` writes before a negative year. -/
def isDateChar (c : Char) : Bool := isDigit c || c == '/' || c == '-'

/-! ## The Sicredi conversion

A `time.Time` is the number of nanoseconds since 1970 in UTC, as above: the settlement
dates are those that `carregarLancamentos` parsed with `time.Parse`, which are in UTC. -/

/-- Source `ContaSicredi` (domain/models.go). -/
structure ContaSicredi where
  Code : Str
  Classif : Str
  Desc : Str
deriving DecidableEq, Repr

/-- Source `Lancamento` (domain/models.go). -/
structure Lancamento where
  DataLiquidacao : ℤ
  Descricao : Str
  Valor : F64
  Historico : Str
deriving DecidableEq, Repr

/-- Source `OutputRow` (domain/models.go). -/
structure OutputRow where
  Operacao : Str
  Data : Str
  DescricaoCredito : Str
  ContaCredito : Str
  Valor : Str
  Historico : Str
deriving DecidableEq, Repr

/-- The chart of the Sicredi conversion, `map[string][]domain.ContaSicredi`. -/
abbrev SicrediMap := Str → Option (List ContaSicredi)

/-- The first occurrences of the keys of a list, in order (the guard `keysMap`). -/
def dedupKeys : List Str → List Str
  | [] => []
  | a :: l => a :: (dedupKeys l).filter (fun b => b != a)

/-- The block `sort.Slice(entries, ...); chosen := entries[0]` of `matchContaSicredi`
(service.go 520-522 and 531-533), for entries that are not empty: the code, the
classification, and the entries as the sort leaves them. -/
def chooseSicredi (srt : (ContaSicredi → ContaSicredi → Bool) → List ContaSicredi →
    List ContaSicredi) (entries : List ContaSicredi) : Str × Str × List ContaSicredi :=
  let sorted := srt (fun a b => decide (byteLen a.Classif > byteLen b.Classif)) entries
  match sorted with
  | chosen :: _ => (chosen.Code, chosen.Classif, sorted)
  | [] => ([], [], sorted)

/-- Source `matchContaSicredi` (service.go 482-539): the four results and the chart as the
call leaves it.  Without prefixes the sorted slice is the one of the chart, which is
thereby reordered; with prefixes the sorted slice is a fresh one.  `rangeKeys` is the
order in which the `range` over the chart visits its keys, which Go leaves open. -/
def matchContaSicredi (u : UnicodeTables) (closest : Closest)
    (srt : (ContaSicredi → ContaSicredi → Bool) → List ContaSicredi → List ContaSicredi)
    (rangeKeys : List Str) (descricao : Str) (contasEntries : SicrediMap)
    (allKeys classPrefixes : List Str) : (Str × Str × Str × Str) × SicrediMap :=
  let key := normalizeText u descricao
  if key == [] then (("999999".toList, [], [], "nao_aplicavel".toList), contasEntries)
  else
    let filtered := decide (classPrefixes.length > 0)
    let matching := fun (k : Str) =>
      (mapGet contasEntries k).filter (fun e => matchesAny classPrefixes e.Classif)
    let searchEntries : SicrediMap :=
      if filtered then
        (fun k => if (matching k).length > 0 then some (matching k) else none)
      else contasEntries
    let searchKeys :=
      if filtered then dedupKeys (rangeKeys.filter (fun k => decide ((matching k).length > 0)))
      else allKeys
    let mtypeSuffix := if filtered then "_filtered".toList else "_all".toList
    let after := fun (k : Str) (sorted : List ContaSicredi) =>
      if filtered then contasEntries else mapSet contasEntries k sorted
    let exact := mapGet searchEntries key
    if exact.length > 0 then
      let c := chooseSicredi srt exact
      ((c.1, key, c.2.1, "exata".toList ++ mtypeSuffix), after key c.2.2)
    else if searchKeys.length > 0 then
      let m := closest searchKeys key
      if m != [] then
        let entries := mapGet searchEntries m
        if entries.length > 0 then
          let c := chooseSicredi srt entries
          ((c.1, m, c.2.1, "fuzzy".toList ++ mtypeSuffix), after m c.2.2)
        else (("999999".toList, [], [], "nao_encontrada".toList), contasEntries)
      else (("999999".toList, [], [], "nao_encontrada".toList), contasEntries)
    else (("999999".toList, [], [], "nao_encontrada".toList), contasEntries)

/-- The text `t.AddDate(0, 0, 1).Format("02/01/2006")` of a time in UTC: the day after. -/
def nextDayText (t : ℤ) : Str := formatDMY (dateOfTime (t + nsPerDay))

/-- The sum `totalDiario` of `processarGrupoSicredi` (service.go 453-456): the values are
added in `float64`, in the order of the group, from 0. -/
def totalDiario (grupo : List Lancamento) : F64 :=
  grupo.foldl (fun total l => total.add l.Valor) (.fin 0)

/-- The text `strings.Replace(fmt.Sprintf("%.2f", v), ".", ",", 1)` (service.go 464 and
476). -/
def valorText (v : F64) : Str := replaceFirst ".".toList ",".toList (formatFixed2 v)

/-- The "D" row of a group (service.go 460-466). -/
def rowD (grupo : List Lancamento) : OutputRow :=
  { Operacao := "D".toList
    Data := nextDayText ((grupo.head?.map (fun l => l.DataLiquidacao)).getD 0)
    DescricaoCredito := []
    ContaCredito := "999999".toList
    Valor := valorText (totalDiario grupo)
    Historico := "TÍTULOS RECEBIDOS NA DATA".toList }

/-- The "C" row of an entry (service.go 471-478), dated as its group. -/
def rowC (dataLancamento : Str) (l : Lancamento) (codigoConta : Str) : OutputRow :=
  { Operacao := "C".toList
    Data := dataLancamento
    DescricaoCredito := l.Descricao
    ContaCredito := codigoConta
    Valor := valorText l.Valor
    Historico := l.Historico }

/-- Source `processarGrupoSicredi` (service.go 448-480), on the output rows and the chart
that it changes.  `rangeOrder n` is the order in which the chart is ranged over by the
call of `matchContaSicredi` made when the output holds `n` rows. -/
def processarGrupoSicredi (u : UnicodeTables) (closest : Closest)
    (srt : (ContaSicredi → ContaSicredi → Bool) → List ContaSicredi → List ContaSicredi)
    (rangeOrder : Nat → List Str) (grupo : List Lancamento)
    (st : List OutputRow × SicrediMap) (allKeys classPrefixes : List Str) :
    List OutputRow × SicrediMap :=
  if grupo.length == 0 then st
  else
    let dataLancamento := nextDayText ((grupo.head?.map (fun l => l.DataLiquidacao)).getD 0)
    grupo.foldl (fun st l =>
      let r := matchContaSicredi u closest srt (rangeOrder st.1.length) l.Descricao st.2
        allKeys classPrefixes
      (st.1 ++ [rowC dataLancamento l r.1.1], r.2))
      (st.1 ++ [rowD grupo], st.2)

/-- The variables of the loop of `montarOutputSicredi`. -/
structure SicrediState where
  finalRows : List OutputRow
  contasEntries : SicrediMap
  group : List Lancamento
  currentDate : ℤ

/-- The loop body of `montarOutputSicredi` (service.go 434-442). -/
def sicrediStep (u : UnicodeTables) (closest : Closest)
    (srt : (ContaSicredi → ContaSicredi → Bool) → List ContaSicredi → List ContaSicredi)
    (rangeOrder : Nat → List Str) (allKeys classPrefixes : List Str) (st : SicrediState)
    (l : Lancamento) : SicrediState :=
  if l.DataLiquidacao == st.currentDate then { st with group := st.group ++ [l] }
  else
    let r := processarGrupoSicredi u closest srt rangeOrder st.group
      (st.finalRows, st.contasEntries) allKeys classPrefixes
    { finalRows := r.1, contasEntries := r.2, group := [l], currentDate := l.DataLiquidacao }

/-- Source `montarOutputSicredi` (service.go 425-446); the nil slice is the empty list. -/
def montarOutputSicredi (u : UnicodeTables) (closest : Closest)
    (srt : (ContaSicredi → ContaSicredi → Bool) → List ContaSicredi → List ContaSicredi)
    (rangeOrder : Nat → List Str) (lancamentos : List Lancamento)
    (contasEntries : SicrediMap) (allKeys classPrefixes : List Str) : List OutputRow :=
  match lancamentos with
  | [] => []
  | first :: _ =>
    let st := lancamentos.foldl (sicrediStep u closest srt rangeOrder allKeys classPrefixes)
      ⟨[], contasEntries, [], first.DataLiquidacao⟩
    (processarGrupoSicredi u closest srt rangeOrder st.group (st.finalRows, st.contasEntries)
      allKeys classPrefixes).1

/-- An output row without the account code that the matcher gave to a "C" row. -/
def withoutMatchedCode (r : OutputRow) : OutputRow :=
  if r.Operacao == "C".toList then { r with ContaCredito := [] } else r

/-- The sum of a list of `float64` values: zero for the empty list, and for a list with a
last value the sum of the values before it plus that value. -/
def sumInOrder (vs : List F64) : F64 :=
  vs.reverse.foldr (fun v total => total.add v) (.fin 0)

/-- The rows of a group of entries of one settlement date: the "D" row, with the account
"999999" and the sum of the values of the group, then a "C" row for each entry in
order, with its description, its value and its memo; each row dated the day after the
settlement date; the "C" rows without their account codes. -/
def groupRows (grupo : List Lancamento) : List OutputRow :=
  { Operacao := "D".toList
    Data := nextDayText ((grupo.head?.map (fun l => l.DataLiquidacao)).getD 0)
    DescricaoCredito := []
    ContaCredito := "999999".toList
    Valor := valorText (sumInOrder (grupo.map (fun l => l.Valor)))
    Historico := "TÍTULOS RECEBIDOS NA DATA".toList } ::
  grupo.map (fun l =>
    { Operacao := "C".toList
      Data := nextDayText l.DataLiquidacao
      DescricaoCredito := l.Descricao
      ContaCredito := []
      Valor := valorText l.Valor
      Historico := l.Historico })

/-- The test of two entries for the same settlement date. -/
def sameDate (a b : Lancamento) : Bool := a.DataLiquidacao == b.DataLiquidacao

/-- A chart of the Sicredi conversion with the account "CAIXA". -/
def demoSicrediMap : SicrediMap := fun k =>
  if k = "CAIXA".toList then some [⟨"10".toList, "1.1".toList, "Caixa".toList⟩] else none

/-- Three Sicredi entries sorted by settlement date: two of 2024-05-10 and one of
2024-05-13. -/
def demoLancamentos : List Lancamento :=
  [⟨timeOfDate ⟨2024, 5, 10⟩, "Caixa".toList, .fin (3 / 2), "h1".toList⟩,
   ⟨timeOfDate ⟨2024, 5, 10⟩, "Outro".toList, .fin 2, "h2".toList⟩,
   ⟨timeOfDate ⟨2024, 5, 13⟩, "Caixa".toList, .fin 5, "h3".toList⟩]

/-- The integer nearest to a rational number, a tie going to the integer away from
zero. -/
def roundHalfAway (p : ℚ) : ℤ := if 0 ≤ p then ⌊p + 1 / 2⌋ else ⌈p - 1 / 2⌉

/-- Whole numbers of cents for the values of `demoLancamentos`. -/
def demoCents : List ℕ := [150, 200]

end Converter

/-! # Theorems -/

namespace Converter

/-! ## Text normalisation -/

theorem trimLeft_suffix (s : Str) : trimLeft s <:+ s := by
  induction s with
  | nil => exact List.suffix_refl _
  | cons c cs ih =>
    unfold trimLeft
    split
    · exact ih.trans (List.suffix_cons c cs)
    · exact List.suffix_refl _

theorem trimLeft_head (s : Str) (c : Char) (h : (trimLeft s).head? = some c) :
    isSpace c = false := by
  induction s with
  | nil => simp [trimLeft] at h
  | cons a cs ih =>
    unfold trimLeft at h
    split at h
    · exact ih h
    · simp at h; subst h; simpa using ‹¬ isSpace a = true›

theorem trimLeft_eq_self (s : Str) (h : ∀ c, s.head? = some c → isSpace c = false) :
    trimLeft s = s := by
  cases s with
  | nil => rfl
  | cons a cs =>
    have := h a rfl
    simp [trimLeft, this]

theorem trimSpace_prefix_trimLeft (s : Str) : trimSpace s <+: trimLeft s := by
  unfold trimSpace
  have h := trimLeft_suffix (trimLeft s).reverse
  have := List.reverse_prefix.mpr h
  simpa using this

theorem trimSpace_sub (s : Str) : trimSpace s <:+: s :=
  (trimSpace_prefix_trimLeft s).isInfix.trans (trimLeft_suffix s).isInfix

theorem trimSpace_head (s : Str) (c : Char) (h : (trimSpace s).head? = some c) :
    isSpace c = false := by
  obtain ⟨w, hw⟩ := trimSpace_prefix_trimLeft s
  apply trimLeft_head s c
  rw [← hw]
  cases hts : trimSpace s with
  | nil => rw [hts] at h; simp at h
  | cons a as => rw [hts] at h; simpa using h

theorem trimSpace_getLast (s : Str) (c : Char) (h : (trimSpace s).getLast? = some c) :
    isSpace c = false := by
  unfold trimSpace at h
  rw [List.getLast?_reverse] at h
  exact trimLeft_head _ c h

theorem trimSpace_eq_self (s : Str) (hh : ∀ c, s.head? = some c → isSpace c = false)
    (hl : ∀ c, s.getLast? = some c → isSpace c = false) : trimSpace s = s := by
  unfold trimSpace
  rw [trimLeft_eq_self s hh, trimLeft_eq_self s.reverse (by simpa using hl)]
  simp

theorem replaceRunsAux_mem (p : Char → Bool) (s : Str) (b : Bool) (c : Char)
    (h : c ∈ replaceRunsAux p b s) : c = ' ' ∨ (c ∈ s ∧ p c = false) := by
  induction s generalizing b with
  | nil => simp [replaceRunsAux] at h
  | cons a as ih =>
    unfold replaceRunsAux at h
    split at h
    · split at h
      · rcases ih _ h with h1 | h1
        · exact Or.inl h1
        · exact Or.inr ⟨List.mem_cons_of_mem _ h1.1, h1.2⟩
      · rcases List.mem_cons.mp h with h1 | h1
        · exact Or.inl h1
        · rcases ih _ h1 with h2 | h2
          · exact Or.inl h2
          · exact Or.inr ⟨List.mem_cons_of_mem _ h2.1, h2.2⟩
    · rcases List.mem_cons.mp h with h1 | h1
      · subst h1; exact Or.inr ⟨List.mem_cons_self _ _, by simpa using ‹¬ p c = true›⟩
      · rcases ih _ h1 with h2 | h2
        · exact Or.inl h2
        · exact Or.inr ⟨List.mem_cons_of_mem _ h2.1, h2.2⟩

/-- After a run replacement, no two characters of the class are adjacent in the output. -/
theorem replaceRunsAux_chain (p : Char → Bool) (s : Str) (b : Bool) :
    (replaceRunsAux p b s).Chain' (fun x y => ¬ (p x = true ∧ p y = true)) ∧
    (b = true → ∀ c, (replaceRunsAux p b s).head? = some c → p c = false) := by
  induction s generalizing b with
  | nil => simp [replaceRunsAux]
  | cons a as ih =>
    unfold replaceRunsAux
    by_cases hpa : p a = true
    · simp only [hpa, if_true]
      cases b with
      | true =>
        simp only [if_true]
        exact ⟨(ih true).1, fun _ => (ih true).2 rfl⟩
      | false =>
        simp only [Bool.false_eq_true, if_false]
        refine ⟨?_, fun h => by simp at h⟩
        rw [List.chain'_cons']
        refine ⟨fun y hy => ?_, (ih true).1⟩
        have := (ih true).2 rfl y hy
        simp [this]
    · have hpa2 : p a = false := by simpa using hpa
      simp only [hpa2, Bool.false_eq_true, if_false]
      refine ⟨?_, fun _ c hc => ?_⟩
      · rw [List.chain'_cons']
        refine ⟨fun y _ => by simp [hpa2], (ih false).1⟩
      · simp at hc; subst hc; exact hpa2

theorem replaceRunsAux_id (p : Char → Bool) (s : Str) (b : Bool)
    (hch : s.Chain' (fun x y => ¬ (p x = true ∧ p y = true)))
    (hsp : ∀ c ∈ s, p c = true → c = ' ')
    (hb : b = true → ∀ c, s.head? = some c → p c = false) :
    replaceRunsAux p b s = s := by
  induction s generalizing b with
  | nil => rfl
  | cons a as ih =>
    rw [List.chain'_cons'] at hch
    unfold replaceRunsAux
    by_cases hpa : p a = true
    · have hbf : b = false := by
        cases b with
        | false => rfl
        | true => have := hb rfl a rfl; simp [hpa] at this
      have ha : a = ' ' := hsp a (List.mem_cons_self _ _) hpa
      simp only [hpa, if_true, hbf, Bool.false_eq_true, if_false]
      rw [ih true hch.2 (fun c hc => hsp c (List.mem_cons_of_mem _ hc))
        (fun _ c hc => by have := hch.1 c hc; simpa [hpa] using this), ha]
    · have hpa2 : p a = false := by simpa using hpa
      simp only [hpa2, Bool.false_eq_true, if_false]
      rw [ih false hch.2 (fun c hc => hsp c (List.mem_cons_of_mem _ hc)) (fun h => by simp at h)]

theorem isUpperAlnumSpace_space_cases (c : Char) (h : isUpperAlnumSpace c = true) :
    (isReSpace c = true → c = ' ') ∧ (isSpace c = true → c = ' ') := by
  have hc : c.toNat = 32 → c = ' ' := fun h32 => by
    have h1 := congrArg Char.ofNat h32
    simpa using h1
  simp only [isUpperAlnumSpace, isReSpace, isSpace, Bool.or_eq_true, Bool.and_eq_true,
    decide_eq_true_eq, beq_iff_eq] at h ⊢
  refine ⟨fun h2 => hc ?_, fun h2 => hc ?_⟩ <;> omega

theorem chain_of_forall_left {α : Type} {R : α → α → Prop} (l : List α)
    (h : ∀ a ∈ l, ∀ b, R a b) : l.Chain' R := by
  induction l with
  | nil => exact List.chain'_nil
  | cons a as ih =>
    rw [List.chain'_cons']
    exact ⟨fun y _ => h a (List.mem_cons_self _ _) y,
      ih (fun c hc => h c (List.mem_cons_of_mem _ hc))⟩

theorem normalizeText_shape (u : UnicodeTables) (s : Str) :
    (∀ c ∈ normalizeText u s, isUpperAlnumSpace c = true) ∧
    (normalizeText u s).Chain' (fun x y => ¬ (isReSpace x = true ∧ isReSpace y = true)) ∧
    (∀ c, (normalizeText u s).head? = some c → isSpace c = false) ∧
    (∀ c, (normalizeText u s).getLast? = some c → isSpace c = false) := by
  unfold normalizeText
  simp only
  generalize ((u.nfd s).filter (fun r => !u.isMn r)).map u.toUpper = x
  have h1 : ∀ c ∈ replaceRuns (fun c => !isUpperAlnumSpace c) x, isUpperAlnumSpace c = true := by
    intro c hc
    rcases replaceRunsAux_mem _ _ _ _ hc with h | h
    · subst h; decide
    · simpa using h.2
  have h2 : ∀ c ∈ replaceRuns isReSpace (replaceRuns (fun c => !isUpperAlnumSpace c) x),
      isUpperAlnumSpace c = true := by
    intro c hc
    rcases replaceRunsAux_mem _ _ _ _ hc with h | h
    · subst h; decide
    · exact h1 c h.1
  have h3 := (replaceRunsAux_chain isReSpace (replaceRuns (fun c => !isUpperAlnumSpace c) x)
    false).1
  refine ⟨fun c hc => h2 c ((trimSpace_sub _).subset hc), ?_, trimSpace_head _,
    trimSpace_getLast _⟩
  exact List.Chain'.infix h3 (trimSpace_sub _)

theorem normalizeText_fixed (u : UnicodeTables) (hu : AsciiStable u) (r : Str)
    (h1 : ∀ c ∈ r, isUpperAlnumSpace c = true)
    (h2 : r.Chain' (fun x y => ¬ (isReSpace x = true ∧ isReSpace y = true)))
    (h3 : ∀ c, r.head? = some c → isSpace c = false)
    (h4 : ∀ c, r.getLast? = some c → isSpace c = false) : normalizeText u r = r := by
  unfold normalizeText
  simp only
  have e1 : (u.nfd r).filter (fun r => !u.isMn r) = r := by
    rw [hu.1 r h1, List.filter_eq_self]
    intro c hc
    simp [(hu.2 c (h1 c hc)).1]
  have e2 : r.map u.toUpper = r := by
    conv_rhs => rw [← List.map_id r]
    exact List.map_congr_left (fun c hc => (hu.2 c (h1 c hc)).2)
  have e3 : replaceRuns (fun c => !isUpperAlnumSpace c) r = r := by
    unfold replaceRuns
    apply replaceRunsAux_id
    · exact chain_of_forall_left r (fun a ha b => by simp [h1 a ha])
    · intro c hc hp
      simp [h1 c hc] at hp
    · intro h; simp at h
  have e4 : replaceRuns isReSpace r = r := by
    unfold replaceRuns
    apply replaceRunsAux_id _ _ _ h2
    · intro c hc hp
      exact (isUpperAlnumSpace_space_cases c (h1 c hc)).1 hp
    · intro h; simp at h
  rw [e1, e2, e3, e4]
  exact trimSpace_eq_self r h3 h4

theorem latin1Tables_asciiStable : AsciiStable latin1Tables := by
  have key : ∀ c, isUpperAlnumSpace c = true → latin1Decomp c = [c] ∧ latin1ToUpper c = c ∧
      ¬ (0x300 ≤ c.toNat) := by
    intro c hc
    simp only [isUpperAlnumSpace, Bool.or_eq_true, Bool.and_eq_true, decide_eq_true_eq,
      beq_iff_eq] at hc
    have hle : c.toNat ≤ 90 := by omega
    refine ⟨?_, ?_, by omega⟩
    · unfold latin1Decomp
      simp only
      repeat (rw [if_neg (by simp only [beq_iff_eq]; omega)])
    · unfold latin1ToUpper
      simp only
      rw [if_neg (by simp only [Bool.and_eq_true, decide_eq_true_eq]; omega),
        if_neg (by simp only [Bool.and_eq_true, decide_eq_true_eq, bne_iff_ne]; omega),
        if_neg (by simp only [beq_iff_eq]; omega), if_neg (by simp only [beq_iff_eq]; omega)]
  constructor
  · intro s hs
    show s.flatMap latin1Decomp = s
    induction s with
    | nil => rfl
    | cons a as ih =>
      rw [List.flatMap_cons, (key a (hs a (List.mem_cons_self _ _))).1,
        ih (fun c hc => hs c (List.mem_cons_of_mem _ hc))]
      rfl
  · intro c hc
    refine ⟨?_, (key c hc).2.1⟩
    show (decide (0x300 ≤ c.toNat) && decide (c.toNat ≤ 0x36F)) = false
    have := (key c hc).2.2
    simp [this]

/-- C9: `normalizeText` maps "Ação" to "ACAO" and "SÃO PAULO" to "SAO PAULO" (with the
Unicode data of the Latin-1 block). -/
theorem C9_normalizeText_examples :
    normalizeText latin1Tables "Ação".toList = "ACAO".toList ∧
    normalizeText latin1Tables "SÃO PAULO".toList = "SAO PAULO".toList := by
  decide

/-- C10: for every input (and whatever the Unicode tables), the output of `normalizeText`
holds only characters of `A-Z`, `0-9` and the space, has no two consecutive spaces and
neither starts nor ends with a space; hence, when the Unicode tables leave such text
unchanged, `normalizeText` is idempotent. -/
theorem C10_normalizeText_output_shape (u : UnicodeTables) (s : Str) :
    (∀ c ∈ normalizeText u s, isUpperAlnumSpace c = true) ∧
    (normalizeText u s).Chain' (fun x y => ¬ (x = ' ' ∧ y = ' ')) ∧
    (normalizeText u s).head? ≠ some ' ' ∧
    (normalizeText u s).getLast? ≠ some ' ' ∧
    (AsciiStable u → normalizeText u (normalizeText u s) = normalizeText u s) := by
  obtain ⟨h1, h2, h3, h4⟩ := normalizeText_shape u s
  refine ⟨h1, ?_, ?_, ?_, fun hu => normalizeText_fixed u hu _ h1 h2 h3 h4⟩
  · refine List.Chain'.imp ?_ h2
    rintro a b hab ⟨rfl, rfl⟩
    exact hab ⟨by decide, by decide⟩
  · intro h
    have := h3 _ h
    revert this; decide
  · intro h
    have := h4 _ h
    revert this; decide

/-- Witness for C10 on the Latin-1 tables: normalising "  Ação -- 12 " twice is the same
as normalising it once. -/
theorem C10_normalizeText_output_shape_witness :
    normalizeText latin1Tables (normalizeText latin1Tables "  Ação -- 12 ".toList) =
      normalizeText latin1Tables "  Ação -- 12 ".toList :=
  (C10_normalizeText_output_shape latin1Tables "  Ação -- 12 ".toList).2.2.2.2
    latin1Tables_asciiStable

/-! ## The matchers -/

theorem matchesAny_iff (P : List Str) (c : Str) :
    matchesAny P c = true ↔ ∃ p ∈ P, p <+: c := by
  simp [matchesAny, hasPrefixStr, List.any_eq_true]

theorem insertStable_perm {α : Type} (less : α → α → Bool) (a : α) (l : List α) :
    (insertStable less a l).Perm (a :: l) := by
  induction l with
  | nil => exact List.Perm.refl _
  | cons b l ih =>
    unfold insertStable
    split
    · exact (List.Perm.cons b ih).trans (List.Perm.swap a b l)
    · exact List.Perm.refl _

theorem sortSliceStable_perm {α : Type} (less : α → α → Bool) (l : List α) :
    (sortSliceStable less l).Perm l := by
  induction l with
  | nil => exact List.Perm.refl _
  | cons a l ih =>
    unfold sortSliceStable
    exact (insertStable_perm less a _).trans (List.Perm.cons a ih)

theorem insertStable_sorted {α : Type} (key : α → Nat) (a : α) (l : List α)
    (h : l.Pairwise (fun x y => key y ≤ key x)) :
    (insertStable (fun x y => decide (key x > key y)) a l).Pairwise
      (fun x y => key y ≤ key x) := by
  induction l with
  | nil => simp [insertStable]
  | cons b l ih =>
    unfold insertStable
    rw [List.pairwise_cons] at h
    by_cases hba : key b > key a
    · simp only [hba, decide_True, if_true]
      rw [List.pairwise_cons]
      refine ⟨fun y hy => ?_, ih h.2⟩
      rcases List.mem_cons.mp ((insertStable_perm _ a l).subset hy) with h1 | h1
      · subst h1; omega
      · exact h.1 y h1
    · simp only [hba, decide_False, Bool.false_eq_true, if_false]
      rw [List.pairwise_cons]
      refine ⟨fun y hy => ?_, List.pairwise_cons.mpr h⟩
      rcases List.mem_cons.mp hy with h1 | h1
      · subst h1; omega
      · have := h.1 y h1; omega

theorem sortSliceStable_sorted {α : Type} (key : α → Nat) (l : List α) :
    (sortSliceStable (fun x y => decide (key x > key y)) l).Pairwise
      (fun x y => key y ≤ key x) := by
  induction l with
  | nil => simp [sortSliceStable]
  | cons a l ih =>
    unfold sortSliceStable
    exact insertStable_sorted key a _ ih

/-- The stable insertion sort meets the contract of `sort.Slice`. -/
theorem sortSliceStable_contract {α : Type} :
    SortContract (sortSliceStable : (α → α → Bool) → List α → List α) :=
  fun key l => ⟨sortSliceStable_perm _ l, sortSliceStable_sorted key l⟩

theorem head_max_of_sorted {α : Type} (key : α → Nat) (l l2 rest : List α) (b : α)
    (hp : l2.Perm l) (hs : l2.Pairwise (fun x y => key y ≤ key x))
    (h : l2 = b :: rest) : b ∈ l ∧ ∀ e ∈ l, key e ≤ key b := by
  subst h
  refine ⟨hp.subset (List.mem_cons_self _ _), fun e he => ?_⟩
  rcases List.mem_cons.mp (hp.symm.subset he) with h1 | h1
  · subst h1; exact Nat.le_refl _
  · exact (List.pairwise_cons.mp hs).1 e h1

theorem pickBest_some (entries : List accEntry) (P : List Str) (b : accEntry)
    (es2 : List accEntry) (h : pickBest entries P = some (b, es2)) :
    b ∈ entries ∧ satisfies P b.Classif ∧ (P ≠ [] → ∃ p ∈ P, p <+: b.Classif) ∧
    (∀ e ∈ entries, satisfies P e.Classif → byteLen e.Classif ≤ byteLen b.Classif) := by
  unfold pickBest at h
  simp only at h
  have hc := sortSliceStable_contract (fun e : accEntry => byteLen e.Classif)
  by_cases hP : P = []
  · subst hP
    simp only [List.length_nil, gt_iff_lt, Nat.lt_irrefl, if_false] at h
    split at h
    · exact absurd h (by simp)
    · split at h
      · exact absurd h (by simp)
      · rename_i b2 rest heq
        simp only [Option.some.injEq, Prod.mk.injEq] at h
        obtain ⟨rfl, -⟩ := h
        obtain ⟨hm, hmax⟩ := head_max_of_sorted _ entries _ rest b2 (hc entries).1
          (hc entries).2 heq
        exact ⟨hm, Or.inl rfl, fun hne => absurd rfl hne, fun e he _ => hmax e he⟩
  · have hlen : P.length > 0 := List.length_pos.mpr hP
    simp only [hlen, if_true] at h
    split at h
    · split at h
      · exact absurd h (by simp)
      · rename_i b2 rest heq
        simp only [Option.some.injEq, Prod.mk.injEq] at h
        obtain ⟨rfl, -⟩ := h
        obtain ⟨hm, hmax⟩ := head_max_of_sorted _ _ _ rest b2 (hc _).1 (hc _).2 heq
        rw [List.mem_filter, matchesAny_iff] at hm
        refine ⟨hm.1, Or.inr hm.2, fun _ => hm.2, fun e he hs => hmax e ?_⟩
        rw [List.mem_filter, matchesAny_iff]
        rcases hs with hs | hs
        · exact absurd hs hP
        · exact ⟨he, hs⟩
    · exact absurd h (by simp)

theorem pickBest_isSome (entries : List accEntry) (P : List Str)
    (h : ∃ e ∈ entries, satisfies P e.Classif) : ∃ r, pickBest entries P = some r := by
  obtain ⟨e, he, hs⟩ := h
  unfold pickBest
  simp only
  have hperm := fun l => sortSliceStable_perm
    (fun (a b : accEntry) => decide (byteLen a.Classif > byteLen b.Classif)) l
  by_cases hP : P = []
  · subst hP
    simp only [List.length_nil, gt_iff_lt, Nat.lt_irrefl, if_false]
    have hne : entries ≠ [] := List.ne_nil_of_mem he
    have hl : (entries.length == 0) = false := by
      simpa using hne
    simp only [hl, Bool.false_eq_true, if_false]
    cases hsort : sortSliceStable
        (fun (a b : accEntry) => decide (byteLen a.Classif > byteLen b.Classif)) entries with
    | nil =>
      have := (hperm entries).length_eq
      rw [hsort] at this
      exact absurd (List.length_eq_zero.mp this.symm) hne
    | cons b rest => exact ⟨_, rfl⟩
  · have hlen : P.length > 0 := List.length_pos.mpr hP
    have hsat : matchesAny P e.Classif = true := by
      rcases hs with hs | hs
      · exact absurd hs hP
      · exact (matchesAny_iff _ _).mpr hs
    have hmem : e ∈ entries.filter (fun e => matchesAny P e.Classif) :=
      List.mem_filter.mpr ⟨he, hsat⟩
    have hne : entries.filter (fun e => matchesAny P e.Classif) ≠ [] := List.ne_nil_of_mem hmem
    have hl : (entries.filter (fun e => matchesAny P e.Classif)).length > 0 :=
      List.length_pos.mpr hne
    simp only [hlen, if_true, hl]
    cases hsort : sortSliceStable
        (fun (a b : accEntry) => decide (byteLen a.Classif > byteLen b.Classif))
        (entries.filter (fun e => matchesAny P e.Classif)) with
    | nil =>
      have := (hperm (entries.filter (fun e => matchesAny P e.Classif))).length_eq
      rw [hsort] at this
      exact absurd (List.length_eq_zero.mp this.symm) hne
    | cons b rest => exact ⟨_, rfl⟩

theorem pickBestEntry_some
    (srt : (ContaEntry → ContaEntry → Bool) → List ContaEntry → List ContaEntry)
    (hsrt : SortContract srt) (entries : List ContaEntry) (P : List Str) (b : ContaEntry)
    (es2 : List ContaEntry) (h : pickBestEntry srt entries P = some (b, es2)) :
    b ∈ entries ∧ satisfies P b.Classf ∧ (P ≠ [] → ∃ p ∈ P, p <+: b.Classf) ∧
    (∀ e ∈ entries, satisfies P e.Classf → byteLen e.Classf ≤ byteLen b.Classf) := by
  unfold pickBestEntry at h
  simp only at h
  have hc := hsrt (fun e : ContaEntry => byteLen e.Classf)
  by_cases hP : P = []
  · subst hP
    simp only [List.length_nil, gt_iff_lt, Nat.lt_irrefl, if_false] at h
    split at h
    · exact absurd h (by simp)
    · split at h
      · exact absurd h (by simp)
      · rename_i b2 rest heq
        simp only [Option.some.injEq, Prod.mk.injEq] at h
        obtain ⟨rfl, -⟩ := h
        obtain ⟨hm, hmax⟩ := head_max_of_sorted (fun e : ContaEntry => byteLen e.Classf)
          entries _ rest b2 (hc entries).1 (hc entries).2 heq
        exact ⟨hm, Or.inl rfl, fun hne => absurd rfl hne, fun e he _ => hmax e he⟩
  · have hlen : P.length > 0 := List.length_pos.mpr hP
    simp only [hlen, if_true] at h
    split at h
    · split at h
      · exact absurd h (by simp)
      · rename_i b2 rest heq
        simp only [Option.some.injEq, Prod.mk.injEq] at h
        obtain ⟨rfl, -⟩ := h
        obtain ⟨hm, hmax⟩ := head_max_of_sorted (fun e : ContaEntry => byteLen e.Classf)
          _ _ rest b2 (hc _).1 (hc _).2 heq
        rw [List.mem_filter, matchesAny_iff] at hm
        refine ⟨hm.1, Or.inr hm.2, fun _ => hm.2, fun e he hs => hmax e ?_⟩
        rw [List.mem_filter, matchesAny_iff]
        rcases hs with hs | hs
        · exact absurd hs hP
        · exact ⟨he, hs⟩
    · exact absurd h (by simp)

theorem pickBestEntry_isSome
    (srt : (ContaEntry → ContaEntry → Bool) → List ContaEntry → List ContaEntry)
    (hsrt : SortContract srt) (entries : List ContaEntry) (P : List Str)
    (h : ∃ e ∈ entries, satisfies P e.Classf) : ∃ r, pickBestEntry srt entries P = some r := by
  obtain ⟨e, he, hs⟩ := h
  unfold pickBestEntry
  simp only
  have hperm := fun l => (hsrt (fun e : ContaEntry => byteLen e.Classf) l).1
  by_cases hP : P = []
  · subst hP
    simp only [List.length_nil, gt_iff_lt, Nat.lt_irrefl, if_false]
    have hne : entries ≠ [] := List.ne_nil_of_mem he
    have hl : (entries.length == 0) = false := by
      simpa using hne
    simp only [hl, Bool.false_eq_true, if_false]
    cases hsort : srt
        (fun (a b : ContaEntry) => decide (byteLen a.Classf > byteLen b.Classf)) entries with
    | nil =>
      have := (hperm entries).length_eq
      rw [hsort] at this
      exact absurd (List.length_eq_zero.mp this.symm) hne
    | cons b rest => exact ⟨_, rfl⟩
  · have hlen : P.length > 0 := List.length_pos.mpr hP
    have hsat : matchesAny P e.Classf = true := by
      rcases hs with hs | hs
      · exact absurd hs hP
      · exact (matchesAny_iff _ _).mpr hs
    have hmem : e ∈ entries.filter (fun e => matchesAny P e.Classf) :=
      List.mem_filter.mpr ⟨he, hsat⟩
    have hne : entries.filter (fun e => matchesAny P e.Classf) ≠ [] := List.ne_nil_of_mem hmem
    have hl : (entries.filter (fun e => matchesAny P e.Classf)).length > 0 :=
      List.length_pos.mpr hne
    simp only [hlen, if_true, hl]
    cases hsort : srt
        (fun (a b : ContaEntry) => decide (byteLen a.Classf > byteLen b.Classf))
        (entries.filter (fun e => matchesAny P e.Classf)) with
    | nil =>
      have := (hperm (entries.filter (fun e => matchesAny P e.Classf))).length_eq
      rw [hsort] at this
      exact absurd (List.length_eq_zero.mp this.symm) hne
    | cons b rest => exact ⟨_, rfl⟩

/-- What a successful `tryKey` returns: the trimmed code of an entry stored under the key
that satisfies the filter and is of maximal classification length among those. -/
theorem tryKey_some (m : AccMap) (P : List Str) (key : Str) (r : Str × AccMap)
    (h : tryKey m P key = some r) :
    ∃ l b, m key = some l ∧ b ∈ l ∧ satisfies P b.Classif ∧
      (P ≠ [] → ∃ p ∈ P, p <+: b.Classif) ∧
      (∀ e ∈ l, satisfies P e.Classif → byteLen e.Classif ≤ byteLen b.Classif) ∧
      r.1 = trimSpace b.ID := by
  unfold tryKey at h
  split at h
  · exact absurd h (by simp)
  · split at h
    · rename_i entries hm
      split at h
      · split at h
        · rename_i be es2 hpb
          obtain ⟨h1, h2, h3, h4⟩ := pickBest_some entries P be es2 hpb
          simp only [Option.some.injEq] at h
          subst h
          exact ⟨entries, be, hm, h1, h2, h3, h4, rfl⟩
        · exact absurd h (by simp)
      · exact absurd h (by simp)
    · exact absurd h (by simp)

theorem tryKey_isSome (m : AccMap) (P : List Str) (key : Str) (l : List accEntry)
    (hkey : key ≠ []) (hm : m key = some l) (h : ∃ e ∈ l, satisfies P e.Classif) :
    ∃ r, tryKey m P key = some r := by
  obtain ⟨⟨b, es2⟩, hr⟩ := pickBest_isSome l P h
  obtain ⟨e, he, -⟩ := h
  have hl : l.length > 0 := List.length_pos.mpr (List.ne_nil_of_mem he)
  unfold tryKey
  have hk : (key == []) = false := by simpa using hkey
  simp only [hk, Bool.false_eq_true, if_false, hm, hl, if_true, hr]
  exact ⟨_, rfl⟩

theorem lookupEntry_some
    (srt : (ContaEntry → ContaEntry → Bool) → List ContaEntry → List ContaEntry)
    (hsrt : SortContract srt) (m : ContaMap) (P : List Str) (key : Str) (r : Str × ContaMap)
    (h : lookupEntry srt m P key = some r) :
    ∃ l b, m key = some l ∧ b ∈ l ∧ satisfies P b.Classf ∧
      (P ≠ [] → ∃ p ∈ P, p <+: b.Classf) ∧
      (∀ e ∈ l, satisfies P e.Classf → byteLen e.Classf ≤ byteLen b.Classf) ∧
      r.1 = trimSpace b.Code := by
  unfold lookupEntry at h
  split at h
  · rename_i entries hm
    split at h
    · split at h
      · rename_i be es2 hpb
        obtain ⟨h1, h2, h3, h4⟩ := pickBestEntry_some srt hsrt entries P be es2 hpb
        simp only [Option.some.injEq] at h
        subst h
        exact ⟨entries, be, hm, h1, h2, h3, h4, rfl⟩
      · exact absurd h (by simp)
    · exact absurd h (by simp)
  · exact absurd h (by simp)

theorem lookupEntry_isSome
    (srt : (ContaEntry → ContaEntry → Bool) → List ContaEntry → List ContaEntry)
    (hsrt : SortContract srt) (m : ContaMap) (P : List Str) (key : Str) (l : List ContaEntry)
    (hm : m key = some l) (h : ∃ e ∈ l, satisfies P e.Classf) :
    ∃ r, lookupEntry srt m P key = some r := by
  obtain ⟨⟨b, es2⟩, hr⟩ := pickBestEntry_isSome srt hsrt l P h
  obtain ⟨e, he, -⟩ := h
  have hl : l.length > 0 := List.length_pos.mpr (List.ne_nil_of_mem he)
  unfold lookupEntry
  simp only [hm, hl, if_true, hr]
  exact ⟨_, rfl⟩

/-- Case principle for `buscarContaAtolini`: a property of the sentinel result and of
every successful `tryKey` holds of the result. -/
theorem buscarContaAtolini_cases (u : UnicodeTables) (closest : Closest) (texto : Str)
    (m : AccMap) (idx : List Str) (P : List Str) (Q : Str × AccMap → Prop)
    (hs : Q (sentinel, m)) (ht : ∀ key r, tryKey m P key = some r → Q r) :
    Q (buscarContaAtolini u closest texto m idx P) := by
  have hmatch : ∀ (o : Option (Str × AccMap)) (d : Str × AccMap),
      (∀ r, o = some r → Q r) → Q d → Q (match o with | some r => r | none => d) := by
    intro o d h1 h2
    cases o with
    | none => exact h2
    | some r => exact h1 r rfl
  have hite : ∀ (c : Prop) [Decidable c] (a b : Str × AccMap),
      Q a → Q b → Q (if c then a else b) := by
    intro c _ a b ha hb
    split <;> assumption
  have ht2 : ∀ (c : Prop) [Decidable c] (key : Str) (r : Str × AccMap),
      (if c then tryKey m P key else none) = some r → Q r := by
    intro c _ key r h
    split at h
    · exact ht _ _ h
    · exact absurd h (by simp)
  unfold buscarContaAtolini
  simp only
  apply hite _ _ _ hs
  apply hite _ _ _ hs
  apply hmatch _ _ (ht _)
  apply hmatch _ _ (ht2 _ _)
  apply hite _ _ _ hs
  apply hite _ _ _ ?_ hs
  apply hmatch _ _ (ht2 _ _)
  apply hite _ _ _ ?_ hs
  exact hmatch _ _ (ht2 _ _) hs

/-- Case principle for `findContaCodigoByDescricao`. -/
theorem findContaCodigoByDescricao_cases (u : UnicodeTables) (closest : Closest)
    (srt : (ContaEntry → ContaEntry → Bool) → List ContaEntry → List ContaEntry)
    (descricao : Str) (idx : List Str) (m : ContaMap) (P : List Str)
    (Q : Str × ContaMap → Prop) (hs : Q (sentinel, m))
    (ht : ∀ key r, lookupEntry srt m P key = some r → Q r) :
    Q (findContaCodigoByDescricao u closest srt descricao idx m P) := by
  have hmatch : ∀ (o : Option (Str × ContaMap)) (d : Str × ContaMap),
      (∀ r, o = some r → Q r) → Q d → Q (match o with | some r => r | none => d) := by
    intro o d h1 h2
    cases o with
    | none => exact h2
    | some r => exact h1 r rfl
  have hite : ∀ (c : Prop) [Decidable c] (a b : Str × ContaMap),
      Q a → Q b → Q (if c then a else b) := by
    intro c _ a b ha hb
    split <;> assumption
  have ht2 : ∀ (c : Prop) [Decidable c] (key : Str) (r : Str × ContaMap),
      (if c then lookupEntry srt m P key else none) = some r → Q r := by
    intro c _ key r h
    split at h
    · exact ht _ _ h
    · exact absurd h (by simp)
  unfold findContaCodigoByDescricao
  simp only
  apply hite _ _ _ hs
  apply hmatch _ _ (ht _)
  apply hmatch _ _ (ht2 _ _)
  apply hite _ _ _ hs
  apply hite _ _ _ ?_ hs
  apply hmatch _ _ (ht2 _ _)
  apply hite _ _ _ ?_ hs
  exact hmatch _ _ (ht2 _ _) hs

theorem buscarContaAtolini_exact (u : UnicodeTables) (closest : Closest) (texto : Str)
    (m : AccMap) (idx : List Str) (P : List Str) (r : Str × AccMap)
    (ht : trimSpace texto ≠ []) (hn : normalizeText u (trimSpace texto) ≠ [])
    (hr : tryKey m P (normalizeText u (trimSpace texto)) = some r) :
    buscarContaAtolini u closest texto m idx P = r := by
  unfold buscarContaAtolini
  simp [ht, hn, hr]

theorem findContaCodigoByDescricao_exact (u : UnicodeTables) (closest : Closest)
    (srt : (ContaEntry → ContaEntry → Bool) → List ContaEntry → List ContaEntry)
    (descricao : Str) (idx : List Str) (m : ContaMap) (P : List Str) (r : Str × ContaMap)
    (ht : trimSpace descricao ≠ [])
    (hr : lookupEntry srt m P (normalizeText u descricao) = some r) :
    findContaCodigoByDescricao u closest srt descricao idx m P = r := by
  unfold findContaCodigoByDescricao
  simp [ht, hr]

theorem normalizeText_nil (u : UnicodeTables) (h : u.nfd [] = []) : normalizeText u [] = [] := by
  unfold normalizeText
  simp only [h]
  rfl

/-- C1: with a non-empty prefix list `P`, whatever the chart, the description and the
answers of the fuzzy search, both matchers return "999999" or the trimmed code of a chart
record whose classification starts with a prefix of `P`; when no record of the chart
satisfies `P` they return "999999". -/
theorem C1_filter_never_bypassed (u : UnicodeTables) (closest : Closest)
    (srt : (ContaEntry → ContaEntry → Bool) → List ContaEntry → List ContaEntry)
    (hsrt : SortContract srt) (D : Str) (accMap : AccMap) (contaMap : ContaMap)
    (idx : List Str) (P : List Str) (hP : P ≠ []) :
    ((buscarContaAtolini u closest D accMap idx P).1 = sentinel ∨
      ∃ k l e, accMap k = some l ∧ e ∈ l ∧ (∃ p ∈ P, p <+: e.Classif) ∧
        (buscarContaAtolini u closest D accMap idx P).1 = trimSpace e.ID) ∧
    ((∀ k l e, accMap k = some l → e ∈ l → ¬ ∃ p ∈ P, p <+: e.Classif) →
      (buscarContaAtolini u closest D accMap idx P).1 = sentinel) ∧
    ((findContaCodigoByDescricao u closest srt D idx contaMap P).1 = sentinel ∨
      ∃ k l e, contaMap k = some l ∧ e ∈ l ∧ (∃ p ∈ P, p <+: e.Classf) ∧
        (findContaCodigoByDescricao u closest srt D idx contaMap P).1 = trimSpace e.Code) ∧
    ((∀ k l e, contaMap k = some l → e ∈ l → ¬ ∃ p ∈ P, p <+: e.Classf) →
      (findContaCodigoByDescricao u closest srt D idx contaMap P).1 = sentinel) := by
  have h1 : (buscarContaAtolini u closest D accMap idx P).1 = sentinel ∨
      ∃ k l e, accMap k = some l ∧ e ∈ l ∧ (∃ p ∈ P, p <+: e.Classif) ∧
        (buscarContaAtolini u closest D accMap idx P).1 = trimSpace e.ID := by
    apply buscarContaAtolini_cases u closest D accMap idx P
      (fun r => r.1 = sentinel ∨ ∃ k l e, accMap k = some l ∧ e ∈ l ∧
        (∃ p ∈ P, p <+: e.Classif) ∧ r.1 = trimSpace e.ID)
    · exact Or.inl rfl
    · intro key r hr
      obtain ⟨l, b, hm, hb, -, hpre, -, hcode⟩ := tryKey_some accMap P key r hr
      exact Or.inr ⟨key, l, b, hm, hb, hpre hP, hcode⟩
  have h2 : (findContaCodigoByDescricao u closest srt D idx contaMap P).1 = sentinel ∨
      ∃ k l e, contaMap k = some l ∧ e ∈ l ∧ (∃ p ∈ P, p <+: e.Classf) ∧
        (findContaCodigoByDescricao u closest srt D idx contaMap P).1 = trimSpace e.Code := by
    apply findContaCodigoByDescricao_cases u closest srt D idx contaMap P
      (fun r => r.1 = sentinel ∨ ∃ k l e, contaMap k = some l ∧ e ∈ l ∧
        (∃ p ∈ P, p <+: e.Classf) ∧ r.1 = trimSpace e.Code)
    · exact Or.inl rfl
    · intro key r hr
      obtain ⟨l, b, hm, hb, -, hpre, -, hcode⟩ := lookupEntry_some srt hsrt contaMap P key r hr
      exact Or.inr ⟨key, l, b, hm, hb, hpre hP, hcode⟩
  refine ⟨h1, fun hnone => ?_, h2, fun hnone => ?_⟩
  · rcases h1 with h | ⟨k, l, e, hm, he, hp, -⟩
    · exact h
    · exact absurd hp (hnone k l e hm he)
  · rcases h2 with h | ⟨k, l, e, hm, he, hp, -⟩
    · exact h
    · exact absurd hp (hnone k l e hm he)

/-- Witness for C1: on the demo chart with the filter "2", the description "Caixa" has an
exact key whose only record fails the filter; the fuzzy search answers "BANCO X" and the
result is a code of that key, whose classification starts with "2". -/
theorem C1_filter_never_bypassed_witness :
    ["2".toList] ≠ [] ∧
    (buscarContaAtolini latin1Tables demoClosest "Caixa".toList demoAccMap demoIndex
      ["2".toList]).1 = "21".toList ∧
    ((buscarContaAtolini latin1Tables demoClosest "Caixa".toList demoAccMap demoIndex
        ["2".toList]).1 = sentinel ∨
      ∃ k l e, demoAccMap k = some l ∧ e ∈ l ∧ (∃ p ∈ ["2".toList], p <+: e.Classif) ∧
        (buscarContaAtolini latin1Tables demoClosest "Caixa".toList demoAccMap demoIndex
          ["2".toList]).1 = trimSpace e.ID) :=
  ⟨by decide, by decide,
    (C1_filter_never_bypassed latin1Tables demoClosest sortSliceStable sortSliceStable_contract
      "Caixa".toList demoAccMap demoContaMap demoIndex ["2".toList] (by decide)).1⟩

/-- C2: when the list stored under `normalizeText(D)` holds a record that satisfies the
prefix list `P` (any record when `P` is empty), both matchers return the trimmed code of
a record of that list that satisfies `P` and whose classification is of maximal length
among those, whatever the fuzzy search answers.  The chart has no records under the
empty key (the loaders never store one), and the Unicode data normalise `D` and its
trimmed form alike. -/
theorem C2_exact_match_wins (u : UnicodeTables) (closest : Closest)
    (srt : (ContaEntry → ContaEntry → Bool) → List ContaEntry → List ContaEntry)
    (hsrt : SortContract srt) (D : Str) (accMap : AccMap) (contaMap : ContaMap)
    (idx : List Str) (P : List Str)
    (hnfd : u.nfd [] = [])
    (hD : normalizeText u (trimSpace D) = normalizeText u D)
    (hA : accMap [] = none) (hC : contaMap [] = none) :
    (∀ l, accMap (normalizeText u D) = some l → (∃ e ∈ l, satisfies P e.Classif) →
      ∃ b ∈ l, satisfies P b.Classif ∧
        (∀ e ∈ l, satisfies P e.Classif → byteLen e.Classif ≤ byteLen b.Classif) ∧
        (buscarContaAtolini u closest D accMap idx P).1 = trimSpace b.ID) ∧
    (∀ l, contaMap (normalizeText u D) = some l → (∃ e ∈ l, satisfies P e.Classf) →
      ∃ b ∈ l, satisfies P b.Classf ∧
        (∀ e ∈ l, satisfies P e.Classf → byteLen e.Classf ≤ byteLen b.Classf) ∧
        (findContaCodigoByDescricao u closest srt D idx contaMap P).1 = trimSpace b.Code) := by
  have hkey : ∀ {α : Type} (m : Str → Option (List α)) (l : List α), m [] = none →
      m (normalizeText u D) = some l → normalizeText u D ≠ [] ∧ trimSpace D ≠ [] := by
    intro α m l hm0 hml
    have hk : normalizeText u D ≠ [] := by
      intro h0
      rw [h0, hm0] at hml
      exact absurd hml (by simp)
    refine ⟨hk, fun ht => hk ?_⟩
    rw [← hD, ht]
    exact normalizeText_nil u hnfd
  constructor
  · intro l hml hex
    obtain ⟨hk, ht⟩ := hkey accMap l hA hml
    obtain ⟨r, hr⟩ := tryKey_isSome accMap P _ l hk hml hex
    have hres := buscarContaAtolini_exact u closest D accMap idx P r ht (by rw [hD]; exact hk)
      (by rw [hD]; exact hr)
    obtain ⟨l2, b, hm2, hb, hsat, -, hmax, hcode⟩ := tryKey_some accMap P _ r hr
    rw [hml] at hm2
    cases hm2
    exact ⟨b, hb, hsat, hmax, by rw [hres]; exact hcode⟩
  · intro l hml hex
    obtain ⟨hk, ht⟩ := hkey contaMap l hC hml
    obtain ⟨r, hr⟩ := lookupEntry_isSome srt hsrt contaMap P _ l hml hex
    have hres := findContaCodigoByDescricao_exact u closest srt D idx contaMap P r ht hr
    obtain ⟨l2, b, hm2, hb, hsat, -, hmax, hcode⟩ := lookupEntry_some srt hsrt contaMap P _ r hr
    rw [hml] at hm2
    cases hm2
    exact ⟨b, hb, hsat, hmax, by rw [hres]; exact hcode⟩

/-- Witness for C2: on the demo chart, "Banco X" with the filter "2.1" resolves to the
code "21" of the record with the longer classification 2.1.05, although the fuzzy search
would answer with another key. -/
theorem C2_exact_match_wins_witness :
    (buscarContaAtolini latin1Tables demoClosest " Banco X".toList demoAccMap
      ["BANCO X".toList, "CAIXA".toList] ["2.1".toList]).1 = "21".toList ∧
    (∃ b ∈ [(⟨"20".toList, "2.1".toList, "Banco X".toList⟩ : accEntry),
            ⟨" 21 ".toList, "2.1.05".toList, "Banco X".toList⟩],
      satisfies ["2.1".toList] b.Classif ∧
      (∀ e ∈ [(⟨"20".toList, "2.1".toList, "Banco X".toList⟩ : accEntry),
              ⟨" 21 ".toList, "2.1.05".toList, "Banco X".toList⟩],
        satisfies ["2.1".toList] e.Classif → byteLen e.Classif ≤ byteLen b.Classif) ∧
      (buscarContaAtolini latin1Tables demoClosest " Banco X".toList demoAccMap
        ["BANCO X".toList, "CAIXA".toList] ["2.1".toList]).1 = trimSpace b.ID) :=
  ⟨by decide,
    (C2_exact_match_wins latin1Tables demoClosest sortSliceStable sortSliceStable_contract
      " Banco X".toList demoAccMap demoContaMap ["BANCO X".toList, "CAIXA".toList]
      ["2.1".toList] rfl (by decide) (by decide) (by decide)).1 _ (by decide)
      ⟨_, List.mem_cons_self _ _, Or.inr ⟨_, List.mem_cons_self _ _, by decide⟩⟩⟩

/-! ## Binary64 rounding -/

theorem natLog2Aux_spec (fuel n : Nat) (h1 : 1 ≤ n) (hf : n ≤ fuel) :
    2 ^ natLog2Aux fuel n ≤ n ∧ n < 2 ^ (natLog2Aux fuel n + 1) := by
  induction fuel generalizing n with
  | zero => omega
  | succ fuel ih =>
    unfold natLog2Aux
    by_cases h2 : n < 2
    · simp only [h2, if_true]
      omega
    · simp only [h2, if_false]
      have hd : 1 ≤ n / 2 := by omega
      have hd2 : n / 2 ≤ fuel := by omega
      obtain ⟨ha, hb⟩ := ih (n / 2) hd hd2
      constructor
      · rw [pow_succ]
        omega
      · rw [pow_succ]
        omega

theorem natLog2_spec (n : Nat) (h1 : 1 ≤ n) :
    2 ^ natLog2 n ≤ n ∧ n < 2 ^ (natLog2 n + 1) :=
  natLog2Aux_spec n n h1 (Nat.le_refl n)

theorem floorLog2_spec (q : ℚ) (hq : 0 < q) :
    (2 : ℚ) ^ floorLog2 q ≤ q ∧ q < (2 : ℚ) ^ (floorLog2 q + 1) := by
  have hnum : 0 < q.num := Rat.num_pos.mpr hq
  have hden : 1 ≤ q.den := q.den_pos
  obtain ⟨a1, a2⟩ := natLog2_spec q.num.natAbs (by omega)
  obtain ⟨b1, b2⟩ := natLog2_spec q.den hden
  have hqd : q = (q.num.natAbs : ℚ) / (q.den : ℚ) := by
    have hcast : ((q.num.natAbs : ℕ) : ℚ) = (q.num : ℚ) := by
      rw [← Int.cast_natCast, Int.natAbs_of_nonneg hnum.le]
    rw [hcast]
    exact (Rat.num_div_den q).symm
  set a := q.num.natAbs with ha
  set b := q.den with hb
  have hbq : (0 : ℚ) < (b : ℚ) := by exact_mod_cast hden
  have A1 : (2 : ℚ) ^ (natLog2 a : ℤ) ≤ (a : ℚ) := by
    rw [zpow_natCast]; exact_mod_cast a1
  have A2 : (a : ℚ) < (2 : ℚ) ^ ((natLog2 a : ℤ) + 1) := by
    have : ((natLog2 a : ℤ) + 1) = ((natLog2 a + 1 : ℕ) : ℤ) := by push_cast; rfl
    rw [this, zpow_natCast]; exact_mod_cast a2
  have B1 : (2 : ℚ) ^ (natLog2 b : ℤ) ≤ (b : ℚ) := by
    rw [zpow_natCast]; exact_mod_cast b1
  have B2 : (b : ℚ) < (2 : ℚ) ^ ((natLog2 b : ℤ) + 1) := by
    have : ((natLog2 b : ℤ) + 1) = ((natLog2 b + 1 : ℕ) : ℤ) := by push_cast; rfl
    rw [this, zpow_natCast]; exact_mod_cast b2
  have two_ne : (2 : ℚ) ≠ 0 := by norm_num
  have hpos : ∀ z : ℤ, (0 : ℚ) < (2 : ℚ) ^ z := fun z => zpow_pos (by norm_num) z
  unfold floorLog2
  simp only
  rw [← ha, ← hb]
  split
  · rename_i hle
    refine ⟨hle, ?_⟩
    -- q = a / b < 2^(la+1) / 2^lb
    have e1 : (2 : ℚ) ^ ((natLog2 a : ℤ) - (natLog2 b : ℤ) + 1) =
        (2 : ℚ) ^ ((natLog2 a : ℤ) + 1) / (2 : ℚ) ^ (natLog2 b : ℤ) := by
      rw [← zpow_sub₀ two_ne]; congr 1; ring
    rw [e1, hqd, div_lt_div_iff₀ hbq (hpos _)]
    calc (a : ℚ) * (2 : ℚ) ^ (natLog2 b : ℤ) ≤ (a : ℚ) * b :=
          mul_le_mul_of_nonneg_left B1 (by positivity)
      _ < (2 : ℚ) ^ ((natLog2 a : ℤ) + 1) * b := mul_lt_mul_of_pos_right A2 hbq
  · rename_i hnle
    have hlt := not_le.mp hnle
    constructor
    · have e1 : (2 : ℚ) ^ ((natLog2 a : ℤ) - (natLog2 b : ℤ) - 1) =
          (2 : ℚ) ^ (natLog2 a : ℤ) / (2 : ℚ) ^ ((natLog2 b : ℤ) + 1) := by
        rw [← zpow_sub₀ two_ne]; congr 1; ring
      rw [e1, hqd, div_le_div_iff₀ (hpos _) hbq]
      calc (2 : ℚ) ^ (natLog2 a : ℤ) * b ≤ (a : ℚ) * b :=
            mul_le_mul_of_nonneg_right A1 hbq.le
        _ ≤ (a : ℚ) * (2 : ℚ) ^ ((natLog2 b : ℤ) + 1) :=
            mul_le_mul_of_nonneg_left B2.le (by positivity)
    · have : (natLog2 a : ℤ) - (natLog2 b : ℤ) - 1 + 1 = (natLog2 a : ℤ) - (natLog2 b : ℤ) := by
        ring
      rw [this]
      exact hlt

theorem floorLog2_unique (q : ℚ) (hq : 0 < q) (e : ℤ) (h1 : (2 : ℚ) ^ e ≤ q)
    (h2 : q < (2 : ℚ) ^ (e + 1)) : floorLog2 q = e := by
  obtain ⟨s1, s2⟩ := floorLog2_spec q hq
  have hlt : ∀ x y : ℤ, (2 : ℚ) ^ x < (2 : ℚ) ^ (y + 1) → x ≤ y := by
    intro x y h
    by_contra hc
    have : y + 1 ≤ x := by omega
    have := zpow_le_zpow_right₀ (by norm_num : (1 : ℚ) ≤ 2) this
    linarith
  have := hlt _ _ (lt_of_le_of_lt s1 h2)
  have := hlt _ _ (lt_of_le_of_lt h1 s2)
  omega

theorem roundNearestEven_intCast (k : ℤ) : roundNearestEven (k : ℚ) = k := by
  unfold roundNearestEven
  simp

theorem roundNearestEven_le (x : ℚ) (k : ℤ) (h : x ≤ k) : roundNearestEven x ≤ k := by
  unfold roundNearestEven
  simp only
  have hf : (⌊x⌋ : ℚ) ≤ x := Int.floor_le x
  have hfk : ⌊x⌋ ≤ k := by exact_mod_cast hf.trans h
  have key : 1 / 2 ≤ x - (⌊x⌋ : ℚ) → ⌊x⌋ + 1 ≤ k := by
    intro hr
    have : (⌊x⌋ : ℚ) < k := by linarith
    have : ⌊x⌋ < k := by exact_mod_cast this
    omega
  split_ifs with h1 h2 h3
  · exact hfk
  · exact key h2.le
  · exact hfk
  · exact key (not_lt.mp h1)

theorem le_roundNearestEven (x : ℚ) (k : ℤ) (h : (k : ℚ) ≤ x) : k ≤ roundNearestEven x := by
  unfold roundNearestEven
  simp only
  have hfk : k ≤ ⌊x⌋ := Int.le_floor.mpr h
  split_ifs <;> omega

theorem two_zpow_pos (z : ℤ) : (0 : ℚ) < (2 : ℚ) ^ z := zpow_pos (by norm_num) z

/-- A positive magnitude that is a whole multiple of the spacing at its exponent rounds
to itself. -/
theorem roundMag_exact (a : ℚ) (k : ℤ)
    (hk : a = (k : ℚ) * 2 ^ (max (floorLog2 a) (-1022) - 52)) : roundMag a = a := by
  unfold roundMag
  simp only
  have hu := two_zpow_pos (max (floorLog2 a) (-1022) - 52)
  have : a / 2 ^ (max (floorLog2 a) (-1022) - 52) = (k : ℚ) := by
    rw [div_eq_iff hu.ne']
    exact hk
  rw [this, roundNearestEven_intCast]
  exact hk.symm

theorem roundF64_of_pos (q : ℚ) (hq : 0 < q) :
    roundF64 q = if (2 : ℚ) ^ (1024 : ℤ) ≤ roundMag q then F64.inf false
      else F64.fin (roundMag q) := by
  unfold roundF64
  have h1 : ¬ q = 0 := hq.ne'
  have h2 : ¬ q < 0 := not_lt.mpr hq.le
  simp only [h1, if_false, abs_of_pos hq, h2, decide_False]

theorem roundF64_neg (q : ℚ) : roundF64 (-q) = (roundF64 q).neg := by
  unfold roundF64
  by_cases h0 : q = 0
  · subst h0; simp [F64.neg]
  · have h0n : ¬ -q = 0 := by simpa using h0
    simp only [h0, h0n, if_false, abs_neg]
    rcases lt_or_gt_of_ne h0 with hneg | hpos
    · have h1 : ¬ -q < 0 := by linarith
      simp only [hneg, h1, decide_True, decide_False, if_true, if_false]
      split <;> simp [F64.neg]
    · have h1 : -q < 0 := by linarith
      have h2 : ¬ q < 0 := by linarith
      simp only [h1, h2, decide_True, decide_False, if_true, if_false]
      split <;> simp [F64.neg]

/-- Natural numbers below `2^53` are representable. -/
theorem roundF64_natCast (n : Nat) (h : n < 2 ^ 53) : roundF64 (n : ℚ) = F64.fin n := by
  rcases Nat.eq_zero_or_pos n with h0 | hpos
  · subst h0; simp [roundF64]
  have hq : (0 : ℚ) < (n : ℚ) := by exact_mod_cast hpos
  obtain ⟨s1, s2⟩ := floorLog2_spec (n : ℚ) hq
  -- the exponent lies between 0 and 52
  have he0 : 0 ≤ floorLog2 (n : ℚ) := by
    by_contra hc
    have hle : floorLog2 (n : ℚ) + 1 ≤ 0 := by omega
    have := zpow_le_zpow_right₀ (by norm_num : (1 : ℚ) ≤ 2) hle
    have h1 : (1 : ℚ) ≤ n := by exact_mod_cast hpos
    simp at this
    linarith
  have he52 : floorLog2 (n : ℚ) ≤ 52 := by
    by_contra hc
    have hle : (53 : ℤ) ≤ floorLog2 (n : ℚ) := by omega
    have := zpow_le_zpow_right₀ (by norm_num : (1 : ℚ) ≤ 2) hle
    have h1 : (n : ℚ) < 2 ^ 53 := by exact_mod_cast h
    have h2 : (2 : ℚ) ^ (53 : ℤ) = 2 ^ 53 := by norm_num
    linarith
  have hmax : max (floorLog2 (n : ℚ)) (-1022) = floorLog2 (n : ℚ) := max_eq_left (by omega)
  obtain ⟨d, hd⟩ : ∃ d : ℕ, (d : ℤ) = 52 - floorLog2 (n : ℚ) := ⟨(52 - floorLog2 (n : ℚ)).toNat,
    by omega⟩
  have hexp : floorLog2 (n : ℚ) - 52 = -(d : ℤ) := by omega
  have hmag : roundMag (n : ℚ) = n := by
    apply roundMag_exact (n : ℚ) ((n * 2 ^ d : ℕ) : ℤ)
    rw [hmax, hexp, zpow_neg, zpow_natCast]
    push_cast
    field_simp
  rw [roundF64_of_pos _ hq, hmag]
  have : ¬ (2 : ℚ) ^ (1024 : ℤ) ≤ (n : ℚ) := by
    have h1 : (n : ℚ) < 2 ^ 53 := by exact_mod_cast h
    have h2 : (2 : ℚ) ^ (53 : ℤ) ≤ (2 : ℚ) ^ (1024 : ℤ) :=
      zpow_le_zpow_right₀ (by norm_num) (by norm_num)
    have h3 : (2 : ℚ) ^ (53 : ℤ) = 2 ^ 53 := by norm_num
    linarith
  simp only [this, if_false]

/-! ## mathRound and parseBRLNumber -/

theorem toInt64_of_inInt64 (ovf : ConvOverflow) (q : ℚ) (h : inInt64 (.fin q) = true) :
    toInt64 ovf (.fin q) = truncQ q := by
  simp only [inInt64, Bool.and_eq_true, decide_eq_true_eq] at h
  simp only [toInt64]
  rw [if_pos ⟨h.1.le, h.2⟩]

/-- When the value to convert is inside the `int64` range, `mathRound` does not depend on
the implementation-defined behaviour of out-of-range conversions. -/
theorem mathRound_indep (ovf1 ovf2 : ConvOverflow) (val : F64) (precision : Nat)
    (h : inInt64 (mathRoundArg val precision) = true) :
    mathRound ovf1 val precision = mathRound ovf2 val precision := by
  unfold mathRound
  cases hx : mathRoundArg val precision with
  | fin q =>
    rw [hx] at h
    rw [toInt64_of_inInt64 ovf1 q h, toInt64_of_inInt64 ovf2 q h]
  | inf b => rw [hx] at h; simp [inInt64] at h
  | nan => rw [hx] at h; simp [inInt64] at h

theorem parseBRLNumber_indep (ovf1 ovf2 : ConvOverflow) (val : Str)
    (h : ∀ neg t f, brlScan val = some (neg, t) → parseFloat t = .ok f →
      inInt64 (mathRoundArg (if neg then f.neg else f) 2) = true) :
    parseBRLNumber ovf1 val = parseBRLNumber ovf2 val := by
  unfold parseBRLNumber
  cases hs : brlScan val with
  | none => rfl
  | some p =>
    obtain ⟨neg, t⟩ := p
    simp only
    cases hf : parseFloat t with
    | error e => rfl
    | ok f =>
      simp only
      rw [mathRound_indep ovf1 ovf2 _ 2 (h neg t f hs hf)]

/-- C3: `parseBRLNumber` returns, without error, the `float64` 1234.56 for "1.234,56"
and for "1234.56", and -45 for "(45,00)". -/
theorem C3_parseBRLNumber_examples (ovf : ConvOverflow) :
    parseBRLNumber ovf "1.234,56".toList = .ok (roundF64 (123456 / 100)) ∧
    parseBRLNumber ovf "1234.56".toList = .ok (roundF64 (123456 / 100)) ∧
    parseBRLNumber ovf "(45,00)".toList = .ok (.fin (-45)) := by
  have e1 : brlScan "1.234,56".toList = some (false, "1234.56".toList) := by decide!
  have e2 : brlScan "1234.56".toList = some (false, "1234.56".toList) := by decide!
  have e3 : brlScan "(45,00)".toList = some (true, "45.00".toList) := by decide!
  have p1 : parseFloat "1234.56".toList = .ok (roundF64 (123456 / 100)) := by decide!
  have p3 : parseFloat "45.00".toList = .ok (.fin 45) := by decide!
  have r1 : inInt64 (mathRoundArg (roundF64 (123456 / 100)) 2) = true := by decide!
  have r3 : inInt64 (mathRoundArg (F64.fin 45).neg 2) = true := by decide!
  have m1 : mathRound amd64Conv (roundF64 (123456 / 100)) 2 = roundF64 (123456 / 100) := by
    decide!
  have m3 : mathRound amd64Conv (F64.fin 45).neg 2 = .fin (-45) := by decide!
  refine ⟨?_, ?_, ?_⟩
  · simp only [parseBRLNumber, e1, p1, Bool.false_eq_true, if_false]
    rw [mathRound_indep ovf amd64Conv _ 2 r1, m1]
  · simp only [parseBRLNumber, e2, p1, Bool.false_eq_true, if_false]
    rw [mathRound_indep ovf amd64Conv _ 2 r1, m1]
  · simp only [parseBRLNumber, e3, p3, if_true]
    rw [mathRound_indep ovf amd64Conv _ 2 r3, m3]

/-- C4, at the failing input: on "1,234,56" (digits and separators only, the rightmost
separator a comma) `parseBRLNumber` hands "1.234.56" to `strconv.ParseFloat` and returns
its syntax error, where the same text with points, "1.234.56", parses to 1234.56. -/
theorem C4_repeated_comma_fails (ovf : ConvOverflow) :
    brlScan "1,234,56".toList = some (false, "1.234.56".toList) ∧
    parseBRLNumber ovf "1,234,56".toList = .error .badSyntax ∧
    parseBRLNumber ovf "1.234.56".toList = .ok (roundF64 (123456 / 100)) := by
  have e1 : brlScan "1,234,56".toList = some (false, "1.234.56".toList) := by decide!
  have p1 : parseFloat "1.234.56".toList = .error .badSyntax := by decide!
  have e2 : brlScan "1.234.56".toList = some (false, "1234.56".toList) := by decide!
  have p2 : parseFloat "1234.56".toList = .ok (roundF64 (123456 / 100)) := by decide!
  have r2 : inInt64 (mathRoundArg (roundF64 (123456 / 100)) 2) = true := by decide!
  have m2 : mathRound amd64Conv (roundF64 (123456 / 100)) 2 = roundF64 (123456 / 100) := by
    decide!
  refine ⟨e1, ?_, ?_⟩
  · simp only [parseBRLNumber, e1, p1]
  · simp only [parseBRLNumber, e2, p2, Bool.false_eq_true, if_false]
    rw [mathRound_indep ovf amd64Conv _ 2 r2, m2]

/-- C5 as stated fails on amd64, where every out-of-range conversion yields `-2^63`: the
twenty nines parse to about -9.2e16, and so do they in parentheses. -/
theorem C5_negation_counterexample :
    parseBRLNumber amd64Conv "99999999999999999999".toList =
      .ok (.fin (-92233720368547760)) ∧
    parseBRLNumber amd64Conv "(99999999999999999999)".toList ≠
      .ok (F64.fin (-92233720368547760)).neg := by
  decide!

theorem replaceAllAux_noop (c : Char) (old new s : Str) (h : c ∉ s) :
    replaceAllAux (c :: old) new 0 s = s := by
  induction s with
  | nil => rfl
  | cons a as ih =>
    have hne : ¬ c = a := fun e => h (e ▸ List.mem_cons_self _ _)
    have hmem : c ∉ as := fun e => h (List.mem_cons_of_mem _ e)
    have hbeq : (c == a) = false := by simpa using hne
    simp only [replaceAllAux, List.isPrefixOf, hbeq, Bool.false_and,
      Bool.false_eq_true, if_false, ih hmem]

theorem replaceAll_noop (c : Char) (old new s : Str) (h : c ∉ s) :
    replaceAll s (c :: old) new = s := replaceAllAux_noop c old new s h

theorem keptChar_of_isNumChar (c : Char) (h : isNumChar c = true) :
    keptChar c ∧ c ≠ '(' ∧ c ≠ '-' := by
  have hn : c.toNat = 44 ∨ c.toNat = 46 ∨ (48 ≤ c.toNat ∧ c.toNat ≤ 57) := by
    simp only [isNumChar, isDigit, Bool.or_eq_true, Bool.and_eq_true, decide_eq_true_eq,
      beq_iff_eq] at h
    rcases h with (h | h) | h
    · exact Or.inr (Or.inr h)
    · subst h; exact Or.inl rfl
    · subst h; exact Or.inr (Or.inl rfl)
  have hne : ∀ d : Char, d.toNat ≠ c.toNat → c ≠ d := fun d hd e => hd (e ▸ rfl)
  refine ⟨⟨?_, hne _ ?_, hne _ ?_, hne _ ?_⟩, hne _ ?_, hne _ ?_⟩
  · simp only [isSpace, Bool.or_eq_false_iff, Bool.and_eq_false_iff, decide_eq_false_iff_not,
      beq_eq_false_iff_ne]
    omega
  all_goals
    first
      | (show (82 : Nat) ≠ _; omega)
      | (show (32 : Nat) ≠ _; omega)
      | (show (160 : Nat) ≠ _; omega)
      | (show (40 : Nat) ≠ _; omega)
      | (show (45 : Nat) ≠ _; omega)

/-- On a non-empty text of kept characters only the sign handling and the separator
handling of `parseBRLNumber` act. -/
theorem brlScan_kept (X : Str) (hne : X ≠ []) (hk : ∀ c ∈ X, keptChar c) :
    brlScan X =
      (let paren := hasPrefixStr X "(".toList && hasSuffixStr X ")".toList
       let s := if paren then trimPrefixStr (trimSuffixStr X ")".toList) "(".toList else X
       let minus := hasPrefixStr s "-".toList
       let s := if minus then trimPrefixStr s "-".toList else s
       if brlSeparators s == [] then none else some (paren || minus, brlSeparators s)) := by
  have ht : trimSpace X = X := by
    apply trimSpace_eq_self
    · intro c hc
      exact (hk c (List.mem_of_mem_head? hc)).1
    · intro c hc
      exact (hk c (List.mem_of_mem_getLast? hc)).1
  have h1 : replaceAll X "R$".toList [] = X :=
    replaceAll_noop 'R' _ _ _ (fun h => (hk _ h).2.1 rfl)
  have h2 : replaceAll X " ".toList [] = X :=
    replaceAll_noop ' ' _ _ _ (fun h => (hk _ h).2.2.1 rfl)
  have h3 : replaceAll X [Char.ofNat 0xA0] [] = X :=
    replaceAll_noop _ _ _ _ (fun h => (hk _ h).2.2.2 rfl)
  have hb : (X == []) = false := by simpa using hne
  unfold brlScan
  simp only [ht, h1, h2, h3, hb, Bool.false_eq_true, if_false]

theorem hasPrefixStr_numChar (s : Str) (c : Char) (hs : ∀ x ∈ s, isNumChar x = true)
    (hc : ∀ x, isNumChar x = true → x ≠ c) : hasPrefixStr s [c] = false := by
  cases s with
  | nil => rfl
  | cons a as =>
    have hne : ¬ c = a := fun e => hc a (hs a (List.mem_cons_self _ _)) e.symm
    have hbeq : (c == a) = false := by simpa using hne
    simp [hasPrefixStr, List.isPrefixOf, hbeq]

/-- The scan of a text of digits and separators: no sign. -/
theorem brlScan_numChars (s : Str) (hs : ∀ c ∈ s, isNumChar c = true) :
    brlScan s = if brlSeparators s == [] then none else some (false, brlSeparators s) := by
  cases hnil : s with
  | nil => decide
  | cons a as =>
    rw [← hnil]
    have hne : s ≠ [] := by rw [hnil]; simp
    rw [brlScan_kept s hne (fun c hc => (keptChar_of_isNumChar c (hs c hc)).1)]
    have p1 : hasPrefixStr s "(".toList = false :=
      hasPrefixStr_numChar s '(' hs (fun x hx => (keptChar_of_isNumChar x hx).2.1)
    have p2 : hasPrefixStr s "-".toList = false :=
      hasPrefixStr_numChar s '-' hs (fun x hx => (keptChar_of_isNumChar x hx).2.2)
    simp only [p1, p2, Bool.false_and, Bool.false_eq_true, if_false, Bool.or_false]

/-- The scan of a text of digits and separators in parentheses: the same text, negative. -/
theorem brlScan_paren (s : Str) (hs : ∀ c ∈ s, isNumChar c = true) :
    brlScan ('(' :: (s ++ [')'])) =
      if brlSeparators s == [] then none else some (true, brlSeparators s) := by
  have hk : ∀ c ∈ '(' :: (s ++ [')']), keptChar c := by
    intro c hc
    simp only [List.mem_cons, List.mem_append, List.mem_singleton, List.not_mem_nil,
      or_false] at hc
    rcases hc with h | h | h
    · subst h; exact ⟨by decide, by decide, by decide, by decide⟩
    · exact (keptChar_of_isNumChar c (hs c h)).1
    · subst h; exact ⟨by decide, by decide, by decide, by decide⟩
  rw [brlScan_kept _ (by simp) hk]
  have p1 : hasPrefixStr ('(' :: (s ++ [')'])) "(".toList = true := by
    simp [hasPrefixStr, List.isPrefixOf]
  have p2 : hasSuffixStr ('(' :: (s ++ [')'])) ")".toList = true := by
    simp [hasSuffixStr, List.isPrefixOf]
  have p3 : trimSuffixStr ('(' :: (s ++ [')'])) ")".toList = '(' :: s := by
    simp only [trimSuffixStr, p2, if_true]
    have : ('(' :: (s ++ [')'])).length - ")".toList.length = ('(' :: s).length := by
      simp
    rw [this]
    show List.take ('(' :: s).length (('(' :: s) ++ [')']) = '(' :: s
    exact List.take_left' rfl
  have p4 : trimPrefixStr ('(' :: s) "(".toList = s := by
    simp [trimPrefixStr, hasPrefixStr, List.isPrefixOf]
  have p5 : hasPrefixStr s "-".toList = false :=
    hasPrefixStr_numChar s '-' hs (fun x hx => (keptChar_of_isNumChar x hx).2.2)
  simp only [p1, p2, p3, p4, p5, Bool.and_self, if_true, Bool.false_eq_true, if_false,
    Bool.or_false]

/-- The scan of a text of digits and separators after a minus sign: the same text,
negative. -/
theorem brlScan_minus (s : Str) (hs : ∀ c ∈ s, isNumChar c = true) :
    brlScan ('-' :: s) =
      if brlSeparators s == [] then none else some (true, brlSeparators s) := by
  have hk : ∀ c ∈ '-' :: s, keptChar c := by
    intro c hc
    rcases List.mem_cons.mp hc with h | h
    · subst h; exact ⟨by decide, by decide, by decide, by decide⟩
    · exact (keptChar_of_isNumChar c (hs c h)).1
  rw [brlScan_kept _ (by simp) hk]
  have p1 : hasPrefixStr ('-' :: s) "(".toList = false := by
    simp [hasPrefixStr, List.isPrefixOf]
  have p2 : hasPrefixStr ('-' :: s) "-".toList = true := by
    simp [hasPrefixStr, List.isPrefixOf]
  have p3 : trimPrefixStr ('-' :: s) "-".toList = s := by
    simp [trimPrefixStr, hasPrefixStr, List.isPrefixOf]
  simp only [p1, p2, p3, Bool.false_and, Bool.false_eq_true, if_false, if_true, Bool.or_true]

theorem F64.add_neg (x y : F64) : (x.add y).neg = x.neg.add y.neg := by
  cases x with
  | fin a =>
    cases y with
    | fin b =>
      show (roundF64 (a + b)).neg = roundF64 (-a + -b)
      rw [← roundF64_neg]
      congr 1
      ring
    | inf t => simp [F64.add, F64.neg]
    | nan => simp [F64.add, F64.neg]
  | inf s =>
    cases y with
    | fin b => simp [F64.add, F64.neg]
    | inf t => cases s <;> cases t <;> simp [F64.add, F64.neg]
    | nan => simp [F64.add, F64.neg]
  | nan => cases y <;> simp [F64.add, F64.neg]

theorem truncQ_neg (q : ℚ) : truncQ (-q) = -truncQ q := by
  unfold truncQ
  rcases lt_trichotomy q 0 with h | h | h
  · have h1 : 0 ≤ -q := by linarith
    have h2 : ¬ 0 ≤ q := by linarith
    simp only [h1, h2, if_true, if_false, Int.floor_neg]
  · subst h; simp
  · have h1 : ¬ 0 ≤ -q := by linarith
    have h2 : 0 ≤ q := by linarith
    simp only [h1, h2, if_true, if_false, Int.ceil_neg]

theorem powLoop_two : powLoop 2 = .fin 100 := by decide!

theorem mathRoundArg_neg (q : ℚ) (hpos : 0 < q) :
    mathRoundArg (.fin (-q)) 2 = (mathRoundArg (.fin q) 2).neg := by
  have g1 : (F64.fin q).ge (.fin 0) = true := by simp [F64.ge, hpos.le]
  have g2 : (F64.fin (-q)).ge (.fin 0) = false := by
    simp only [F64.ge, decide_eq_false_iff_not, not_le]
    linarith
  simp only [mathRoundArg, g1, g2, if_true, Bool.false_eq_true, if_false, powLoop_two,
    F64.sub, F64.add_neg]
  congr 1
  simp only [F64.mul]
  rw [← roundF64_neg]
  congr 1
  ring

theorem F64.neg_neg (x : F64) : x.neg.neg = x := by
  cases x <;> simp [F64.neg]

theorem inInt64_neg (x : F64) : inInt64 x.neg = inInt64 x := by
  cases x with
  | fin z =>
    simp only [F64.neg, inInt64, truncQ_neg]
    rw [Bool.eq_iff_iff]
    simp only [Bool.and_eq_true, decide_eq_true_eq]
    omega
  | inf b => rfl
  | nan => rfl

theorem ofInt64_div_neg (n : ℤ) :
    (ofInt64 (-n)).div (.fin 100) = ((ofInt64 n).div (.fin 100)).neg := by
  simp only [ofInt64, Int.cast_neg, roundF64_neg]
  cases roundF64 (n : ℚ) with
  | fin a =>
    have h100 : ¬ (100 : ℚ) = 0 := by norm_num
    show (F64.fin (-a)).div (.fin 100) = ((F64.fin a).div (.fin 100)).neg
    simp only [F64.div, h100, if_false]
    rw [← roundF64_neg]
    congr 1
    ring
  | inf b =>
    have h100 : ¬ (100 : ℚ) < 0 := by norm_num
    cases b <;> simp [F64.neg, F64.div, h100]
  | nan => simp [F64.neg, F64.div]

/-- In the `int64` range, `mathRound` is odd: rounding the negated value negates the
result. -/
theorem mathRound_neg (ovf : ConvOverflow) (q : ℚ)
    (hr : inInt64 (mathRoundArg (.fin q) 2) = true) :
    mathRound ovf (.fin (-q)) 2 = (mathRound ovf (.fin q) 2).neg := by
  have main : ∀ p : ℚ, 0 < p → inInt64 (mathRoundArg (.fin p) 2) = true →
      mathRound ovf (.fin (-p)) 2 = (mathRound ovf (.fin p) 2).neg := by
    intro p hpos hp
    unfold mathRound
    rw [mathRoundArg_neg p hpos]
    cases hx : mathRoundArg (.fin p) 2 with
    | fin z =>
      rw [hx] at hp
      have hp2 : inInt64 (.fin (-z)) = true := by
        have := inInt64_neg (.fin z)
        rw [hp] at this
        exact this
      show (ofInt64 (toInt64 ovf (.fin (-z)))).div (powLoop 2) = _
      rw [toInt64_of_inInt64 ovf z hp, toInt64_of_inInt64 ovf (-z) hp2, truncQ_neg,
        powLoop_two, ofInt64_div_neg]
    | inf b => rw [hx] at hp; simp [inInt64] at hp
    | nan => rw [hx] at hp; simp [inInt64] at hp
  rcases lt_trichotomy q 0 with hneg | h0 | hpos
  · have hp : inInt64 (mathRoundArg (.fin (-q)) 2) = true := by
      have h1 := mathRoundArg_neg (-q) (by linarith)
      rw [neg_neg] at h1
      rw [h1, inInt64_neg] at hr
      exact hr
    have := main (-q) (by linarith) hp
    rw [neg_neg] at this
    rw [this, F64.neg_neg]
  · subst h0
    have e0 : mathRound amd64Conv (.fin 0) 2 = .fin 0 := by decide!
    have hr0 : inInt64 (mathRoundArg (.fin 0) 2) = true := by decide!
    rw [neg_zero, mathRound_indep ovf amd64Conv _ 2 hr0, e0]
    simp [F64.neg]
  · exact main q hpos hr

/-- The code point of a digit or of a point. -/
theorem plainChar_codes (c : Char) (h : isDigit c = true ∨ c = '.') :
    c.toNat = 46 ∨ (48 ≤ c.toNat ∧ c.toNat ≤ 57) := by
  rcases h with h | h
  · right
    simpa [isDigit] using h
  · left
    subst h
    rfl

/-- A text of digits and points is none of the special values of `strconv.ParseFloat`. -/
theorem special_plain (t : Str) (ht : ∀ c ∈ t, isDigit c = true ∨ c = '.') :
    special t = none := by
  cases t with
  | nil => decide
  | cons c r =>
    have hc := plainChar_codes c (ht c (List.mem_cons_self _ _))
    have hne : ∀ d : Char, d.toNat ≠ c.toNat → c ≠ d := fun d hd e => hd (e ▸ rfl)
    have hp : c ≠ '+' := hne _ (by show (43 : Nat) ≠ _; omega)
    have hm : c ≠ '-' := hne _ (by show (45 : Nat) ≠ _; omega)
    have hi : c ≠ 'i' := hne _ (by show (105 : Nat) ≠ _; omega)
    have hn : c ≠ 'n' := hne _ (by show (110 : Nat) ≠ _; omega)
    have hl : lowerASCII c = c := by
      unfold lowerASCII
      rw [if_neg]
      omega
    unfold special
    split
    rename_i x sign body h
    split at h
    · rename_i r2 heq
      exact absurd (List.cons.inj heq).1 hp
    · rename_i r2 heq
      exact absurd (List.cons.inj heq).1 hm
    · simp only [Prod.mk.injEq] at h
      obtain ⟨h1, h2⟩ := h
      subst h1 h2
      simp only [List.map_cons, hl]
      have e1 : ¬ (c :: r.map lowerASCII = "inf".toList ∨
          c :: r.map lowerASCII = "infinity".toList) := by
        rintro (e | e)
        · exact hi (List.cons.inj e).1
        · exact hi (List.cons.inj e).1
      have e2 : ¬ (True ∧ c :: r.map lowerASCII = "nan".toList) := by
        rintro ⟨-, e⟩
        exact hn (List.cons.inj e).1
      rw [if_neg e1, if_neg e2]

/-- On a text of digits and points `strconv.ParseFloat` reads a plain literal: no special
value, no underscore. -/
theorem parseFloat_plain (t : Str) (ht : ∀ c ∈ t, isDigit c = true ∨ c = '.') :
    parseFloat t = parseFloatCore t := by
  have hu : t.contains '_' = false := by
    rw [Bool.eq_false_iff]
    intro h
    have hmem : '_' ∈ t := by simpa using h
    have := plainChar_codes _ (ht _ hmem)
    revert this
    decide
  unfold parseFloat
  rw [special_plain t ht]
  simp only [hu, Bool.false_eq_true, if_false]

/-- On a text of digits and points the literal is read as a decimal one. -/
theorem parseUnsigned_plain (t : Str) (ht : ∀ c ∈ t, isDigit c = true ∨ c = '.') :
    parseUnsigned t = parseDecimal t := by
  unfold parseUnsigned
  split
  · rename_i x c r
    have hx := plainChar_codes x (ht x (by simp))
    have hne : ∀ d : Char, d.toNat ≠ x.toNat → x ≠ d := fun d hd e => hd (e ▸ rfl)
    have h1 : x ≠ 'x' := hne _ (by show (120 : Nat) ≠ _; omega)
    have h2 : x ≠ 'X' := hne _ (by show (88 : Nat) ≠ _; omega)
    simp [h1, h2]
  · rfl

/-- The text that `parseBRLNumber` hands to `strconv.ParseFloat` is made of digits and
points. -/
theorem brlSeparators_plain (s : Str) : ∀ c ∈ brlSeparators s, isDigit c = true ∨ c = '.' := by
  intro c hc
  unfold brlSeparators at hc
  have := (List.mem_filter.mp hc).2
  simpa using this

theorem parseFloat_ok_fin (t : Str) (ht : ∀ c ∈ t, isDigit c = true ∨ c = '.') (f : F64)
    (h : parseFloat t = .ok f) : ∃ q, f = .fin q := by
  rw [parseFloat_plain t ht] at h
  unfold parseFloatCore at h
  simp only at h
  split at h
  · exact absurd h (by simp)
  · split at h
    · simp only [Except.ok.injEq] at h
      exact ⟨_, h.symm⟩
    · exact absurd h (by simp)

/-- C5, amended: for every text `s` of digits and separators that `parseBRLNumber` parses
without error to `v`, and whose value scaled by 100 stays inside the `int64` range, the
texts `(s)` and `-s` parse without error to `-v`. -/
theorem C5_negation_in_range (ovf : ConvOverflow) (s : Str)
    (hs : ∀ c ∈ s, isNumChar c = true) (v : F64) (hv : parseBRLNumber ovf s = .ok v)
    (hr : ∀ t f, brlScan s = some (false, t) → parseFloat t = .ok f →
      inInt64 (mathRoundArg f 2) = true) :
    parseBRLNumber ovf ('(' :: (s ++ [')'])) = .ok v.neg ∧
    parseBRLNumber ovf ('-' :: s) = .ok v.neg := by
  have h0 := brlScan_numChars s hs
  have h1 := brlScan_paren s hs
  have h2 := brlScan_minus s hs
  by_cases ht : (brlSeparators s == []) = true
  · simp only [ht, if_true] at h0 h1 h2
    simp only [parseBRLNumber, h0, Except.ok.injEq] at hv
    subst hv
    simp [parseBRLNumber, h1, h2, F64.neg]
  · simp only [ht, Bool.false_eq_true, if_false] at h0 h1 h2
    simp only [parseBRLNumber, h0] at hv
    cases hf : parseFloat (brlSeparators s) with
    | error e => rw [hf] at hv; exact absurd hv (by simp)
    | ok f =>
      rw [hf] at hv
      simp only [Bool.false_eq_true, if_false, Except.ok.injEq] at hv
      obtain ⟨q, rfl⟩ := parseFloat_ok_fin _ (brlSeparators_plain s) f hf
      have hin := hr _ _ h0 hf
      have hneg := mathRound_neg ovf q hin
      subst hv
      simp only [parseBRLNumber, h1, h2, hf, if_true]
      exact ⟨congrArg _ hneg, congrArg _ hneg⟩

/-- Witness for C5 (amended): "1.234,56" parses to 1234.56 and "(1.234,56)" and
"-1.234,56" parse to -1234.56. -/
theorem C5_negation_in_range_witness :
    parseBRLNumber amd64Conv "(1.234,56)".toList = .ok (roundF64 (123456 / 100)).neg ∧
    parseBRLNumber amd64Conv "-1.234,56".toList = .ok (roundF64 (123456 / 100)).neg :=
  C5_negation_in_range amd64Conv "1.234,56".toList (by decide) (roundF64 (123456 / 100))
    (by decide!) (by
      intro t f h1 h2
      have e1 : brlScan "1.234,56".toList = some (false, "1234.56".toList) := by decide!
      rw [e1] at h1
      simp only [Option.some.injEq, Prod.mk.injEq, true_and] at h1
      subst h1
      have p1 : parseFloat "1234.56".toList = .ok (roundF64 (123456 / 100)) := by decide!
      rw [p1] at h2
      simp only [Except.ok.injEq] at h2
      subst h2
      decide!)

/-! ## Decimal texts and `strconv.ParseFloat` -/

theorem digitChar_spec : ∀ d < 10, isDigit (digitChar d) = true ∧ digitVal (digitChar d) = d := by
  decide

theorem digitsLE_lt (fuel n : Nat) : ∀ d ∈ digitsLE fuel n, d < 10 := by
  induction fuel generalizing n with
  | zero => intro d hd; simp [digitsLE] at hd
  | succ fuel ih =>
    intro d hd
    unfold digitsLE at hd
    split at hd
    · simp at hd
    · rcases List.mem_cons.mp hd with h | h
      · omega
      · exact ih _ d h

theorem digitsLE_value (fuel n : Nat) (h : n ≤ fuel) :
    (digitsLE fuel n).foldr (fun d acc => d + 10 * acc) 0 = n := by
  induction fuel generalizing n with
  | zero =>
    have : n = 0 := by omega
    subst this; rfl
  | succ fuel ih =>
    unfold digitsLE
    split
    · rename_i h0; simp [h0]
    · rename_i h0
      simp only [List.foldr_cons]
      rw [ih (n / 10) (by omega)]
      omega

theorem digitsLE_ne_nil (fuel n : Nat) (h0 : 0 < n) (hf : 0 < fuel) : digitsLE fuel n ≠ [] := by
  cases fuel with
  | zero => omega
  | succ fuel =>
    unfold digitsLE
    have : ¬ n = 0 := by omega
    simp [this]

theorem decimalValue_append_singleton (xs : Str) (c : Char) :
    decimalValue (xs ++ [c]) = 10 * decimalValue xs + digitVal c := by
  simp [decimalValue, List.foldl_append]

theorem decimalValue_digits (l : List Nat) (hl : ∀ d ∈ l, d < 10) :
    decimalValue ((l.reverse).map digitChar) = l.foldr (fun d acc => d + 10 * acc) 0 := by
  induction l with
  | nil => rfl
  | cons a l ih =>
    rw [List.reverse_cons, List.map_append, List.map_singleton, decimalValue_append_singleton,
      ih (fun d hd => hl d (List.mem_cons_of_mem _ hd)),
      (digitChar_spec a (hl a (List.mem_cons_self _ _))).2, List.foldr_cons]
    omega

theorem decimalValue_foldl_acc (fp : Str) (a : Nat) :
    fp.foldl (fun acc c => 10 * acc + digitVal c) a = a * 10 ^ fp.length + decimalValue fp := by
  induction fp generalizing a with
  | nil => simp [decimalValue]
  | cons c cs ih =>
    simp only [List.foldl_cons, List.length_cons, decimalValue]
    rw [ih (10 * a + digitVal c), ih (10 * 0 + digitVal c)]
    simp only [decimalValue]
    ring

theorem decimalValue_append (ip fp : Str) :
    decimalValue (ip ++ fp) = decimalValue ip * 10 ^ fp.length + decimalValue fp := by
  unfold decimalValue
  rw [List.foldl_append]
  exact decimalValue_foldl_acc fp _

/-- The decimal text of a positive number consists of digits and denotes the number. -/
theorem decimalText_spec (n : Nat) (h0 : 0 < n) :
    decimalText n ≠ [] ∧ (∀ c ∈ decimalText n, isDigit c = true) ∧
    decimalValue (decimalText n) = n := by
  have hne : digitsLE n n ≠ [] := digitsLE_ne_nil n n h0 h0
  have hlen : 0 < (digitsLE n n).length := List.length_pos.mpr hne
  have htext : decimalText n = ((digitsLE n n).reverse).map digitChar := by
    unfold decimalText padDigits
    simp only [List.length_map, List.length_reverse]
    have : 1 - (digitsLE n n).length = 0 := by omega
    rw [this]
    rfl
  rw [htext]
  refine ⟨by simpa using hne, ?_, ?_⟩
  · intro c hc
    simp only [List.mem_map, List.mem_reverse] at hc
    obtain ⟨d, hd, rfl⟩ := hc
    exact (digitChar_spec d (digitsLE_lt n n d hd)).1
  · rw [decimalValue_digits _ (digitsLE_lt n n), digitsLE_value n n (Nat.le_refl n)]

theorem isDigit_props (c : Char) (h : isDigit c = true) :
    isSpace c = false ∧ c ≠ '+' ∧ c ≠ '-' ∧ c ≠ '/' ∧ c ≠ '.' ∧ c.utf8Size = 1 := by
  have hn : 48 ≤ c.toNat ∧ c.toNat ≤ 57 := by
    simpa [isDigit] using h
  have hne : ∀ d : Char, d.toNat ≠ c.toNat → c ≠ d := fun d hd e => hd (e ▸ rfl)
  refine ⟨?_, hne _ ?_, hne _ ?_, hne _ ?_, hne _ ?_, ?_⟩
  · simp only [isSpace, Bool.or_eq_false_iff, Bool.and_eq_false_iff, decide_eq_false_iff_not,
      beq_eq_false_iff_ne]
    omega
  · show (43 : Nat) ≠ _; omega
  · show (45 : Nat) ≠ _; omega
  · show (47 : Nat) ≠ _; omega
  · show (46 : Nat) ≠ _; omega
  · have h1 : c.val.toNat ≤ 127 := by
      show c.toNat ≤ 127
      omega
    unfold Char.utf8Size
    have : c.val ≤ UInt32.ofNatCore 127 (by decide) := by
      show c.val.toNat ≤ 127
      exact h1
    simp only [this, if_true]

theorem parseDMY_some_mem (s : Str) (d : Date) (h : parseDMY s = some d) : '/' ∈ s := by
  unfold parseDMY at h
  split at h
  · split at h
    · rename_i hc
      simp only [Bool.and_eq_true, beq_iff_eq] at hc
      rw [hc.1.1]
      simp
    · exact absurd h (by simp)
  · exact absurd h (by simp)

theorem parseYMD_some_mem (s : Str) (d : Date) (h : parseYMD s = some d) : '-' ∈ s := by
  unfold parseYMD at h
  split at h
  · split at h
    · rename_i hc
      simp only [Bool.and_eq_true, beq_iff_eq] at hc
      rw [hc.1.1]
      simp
    · exact absurd h (by simp)
  · exact absurd h (by simp)

theorem matchDMYAt_some_mem (s m : Str) (h : matchDMYAt s = some m) : '/' ∈ s := by
  unfold matchDMYAt at h
  split at h
  · split at h
    · rename_i hc
      simp only [Bool.and_eq_true, beq_iff_eq] at hc
      rw [hc.1.1.1]
      simp
    · exact absurd h (by simp)
  · exact absurd h (by simp)

theorem matchYMDAt_some_mem (s m : Str) (h : matchYMDAt s = some m) : '-' ∈ s := by
  unfold matchYMDAt at h
  split at h
  · split at h
    · rename_i hc
      simp only [Bool.and_eq_true, beq_iff_eq] at hc
      rw [hc.1.1.1]
      simp
    · exact absurd h (by simp)
  · exact absurd h (by simp)

theorem findFrom_none (matchAt : Str → Option Str) (c : Char)
    (hm : ∀ t m, matchAt t = some m → c ∈ t) (s : Str) (hs : c ∉ s) (b : Bool) :
    findFrom matchAt b s = none := by
  induction s generalizing b with
  | nil => rfl
  | cons a as ih =>
    have h1 : matchAt (a :: as) = none := by
      cases hx : matchAt (a :: as) with
      | none => rfl
      | some m => exact absurd (hm _ _ hx) hs
    unfold findFrom
    have h2 : (if b = true then none else matchAt (a :: as)) = none := by
      split
      · rfl
      · exact h1
    rw [h2]
    exact ih (fun h => hs (List.mem_cons_of_mem _ h)) _

theorem parseFloat_unsigned (t : Str) (ht : ∀ c ∈ t, isDigit c = true ∨ c = '.') :
    parseFloat t =
      match parseUnsigned t with
      | none => .error .badSyntax
      | some q =>
        match roundF64 q with
        | .fin v => .ok (.fin v)
        | _ => .error .outOfRange := by
  have hp : ∀ r, t ≠ '+' :: r := by
    intro r h
    have := plainChar_codes '+' (ht '+' (by rw [h]; exact List.mem_cons_self _ _))
    revert this
    decide
  have hm : ∀ r, t ≠ '-' :: r := by
    intro r h
    have := plainChar_codes '-' (ht '-' (by rw [h]; exact List.mem_cons_self _ _))
    revert this
    decide
  rw [parseFloat_plain t ht]
  unfold parseFloatCore
  split
  rename_i x neg r h
  split at h
  · exact absurd rfl (hp _)
  · exact absurd rfl (hm _)
  · simp only [Prod.mk.injEq] at h
    obtain ⟨h1, h2⟩ := h
    subst h1 h2
    simp

theorem parseUnsigned_int (ip : Str) (hip : ∀ c ∈ ip, isDigit c = true) (hne : ip ≠ []) :
    parseUnsigned ip = some (decimalValue ip : ℚ) := by
  have h1 : ip.takeWhile isDigit = ip := List.takeWhile_eq_self_iff.mpr hip
  have h2 : ip.dropWhile isDigit = [] := List.dropWhile_eq_nil_iff.mpr hip
  have hlen : 0 < ip.length := List.length_pos.mpr hne
  have h3 : (ip.length + 0 == 0) = false := by
    simp only [Nat.add_zero, beq_eq_false_iff_ne]
    omega
  rw [parseUnsigned_plain ip (fun c hc => Or.inl (hip c hc))]
  unfold parseDecimal
  simp only [h1, h2, h3, Bool.false_eq_true, if_false, parseExponent, List.append_nil,
    List.length_nil, pow_zero, div_one, zpow_zero, mul_one]

theorem parseUnsigned_frac (ip fp : Str) (hip : ∀ c ∈ ip, isDigit c = true)
    (hfp : ∀ c ∈ fp, isDigit c = true) (hne : ip ≠ [] ∨ fp ≠ []) :
    parseUnsigned (ip ++ '.' :: fp) = some (plainValue ip fp) := by
  have hdot : ¬ isDigit '.' = true := by decide
  have h1 : (ip ++ '.' :: fp).takeWhile isDigit = ip := by
    rw [List.takeWhile_append_of_pos hip, List.takeWhile_cons_of_neg hdot, List.append_nil]
  have h2 : (ip ++ '.' :: fp).dropWhile isDigit = '.' :: fp := by
    rw [List.dropWhile_append_of_pos hip, List.dropWhile_cons_of_neg hdot]
  have h3 : fp.takeWhile isDigit = fp := List.takeWhile_eq_self_iff.mpr hfp
  have h4 : fp.dropWhile isDigit = [] := List.dropWhile_eq_nil_iff.mpr hfp
  have h5 : (ip.length + fp.length == 0) = false := by
    simp only [beq_eq_false_iff_ne]
    rcases hne with h | h
    · have := List.length_pos.mpr h; omega
    · have := List.length_pos.mpr h; omega
  have hplain : ∀ c ∈ ip ++ '.' :: fp, isDigit c = true ∨ c = '.' := by
    intro c hc
    rcases List.mem_append.mp hc with h | h
    · exact Or.inl (hip c h)
    · rcases List.mem_cons.mp h with h | h
      · exact Or.inr h
      · exact Or.inl (hfp c h)
  rw [parseUnsigned_plain _ hplain]
  unfold parseDecimal
  simp only [h1, h2, h3, h4, h5, Bool.false_eq_true, if_false, parseExponent, zpow_zero,
    mul_one]
  congr 1
  unfold plainValue
  rw [decimalValue_append]
  have hp : (0 : ℚ) < 10 ^ fp.length := by positivity
  push_cast
  field_simp

/-! ## Rounding keeps the side of a small natural bound -/

theorem floorLog2_lt_of_lt (q : ℚ) (hq : 0 < q) (k : ℤ) (h : q < (2 : ℚ) ^ k) :
    floorLog2 q < k := by
  by_contra hc
  have hle : k ≤ floorLog2 q := by omega
  have h1 := zpow_le_zpow_right₀ (by norm_num : (1 : ℚ) ≤ 2) hle
  have h2 := (floorLog2_spec q hq).1
  linarith

theorem le_floorLog2_of_le (q : ℚ) (hq : 0 < q) (k : ℤ) (h : (2 : ℚ) ^ k ≤ q) :
    k ≤ floorLog2 q := by
  by_contra hc
  have hle : floorLog2 q + 1 ≤ k := by omega
  have h1 := zpow_le_zpow_right₀ (by norm_num : (1 : ℚ) ≤ 2) hle
  have h2 := (floorLog2_spec q hq).2
  linarith

theorem two_zpow_53 : (2 : ℚ) ^ (53 : ℤ) = 2 ^ 53 := by norm_num

/-- Below `2^53` the spacing divides every natural number. -/
theorem natCast_eq_mul_spacing (B : ℕ) (e : ℤ) (he : e ≤ 52) :
    ∃ M : ℤ, (B : ℚ) = (M : ℚ) * 2 ^ (e - 52) := by
  obtain ⟨d, hd⟩ : ∃ d : ℕ, (d : ℤ) = 52 - e := ⟨(52 - e).toNat, by omega⟩
  have hexp : e - 52 = -(d : ℤ) := by omega
  refine ⟨((B * 2 ^ d : ℕ) : ℤ), ?_⟩
  rw [hexp, zpow_neg, zpow_natCast]
  push_cast
  field_simp

theorem roundMag_le_natCast (q : ℚ) (hq : 0 < q) (B : ℕ) (hB : q ≤ B) (hB53 : B < 2 ^ 53) :
    roundMag q ≤ B := by
  have hBq : (B : ℚ) < (2 : ℚ) ^ (53 : ℤ) := by rw [two_zpow_53]; exact_mod_cast hB53
  have hfl : floorLog2 q < 53 := floorLog2_lt_of_lt q hq 53 (lt_of_le_of_lt hB hBq)
  have he : max (floorLog2 q) (-1022) ≤ 52 := max_le (by omega) (by norm_num)
  obtain ⟨M, hM⟩ := natCast_eq_mul_spacing B _ he
  have hu := two_zpow_pos (max (floorLog2 q) (-1022) - 52)
  unfold roundMag
  simp only
  have h1 : q / 2 ^ (max (floorLog2 q) (-1022) - 52) ≤ (M : ℚ) := by
    rw [div_le_iff₀ hu, ← hM]
    exact hB
  have h2 := roundNearestEven_le _ M h1
  have h3 : (roundNearestEven (q / 2 ^ (max (floorLog2 q) (-1022) - 52)) : ℚ) ≤ (M : ℚ) := by
    exact_mod_cast h2
  rw [hM]
  exact mul_le_mul_of_nonneg_right h3 hu.le

theorem natCast_le_roundMag (q : ℚ) (B : ℕ) (hB1 : 1 ≤ B) (hB : (B : ℚ) ≤ q)
    (hB53 : B < 2 ^ 53) : (B : ℚ) ≤ roundMag q := by
  have hB1q : (1 : ℚ) ≤ B := by exact_mod_cast hB1
  have hq : 0 < q := by linarith
  have hfl0 : 0 ≤ floorLog2 q := le_floorLog2_of_le q hq 0 (by simpa using hB1q.trans hB)
  have hmax : max (floorLog2 q) (-1022) = floorLog2 q := max_eq_left (by omega)
  have hu := two_zpow_pos (floorLog2 q - 52)
  unfold roundMag
  simp only
  rw [hmax]
  by_cases he : floorLog2 q ≤ 52
  · obtain ⟨M, hM⟩ := natCast_eq_mul_spacing B _ he
    have h1 : (M : ℚ) ≤ q / 2 ^ (floorLog2 q - 52) := by
      rw [le_div_iff₀ hu, ← hM]
      exact hB
    have h2 := le_roundNearestEven _ M h1
    have h3 : (M : ℚ) ≤ (roundNearestEven (q / 2 ^ (floorLog2 q - 52)) : ℚ) := by
      exact_mod_cast h2
    rw [hM]
    exact mul_le_mul_of_nonneg_right h3 hu.le
  · have he53 : (53 : ℤ) ≤ floorLog2 q := by omega
    have hspec := (floorLog2_spec q hq).1
    have h52 : ((2 ^ 52 : ℤ) : ℚ) ≤ q / 2 ^ (floorLog2 q - 52) := by
      rw [le_div_iff₀ hu]
      have : ((2 ^ 52 : ℤ) : ℚ) * 2 ^ (floorLog2 q - 52) = (2 : ℚ) ^ floorLog2 q := by
        have h2 : ((2 ^ 52 : ℤ) : ℚ) = (2 : ℚ) ^ (52 : ℤ) := by norm_num
        rw [h2, ← zpow_add₀ (by norm_num : (2 : ℚ) ≠ 0)]
        congr 1
        ring
      rw [this]
      exact hspec
    have h2 := le_roundNearestEven _ _ h52
    have h3 : ((2 ^ 52 : ℤ) : ℚ) ≤ (roundNearestEven (q / 2 ^ (floorLog2 q - 52)) : ℚ) := by
      exact_mod_cast h2
    have h4 : ((2 ^ 52 : ℤ) : ℚ) * 2 ^ (floorLog2 q - 52) ≤
        (roundNearestEven (q / 2 ^ (floorLog2 q - 52)) : ℚ) * 2 ^ (floorLog2 q - 52) :=
      mul_le_mul_of_nonneg_right h3 hu.le
    have h5 : ((2 ^ 52 : ℤ) : ℚ) * 2 ^ (floorLog2 q - 52) = (2 : ℚ) ^ floorLog2 q := by
      have h2 : ((2 ^ 52 : ℤ) : ℚ) = (2 : ℚ) ^ (52 : ℤ) := by norm_num
      rw [h2, ← zpow_add₀ (by norm_num : (2 : ℚ) ≠ 0)]
      congr 1
      ring
    have h6 : (2 : ℚ) ^ (53 : ℤ) ≤ (2 : ℚ) ^ floorLog2 q :=
      zpow_le_zpow_right₀ (by norm_num) he53
    have h7 : (B : ℚ) < (2 : ℚ) ^ (53 : ℤ) := by rw [two_zpow_53]; exact_mod_cast hB53
    rw [h5] at h4
    exact (h7.le.trans h6).trans h4

/-- A non-negative number at most 35000 or at least 47000 does not round into the open
interval of accepted serials. -/
theorem serialInRange_round_false (v : ℚ) (hv0 : 0 ≤ v) (hv : v ≤ 35000 ∨ 47000 ≤ v)
    (f : F64) (hf : roundF64 v = f) : serialInRange f = false := by
  rcases hv0.eq_or_lt with h0 | hpos
  · subst h0
    subst hf
    decide!
  · rw [roundF64_of_pos v hpos] at hf
    split at hf
    · subst hf
      rcases hv with h | h <;> simp [serialInRange, F64.gt, F64.lt]
    · subst hf
      rcases hv with h | h
      · have := roundMag_le_natCast v hpos 35000 (by exact_mod_cast h) (by norm_num)
        have h2 : ¬ (35000 : ℚ) < roundMag v := by push_cast at this; linarith
        simp [serialInRange, F64.gt, h2]
      · have := natCast_le_roundMag v 47000 (by norm_num) (by exact_mod_cast h) (by norm_num)
        have h2 : ¬ roundMag v < (47000 : ℚ) := by push_cast at this; linarith
        simp [serialInRange, F64.gt, F64.lt, h2]

/-! ## Serial dates -/

theorem plainChar_props (c : Char) (h : isDigit c = true ∨ c = '.') :
    isSpace c = false ∧ c ≠ '+' ∧ c ≠ '-' ∧ c ≠ '/' := by
  rcases h with h | h
  · obtain ⟨a, b, c1, d, -, -⟩ := isDigit_props c h
    exact ⟨a, b, c1, d⟩
  · subst h
    exact ⟨by decide, by decide, by decide, by decide⟩

/-- What `parseDateDayFirst` and `findDateInRow` do on a text of digits and points: none
of the two date layouts can match, so the outcome is decided by `strconv.ParseFloat` and
the range test. -/
theorem plainText_dates (ovf : ConvOverflow) (t : Str) (hne : t ≠ [])
    (ht : ∀ c ∈ t, isDigit c = true ∨ c = '.') :
    parseDateDayFirst ovf t =
      (match parseFloat t with
       | .ok f =>
         if serialInRange f then some (formatDMY (dateOfTime (excelSerialToDate ovf f)))
         else none
       | .error _ => none) ∧
    findDateInRow ovf [t] =
      (match parseFloat t with
       | .ok f =>
         if serialInRange f then some (formatDMY (dateOfTime (excelSerialToDate ovf f)))
         else none
       | .error _ => none) := by
  have hslash : '/' ∉ t := fun h => (plainChar_props _ (ht _ h)).2.2.2 rfl
  have hminus : '-' ∉ t := fun h => (plainChar_props _ (ht _ h)).2.2.1 rfl
  have e1 : trimSpace t = t := by
    apply trimSpace_eq_self
    · intro c hc
      exact (plainChar_props c (ht c (List.mem_of_mem_head? hc))).1
    · intro c hc
      exact (plainChar_props c (ht c (List.mem_of_mem_getLast? hc))).1
  have e2 : (t == []) = false := by simpa using hne
  have e3 : parseDMY t = none := by
    cases hx : parseDMY t with
    | none => rfl
    | some d => exact absurd (parseDMY_some_mem t d hx) hslash
  have e4 : (if byteLen t ≥ 10 then parseYMD (t.take 10) else none) = none := by
    split
    · cases hx : parseYMD (t.take 10) with
      | none => rfl
      | some d =>
        exact absurd (List.mem_of_mem_take (parseYMD_some_mem _ d hx)) hminus
    · rfl
  have e6 : findFrom matchDMYAt false t = none :=
    findFrom_none matchDMYAt '/' matchDMYAt_some_mem t hslash false
  have e7 : findFrom matchYMDAt false t = none :=
    findFrom_none matchYMDAt '-' matchYMDAt_some_mem t hminus false
  have e8 : (findFrom matchYMDAt false t).bind parseYMD = none := by rw [e7]; rfl
  constructor
  · unfold parseDateDayFirst
    simp only [e1, e2, e3, e4, Bool.false_eq_true, if_false]
  · unfold findDateInRow
    simp only [e1, e2, e6, e8, Bool.false_eq_true, if_false]
    cases parseFloat t with
    | error e => simp [findDateInRow]
    | ok f =>
      simp only
      split
      · rfl
      · simp [findDateInRow]

theorem plainText_no_sign (t : Str) (ht : ∀ c ∈ t, isDigit c = true ∨ c = '.') :
    (∀ r, t ≠ '+' :: r) ∧ (∀ r, t ≠ '-' :: r) := by
  constructor
  · intro r h
    have := (plainChar_props '+' (ht '+' (by rw [h]; exact List.mem_cons_self _ _))).2.1
    exact this rfl
  · intro r h
    have := (plainChar_props '-' (ht '-' (by rw [h]; exact List.mem_cons_self _ _))).2.2.1
    exact this rfl

/-- A plain number that denotes `v`, with `v ≤ 35000` or `v ≥ 47000`, yields no date. -/
theorem plainText_rejected (ovf : ConvOverflow) (t : Str) (v : ℚ) (hne : t ≠ [])
    (ht : ∀ c ∈ t, isDigit c = true ∨ c = '.') (hp : parseUnsigned t = some v)
    (hv0 : 0 ≤ v) (hv : v ≤ 35000 ∨ 47000 ≤ v) :
    parseDateDayFirst ovf t = none ∧ findDateInRow ovf [t] = none := by
  obtain ⟨d1, d2⟩ := plainText_dates ovf t hne ht
  obtain ⟨s1, s2⟩ := plainText_no_sign t ht
  have hpf := parseFloat_unsigned t ht
  rw [hp] at hpf
  simp only at hpf
  have key : (match parseFloat t with
       | .ok f =>
         if serialInRange f then some (formatDMY (dateOfTime (excelSerialToDate ovf f)))
         else none
       | .error _ => none) = none := by
    rw [hpf]
    cases hr : roundF64 v with
    | fin r =>
      have := serialInRange_round_false v hv0 hv _ hr
      simp [this]
    | inf b => rfl
    | nan => rfl
  rw [d1, d2, key]
  exact ⟨rfl, rfl⟩

/-- C8: a cell text that is a plain number (digits, optionally a point and digits; such a
text is in neither date layout) with value `v ≤ 35000` or `v ≥ 47000` yields no date,
from `parseDateDayFirst` and from `findDateInRow` on the row of that single cell. -/
theorem C8_serial_out_of_range_rejected (ovf : ConvOverflow) (ip fp : Str)
    (hip : ∀ c ∈ ip, isDigit c = true) (hfp : ∀ c ∈ fp, isDigit c = true) :
    (ip ≠ [] → ((decimalValue ip : ℚ) ≤ 35000 ∨ 47000 ≤ (decimalValue ip : ℚ)) →
      parseDateDayFirst ovf ip = none ∧ findDateInRow ovf [ip] = none) ∧
    ((ip ≠ [] ∨ fp ≠ []) → (plainValue ip fp ≤ 35000 ∨ 47000 ≤ plainValue ip fp) →
      parseDateDayFirst ovf (ip ++ '.' :: fp) = none ∧
      findDateInRow ovf [ip ++ '.' :: fp] = none) := by
  constructor
  · intro hne hv
    exact plainText_rejected ovf ip _ hne (fun c hc => Or.inl (hip c hc))
      (parseUnsigned_int ip hip hne) (by positivity) hv
  · intro hne hv
    refine plainText_rejected ovf _ _ (by simp) ?_ (parseUnsigned_frac ip fp hip hfp hne) ?_ hv
    · intro c hc
      rcases List.mem_append.mp hc with h | h
      · exact Or.inl (hip c h)
      · rcases List.mem_cons.mp h with h | h
        · exact Or.inr h
        · exact Or.inl (hfp c h)
    · unfold plainValue
      positivity

/-- Witness for C8: the texts "100", "35000" and "47000" yield no date. -/
theorem C8_serial_out_of_range_rejected_witness :
    (parseDateDayFirst amd64Conv "100".toList = none ∧
      findDateInRow amd64Conv ["100".toList] = none) ∧
    (parseDateDayFirst amd64Conv "35000".toList = none ∧
      findDateInRow amd64Conv ["35000".toList] = none) ∧
    (parseDateDayFirst amd64Conv "47000".toList = none ∧
      findDateInRow amd64Conv ["47000".toList] = none) :=
  ⟨(C8_serial_out_of_range_rejected amd64Conv "100".toList [] (by decide) (by decide)).1
      (by decide) (Or.inl (by decide!)),
   (C8_serial_out_of_range_rejected amd64Conv "35000".toList [] (by decide) (by decide)).1
      (by decide) (Or.inl (by decide!)),
   (C8_serial_out_of_range_rejected amd64Conv "47000".toList [] (by decide) (by decide)).1
      (by decide) (Or.inr (by decide!))⟩

theorem wrap64_id (x : ℤ) (h1 : -9223372036854775808 ≤ x) (h2 : x < 9223372036854775808) :
    wrap64 x = x := by
  unfold wrap64
  norm_num
  omega

theorem truncQ_natCast (n : ℕ) : truncQ (n : ℚ) = n := by
  unfold truncQ
  have h : (0 : ℚ) ≤ n := by positivity
  simp only [h, if_true]
  exact Int.floor_natCast n

theorem toInt64_natCast (ovf : ConvOverflow) (n : ℕ) (h : n < 2 ^ 63) :
    toInt64 ovf (.fin (n : ℚ)) = n := by
  have hin : inInt64 (.fin (n : ℚ)) = true := by
    simp only [inInt64, truncQ_natCast, Bool.and_eq_true, decide_eq_true_eq]
    constructor
    · have : (0 : ℤ) ≤ n := by positivity
      have h63 : (-2 : ℤ) ^ 63 < 0 := by norm_num
      omega
    · exact_mod_cast h
  rw [toInt64_of_inInt64 ovf _ hin, truncQ_natCast]

/-- On a whole serial below 100000 `excelSerialToDate` adds exactly that many days to
1899-12-30: the fraction is zero and no `int64` product wraps. -/
theorem excelSerialToDate_natCast (ovf : ConvOverflow) (n : ℕ) (h : n < 100000) :
    excelSerialToDate ovf (.fin (n : ℚ)) = timeOfDate ⟨1899, 12, 30⟩ + (n : ℤ) * nsPerDay := by
  have hn63 : n < 2 ^ 63 := by
    have : (100000 : ℕ) < 2 ^ 63 := by norm_num
    omega
  have hn53 : n < 2 ^ 53 := by
    have : (100000 : ℕ) < 2 ^ 53 := by norm_num
    omega
  have t1 : toInt64 ovf (.fin (n : ℚ)) = n := toInt64_natCast ovf n hn63
  have t2 : ofInt64 (n : ℤ) = .fin (n : ℚ) := by
    unfold ofInt64
    rw [Int.cast_natCast]
    exact roundF64_natCast n hn53
  have t3 : (F64.fin (n : ℚ)).sub (.fin (n : ℚ)) = .fin 0 := by
    simp [F64.sub, F64.add, F64.neg, roundF64]
  have t4 : (F64.fin 0).mul (.fin 24) = .fin 0 := by
    simp [F64.mul, roundF64]
  have t5 : ofInt64 3600000000000 = .fin 3600000000000 := by
    have := roundF64_natCast 3600000000000 (by norm_num)
    unfold ofInt64
    exact_mod_cast this
  have t6 : (F64.fin 0).mul (.fin 3600000000000) = .fin 0 := by
    simp [F64.mul, roundF64]
  have t7 : toInt64 ovf (.fin 0) = 0 := by
    have := toInt64_natCast ovf 0 (by norm_num)
    simpa using this
  have hb : (n : ℤ) < 100000 := by exact_mod_cast h
  have hn0 : (0 : ℤ) ≤ n := by positivity
  have w1 : wrap64 ((n : ℤ) * 24) = (n : ℤ) * 24 := wrap64_id _ (by omega) (by omega)
  have w2 : wrap64 ((n : ℤ) * 24 * 3600000000000) = (n : ℤ) * 24 * 3600000000000 :=
    wrap64_id _ (by omega) (by omega)
  have w3 : wrap64 ((n : ℤ) * 24 * 3600000000000 + 0) = (n : ℤ) * 24 * 3600000000000 := by
    rw [add_zero]; exact w2
  unfold excelSerialToDate
  simp only [t1, t2, t3, t4, t5, t6, t7, w1, w2, w3, nsPerDay]
  ring

theorem dateOfTime_add_days (d : Date) (n : ℤ) :
    dateOfTime (timeOfDate d + n * nsPerDay) = civilFromDays (daysFromCivil d + n) := by
  unfold dateOfTime timeOfDate
  rw [← add_mul]
  rw [Int.mul_ediv_cancel _ (by decide : nsPerDay ≠ 0)]

/-- C7: for every whole serial `n` with `35000 < n < 47000`, `parseDateDayFirst` and
`findDateInRow` applied to the decimal text of `n` return the date that lies `n` days
after 1899-12-30, formatted DD/MM/YYYY; the text "45000" yields "15/03/2023". -/
theorem C7_serial_dates (ovf : ConvOverflow) (n : ℕ) (h1 : 35000 < n) (h2 : n < 47000) :
    parseDateDayFirst ovf (decimalText n) =
      some (formatDMY (civilFromDays (daysFromCivil ⟨1899, 12, 30⟩ + (n : ℤ)))) ∧
    findDateInRow ovf [decimalText n] =
      some (formatDMY (civilFromDays (daysFromCivil ⟨1899, 12, 30⟩ + (n : ℤ)))) ∧
    decimalText 45000 = "45000".toList ∧
    formatDMY (civilFromDays (daysFromCivil ⟨1899, 12, 30⟩ + ((45000 : ℕ) : ℤ))) =
      "15/03/2023".toList := by
  obtain ⟨hne, hdig, hval⟩ := decimalText_spec n (by omega)
  have ht : ∀ c ∈ decimalText n, isDigit c = true ∨ c = '.' := fun c hc => Or.inl (hdig c hc)
  obtain ⟨d1, d2⟩ := plainText_dates ovf (decimalText n) hne ht
  obtain ⟨s1, s2⟩ := plainText_no_sign (decimalText n) ht
  have hpf := parseFloat_unsigned (decimalText n) ht
  rw [parseUnsigned_int _ hdig hne, hval] at hpf
  have hround : roundF64 (n : ℚ) = .fin (n : ℚ) :=
    roundF64_natCast n (by
      have : (47000 : ℕ) < 2 ^ 53 := by norm_num
      omega)
  simp only [hround] at hpf
  have hrange : serialInRange (.fin (n : ℚ)) = true := by
    have a1 : (35000 : ℚ) < n := by exact_mod_cast h1
    have a2 : (n : ℚ) < 47000 := by exact_mod_cast h2
    simp [serialInRange, F64.gt, F64.lt, a1, a2]
  have hdate : dateOfTime (excelSerialToDate ovf (.fin (n : ℚ))) =
      civilFromDays (daysFromCivil ⟨1899, 12, 30⟩ + (n : ℤ)) := by
    rw [excelSerialToDate_natCast ovf n (by omega), dateOfTime_add_days]
  have key : (match parseFloat (decimalText n) with
       | .ok f =>
         if serialInRange f then some (formatDMY (dateOfTime (excelSerialToDate ovf f)))
         else none
       | .error _ => none) =
      some (formatDMY (civilFromDays (daysFromCivil ⟨1899, 12, 30⟩ + (n : ℤ)))) := by
    rw [hpf]
    simp only [hrange, if_true, hdate]
  rw [d1, d2, key]
  exact ⟨rfl, rfl, by decide, by decide!⟩

/-- Witness for C7 at the serial 45000; the first and the last accepted whole serials,
35001 and 46999, give 29/10/1995 and 03/09/2028. -/
theorem C7_serial_dates_witness :
    parseDateDayFirst amd64Conv (decimalText 45000) =
      some (formatDMY (civilFromDays (daysFromCivil ⟨1899, 12, 30⟩ + ((45000 : ℕ) : ℤ)))) ∧
    parseDateDayFirst amd64Conv "45000".toList = some "15/03/2023".toList ∧
    findDateInRow amd64Conv ["45000".toList] = some "15/03/2023".toList ∧
    parseDateDayFirst amd64Conv "35001".toList = some "29/10/1995".toList ∧
    parseDateDayFirst amd64Conv "46999".toList = some "03/09/2028".toList :=
  ⟨(C7_serial_dates amd64Conv 45000 (by decide) (by decide)).1, by decide!, by decide!,
    by decide!, by decide!⟩

/-! ## The chart loaders -/

theorem entriesUnder_append {α : Type} (acc : List (Str × α)) (k k2 : Str) (e : α) :
    entriesUnder (acc ++ [(k, e)]) k2 =
      if k = k2 then entriesUnder acc k2 ++ [e] else entriesUnder acc k2 := by
  unfold entriesUnder
  by_cases h : k = k2
  · simp [List.filter_append, h]
  · simp [List.filter_append, h]

theorem entriesUnder_nil_of_not_mem {α : Type} (acc : List (Str × α)) (k : Str)
    (h : k ∉ acc.map Prod.fst) : entriesUnder acc k = [] := by
  unfold entriesUnder
  rw [List.map_eq_nil_iff, List.filter_eq_nil_iff]
  intro p hp hk
  exact h (List.mem_map.mpr ⟨p, hp, by simpa using hk⟩)

theorem storeEntry_inv {α : Type} (st : IndexState α) (acc : List (Str × α)) (k : Str)
    (e : α) (h : IndexInv st acc) : IndexInv (storeEntry st k e) (acc ++ [(k, e)]) := by
  obtain ⟨h1, h2, h3, h4, h5⟩ := h
  have hkeys : (acc ++ [(k, e)]).map Prod.fst = acc.map Prod.fst ++ [k] := by simp
  have hget : mapGet st.byKey k = entriesUnder acc k := by
    unfold mapGet
    rw [h1 k]
    by_cases hk : k ∈ acc.map Prod.fst
    · simp [hk]
    · simp [hk, entriesUnder_nil_of_not_mem acc k hk]
  have hmap : ∀ k2, (mapSet st.byKey k (mapGet st.byKey k ++ [e])) k2 =
      if k2 ∈ (acc ++ [(k, e)]).map Prod.fst then some (entriesUnder (acc ++ [(k, e)]) k2)
      else none := by
    intro k2
    rw [hkeys, entriesUnder_append, hget]
    unfold mapSet
    by_cases hk : k2 = k
    · subst hk
      rw [if_pos rfl, if_pos (List.mem_append_right _ (List.mem_singleton_self _)), if_pos rfl]
    · have hk' : ¬ k = k2 := fun h => hk h.symm
      simp only [hk, hk', if_false, List.mem_append, List.mem_singleton, or_false]
      exact h1 k2
  have hlt : ∀ a, a ∈ acc.map Prod.fst →
      (acc.map Prod.fst).findIdx (fun x => decide (x = a)) < (acc.map Prod.fst).length := by
    intro a ha
    exact List.findIdx_lt_length_of_exists ⟨a, ha, by simp⟩
  have hidx : ∀ a, a ∈ acc.map Prod.fst →
      (acc.map Prod.fst ++ [k]).findIdx (fun x => decide (x = a)) =
        (acc.map Prod.fst).findIdx (fun x => decide (x = a)) := by
    intro a ha
    rw [List.findIdx_append, if_pos (hlt a ha)]
  unfold storeEntry
  by_cases hs : (st.seen k).getD false = true
  · have hin : k ∈ acc.map Prod.fst := (h3 k).mp ((h4 k).mp hs)
    simp only [hs, Bool.not_true, Bool.false_eq_true, if_false]
    refine ⟨hmap, h2, fun k2 => ?_, h4, ?_⟩
    · rw [hkeys, h3 k2]
      simp only [List.mem_append, List.mem_singleton]
      constructor
      · exact Or.inl
      · rintro (h | h)
        · exact h
        · rw [h]; exact hin
    · rw [hkeys]
      refine List.Pairwise.imp_of_mem ?_ h5
      intro a b ha hb hab
      rw [hidx a ((h3 a).mp ha), hidx b ((h3 b).mp hb)]
      exact hab
  · have hs' : (st.seen k).getD false = false := by simpa using hs
    have hnin : k ∉ st.order := fun h => hs ((h4 k).mpr h)
    have hnin2 : k ∉ acc.map Prod.fst := fun h => hnin ((h3 k).mpr h)
    simp only [hs', Bool.not_false, if_true]
    refine ⟨hmap, ?_, fun k2 => ?_, fun k2 => ?_, ?_⟩
    · exact List.nodup_append.mpr ⟨h2, List.nodup_singleton k, by
        intro a ha hb
        rw [List.mem_singleton] at hb
        exact hnin (hb ▸ ha)⟩
    · rw [hkeys]
      simp only [List.mem_append, List.mem_singleton, h3 k2]
    · unfold mapSet
      by_cases hk : k2 = k
      · subst hk
        simp
      · simp only [hk, if_false, List.mem_append, List.mem_singleton, or_false]
        exact h4 k2
    · rw [hkeys, List.pairwise_append]
      refine ⟨?_, List.pairwise_singleton _ _, ?_⟩
      · refine List.Pairwise.imp_of_mem ?_ h5
        intro a b ha hb hab
        rw [hidx a ((h3 a).mp ha), hidx b ((h3 b).mp hb)]
        exact hab
      · intro a ha b hb
        rw [List.mem_singleton] at hb
        subst hb
        rw [hidx a ((h3 a).mp ha)]
        have h1 := hlt a ((h3 a).mp ha)
        have h2 : (acc.map Prod.fst).length ≤
            (acc.map Prod.fst ++ [b]).findIdx (fun x => decide (x = b)) := by
          rw [List.findIdx_append]
          split
          · rename_i hlt2
            have := List.findIdx_getElem (w := hlt2)
            simp only [decide_eq_true_eq] at this
            exact absurd (this ▸ List.getElem_mem _) hnin2
          · omega
        omega

theorem foldl_indexInv {α : Type} (accept : List Str → Option (Str × α))
    (records : List (List Str)) (st : IndexState α) (acc : List (Str × α))
    (h : IndexInv st acc) :
    IndexInv
      (records.foldl
        (fun st rec =>
          match accept rec with
          | none => st
          | some (key, e) => storeEntry st key e) st)
      (acc ++ records.filterMap accept) := by
  induction records generalizing st acc with
  | nil => simpa using h
  | cons rec rest ih =>
    rw [List.foldl_cons]
    cases hacc : accept rec with
    | none =>
      simp only [List.filterMap_cons, hacc]
      exact ih st acc h
    | some p =>
      obtain ⟨k, e⟩ := p
      simp only [List.filterMap_cons, hacc]
      have := ih (storeEntry st k e) (acc ++ [(k, e)]) (storeEntry_inv st acc k e h)
      simpa using this

/-- The record loop stores exactly the accepted records. -/
theorem buildIndex_inv {α : Type} (accept : List Str → Option (Str × α))
    (records : List (List Str)) :
    IndexInv (buildIndex accept records) (records.filterMap accept) := by
  have h0 : IndexInv (⟨fun _ => none, [], fun _ => none⟩ : IndexState α) [] := by
    refine ⟨fun k => by simp, List.nodup_nil, fun k => by simp, fun k => by simp,
      List.Pairwise.nil⟩
  have := foldl_indexInv accept records _ [] h0
  simpa using this

theorem contaOfRecord_some (u : UnicodeTables) (rec : List Str) (k : Str) (e : ContaEntry)
    (h : contaOfRecord u rec = some (k, e)) :
    k = normalizeText u e.Desc ∧ k ≠ [] ∧ 3 ≤ rec.length ∧
      e = ⟨trimSpace (field rec 0), trimSpace (field rec 1), trimSpace (field rec 2)⟩ ∧
      e.Code ≠ [] ∧ e.Desc ≠ [] := by
  unfold contaOfRecord at h
  simp only at h
  split at h
  · exact absurd h (by simp)
  · rename_i hlen
    split at h
    · exact absurd h (by simp)
    · rename_i hemp
      split at h
      · exact absurd h (by simp)
      · rename_i hk
        simp only [Option.some.injEq, Prod.mk.injEq] at h
        obtain ⟨rfl, rfl⟩ := h
        simp only [Bool.or_eq_true, beq_iff_eq, not_or] at hemp
        exact ⟨rfl, by simpa using hk, by omega, rfl, hemp.1, hemp.2⟩

theorem accOfRecord_some (u : UnicodeTables) (numericID : Str → Bool) (rec : List Str)
    (k : Str) (e : accEntry) (h : accOfRecord u numericID rec = some (k, e)) :
    k = normalizeText u e.Desc ∧ k ≠ [] ∧ 3 ≤ rec.length ∧
      e = ⟨trimSuffixStr (trimSpace (field rec 0)) ".0".toList, trimSpace (field rec 1),
        trimSpace (field rec 2)⟩ ∧
      trimSpace (field rec 0) ≠ [] ∧ e.Desc ≠ [] ∧
      numericID (replaceAll (replaceAll (trimSpace (field rec 0)) ".".toList [])
        ",".toList ".".toList) = true := by
  unfold accOfRecord at h
  simp only at h
  split at h
  · exact absurd h (by simp)
  · rename_i hlen
    split at h
    · exact absurd h (by simp)
    · rename_i hemp
      split at h
      · exact absurd h (by simp)
      · split at h
        · exact absurd h (by simp)
        · rename_i hnum
          split at h
          · exact absurd h (by simp)
          · rename_i hk
            simp only [Option.some.injEq, Prod.mk.injEq] at h
            obtain ⟨rfl, rfl⟩ := h
            simp only [Bool.or_eq_true, beq_iff_eq, not_or] at hemp
            exact ⟨rfl, by simpa using hk, by omega, rfl, hemp.2, hemp.1, by simpa using hnum⟩

/-- Every key stored by the record loop is non-empty when the guards reject the empty
key. -/
theorem buildIndex_keys {α : Type} (accept : List Str → Option (Str × α))
    (records : List (List Str)) (k : Str) :
    k ∈ (buildIndex accept records).order ↔
      ((buildIndex accept records).byKey k).isSome = true := by
  obtain ⟨h1, -, h3, -, -⟩ := buildIndex_inv accept records
  rw [h3 k, h1 k]
  by_cases hk : k ∈ (records.filterMap accept).map Prod.fst
  · simp [hk]
  · simp [hk]

theorem buildIndex_get {α : Type} (accept : List Str → Option (Str × α))
    (records : List (List Str)) (k : Str) :
    mapGet (buildIndex accept records).byKey k =
      entriesUnder (records.filterMap accept) k := by
  obtain ⟨h1, -, -, -, -⟩ := buildIndex_inv accept records
  unfold mapGet
  rw [h1 k]
  by_cases hk : k ∈ (records.filterMap accept).map Prod.fst
  · simp [hk]
  · simp [hk, entriesUnder_nil_of_not_mem _ k hk]

theorem mapGet_map_sort (m : AccMap) (k : Str) (f : List accEntry → List accEntry)
    (hf : f [] = []) : mapGet (fun k => (m k).map f) k = f (mapGet m k) := by
  unfold mapGet
  show (Option.map f (m k)).getD [] = f ((m k).getD [])
  cases m k with
  | none => simp [hf]
  | some l => simp

/-- Skipped records leave the record loop's result unchanged. -/
theorem buildIndex_skip {α : Type} (accept : List Str → Option (Str × α))
    (pre post : List (List Str)) (row : List Str) (h : accept row = none) :
    buildIndex accept (pre ++ row :: post) = buildIndex accept (pre ++ post) := by
  unfold buildIndex
  rw [List.foldl_append, List.foldl_append, List.foldl_cons]
  simp only [h]

theorem buildIndex_all_skipped {α : Type} (accept : List Str → Option (Str × α))
    (records : List (List Str)) (h : ∀ rec ∈ records, accept rec = none) :
    buildIndex accept records = ⟨fun _ => none, [], fun _ => none⟩ := by
  unfold buildIndex
  induction records with
  | nil => rfl
  | cons rec rest ih =>
    rw [List.foldl_cons]
    simp only [h rec (List.mem_cons_self _ _)]
    exact ih (fun r hr => h r (List.mem_cons_of_mem _ hr))

theorem tryKey_empty (P : List Str) (key : Str) : tryKey (fun _ => none) P key = none := by
  unfold tryKey
  split <;> rfl

theorem lookupEntry_empty
    (srt : (ContaEntry → ContaEntry → Bool) → List ContaEntry → List ContaEntry)
    (P : List Str) (key : Str) : lookupEntry srt (fun _ => none) P key = none := rfl

/-- C12: when the guards of the loaders reject every record of the file, both loaders
return no error, an empty map and an empty key list; and on an empty map both matchers
return "999999" for every description, key list, prefix list and fuzzy search. -/
theorem C12_empty_index {ε : Type} (u : UnicodeTables) (numericID : Str → Bool)
    (closest : Closest)
    (srt : (ContaEntry → ContaEntry → Bool) → List ContaEntry → List ContaEntry)
    (records : List (List Str)) (D : Str) (idx P : List Str)
    (hacc : ∀ rec ∈ records, accOfRecord u numericID rec = none)
    (hconta : ∀ rec ∈ records, contaOfRecord u rec = none) :
    lerPlanoContasAtolini u numericID (Except.ok records : Except ε _) =
      .ok (fun _ => none, []) ∧
    lerContasRecebimentos u (Except.ok records : Except ε _) = .ok ([], fun _ => none) ∧
    buscarContaAtolini u closest D (fun _ => none) idx P = (sentinel, fun _ => none) ∧
    findContaCodigoByDescricao u closest srt D idx (fun _ => none) P =
      (sentinel, fun _ => none) := by
  refine ⟨?_, ?_, ?_, ?_⟩
  · unfold lerPlanoContasAtolini
    simp only [buildIndex_all_skipped _ records hacc, Option.map_none']
  · unfold lerContasRecebimentos
    simp only [buildIndex_all_skipped _ records hconta]
  · apply buscarContaAtolini_cases u closest D (fun _ => none) idx P
      (fun r => r = (sentinel, fun _ => none)) rfl
    intro key r hr
    rw [tryKey_empty] at hr
    exact absurd hr (by simp)
  · apply findContaCodigoByDescricao_cases u closest srt D idx (fun _ => none) P
      (fun r => r = (sentinel, fun _ => none)) rfl
    intro key r hr
    rw [lookupEntry_empty] at hr
    exact absurd hr (by simp)

/-- Witness for C12: a file whose three rows are all skipped (two fields only, no
code, a description that normalises to the empty key). -/
theorem C12_empty_index_witness :
    lerPlanoContasAtolini latin1Tables decimalID
      (Except.ok (demoRecords.drop 3) : Except Unit _) = .ok (fun _ => none, []) ∧
    lerContasRecebimentos latin1Tables
      (Except.ok (demoRecords.drop 3) : Except Unit _) = .ok ([], fun _ => none) ∧
    buscarContaAtolini latin1Tables demoClosest "Caixa".toList (fun _ => none) [] [] =
      (sentinel, fun _ => none) ∧
    findContaCodigoByDescricao latin1Tables demoClosest sortSliceStable "Caixa".toList []
      (fun _ => none) [] = (sentinel, fun _ => none) :=
  C12_empty_index latin1Tables decimalID demoClosest sortSliceStable (demoRecords.drop 3)
    "Caixa".toList [] [] (by decide!) (by decide)

/-- C17, counterexample: `lerContasRecebimentos` stores the two "Caixa" records of the
demo file in file order, the shorter classification 1.1 before 1.1.01. -/
theorem C17_recebimentos_lists_unsorted :
    ∃ order m, lerContasRecebimentos latin1Tables
        (Except.ok demoRecords : Except Unit _) = .ok (order, m) ∧
      mapGet m "CAIXA".toList =
        [⟨"1".toList, "1.1".toList, "Caixa".toList⟩,
         ⟨"2".toList, "1.1.01".toList, "CAIXA".toList⟩] ∧
      ¬ (mapGet m "CAIXA".toList).Pairwise
          (fun a b => byteLen b.Classf ≤ byteLen a.Classf) :=
  ⟨_, _, rfl, by decide, by decide⟩

/-- C17, amended: every list of the map built by `lerPlanoContasAtolini` is the stable
sort, longest classification first, of the accepted records of its key in file order,
and so is ordered by classification length, longest first; every list of the map
built by `lerContasRecebimentos` holds the accepted records of its key in file order. -/
theorem C17_plano_lists_sorted {ε : Type} (u : UnicodeTables) (numericID : Str → Bool)
    (records : List (List Str)) :
    (∃ m order, lerPlanoContasAtolini u numericID (Except.ok records : Except ε _) =
        .ok (m, order) ∧
      ∀ k, mapGet m k =
          sortSliceStable (fun a b => decide (byteLen a.Classif > byteLen b.Classif))
            (entriesUnder (records.filterMap (accOfRecord u numericID)) k) ∧
        (mapGet m k).Pairwise (fun a b => byteLen b.Classif ≤ byteLen a.Classif)) ∧
    (∃ order m, lerContasRecebimentos u (Except.ok records : Except ε _) =
        .ok (order, m) ∧
      ∀ k, mapGet m k = entriesUnder (records.filterMap (contaOfRecord u)) k) := by
  refine ⟨⟨_, _, rfl, fun k => ?_⟩, ⟨_, _, rfl, fun k => buildIndex_get _ records k⟩⟩
  have h : mapGet (fun k => ((buildIndex (accOfRecord u numericID) records).byKey k).map
        (sortSliceStable (fun a b => decide (byteLen a.Classif > byteLen b.Classif)))) k =
      sortSliceStable (fun a b => decide (byteLen a.Classif > byteLen b.Classif))
        (entriesUnder (records.filterMap (accOfRecord u numericID)) k) := by
    rw [mapGet_map_sort _ _ _ rfl, buildIndex_get]
  refine ⟨h, ?_⟩
  rw [h]
  exact sortSliceStable_sorted (fun e : accEntry => byteLen e.Classif) _

/-- C18: the map built by `lerContasRecebimentos` holds under every key exactly the
accepted records of that key, in file order, and the map built by
`lerPlanoContasAtolini` a permutation of them; the key of an accepted record is the
`normalizeText` of its description and is not empty; the key list holds exactly the
keys of the map, each once, in the order of their first appearance in the file. -/
theorem C18_index_holds_accepted_records {ε : Type} (u : UnicodeTables)
    (numericID : Str → Bool) (records : List (List Str)) :
    (∃ order m, lerContasRecebimentos u (Except.ok records : Except ε _) =
        .ok (order, m) ∧
      (∀ k, mapGet m k = entriesUnder (records.filterMap (contaOfRecord u)) k) ∧
      (∀ p ∈ records.filterMap (contaOfRecord u), p.1 = normalizeText u p.2.Desc) ∧
      order.Nodup ∧ (∀ k, k ∈ order ↔ (m k).isSome = true) ∧
      (∀ k, k ∈ order ↔ k ∈ (records.filterMap (contaOfRecord u)).map Prod.fst) ∧
      order.Pairwise (fun a b =>
        ((records.filterMap (contaOfRecord u)).map Prod.fst).findIdx
            (fun x => decide (x = a)) <
          ((records.filterMap (contaOfRecord u)).map Prod.fst).findIdx
            (fun x => decide (x = b))) ∧
      [] ∉ order) ∧
    (∃ m order, lerPlanoContasAtolini u numericID (Except.ok records : Except ε _) =
        .ok (m, order) ∧
      (∀ k, (mapGet m k).Perm
        (entriesUnder (records.filterMap (accOfRecord u numericID)) k)) ∧
      (∀ p ∈ records.filterMap (accOfRecord u numericID),
        p.1 = normalizeText u p.2.Desc) ∧
      order.Nodup ∧ (∀ k, k ∈ order ↔ (m k).isSome = true) ∧
      (∀ k, k ∈ order ↔ k ∈ (records.filterMap (accOfRecord u numericID)).map Prod.fst) ∧
      order.Pairwise (fun a b =>
        ((records.filterMap (accOfRecord u numericID)).map Prod.fst).findIdx
            (fun x => decide (x = a)) <
          ((records.filterMap (accOfRecord u numericID)).map Prod.fst).findIdx
            (fun x => decide (x = b))) ∧
      [] ∉ order) := by
  constructor
  · obtain ⟨-, h2, h3, -, h5⟩ := buildIndex_inv (contaOfRecord u) records
    refine ⟨_, _, rfl, fun k => buildIndex_get _ records k, ?_, h2,
      fun k => buildIndex_keys _ records k, h3, h5, ?_⟩
    · intro p hp
      obtain ⟨rec, -, hrec⟩ := List.mem_filterMap.mp hp
      exact (contaOfRecord_some u rec p.1 p.2 hrec).1
    · intro h0
      obtain ⟨p, hp, hp0⟩ := List.mem_map.mp ((h3 []).mp h0)
      obtain ⟨rec, -, hrec⟩ := List.mem_filterMap.mp hp
      exact (contaOfRecord_some u rec p.1 p.2 hrec).2.1 hp0
  · obtain ⟨-, h2, h3, -, h5⟩ := buildIndex_inv (accOfRecord u numericID) records
    refine ⟨_, _, rfl, fun k => ?_, ?_, h2, fun k => ?_, h3, h5, ?_⟩
    · rw [mapGet_map_sort _ _ _ rfl, buildIndex_get]
      exact sortSliceStable_perm _ _
    · intro p hp
      obtain ⟨rec, -, hrec⟩ := List.mem_filterMap.mp hp
      exact (accOfRecord_some u numericID rec p.1 p.2 hrec).1
    · rw [buildIndex_keys]
      simp
    · intro h0
      obtain ⟨p, hp, hp0⟩ := List.mem_map.mp ((h3 []).mp h0)
      obtain ⟨rec, -, hrec⟩ := List.mem_filterMap.mp hp
      exact (accOfRecord_some u numericID rec p.1 p.2 hrec).2.1 hp0

/-- C19, counterexample: the row (code "3", empty classification, description "Banco")
has two non-empty fields, and both loaders store its record under the key "BANCO". -/
theorem C19_empty_classification_accepted :
    (∃ order m, lerContasRecebimentos latin1Tables
        (Except.ok [["3".toList, [], "Banco".toList]] : Except Unit _) = .ok (order, m) ∧
      order = ["BANCO".toList] ∧
      m "BANCO".toList = some [⟨"3".toList, [], "Banco".toList⟩]) ∧
    (∃ m order, lerPlanoContasAtolini latin1Tables decimalID
        (Except.ok [["3".toList, [], "Banco".toList]] : Except Unit _) = .ok (m, order) ∧
      order = ["BANCO".toList] ∧
      m "BANCO".toList = some [⟨"3".toList, [], "Banco".toList⟩]) :=
  ⟨⟨_, _, rfl, by decide, by decide⟩, ⟨_, _, rfl, by decide!, by decide!⟩⟩

/-- C19, amended: a row with fewer than 3 fields, or whose code or description is empty
once trimmed, adds nothing: with the row or without it, both loaders return the same
map and key list, and no error. -/
theorem C19_skipped_rows {ε : Type} (u : UnicodeTables) (numericID : Str → Bool)
    (pre post : List (List Str)) (row : List Str)
    (h : row.length < 3 ∨ trimSpace (field row 0) = [] ∨ trimSpace (field row 2) = []) :
    lerPlanoContasAtolini u numericID (Except.ok (pre ++ row :: post) : Except ε _) =
      lerPlanoContasAtolini u numericID (Except.ok (pre ++ post)) ∧
    lerContasRecebimentos u (Except.ok (pre ++ row :: post) : Except ε _) =
      lerContasRecebimentos u (Except.ok (pre ++ post)) ∧
    (∃ r, lerPlanoContasAtolini u numericID (Except.ok (pre ++ row :: post) : Except ε _) =
      .ok r) ∧
    (∃ r, lerContasRecebimentos u (Except.ok (pre ++ row :: post) : Except ε _) =
      .ok r) := by
  have h1 : accOfRecord u numericID row = none := by
    unfold accOfRecord
    rcases h with h | h | h
    · simp [h]
    · simp [h]
    · simp [h]
  have h2 : contaOfRecord u row = none := by
    unfold contaOfRecord
    rcases h with h | h | h
    · simp [h]
    · simp [h]
    · simp [h]
  refine ⟨?_, ?_, ⟨_, rfl⟩, ⟨_, rfl⟩⟩
  · unfold lerPlanoContasAtolini
    simp only [buildIndex_skip _ pre post row h1]
  · unfold lerContasRecebimentos
    simp only [buildIndex_skip _ pre post row h2]

/-- Witness for C19: the row with two fields in the middle of the demo file. -/
theorem C19_skipped_rows_witness :
    lerPlanoContasAtolini latin1Tables decimalID
        (Except.ok (demoRecords.take 3 ++ ["4".toList, "2".toList] :: demoRecords.drop 4) :
          Except Unit _) =
      lerPlanoContasAtolini latin1Tables decimalID
        (Except.ok (demoRecords.take 3 ++ demoRecords.drop 4)) :=
  (C19_skipped_rows latin1Tables decimalID (demoRecords.take 3) (demoRecords.drop 4)
    ["4".toList, "2".toList] (Or.inl (by decide))).1

/-! ## The matchers called again, and what they leave of the index -/

theorem insertStable_of_ge {α : Type} (key : α → Nat) (a : α) (l : List α)
    (h : ∀ y ∈ l, key y ≤ key a) :
    insertStable (fun x y => decide (key x > key y)) a l = a :: l := by
  cases l with
  | nil => rfl
  | cons b l =>
    unfold insertStable
    have hb : ¬ key b > key a := by
      have := h b (List.mem_cons_self _ _)
      omega
    simp only [hb, decide_False, Bool.false_eq_true, if_false]

/-- The stable sort leaves a list that is already ordered unchanged. -/
theorem sortSliceStable_of_sorted {α : Type} (key : α → Nat) (l : List α)
    (h : l.Pairwise (fun x y => key y ≤ key x)) :
    sortSliceStable (fun x y => decide (key x > key y)) l = l := by
  induction l with
  | nil => rfl
  | cons a l ih =>
    rw [List.pairwise_cons] at h
    unfold sortSliceStable
    rw [ih h.2]
    exact insertStable_of_ge key a l h.1

/-- The slice that `pickBest` leaves behind is a permutation of the one it was given, and
a second `pickBest` on it chooses the same entry and leaves it as it is. -/
theorem pickBest_again (entries : List accEntry) (P : List Str) (b : accEntry)
    (es2 : List accEntry) (h : pickBest entries P = some (b, es2)) :
    es2.Perm entries ∧ pickBest es2 P = some (b, es2) ∧
      ((P ≠ [] ∨ entries.Pairwise (fun x y => byteLen y.Classif ≤ byteLen x.Classif)) →
        es2 = entries) := by
  have hsorted := sortSliceStable_sorted (fun e : accEntry => byteLen e.Classif)
  have hfix := sortSliceStable_of_sorted (fun e : accEntry => byteLen e.Classif)
  by_cases hP : P = []
  · subst hP
    have h0 := h
    unfold pickBest at h
    simp only [List.length_nil, gt_iff_lt, Nat.lt_irrefl, if_false] at h
    split at h
    · exact absurd h (by simp)
    · split at h
      · exact absurd h (by simp)
      · rename_i b2 rest heq
        simp only [Option.some.injEq, Prod.mk.injEq] at h
        obtain ⟨rfl, rfl⟩ := h
        have hs : (b2 :: rest).Pairwise (fun x y => byteLen y.Classif ≤ byteLen x.Classif) := by
          rw [← heq]
          exact hsorted entries
        refine ⟨?_, ?_, ?_⟩
        · rw [← heq]
          exact sortSliceStable_perm _ _
        · unfold pickBest
          simp only [List.length_nil, gt_iff_lt, Nat.lt_irrefl, if_false, List.length_cons]
          rw [hfix _ hs]
          rfl
        · rintro (h | h)
          · exact absurd rfl h
          · rw [← heq]
            exact hfix _ h
  · have hlen : P.length > 0 := List.length_pos.mpr hP
    have h0 := h
    unfold pickBest at h
    simp only [hlen, if_true] at h
    split at h
    · split at h
      · exact absurd h (by simp)
      · simp only [Option.some.injEq, Prod.mk.injEq] at h
        obtain ⟨rfl, rfl⟩ := h
        exact ⟨List.Perm.refl _, h0, fun _ => rfl⟩
    · exact absurd h (by simp)

/-- The same for `pickBestEntry`, for a `sort.Slice` that meets its contract and leaves an
ordered slice as it is. -/
theorem pickBestEntry_again
    (srt : (ContaEntry → ContaEntry → Bool) → List ContaEntry → List ContaEntry)
    (hsrt : SortContract srt)
    (entries : List ContaEntry) (P : List Str) (b : ContaEntry)
    (es2 : List ContaEntry) (h : pickBestEntry srt entries P = some (b, es2)) :
    es2.Perm entries ∧ (P ≠ [] → es2 = entries) ∧
      ((∀ l : List ContaEntry, l.Pairwise (fun x y => byteLen y.Classf ≤ byteLen x.Classf) →
          srt (fun x y => decide (byteLen x.Classf > byteLen y.Classf)) l = l) →
        pickBestEntry srt es2 P = some (b, es2)) := by
  have hc := hsrt (fun e : ContaEntry => byteLen e.Classf)
  by_cases hP : P = []
  · subst hP
    have h0 := h
    unfold pickBestEntry at h
    simp only [List.length_nil, gt_iff_lt, Nat.lt_irrefl, if_false] at h
    split at h
    · exact absurd h (by simp)
    · split at h
      · exact absurd h (by simp)
      · rename_i b2 rest heq
        simp only [Option.some.injEq, Prod.mk.injEq] at h
        obtain ⟨rfl, rfl⟩ := h
        have hs : (b2 :: rest).Pairwise (fun x y => byteLen y.Classf ≤ byteLen x.Classf) := by
          rw [← heq]
          exact (hc entries).2
        refine ⟨?_, fun h => absurd rfl h, fun hfix => ?_⟩
        · rw [← heq]
          exact (hc entries).1
        · unfold pickBestEntry
          simp only [List.length_nil, gt_iff_lt, Nat.lt_irrefl, if_false, List.length_cons]
          rw [hfix _ hs]
          rfl
  · have hlen : P.length > 0 := List.length_pos.mpr hP
    have h0 := h
    unfold pickBestEntry at h
    simp only [hlen, if_true] at h
    split at h
    · split at h
      · exact absurd h (by simp)
      · simp only [Option.some.injEq, Prod.mk.injEq] at h
        obtain ⟨rfl, rfl⟩ := h
        exact ⟨List.Perm.refl _, fun _ => rfl, fun _ => h0⟩
    · exact absurd h (by simp)

theorem mapSet_self {α : Type} (m : Str → Option α) (k : Str) (v : α) (h : m k = some v) :
    mapSet m k v = m := by
  funext k2
  unfold mapSet
  split
  · rename_i hk
    rw [hk, h]
  · rfl

/-- The shape of a successful `tryKey`. -/
theorem tryKey_shape (m : AccMap) (P : List Str) (key : Str) (r : Str × AccMap)
    (h : tryKey m P key = some r) :
    key ≠ [] ∧ ∃ entries b es2, m key = some entries ∧ entries ≠ [] ∧
      pickBest entries P = some (b, es2) ∧ r = (trimSpace b.ID, mapSet m key es2) := by
  unfold tryKey at h
  split at h
  · exact absurd h (by simp)
  · rename_i hkey
    split at h
    · rename_i entries hm
      split at h
      · rename_i hlen
        split at h
        · rename_i be es2 hpb
          simp only [Option.some.injEq] at h
          exact ⟨by simpa using hkey, entries, be, es2, hm, List.length_pos.mp hlen, hpb, h.symm⟩
        · exact absurd h (by simp)
      · exact absurd h (by simp)
    · exact absurd h (by simp)

theorem lookupEntry_shape
    (srt : (ContaEntry → ContaEntry → Bool) → List ContaEntry → List ContaEntry)
    (m : ContaMap) (P : List Str) (key : Str) (r : Str × ContaMap)
    (h : lookupEntry srt m P key = some r) :
    ∃ entries b es2, m key = some entries ∧ entries ≠ [] ∧
      pickBestEntry srt entries P = some (b, es2) ∧
      r = (trimSpace b.Code, mapSet m key es2) := by
  unfold lookupEntry at h
  split at h
  · rename_i entries hm
    split at h
    · rename_i hlen
      split at h
      · rename_i be es2 hpb
        simp only [Option.some.injEq] at h
        exact ⟨entries, be, es2, hm, List.length_pos.mp hlen, hpb, h.symm⟩
      · exact absurd h (by simp)
    · exact absurd h (by simp)
  · exact absurd h (by simp)

/-- The code that `tryKey` returns for a key depends only on the list stored under it. -/
theorem tryKey_code_congr (m m2 : AccMap) (P : List Str) (k : Str) (h : m k = m2 k) :
    (tryKey m P k).map Prod.fst = (tryKey m2 P k).map Prod.fst := by
  unfold tryKey
  rw [h]
  split
  · rfl
  · cases m2 k with
    | none => rfl
    | some entries =>
      simp only
      split
      · cases pickBest entries P with
        | none => rfl
        | some p => rfl
      · rfl

theorem lookupEntry_code_congr
    (srt : (ContaEntry → ContaEntry → Bool) → List ContaEntry → List ContaEntry)
    (m m2 : ContaMap) (P : List Str) (k : Str) (h : m k = m2 k) :
    (lookupEntry srt m P k).map Prod.fst = (lookupEntry srt m2 P k).map Prod.fst := by
  unfold lookupEntry
  rw [h]
  cases m2 k with
  | none => rfl
  | some entries =>
    simp only
    split
    · cases pickBestEntry srt entries P with
      | none => rfl
      | some p => rfl
    · rfl

theorem mapGet_mapSet_perm {α : Type} (m : Str → Option (List α)) (key : Str)
    (entries es2 : List α) (hm : m key = some entries) (hp : es2.Perm entries) (k : Str) :
    (mapGet (mapSet m key es2) k).Perm (mapGet m k) := by
  unfold mapGet mapSet
  by_cases hk : k = key
  · subst hk
    simp only [if_true, hm, Option.getD_some]
    exact hp
  · simp only [hk, if_false]
    exact List.Perm.refl _

/-- After a successful `tryKey`, the map returned answers every `tryKey` with the same
code as the map before, and passes the same keys through the prefix filter. -/
theorem tryKey_again (m : AccMap) (P : List Str) (key : Str) (r : Str × AccMap)
    (h : tryKey m P key = some r) :
    (∀ k, (tryKey r.2 P k).map Prod.fst = (tryKey m P k).map Prod.fst) ∧
    (∀ k, (mapGet r.2 k).Perm (mapGet m k)) ∧
    (∀ k, (r.2 k).isSome = (m k).isSome) ∧
    ((P ≠ [] ∨ ∀ k l, m k = some l →
        l.Pairwise (fun x y => byteLen y.Classif ≤ byteLen x.Classif)) → r.2 = m) := by
  obtain ⟨hkey, entries, b, es2, hm, hne, hpb, rfl⟩ := tryKey_shape m P key r h
  obtain ⟨hperm, hagain, heq⟩ := pickBest_again entries P b es2 hpb
  have hne2 : es2 ≠ [] := fun h0 => hne (by
    have := hperm.length_eq
    rw [h0] at this
    exact List.length_eq_zero.mp this.symm)
  refine ⟨fun k => ?_, fun k => mapGet_mapSet_perm m key entries es2 hm hperm k, fun k => ?_,
    fun hcond => ?_⟩
  · by_cases hk : k = key
    · subst hk
      have h1 : tryKey (mapSet m k es2) P k = some (trimSpace b.ID, mapSet (mapSet m k es2) k es2) := by
        unfold tryKey
        have hk0 : (k == []) = false := by simpa using hkey
        have hl : es2.length > 0 := List.length_pos.mpr hne2
        simp only [hk0, Bool.false_eq_true, if_false, mapSet, if_true, hl, hagain]
      rw [h1, h]
      rfl
    · apply tryKey_code_congr
      simp only [mapSet, hk, if_false]
  · simp only [mapSet]
    split
    · rename_i hk
      rw [hk, hm]
      rfl
    · rfl
  · show mapSet m key es2 = m
    rw [heq (hcond.imp id (fun hs => hs key entries hm))]
    exact mapSet_self m key entries hm

theorem lookupEntry_again
    (srt : (ContaEntry → ContaEntry → Bool) → List ContaEntry → List ContaEntry)
    (hsrt : SortContract srt) (m : ContaMap) (P : List Str) (key : Str) (r : Str × ContaMap)
    (h : lookupEntry srt m P key = some r) :
    ((∀ l : List ContaEntry, l.Pairwise (fun x y => byteLen y.Classf ≤ byteLen x.Classf) →
          srt (fun x y => decide (byteLen x.Classf > byteLen y.Classf)) l = l) →
      ∀ k, (lookupEntry srt r.2 P k).map Prod.fst = (lookupEntry srt m P k).map Prod.fst) ∧
    (∀ k, (mapGet r.2 k).Perm (mapGet m k)) ∧
    (∀ k, (r.2 k).isSome = (m k).isSome) ∧
    (P ≠ [] → r.2 = m) := by
  obtain ⟨entries, b, es2, hm, hne, hpb, rfl⟩ := lookupEntry_shape srt m P key r h
  obtain ⟨hperm, heq, hagain⟩ := pickBestEntry_again srt hsrt entries P b es2 hpb
  have hne2 : es2 ≠ [] := fun h0 => hne (by
    have := hperm.length_eq
    rw [h0] at this
    exact List.length_eq_zero.mp this.symm)
  refine ⟨fun hfix k => ?_, fun k => mapGet_mapSet_perm m key entries es2 hm hperm k,
    fun k => ?_, fun hP => ?_⟩
  · by_cases hk : k = key
    · subst hk
      have h1 : lookupEntry srt (mapSet m k es2) P k =
          some (trimSpace b.Code, mapSet (mapSet m k es2) k es2) := by
        unfold lookupEntry
        have hl : es2.length > 0 := List.length_pos.mpr hne2
        simp only [mapSet, if_true, hl, hagain hfix]
      rw [h1, h]
      rfl
    · apply lookupEntry_code_congr
      simp only [mapSet, hk, if_false]
  · simp only [mapSet]
    split
    · rename_i hk
      rw [hk, hm]
      rfl
    · rfl
  · show mapSet m key es2 = m
    rw [heq hP]
    exact mapSet_self m key entries hm

theorem tryKey_none_of_unsatisfied (m : AccMap) (P : List Str) (key : Str)
    (h : ∀ l, m key = some l → ¬ ∃ e ∈ l, satisfies P e.Classif) : tryKey m P key = none := by
  cases hr : tryKey m P key with
  | none => rfl
  | some r =>
    obtain ⟨l, b, hm, hb, hsat, -⟩ := tryKey_some m P key r hr
    exact absurd ⟨b, hb, hsat⟩ (h l hm)

theorem lookupEntry_none_of_unsatisfied
    (srt : (ContaEntry → ContaEntry → Bool) → List ContaEntry → List ContaEntry)
    (hsrt : SortContract srt) (m : ContaMap) (P : List Str) (key : Str)
    (h : ∀ l, m key = some l → ¬ ∃ e ∈ l, satisfies P e.Classf) :
    lookupEntry srt m P key = none := by
  cases hr : lookupEntry srt m P key with
  | none => rfl
  | some r =>
    obtain ⟨l, b, hm, hb, hsat, -⟩ := lookupEntry_some srt hsrt m P key r hr
    exact absurd ⟨b, hb, hsat⟩ (h l hm)

/-- With an empty normalised key `buscarContaAtolini` returns "999999" before any lookup,
whatever the fuzzy search. -/
theorem buscarContaAtolini_empty_key (u : UnicodeTables) (closest : Closest) (texto : Str)
    (m : AccMap) (idx : List Str) (P : List Str)
    (h : normalizeText u (trimSpace texto) = []) :
    buscarContaAtolini u closest texto m idx P = (sentinel, m) := by
  unfold buscarContaAtolini
  simp [h]

/-- C11: "---" normalises to the empty key.  `buscarContaAtolini` then returns "999999"
whatever the fuzzy search; `findContaCodigoByDescricao`, which has no guard for the empty
key, asks the fuzzy search for the key closest to the empty string and returns what that
key resolves to: on the demo chart with no prefixes the code "10" when the answer is
"CAIXA", "21" when it is "BANCO X", and "999999" otherwise. -/
theorem C11_empty_key_reaches_fuzzy :
    normalizeText latin1Tables "---".toList = [] ∧
    (∀ closest : Closest,
      buscarContaAtolini latin1Tables closest "---".toList demoAccMap demoIndex [] =
        (sentinel, demoAccMap)) ∧
    (∀ closest : Closest,
      (findContaCodigoByDescricao latin1Tables closest sortSliceStable "---".toList demoIndex
          demoContaMap []).1 =
        if closest demoIndex [] = "CAIXA".toList then "10".toList
        else if closest demoIndex [] = "BANCO X".toList then "21".toList
        else sentinel) := by
  have hn : normalizeText latin1Tables "---".toList = [] := by decide
  have ht : trimSpace "---".toList = "---".toList := by decide
  refine ⟨hn, fun closest => ?_, fun closest => ?_⟩
  · exact buscarContaAtolini_empty_key _ _ _ _ _ _ (by rw [ht]; exact hn)
  · have h0 : lookupEntry sortSliceStable demoContaMap [] [] = none := rfl
    have hs : stripLeadingNumberPrefix [] = [] := by decide
    have hne : ("---".toList == ([] : Str)) = false := by decide
    have hlen : demoIndex.length > 0 := by decide
    unfold findContaCodigoByDescricao
    simp only [ht, hn, h0, hs, hne, bne_self_eq_false, Bool.false_eq_true, if_false,
      List.length_nil, gt_iff_lt, Nat.lt_irrefl, decide_False, Bool.false_and, hlen, if_true]
    generalize closest demoIndex [] = key
    by_cases h1 : key = "CAIXA".toList
    · subst h1
      rfl
    · by_cases h2 : key = "BANCO X".toList
      · subst h2
        rfl
      · have h3 : lookupEntry sortSliceStable demoContaMap [] key = none := by
          unfold lookupEntry demoContaMap demoAccMap
          simp only [h1, h2, if_false, Option.map_none']
        simp only [h1, h2, h3, if_false, ite_self]

/-- C13: when no record stored under the key `K = normalizeText(D)` satisfies the prefix
list `P`, and the list stored under `stripLeadingNumberPrefix(K)` holds a record that
satisfies `P` (any record when `P` is empty), both matchers return the trimmed code of a
record of that list that satisfies `P` and has a classification of maximal length among
those, whatever the fuzzy search answers.  The Pagamentos chart has no records under
the empty key, and the Unicode data normalise `D` and its trimmed form alike. -/
theorem C13_stripped_key_match (u : UnicodeTables) (closest : Closest)
    (srt : (ContaEntry → ContaEntry → Bool) → List ContaEntry → List ContaEntry)
    (hsrt : SortContract srt) (D : Str) (accMap : AccMap) (contaMap : ContaMap)
    (idx : List Str) (P : List Str)
    (hnfd : u.nfd [] = [])
    (hD : normalizeText u (trimSpace D) = normalizeText u D)
    (hA : accMap [] = none) :
    (∀ l, (∀ l0, accMap (normalizeText u D) = some l0 → ¬ ∃ e ∈ l0, satisfies P e.Classif) →
      accMap (stripLeadingNumberPrefix (normalizeText u D)) = some l →
      (∃ e ∈ l, satisfies P e.Classif) →
      ∃ b ∈ l, satisfies P b.Classif ∧
        (∀ e ∈ l, satisfies P e.Classif → byteLen e.Classif ≤ byteLen b.Classif) ∧
        (buscarContaAtolini u closest D accMap idx P).1 = trimSpace b.ID) ∧
    (∀ l, (∀ l0, contaMap (normalizeText u D) = some l0 → ¬ ∃ e ∈ l0, satisfies P e.Classf) →
      contaMap (stripLeadingNumberPrefix (normalizeText u D)) = some l →
      (∃ e ∈ l, satisfies P e.Classf) →
      ∃ b ∈ l, satisfies P b.Classf ∧
        (∀ e ∈ l, satisfies P e.Classf → byteLen e.Classf ≤ byteLen b.Classf) ∧
        (findContaCodigoByDescricao u closest srt D idx contaMap P).1 = trimSpace b.Code) := by
  have hstrip : stripLeadingNumberPrefix [] = [] := by decide
  have hkey : ∀ {α : Type} (m : Str → Option (List α)) (l : List α) (sat : α → Prop),
      (∀ l0, m (normalizeText u D) = some l0 → ¬ ∃ e ∈ l0, sat e) →
      m (stripLeadingNumberPrefix (normalizeText u D)) = some l → (∃ e ∈ l, sat e) →
      stripLeadingNumberPrefix (normalizeText u D) ≠ normalizeText u D ∧
        normalizeText u D ≠ [] ∧ trimSpace D ≠ [] := by
    intro α m l sat hno hml hex
    have hne : stripLeadingNumberPrefix (normalizeText u D) ≠ normalizeText u D := by
      intro heq
      rw [heq] at hml
      exact hno l hml hex
    have hk : normalizeText u D ≠ [] := by
      intro h0
      rw [h0, hstrip] at hne
      exact hne rfl
    refine ⟨hne, hk, fun ht => hk ?_⟩
    rw [← hD, ht]
    exact normalizeText_nil u hnfd
  constructor
  · intro l hno hml hex
    obtain ⟨hne, hk, ht⟩ := hkey accMap l _ hno hml hex
    have hk2 : stripLeadingNumberPrefix (normalizeText u D) ≠ [] := by
      intro h0
      rw [h0, hA] at hml
      exact absurd hml (by simp)
    have h1 := tryKey_none_of_unsatisfied accMap P _ hno
    obtain ⟨r, hr⟩ := tryKey_isSome accMap P _ l hk2 hml hex
    have hres : buscarContaAtolini u closest D accMap idx P = r := by
      unfold buscarContaAtolini
      simp [ht, hD, hk, h1, hne, hr]
    obtain ⟨l2, b, hm2, hb, hsat, -, hmax, hcode⟩ := tryKey_some accMap P _ r hr
    rw [hml] at hm2
    cases hm2
    exact ⟨b, hb, hsat, hmax, by rw [hres]; exact hcode⟩
  · intro l hno hml hex
    obtain ⟨hne, hk, ht⟩ := hkey contaMap l _ hno hml hex
    have h1 := lookupEntry_none_of_unsatisfied srt hsrt contaMap P _ hno
    obtain ⟨r, hr⟩ := lookupEntry_isSome srt hsrt contaMap P _ l hml hex
    have hres : findContaCodigoByDescricao u closest srt D idx contaMap P = r := by
      unfold findContaCodigoByDescricao
      simp [ht, h1, hne, hr]
    obtain ⟨l2, b, hm2, hb, hsat, -, hmax, hcode⟩ := lookupEntry_some srt hsrt contaMap P _ r hr
    rw [hml] at hm2
    cases hm2
    exact ⟨b, hb, hsat, hmax, by rw [hres]; exact hcode⟩

/-- Witness for C13: on the demo chart with the filter "1", "123 - Caixa" has the key
"123 CAIXA", which is not in the chart; the stripped key "CAIXA" resolves to the code
"10", although the fuzzy search would answer "BANCO X". -/
theorem C13_stripped_key_match_witness :
    normalizeText latin1Tables "123 - Caixa".toList = "123 CAIXA".toList ∧
    stripLeadingNumberPrefix "123 CAIXA".toList = "CAIXA".toList ∧
    (buscarContaAtolini latin1Tables demoClosest "123 - Caixa".toList demoAccMap demoIndex
      ["1".toList]).1 = "10".toList ∧
    (∃ b ∈ [(⟨"10".toList, "1.1.1".toList, "Caixa".toList⟩ : accEntry)],
      satisfies ["1".toList] b.Classif ∧
      (∀ e ∈ [(⟨"10".toList, "1.1.1".toList, "Caixa".toList⟩ : accEntry)],
        satisfies ["1".toList] e.Classif → byteLen e.Classif ≤ byteLen b.Classif) ∧
      (buscarContaAtolini latin1Tables demoClosest "123 - Caixa".toList demoAccMap demoIndex
        ["1".toList]).1 = trimSpace b.ID) :=
  ⟨by decide, by decide, by decide,
    (C13_stripped_key_match latin1Tables demoClosest sortSliceStable sortSliceStable_contract
      "123 - Caixa".toList demoAccMap demoContaMap demoIndex ["1".toList] rfl (by decide)
      (by decide)).1 _
      (fun l0 h0 => by
        rw [show demoAccMap (normalizeText latin1Tables "123 - Caixa".toList) = none
          by decide] at h0
        exact absurd h0 (by simp))
      (by decide)
      ⟨_, List.mem_cons_self _ _, Or.inr ⟨_, List.mem_cons_self _ _, by decide⟩⟩⟩

/-- C16, counterexample: on the index that `lerContasRecebimentos` builds from the demo
file, a call of `findContaCodigoByDescricao` for "Caixa" with no prefixes returns the
code "2" and leaves the two records of the key "CAIXA" in the opposite order. -/
theorem C16_lookup_reorders_index :
    ∃ order m, lerContasRecebimentos latin1Tables
        (Except.ok demoRecords : Except Unit _) = .ok (order, m) ∧
      m "CAIXA".toList =
        some [⟨"1".toList, "1.1".toList, "Caixa".toList⟩,
              ⟨"2".toList, "1.1.01".toList, "CAIXA".toList⟩] ∧
      (findContaCodigoByDescricao latin1Tables demoClosest sortSliceStable "Caixa".toList
          order m []).1 = "2".toList ∧
      (findContaCodigoByDescricao latin1Tables demoClosest sortSliceStable "Caixa".toList
          order m []).2 "CAIXA".toList =
        some [⟨"2".toList, "1.1.01".toList, "CAIXA".toList⟩,
              ⟨"1".toList, "1.1".toList, "Caixa".toList⟩] :=
  ⟨_, _, rfl, by decide, by decide, by decide⟩

/-- C16, amended: a call of `buscarContaAtolini` leaves the map unchanged when the prefix
list is not empty or every list of the map is ordered longest classification first; a
call of `findContaCodigoByDescricao` leaves the map unchanged when the prefix list is
not empty, and in every case leaves every key with the same records, up to their
order. -/
theorem C16_index_after_call (u : UnicodeTables) (closest : Closest)
    (srt : (ContaEntry → ContaEntry → Bool) → List ContaEntry → List ContaEntry)
    (hsrt : SortContract srt) (D : Str) (accMap : AccMap) (contaMap : ContaMap)
    (idx : List Str) (P : List Str)
    (h : P ≠ [] ∨ ∀ k l, accMap k = some l →
      l.Pairwise (fun x y => byteLen y.Classif ≤ byteLen x.Classif)) :
    (buscarContaAtolini u closest D accMap idx P).2 = accMap ∧
    (P ≠ [] → (findContaCodigoByDescricao u closest srt D idx contaMap P).2 = contaMap) ∧
    (∀ k, ((findContaCodigoByDescricao u closest srt D idx contaMap P).2 k).isSome =
        (contaMap k).isSome ∧
      (mapGet (findContaCodigoByDescricao u closest srt D idx contaMap P).2 k).Perm
        (mapGet contaMap k)) := by
  refine ⟨?_, ?_, ?_⟩
  · apply buscarContaAtolini_cases u closest D accMap idx P (fun r => r.2 = accMap) rfl
    intro key r hr
    exact (tryKey_again accMap P key r hr).2.2.2 h
  · intro hP
    apply findContaCodigoByDescricao_cases u closest srt D idx contaMap P
      (fun r => r.2 = contaMap) rfl
    intro key r hr
    exact (lookupEntry_again srt hsrt contaMap P key r hr).2.2.2 hP
  · apply findContaCodigoByDescricao_cases u closest srt D idx contaMap P
      (fun r => ∀ k, (r.2 k).isSome = (contaMap k).isSome ∧
        (mapGet r.2 k).Perm (mapGet contaMap k))
    · exact fun k => ⟨rfl, List.Perm.refl _⟩
    · intro key r hr k
      obtain ⟨-, h2, h3, -⟩ := lookupEntry_again srt hsrt contaMap P key r hr
      exact ⟨h3 k, h2 k⟩

/-- Witness for C16: the index that `lerPlanoContasAtolini` builds from the demo file,
whose lists are ordered, with no prefixes. -/
theorem C16_index_after_call_witness :
    ∃ m order, lerPlanoContasAtolini latin1Tables decimalID
        (Except.ok demoRecords : Except Unit _) = .ok (m, order) ∧
      (buscarContaAtolini latin1Tables demoClosest "Caixa".toList m order []).1 =
        "2".toList ∧
      (buscarContaAtolini latin1Tables demoClosest "Caixa".toList m order []).2 = m :=
  ⟨_, _, rfl, by decide!,
    (C16_index_after_call latin1Tables demoClosest sortSliceStable sortSliceStable_contract
      "Caixa".toList _ demoContaMap _ []
      (Or.inr (fun k l hl => by
        cases hk : (buildIndex (accOfRecord latin1Tables decimalID) demoRecords).byKey k with
        | none => simp [hk] at hl
        | some l0 =>
          simp only [hk, Option.map_some', Option.some.injEq] at hl
          rw [← hl]
          exact sortSliceStable_sorted (fun e : accEntry => byteLen e.Classif) l0))).1⟩

/-! ## The Pagamentos scan -/

/-- A date header sets the block date and changes nothing else. -/
theorem pagamentosStep_header (u : UnicodeTables) (lower : Char → Char) (ovf : ConvOverflow)
    (closest : Closest) (idx dP cP : List Str) (st : PagState) (row : List Str) (d : Str)
    (h : updateBlockDateIfHeader ovf lower row = some d) :
    pagamentosStep u lower ovf closest idx dP cP st row =
      { st with blockDate := d, blockDateSanitized := sanitizeForCSV d } := by
  unfold pagamentosStep
  rw [h]

/-- A row that is no date header leaves the block date alone; it either leaves the
output alone or appends one row, dated with the sanitised block date, and this only
inside a `Histórico` block with a block date set. -/
theorem pagamentosStep_other (u : UnicodeTables) (lower : Char → Char) (ovf : ConvOverflow)
    (closest : Closest) (idx dP cP : List Str) (st : PagState) (row : List Str)
    (h : updateBlockDateIfHeader ovf lower row = none) :
    (pagamentosStep u lower ovf closest idx dP cP st row).blockDate = st.blockDate ∧
    (pagamentosStep u lower ovf closest idx dP cP st row).blockDateSanitized =
      st.blockDateSanitized ∧
    ((pagamentosStep u lower ovf closest idx dP cP st row).out = st.out ∨
      ∃ o, (pagamentosStep u lower ovf closest idx dP cP st row).out = st.out ++ [o] ∧
        o.Data = st.blockDateSanitized ∧ st.inHistorico = true ∧ st.blockDate ≠ []) := by
  unfold pagamentosStep
  rw [h]
  simp only
  split
  · exact ⟨rfl, rfl, Or.inl rfl⟩
  · split
    · exact ⟨rfl, rfl, Or.inl rfl⟩
    · split
      · exact ⟨rfl, rfl, Or.inl rfl⟩
      · rename_i hcond
        split
        · exact ⟨rfl, rfl, Or.inl rfl⟩
        · refine ⟨rfl, rfl, Or.inr ⟨_, rfl, rfl, ?_, ?_⟩⟩
          · have hc : st.inHistorico = true ∧ ¬ st.blockDate = [] := by simpa using hcond
            exact hc.1
          · have hc : st.inHistorico = true ∧ ¬ st.blockDate = [] := by simpa using hcond
            exact hc.2

/-- The block date after a scan: empty when no row was a date header, else the date of
the last date header. -/
theorem scanPagamentos_blockDate (u : UnicodeTables) (lower : Char → Char)
    (ovf : ConvOverflow) (closest : Closest) (m : AccMap) (idx dP cP : List Str)
    (rows : List (List Str)) :
    ((scanPagamentos u lower ovf closest m idx dP cP rows).blockDate = [] ∧
      ∀ r ∈ rows, updateBlockDateIfHeader ovf lower r = none) ∨
    ∃ pre hdr mid d, rows = pre ++ hdr :: mid ∧
      updateBlockDateIfHeader ovf lower hdr = some d ∧
      (∀ r ∈ mid, updateBlockDateIfHeader ovf lower r = none) ∧
      (scanPagamentos u lower ovf closest m idx dP cP rows).blockDate = d ∧
      (scanPagamentos u lower ovf closest m idx dP cP rows).blockDateSanitized =
        sanitizeForCSV d := by
  induction rows using List.reverseRecOn with
  | nil => exact Or.inl ⟨rfl, fun r hr => absurd hr (List.not_mem_nil r)⟩
  | append_singleton rows row ih =>
    have hstep : scanPagamentos u lower ovf closest m idx dP cP (rows ++ [row]) =
        pagamentosStep u lower ovf closest idx dP cP
          (scanPagamentos u lower ovf closest m idx dP cP rows) row := by
      unfold scanPagamentos
      rw [List.foldl_append]
      rfl
    rw [hstep]
    cases hh : updateBlockDateIfHeader ovf lower row with
    | some d =>
      right
      refine ⟨rows, row, [], d, rfl, hh, fun r hr => absurd hr (List.not_mem_nil r), ?_, ?_⟩
      · rw [pagamentosStep_header _ _ _ _ _ _ _ _ _ _ hh]
      · rw [pagamentosStep_header _ _ _ _ _ _ _ _ _ _ hh]
    | none =>
      obtain ⟨h1, h2, -⟩ := pagamentosStep_other u lower ovf closest idx dP cP
        (scanPagamentos u lower ovf closest m idx dP cP rows) row hh
      rcases ih with ⟨h0, hall⟩ | ⟨pre, hdr, mid, d, hsplit, hhdr, hmid, hd, hds⟩
      · left
        refine ⟨by rw [h1]; exact h0, fun r hr => ?_⟩
        rcases List.mem_append.mp hr with hr | hr
        · exact hall r hr
        · rw [List.mem_singleton] at hr
          rw [hr]; exact hh
      · right
        refine ⟨pre, hdr, mid ++ [row], d, ?_, hhdr, fun r hr => ?_, by rw [h1]; exact hd,
          by rw [h2]; exact hds⟩
        · rw [hsplit]
          simp
        · rcases List.mem_append.mp hr with hr | hr
          · exact hmid r hr
          · rw [List.mem_singleton] at hr
            rw [hr]; exact hh

theorem scanPagamentos_snoc (u : UnicodeTables) (lower : Char → Char)
    (ovf : ConvOverflow) (closest : Closest) (m : AccMap) (idx dP cP : List Str)
    (rows : List (List Str)) (row : List Str) :
    scanPagamentos u lower ovf closest m idx dP cP (rows ++ [row]) =
      pagamentosStep u lower ovf closest idx dP cP
        (scanPagamentos u lower ovf closest m idx dP cP rows) row := by
  unfold scanPagamentos
  rw [List.foldl_append]
  rfl

/-- C20: every ledger row that the Pagamentos scan emits was appended at some input row
that follows a date header, and carries the sanitised date that `updateBlockDateIfHeader`
read from the last date header before that input row (it reads no date from the rows in
between). -/
theorem C20_rows_carry_block_date (u : UnicodeTables) (lower : Char → Char)
    (ovf : ConvOverflow) (closest : Closest) (m : AccMap) (idx dP cP : List Str)
    (rows : List (List Str)) (o : AtoliniPagamentosOutputRow)
    (h : o ∈ (scanPagamentos u lower ovf closest m idx dP cP rows).out) :
    ∃ pre hdr mid row post d, rows = pre ++ hdr :: (mid ++ row :: post) ∧
      updateBlockDateIfHeader ovf lower hdr = some d ∧
      (∀ r ∈ mid, updateBlockDateIfHeader ovf lower r = none) ∧
      (scanPagamentos u lower ovf closest m idx dP cP (pre ++ hdr :: mid ++ [row])).out =
        (scanPagamentos u lower ovf closest m idx dP cP (pre ++ hdr :: mid)).out ++ [o] ∧
      o.Data = sanitizeForCSV d := by
  induction rows using List.reverseRecOn with
  | nil => exact absurd h (List.not_mem_nil o)
  | append_singleton rows row ih =>
    have hsnoc := scanPagamentos_snoc u lower ovf closest m idx dP cP rows row
    have hold : o ∈ (scanPagamentos u lower ovf closest m idx dP cP rows).out →
        ∃ pre hdr mid row2 post d, rows ++ [row] = pre ++ hdr :: (mid ++ row2 :: post) ∧
          updateBlockDateIfHeader ovf lower hdr = some d ∧
          (∀ r ∈ mid, updateBlockDateIfHeader ovf lower r = none) ∧
          (scanPagamentos u lower ovf closest m idx dP cP (pre ++ hdr :: mid ++ [row2])).out =
            (scanPagamentos u lower ovf closest m idx dP cP (pre ++ hdr :: mid)).out ++ [o] ∧
          o.Data = sanitizeForCSV d := by
      intro hmem
      obtain ⟨pre, hdr, mid, row2, post, d, hsplit, hhdr, hmid, hout, hdata⟩ := ih hmem
      exact ⟨pre, hdr, mid, row2, post ++ [row], d, by rw [hsplit]; simp, hhdr, hmid, hout,
        hdata⟩
    rw [hsnoc] at h
    cases hh : updateBlockDateIfHeader ovf lower row with
    | some d =>
      rw [pagamentosStep_header _ _ _ _ _ _ _ _ _ _ hh] at h
      exact hold h
    | none =>
      obtain ⟨-, -, hout⟩ := pagamentosStep_other u lower ovf closest idx dP cP
        (scanPagamentos u lower ovf closest m idx dP cP rows) row hh
      rcases hout with hout | ⟨o2, hout, hdata, -, hbd⟩
      · rw [hout] at h
        exact hold h
      · rw [hout] at h
        rcases List.mem_append.mp h with h | h
        · exact hold h
        · rw [List.mem_singleton] at h
          subst h
          rcases scanPagamentos_blockDate u lower ovf closest m idx dP cP rows with
            ⟨h0, -⟩ | ⟨pre, hdr, mid, d, hsplit, hhdr, hmid, -, hds⟩
          · exact absurd h0 hbd
          · refine ⟨pre, hdr, mid, row, [], d, by rw [hsplit]; simp, hhdr, hmid, ?_,
              by rw [hdata, hds]⟩
            have e1 : pre ++ hdr :: mid ++ [row] = rows ++ [row] := by rw [hsplit]
            have e2 : pre ++ hdr :: mid = rows := hsplit.symm
            rw [e1, e2, hsnoc]
            exact hout

/-- Witness for C20: the date header "Data de pagamento: 10/05/2024", a "Histórico:"
row and a transaction line give one ledger row, dated 10/05/2024. -/
theorem C20_rows_carry_block_date_witness :
    (scanPagamentos latin1Tables latin1ToLower amd64Conv demoClosest demoAccMap demoIndex
      [] [] demoPagRows).out =
      [{ Data := "10/05/2024".toList, Debito := "10".toList,
         DescricaoConta := "Caixa".toList, Credito := [], DescricaoCredito := [],
         Valor := "150,00".toList, Historico := "Caixa NF 123".toList, ValorOriginal := [],
         ValorPago := "150,00".toList, ValorJuros := [], ValorMulta := [],
         ValorDesconto := [], ValorDespesas := [], VarCam := [],
         ValorLiqPagoBanco := [] }] ∧
    ∃ pre hdr mid row post d, demoPagRows = pre ++ hdr :: (mid ++ row :: post) ∧
      updateBlockDateIfHeader amd64Conv latin1ToLower hdr = some d ∧
      (∀ r ∈ mid, updateBlockDateIfHeader amd64Conv latin1ToLower r = none) ∧
      (scanPagamentos latin1Tables latin1ToLower amd64Conv demoClosest demoAccMap demoIndex
          [] [] (pre ++ hdr :: mid ++ [row])).out =
        (scanPagamentos latin1Tables latin1ToLower amd64Conv demoClosest demoAccMap
          demoIndex [] [] (pre ++ hdr :: mid)).out ++
        [{ Data := "10/05/2024".toList, Debito := "10".toList,
           DescricaoConta := "Caixa".toList, Credito := [], DescricaoCredito := [],
           Valor := "150,00".toList, Historico := "Caixa NF 123".toList,
           ValorOriginal := [], ValorPago := "150,00".toList, ValorJuros := [],
           ValorMulta := [], ValorDesconto := [], ValorDespesas := [], VarCam := [],
           ValorLiqPagoBanco := [] }] ∧
      "10/05/2024".toList = sanitizeForCSV d :=
  ⟨by decide!,
    C20_rows_carry_block_date latin1Tables latin1ToLower amd64Conv demoClosest
      demoAccMap demoIndex [] [] demoPagRows
      { Data := "10/05/2024".toList, Debito := "10".toList,
        DescricaoConta := "Caixa".toList, Credito := [], DescricaoCredito := [],
        Valor := "150,00".toList, Historico := "Caixa NF 123".toList, ValorOriginal := [],
        ValorPago := "150,00".toList, ValorJuros := [], ValorMulta := [],
        ValorDesconto := [], ValorDespesas := [], VarCam := [], ValorLiqPagoBanco := [] }
      (by decide!)⟩

/-- C15: on the chart with the accounts "AB" and "A B" and the sheet `iotaRows`, the two
descriptions have the same upper case, hence the same cache key, but different
normalised keys; the scan with caches gives both ledger rows the debit code "1", the
scan that calls `buscarContaAtolini` directly gives the second row the code "2". -/
theorem C15_cache_changes_codes :
    "A\u0345B".toList.map greekIotaTables.toUpper =
      "A\u03b9B".toList.map greekIotaTables.toUpper ∧
    normalizeText greekIotaTables "A\u0345B".toList = "AB".toList ∧
    normalizeText greekIotaTables "A\u03b9B".toList = "A B".toList ∧
    ∃ m idx, lerPlanoContasAtolini greekIotaTables decimalID
        (Except.ok iotaChart : Except Unit _) = .ok (m, idx) ∧
      (scanPagamentos greekIotaTables latin1ToLower amd64Conv demoClosest m idx [] []
        iotaRows).out.map (fun o => o.Debito) = ["1".toList, "1".toList] ∧
      (scanPagamentosDirect greekIotaTables latin1ToLower amd64Conv demoClosest m idx [] []
        iotaRows).out.map (fun o => o.Debito) = ["1".toList, "2".toList] :=
  ⟨by decide, by decide, by decide, _, _, rfl, by decide!, by decide!⟩

/-! ## The caches of the Pagamentos scan -/

theorem trimSpace_idem (s : Str) : trimSpace (trimSpace s) = trimSpace s :=
  trimSpace_eq_self _ (trimSpace_head s) (trimSpace_getLast s)

theorem trimmedCell_idem (row : List Str) (idx : ℤ) :
    trimSpace (trimmedCell row idx) = trimmedCell row idx := by
  unfold trimmedCell
  split
  · rfl
  · exact trimSpace_idem _

theorem upperCell_eq (u : UnicodeTables) (row : List Str) (idx : ℤ) :
    upperCell u row idx = (trimmedCell row idx).map u.toUpper := by
  unfold upperCell
  split
  · rename_i h
    simp [trimmedCell, h]
  · rfl

theorem pickBanco_shape (u : UnicodeTables) (row : List Str) :
    trimSpace (pickBanco u row).1 = (pickBanco u row).1 ∧
      (pickBanco u row).2 = (pickBanco u row).1.map u.toUpper := by
  unfold pickBanco
  split
  · exact ⟨trimmedCell_idem _ _, upperCell_eq _ _ _⟩
  · split
    · exact ⟨trimmedCell_idem _ _, upperCell_eq _ _ _⟩
    · exact ⟨rfl, rfl⟩

theorem buildCacheKey_inj (a b suffix : Str)
    (h : buildCacheKey a suffix = buildCacheKey b suffix) : a = b := by
  unfold buildCacheKey at h
  split at h
  · exact h
  · exact List.append_cancel_right h

/-- The result of `buscarContaAtolini` depends on the text only through its trimmed form
being empty and through the normalised key of its trimmed form. -/
theorem buscarContaAtolini_text_congr (u : UnicodeTables) (closest : Closest)
    (t1 t2 : Str) (m : AccMap) (idx P : List Str)
    (h1 : trimSpace t1 = [] ↔ trimSpace t2 = [])
    (h2 : normalizeText u (trimSpace t1) = normalizeText u (trimSpace t2)) :
    buscarContaAtolini u closest t1 m idx P = buscarContaAtolini u closest t2 m idx P := by
  unfold buscarContaAtolini
  simp only [h2]
  by_cases h : trimSpace t1 = []
  · simp [h, h1.mp h]
  · have h' : ¬ trimSpace t2 = [] := fun h0 => h (h1.mpr h0)
    simp [h, h']

/-- On a chart whose lists are ordered, `buscarContaAtolini` returns the map it was
given. -/
theorem buscarContaAtolini_map (u : UnicodeTables) (closest : Closest) (D : Str)
    (m : AccMap) (idx P : List Str)
    (hm : ∀ k l, m k = some l →
      l.Pairwise (fun x y => byteLen y.Classif ≤ byteLen x.Classif)) :
    (buscarContaAtolini u closest D m idx P).2 = m := by
  apply buscarContaAtolini_cases u closest D m idx P (fun r => r.2 = m) rfl
  intro key r hr
  exact (tryKey_again m P key r hr).2.2.2 (Or.inr hm)

/-- One cached resolution against one direct resolution: on a chart whose lists are
ordered, with Unicode data for which descriptions of equal upper case have equal
normalised keys, and a cache that holds under every key the code of the descriptions of
that key, the two return the same code, leave the chart as it is, and the cache stays
such a cache. -/
theorem resolveCached_direct (u : UnicodeTables) (closest : Closest) (m : AccMap)
    (idx P : List Str) (desc : Str) (cache : Str → Option Str)
    (hm : ∀ k l, m k = some l →
      l.Pairwise (fun x y => byteLen y.Classif ≤ byteLen x.Classif))
    (hcase : ∀ s1 s2 : Str, s1.map u.toUpper = s2.map u.toUpper →
      normalizeText u s1 = normalizeText u s2)
    (hdesc : trimSpace desc = desc)
    (hcache : ∀ key id, cache key = some id → ∀ d : Str, d ≠ [] → trimSpace d = d →
      buildCacheKey (d.map u.toUpper) (joinStr P ",".toList) = key →
      (buscarContaAtolini u closest d m idx P).1 = id) :
    (resolveCached u closest idx P desc (desc.map u.toUpper) cache m).1 =
      (resolveDirect u closest idx P desc m).1 ∧
    (resolveCached u closest idx P desc (desc.map u.toUpper) cache m).2.2 = m ∧
    (resolveDirect u closest idx P desc m).2 = m ∧
    (∀ key id, (resolveCached u closest idx P desc (desc.map u.toUpper) cache m).2.1 key =
        some id → ∀ d : Str, d ≠ [] → trimSpace d = d →
      buildCacheKey (d.map u.toUpper) (joinStr P ",".toList) = key →
      (buscarContaAtolini u closest d m idx P).1 = id) := by
  by_cases hd : desc = []
  · subst hd
    exact ⟨rfl, rfl, rfl, hcache⟩
  · have hne : (desc != []) = true := by simpa using hd
    have hR : resolveDirect u closest idx P desc m =
        buscarContaAtolini u closest desc m idx P := by
      unfold resolveDirect
      simp only [hne, if_true]
    have hC : resolveCached u closest idx P desc (desc.map u.toUpper) cache m =
        match cache (buildCacheKey (desc.map u.toUpper) (joinStr P ",".toList)) with
        | some id => (id, cache, m)
        | none =>
          ((buscarContaAtolini u closest desc m idx P).1,
            mapSet cache (buildCacheKey (desc.map u.toUpper) (joinStr P ",".toList))
              (buscarContaAtolini u closest desc m idx P).1,
            (buscarContaAtolini u closest desc m idx P).2) := by
      unfold resolveCached
      simp only [hne, if_true]
    have hmap := buscarContaAtolini_map u closest desc m idx P hm
    rw [hR, hC]
    cases hc : cache (buildCacheKey (List.map u.toUpper desc) (joinStr P ",".toList)) with
    | some id =>
      exact ⟨(hcache _ id hc desc hd hdesc rfl).symm, rfl, hmap, hcache⟩
    | none =>
      refine ⟨rfl, hmap, hmap, ?_⟩
      intro key id hkey d hdne hdtrim hdkey
      simp only [mapSet] at hkey
      split at hkey
      · rename_i hk
        simp only [Option.some.injEq] at hkey
        rw [← hkey]
        have hup : d.map u.toUpper = desc.map u.toUpper :=
          buildCacheKey_inj _ _ _ (hdkey.trans hk)
        apply congrArg Prod.fst
        apply buscarContaAtolini_text_congr
        · rw [hdtrim, hdesc]
          constructor
          · intro h0; exact absurd h0 hdne
          · intro h0; exact absurd h0 hd
        · rw [hdtrim, hdesc]
          exact hcase _ _ hup
      · exact hcache key id hkey d hdne hdtrim hdkey

/-- The caches of the Pagamentos scan change no ledger row when the lists of the chart
are ordered (as `lerPlanoContasAtolini` builds them) and descriptions of equal upper
case have equal normalised keys. -/
theorem scanPagamentos_cache_transparent (u : UnicodeTables) (lower : Char → Char)
    (ovf : ConvOverflow) (closest : Closest) (m : AccMap) (idx dP cP : List Str)
    (hm : ∀ k l, m k = some l →
      l.Pairwise (fun x y => byteLen y.Classif ≤ byteLen x.Classif))
    (hcase : ∀ s1 s2 : Str, s1.map u.toUpper = s2.map u.toUpper →
      normalizeText u s1 = normalizeText u s2)
    (rows : List (List Str)) :
    (scanPagamentos u lower ovf closest m idx dP cP rows).out =
      (scanPagamentosDirect u lower ovf closest m idx dP cP rows).out := by
  have hgen : ∀ (rows : List (List Str)) (st st2 : PagState),
      st.blockDate = st2.blockDate → st.blockDateSanitized = st2.blockDateSanitized →
      st.inHistorico = st2.inHistorico → st.out = st2.out → st.contasMap = m →
      st2.contasMap = m →
      (∀ key id, st.debCache key = some id → ∀ d : Str, d ≠ [] → trimSpace d = d →
        buildCacheKey (d.map u.toUpper) (joinStr dP ",".toList) = key →
        (buscarContaAtolini u closest d m idx dP).1 = id) →
      (∀ key id, st.credCache key = some id → ∀ d : Str, d ≠ [] → trimSpace d = d →
        buildCacheKey (d.map u.toUpper) (joinStr cP ",".toList) = key →
        (buscarContaAtolini u closest d m idx cP).1 = id) →
      (rows.foldl (pagamentosStep u lower ovf closest idx dP cP) st).out =
        (rows.foldl (pagamentosStepDirect u lower ovf closest idx dP cP) st2).out := by
    intro rows
    induction rows with
    | nil => intro st st2 _ _ _ ho _ _ _ _; exact ho
    | cons row rows ih =>
      intro st st2 h1 h2 h3 h4 h5 h6 h7 h8
      rw [List.foldl_cons, List.foldl_cons]
      obtain ⟨bd, bds, inH, dc, cc, cm, out⟩ := st
      obtain ⟨bd2, bds2, inH2, dc2, cc2, cm2, out2⟩ := st2
      simp only at h1 h2 h3 h4 h5 h6 h7 h8
      subst h1 h2 h3 h4 h5 h6
      unfold pagamentosStep pagamentosStepDirect
      cases updateBlockDateIfHeader ovf lower row with
      | some d => exact ih _ _ rfl rfl rfl rfl rfl rfl h7 h8
      | none =>
        simp only
        split
        · exact ih _ _ rfl rfl rfl rfl rfl rfl h7 h8
        · split
          · exact ih _ _ rfl rfl rfl rfl rfl rfl h7 h8
          · split
            · exact ih _ _ rfl rfl rfl rfl rfl rfl h7 h8
            · cases pickValor ovf row with
              | none => exact ih _ _ rfl rfl rfl rfl rfl rfl h7 h8
              | some val =>
                simp only
                obtain ⟨hb1, hb2⟩ := pickBanco_shape u row
                have hdeb := resolveCached_direct u closest _ idx dP
                  (trimmedCell row 1) dc hm hcase (trimmedCell_idem row 1) h7
                rw [← upperCell_eq] at hdeb
                obtain ⟨hd1, hd2, hd3, hd4⟩ := hdeb
                have hcred := resolveCached_direct u closest _ idx cP
                  (pickBanco u row).1 cc hm hcase hb1 h8
                rw [← hb2] at hcred
                obtain ⟨hc1, hc2, hc3, hc4⟩ := hcred
                apply ih
                · rfl
                · rfl
                · rfl
                · simp only [hd1, hd2, hd3, hc1]
                · simp only [hd2, hc2]
                · simp only [hd3, hc3]
                · exact hd4
                · simp only [hd2]
                  exact hc4
  unfold scanPagamentos scanPagamentosDirect
  exact hgen rows _ _ rfl rfl rfl rfl rfl rfl
    (fun key id h => absurd h (by simp)) (fun key id h => absurd h (by simp))

/-! ## The `Histórico` blocks of the Pagamentos scan -/

/-- The `Histórico` flag after one row: a date header leaves it alone, a row that starts
with "histórico" sets it, a row that starts with one of the "total" markers clears it,
any other row leaves it alone. -/
theorem pagamentosStep_inHistorico (u : UnicodeTables) (lower : Char → Char)
    (ovf : ConvOverflow) (closest : Closest) (idx dP cP : List Str) (st : PagState)
    (row : List Str) :
    (pagamentosStep u lower ovf closest idx dP cP st row).inHistorico =
      if (updateBlockDateIfHeader ovf lower row).isSome then st.inHistorico
      else if rowHasPrefixN lower row 3 ["histórico".toList, "historico".toList] then true
      else if rowHasPrefixN lower row 3 ["total do histórico".toList,
          "total do historico".toList, "total da data".toList] then false
      else st.inHistorico := by
  unfold pagamentosStep
  cases updateBlockDateIfHeader ovf lower row with
  | some d => rfl
  | none =>
    simp only [Option.isSome_none, Bool.false_eq_true, if_false]
    split
    · rfl
    · split
      · rfl
      · split
        · rfl
        · split <;> rfl

/-- A row at which the output grows is no date header and no section marker, and is read
inside a `Histórico` block with a block date set. -/
theorem pagamentosStep_emits (u : UnicodeTables) (lower : Char → Char)
    (ovf : ConvOverflow) (closest : Closest) (idx dP cP : List Str) (st : PagState)
    (row : List Str)
    (h : (pagamentosStep u lower ovf closest idx dP cP st row).out ≠ st.out) :
    updateBlockDateIfHeader ovf lower row = none ∧
    rowHasPrefixN lower row 3 ["histórico".toList, "historico".toList] = false ∧
    rowHasPrefixN lower row 3 ["total do histórico".toList, "total do historico".toList,
      "total da data".toList] = false ∧
    st.inHistorico = true ∧ st.blockDate ≠ [] := by
  unfold pagamentosStep at h
  cases hh : updateBlockDateIfHeader ovf lower row with
  | some d =>
    rw [hh] at h
    exact absurd rfl h
  | none =>
    rw [hh] at h
    simp only at h
    split at h
    · exact absurd rfl h
    · rename_i h1
      split at h
      · exact absurd rfl h
      · rename_i h2
        split at h
        · exact absurd rfl h
        · rename_i hcond
          have hc : st.inHistorico = true ∧ ¬ st.blockDate = [] := by simpa using hcond
          exact ⟨rfl, by simpa using h1, by simpa using h2, hc.1, hc.2⟩

/-- The `Histórico` flag is set after a scan only when some row that is no date header
starts with "histórico" and no later row that is no date header starts with one of the
"total" markers without starting with "histórico". -/
theorem scanPagamentos_inHistorico (u : UnicodeTables) (lower : Char → Char)
    (ovf : ConvOverflow) (closest : Closest) (m : AccMap) (idx dP cP : List Str)
    (rows : List (List Str))
    (h : (scanPagamentos u lower ovf closest m idx dP cP rows).inHistorico = true) :
    ∃ pre start mid, rows = pre ++ start :: mid ∧
      updateBlockDateIfHeader ovf lower start = none ∧
      rowHasPrefixN lower start 3 ["histórico".toList, "historico".toList] = true ∧
      ∀ r ∈ mid, updateBlockDateIfHeader ovf lower r = none →
        rowHasPrefixN lower r 3 ["histórico".toList, "historico".toList] = false →
        rowHasPrefixN lower r 3 ["total do histórico".toList, "total do historico".toList,
          "total da data".toList] = false := by
  induction rows using List.reverseRecOn with
  | nil => exact absurd h (by simp [scanPagamentos])
  | append_singleton rows row ih =>
    rw [scanPagamentos_snoc, pagamentosStep_inHistorico] at h
    have hext : (scanPagamentos u lower ovf closest m idx dP cP rows).inHistorico = true →
        (updateBlockDateIfHeader ovf lower row = none →
          rowHasPrefixN lower row 3 ["histórico".toList, "historico".toList] = false →
          rowHasPrefixN lower row 3 ["total do histórico".toList,
            "total do historico".toList, "total da data".toList] = false) →
        ∃ pre start mid, rows ++ [row] = pre ++ start :: mid ∧
          updateBlockDateIfHeader ovf lower start = none ∧
          rowHasPrefixN lower start 3 ["histórico".toList, "historico".toList] = true ∧
          ∀ r ∈ mid, updateBlockDateIfHeader ovf lower r = none →
            rowHasPrefixN lower r 3 ["histórico".toList, "historico".toList] = false →
            rowHasPrefixN lower r 3 ["total do histórico".toList,
              "total do historico".toList, "total da data".toList] = false := by
      intro hin hrow
      obtain ⟨pre, start, mid, hsplit, h1, h2, h3⟩ := ih hin
      refine ⟨pre, start, mid ++ [row], by rw [hsplit]; simp, h1, h2, fun r hr => ?_⟩
      rcases List.mem_append.mp hr with hr | hr
      · exact h3 r hr
      · rw [List.mem_singleton] at hr
        rw [hr]
        exact hrow
    cases hh : updateBlockDateIfHeader ovf lower row with
    | some d =>
      rw [hh] at h
      simp only [Option.isSome_some, if_true] at h
      exact hext h (fun h0 => absurd h0 (by simp [hh]))
    | none =>
      rw [hh] at h
      simp only [Option.isSome_none, Bool.false_eq_true, if_false] at h
      split at h
      · rename_i hs
        exact ⟨rows, row, [], rfl, hh, hs, fun r hr => absurd hr (List.not_mem_nil r)⟩
      · split at h
        · exact absurd h (by simp)
        · rename_i he
          exact hext h (fun _ _ => by simpa using he)

/-- C21: when the Pagamentos scan appends a ledger row at an input row, that row is no
date header and starts with none of the section markers; before it there is a row
that starts with "histórico" (and is no date header), with no row after it that ends
the block (a row that is no date header, does not start with "histórico" and starts
with "total do histórico", "total do historico" or "total da data"); and before it
there is a date header. -/
theorem C21_no_row_outside_block (u : UnicodeTables) (lower : Char → Char)
    (ovf : ConvOverflow) (closest : Closest) (m : AccMap) (idx dP cP : List Str)
    (pre : List (List Str)) (row : List Str)
    (h : (scanPagamentos u lower ovf closest m idx dP cP (pre ++ [row])).out ≠
      (scanPagamentos u lower ovf closest m idx dP cP pre).out) :
    (updateBlockDateIfHeader ovf lower row = none ∧
      rowHasPrefixN lower row 3 ["histórico".toList, "historico".toList] = false ∧
      rowHasPrefixN lower row 3 ["total do histórico".toList, "total do historico".toList,
        "total da data".toList] = false) ∧
    (∃ pre1 start mid, pre = pre1 ++ start :: mid ∧
      updateBlockDateIfHeader ovf lower start = none ∧
      rowHasPrefixN lower start 3 ["histórico".toList, "historico".toList] = true ∧
      ∀ r ∈ mid, updateBlockDateIfHeader ovf lower r = none →
        rowHasPrefixN lower r 3 ["histórico".toList, "historico".toList] = false →
        rowHasPrefixN lower r 3 ["total do histórico".toList, "total do historico".toList,
          "total da data".toList] = false) ∧
    (∃ hdr ∈ pre, (updateBlockDateIfHeader ovf lower hdr).isSome = true) := by
  rw [scanPagamentos_snoc] at h
  obtain ⟨h1, h2, h3, h4, h5⟩ := pagamentosStep_emits u lower ovf closest idx dP cP _ row h
  refine ⟨⟨h1, h2, h3⟩, scanPagamentos_inHistorico u lower ovf closest m idx dP cP pre h4, ?_⟩
  rcases scanPagamentos_blockDate u lower ovf closest m idx dP cP pre with
    ⟨h0, -⟩ | ⟨pre1, hdr, mid, d, hsplit, hhdr, -, -, -⟩
  · exact absurd h0 h5
  · exact ⟨hdr, by rw [hsplit]; simp, by rw [hhdr]; rfl⟩

/-- Witness for C21: the third row of the demo sheet emits a ledger row; it follows the
date header and the "Histórico:" row. -/
theorem C21_no_row_outside_block_witness :
    (scanPagamentos latin1Tables latin1ToLower amd64Conv demoClosest demoAccMap demoIndex
      [] [] (demoPagRows.take 1 ++ [demoPagRows.get ⟨2, by decide⟩])).out = [] ∧
    (scanPagamentos latin1Tables latin1ToLower amd64Conv demoClosest demoAccMap demoIndex
      [] [] (demoPagRows.drop 1)).out = [] ∧
    ∃ hdr ∈ demoPagRows.take 2,
      (updateBlockDateIfHeader amd64Conv latin1ToLower hdr).isSome = true :=
  ⟨by decide!, by decide!,
    (C21_no_row_outside_block latin1Tables latin1ToLower amd64Conv demoClosest demoAccMap
      demoIndex [] [] (demoPagRows.take 2) (demoPagRows.get ⟨2, by decide⟩)
      (by decide!)).2.2⟩

/-! ## sanitizeForCSV -/

/-- The third loop of `sanitizeForCSV`, as a filter followed by a map. -/
theorem sanitize_loop_eq (l : Str) :
    l.filterMap (fun r =>
        if r == '\r' || r == '\n' || r == '\t' then none
        else if r.toNat < 32 then some ' '
        else some r) =
      (l.filter (fun r => !(r == '\r' || r == '\n' || r == '\t'))).map
        (fun r => if r.toNat < 32 then ' ' else r) := by
  induction l with
  | nil => rfl
  | cons c l ih =>
    rw [List.filterMap_cons, List.filter_cons]
    by_cases h : (c == '\r' || c == '\n' || c == '\t') = true
    · simp only [h, if_true, Bool.not_true, Bool.false_eq_true, if_false]
      exact ih
    · simp only [h, if_false, Bool.not_false, if_true, List.map_cons, Bool.not_eq_true]
      rw [← ih]
      by_cases h2 : c.toNat < 32
      · simp [h2]
      · simp [h2]

/-- The result of `sanitizeForCSV` in one expression: trim, drop CR, LF and TAB, write a
space for every other code point below 32. -/
theorem sanitizeForCSV_eq (s : Str) :
    sanitizeForCSV s =
      ((trimSpace s).filter (fun r => !(r == '\r' || r == '\n' || r == '\t'))).map
        (fun r => if r.toNat < 32 then ' ' else r) := by
  unfold sanitizeForCSV
  by_cases h1 : s = []
  · subst h1
    rfl
  · have h1' : (s == []) = false := by simpa using h1
    simp only [h1', Bool.false_eq_true, if_false]
    by_cases h2 : trimSpace s = []
    · simp [h2]
    · have h2' : (trimSpace s == []) = false := by simpa using h2
      simp only [h2', Bool.false_eq_true, if_false]
      exact sanitize_loop_eq _

/-- C23, counterexample: DEL (U+007F), a control character, is kept; a leading vertical
tab (U+000B), a control character that is white space, is trimmed and not written as a
space. -/
theorem C23_del_is_kept :
    sanitizeForCSV ['a', Char.ofNat 127, 'b'] = ['a', Char.ofNat 127, 'b'] ∧
    sanitizeForCSV [Char.ofNat 11, 'a'] = ['a'] := by decide

/-- C23, amended: the result of `sanitizeForCSV` holds no code point below 32, so no CR,
LF or TAB; it is the trimmed input without its CR, LF and TAB, with every other code
point below 32 written as one space and every other code point kept. -/
theorem C23_no_code_point_below_32 (s : Str) :
    (∀ c ∈ sanitizeForCSV s, 32 ≤ c.toNat) ∧
    '\r' ∉ sanitizeForCSV s ∧ '\n' ∉ sanitizeForCSV s ∧ '\t' ∉ sanitizeForCSV s ∧
    sanitizeForCSV s =
      ((trimSpace s).filter (fun r => !(r == '\r' || r == '\n' || r == '\t'))).map
        (fun r => if r.toNat < 32 then ' ' else r) := by
  have h32 : ∀ c ∈ sanitizeForCSV s, 32 ≤ c.toNat := by
    intro c hc
    rw [sanitizeForCSV_eq, List.mem_map] at hc
    obtain ⟨r, -, hr⟩ := hc
    by_cases h : r.toNat < 32
    · simp only [h, if_true] at hr
      rw [← hr]
      decide
    · simp only [h, if_false] at hr
      rw [← hr]
      omega
  refine ⟨h32, fun h => ?_, fun h => ?_, fun h => ?_, sanitizeForCSV_eq s⟩
  · exact absurd (h32 _ h) (by decide)
  · exact absurd (h32 _ h) (by decide)
  · exact absurd (h32 _ h) (by decide)

/-- C24: the white space is trimmed before the control characters are written as
spaces, so a control character at either end of the trimmed text leaves a space
there. -/
theorem C24_leading_space :
    sanitizeForCSV [Char.ofNat 1, 'a'] = [' ', 'a'] ∧
    sanitizeForCSV ['a', Char.ofNat 1] = ['a', ' '] ∧
    isSpace ' ' = true := by decide

/-! ## The column hints of the Recebimentos scan -/

/-- One field of the hints through the loop of `updateColumnHints`: a field that holds an
index keeps it, a field that holds -1 takes the first column that passes the keyword
test; the flag of the field tells whether a column passed. -/
theorem hintsLoop_field (u : UnicodeTables) (row : List Str) (get : columnHints → ℤ)
    (hit : hintHits → Bool) (kw : Str → Bool) (g : Bool)
    (hc : ∀ upper idx s, get (hintsCell upper idx s).1 =
      (if (!(g && hit s.2)) && kw upper then setIfUnset (get s.1) idx else get s.1))
    (hh : ∀ upper idx s, hit (hintsCell upper idx s).2 = (hit s.2 || kw upper))
    (idxs : List Nat) (s : columnHints × hintHits) (hinv : hit s.2 = true → get s.1 ≠ -1) :
    get (hintsLoop u row idxs s).1 =
      (if get s.1 = -1 then
        (match idxs.find? (fun (idx : Nat) =>
            upperCell u row idx != [] && kw (upperCell u row idx)) with
         | some idx => (idx : ℤ)
         | none => -1)
       else get s.1) ∧
    hit (hintsLoop u row idxs s).2 =
      (hit s.2 || idxs.any (fun (idx : Nat) =>
        upperCell u row idx != [] && kw (upperCell u row idx))) := by
  induction idxs generalizing s with
  | nil =>
    refine ⟨?_, by simp [hintsLoop]⟩
    show get s.1 = _
    split <;> simp_all
  | cons i is ih =>
    have hstep : hintsLoop u row (i :: is) s =
        hintsLoop u row is (if upperCell u row i == [] then s
          else hintsCell (upperCell u row i) i s) := rfl
    rw [hstep]
    by_cases he : upperCell u row i = []
    · have he2 : (upperCell u row (i : ℤ) == []) = true := by simp [he]
      rw [if_pos he2]
      obtain ⟨h1, h2⟩ := ih s hinv
      rw [h1, h2]
      simp [List.find?, he]
    · have he2 : ¬ (upperCell u row (i : ℤ) == []) = true := by simpa using he
      rw [if_neg he2]
      have hne : (upperCell u row (i : ℤ) != []) = true := by simpa using he
      have hi : (i : ℤ) ≠ -1 := by omega
      have hinv2 : hit (hintsCell (upperCell u row i) i s).2 = true →
          get (hintsCell (upperCell u row i) i s).1 ≠ -1 := by
        rw [hc, hh]
        intro h0
        by_cases hk : kw (upperCell u row i) = true
        · by_cases hg : (g && hit s.2) = true
          · have hs : hit s.2 = true := by
              cases g <;> simp_all
            simpa [hg, hk] using hinv hs
          · simp only [Bool.not_eq_true] at hg
            simp only [hg, hk, Bool.not_false, Bool.and_self, if_true, setIfUnset]
            split
            · exact hi
            · rename_i h3
              simpa using h3
        · simp only [Bool.not_eq_true] at hk
          simp only [hk, Bool.or_false] at h0
          simpa [hk] using hinv h0
      obtain ⟨h1, h2⟩ := ih _ hinv2
      rw [h1, h2, hc, hh]
      constructor
      · by_cases hk : kw (upperCell u row i) = true
        · simp only [List.find?, hne, hk, Bool.and_self]
          by_cases hg : (g && hit s.2) = true
          · have hs : hit s.2 = true := by
              cases g <;> simp_all
            have := hinv hs
            simp [hg, this]
          · simp only [Bool.not_eq_true] at hg
            simp only [hg, Bool.not_false, Bool.true_and, if_true, setIfUnset]
            by_cases h0 : get s.1 = -1
            · simp [h0, hi]
            · simp [h0]
        · simp only [Bool.not_eq_true] at hk
          simp [List.find?, hk]
      · simp [List.any_cons, hne, Bool.or_assoc]

/-- The flags `hits >= 3` of `updateColumnHints` counts the keyword categories of the row,
and every hint field that held -1 takes the first column of its category. -/
theorem updateColumnHints_eq (u : UnicodeTables) (hints : columnHints) (row : List Str) :
    ((updateColumnHints u hints row).2 = true ↔ 3 ≤ keywordCategories u row) ∧
    (updateColumnHints u hints row).1 =
      { doc := if hints.doc = -1 then firstKeywordColumn u row kwDoc else hints.doc
        historico :=
          if hints.historico = -1 then firstKeywordColumn u row kwHist else hints.historico
        valorPrincipal :=
          if hints.valorPrincipal = -1 then firstKeywordColumn u row kwPrincipal
          else hints.valorPrincipal
        juros := if hints.juros = -1 then firstKeywordColumn u row kwJuros else hints.juros
        desconto :=
          if hints.desconto = -1 then firstKeywordColumn u row kwDesconto else hints.desconto
        despBanco :=
          if hints.despBanco = -1 then firstKeywordColumn u row kwDespBanco
          else hints.despBanco
        despCartorio :=
          if hints.despCartorio = -1 then firstKeywordColumn u row kwDespCartorio
          else hints.despCartorio
        vlLiqPago :=
          if hints.vlLiqPago = -1 then firstKeywordColumn u row kwVlLiq else hints.vlLiqPago
        banco := if hints.banco = -1 then firstKeywordColumn u row kwBanco else hints.banco } := by
  have init : ∀ (hit : hintHits → Bool) (get : columnHints → ℤ),
      hit ⟨false, false, false, false, false, false, false, false, false⟩ = false →
      hit ((hints, (⟨false, false, false, false, false, false, false, false, false⟩ :
        hintHits)) : columnHints × hintHits).2 = true →
      get ((hints, (⟨false, false, false, false, false, false, false, false, false⟩ :
        hintHits)) : columnHints × hintHits).1 ≠ -1 := by
    intro hit get h0 h1
    exact absurd h1 (by simp [h0])
  have f1 := hintsLoop_field u row columnHints.doc hintHits.docHit kwDoc true
    (fun _ _ _ => rfl) (fun _ _ _ => rfl) (List.range row.length) _ (init _ _ rfl)
  have f2 := hintsLoop_field u row columnHints.historico hintHits.histHit kwHist true
    (fun _ _ _ => rfl) (fun _ _ _ => rfl) (List.range row.length) _ (init _ _ rfl)
  have f3 := hintsLoop_field u row columnHints.valorPrincipal hintHits.principalHit kwPrincipal
    false (fun _ _ _ => rfl) (fun _ _ _ => rfl) (List.range row.length) _ (init _ _ rfl)
  have f4 := hintsLoop_field u row columnHints.juros hintHits.jurosHit kwJuros false
    (fun _ _ _ => rfl) (fun _ _ _ => rfl) (List.range row.length) _ (init _ _ rfl)
  have f5 := hintsLoop_field u row columnHints.desconto hintHits.descHit kwDesconto false
    (fun _ _ _ => rfl) (fun _ _ _ => rfl) (List.range row.length) _ (init _ _ rfl)
  have f6 := hintsLoop_field u row columnHints.despBanco hintHits.despBcoHit kwDespBanco false
    (fun _ _ _ => rfl) (fun _ _ _ => rfl) (List.range row.length) _ (init _ _ rfl)
  have f7 := hintsLoop_field u row columnHints.despCartorio hintHits.despCartHit kwDespCartorio
    false (fun _ _ _ => rfl) (fun _ _ _ => rfl) (List.range row.length) _ (init _ _ rfl)
  have f8 := hintsLoop_field u row columnHints.vlLiqPago hintHits.vlLiqHit kwVlLiq false
    (fun _ _ _ => rfl) (fun _ _ _ => rfl) (List.range row.length) _ (init _ _ rfl)
  have f9 := hintsLoop_field u row columnHints.banco hintHits.bancoHit kwBanco false
    (fun _ _ _ => rfl) (fun _ _ _ => rfl) (List.range row.length) _ (init _ _ rfl)
  constructor
  · have hcount : hitCount (hintsLoop u row (List.range row.length)
        (hints, ⟨false, false, false, false, false, false, false, false, false⟩)).2 =
        keywordCategories u row := by
      have hmap : ∀ (P : (Str → Bool) → Bool) (l : List (Str → Bool)),
          (l.map P).count true = (l.filter P).length := by
        intro P l
        induction l with
        | nil => rfl
        | cons a l ih =>
          rw [List.map_cons, List.count_cons, ih, List.filter_cons]
          cases P a <;> simp
      unfold hitCount keywordCategories
      rw [f1.2, f2.2, f3.2, f4.2, f5.2, f6.2, f7.2, f8.2, f9.2]
      simp only [Bool.false_or]
      exact hmap (hasKeyword u row) [kwDoc, kwHist, kwPrincipal, kwJuros, kwDesconto,
        kwDespBanco, kwDespCartorio, kwVlLiq, kwBanco]
    unfold updateColumnHints
    simp only [hcount, decide_eq_true_eq, ge_iff_le]
  · unfold updateColumnHints firstKeywordColumn
    simp only
    have hext : ∀ a b : columnHints, a.doc = b.doc → a.historico = b.historico →
        a.valorPrincipal = b.valorPrincipal → a.juros = b.juros → a.desconto = b.desconto →
        a.despBanco = b.despBanco → a.despCartorio = b.despCartorio →
        a.vlLiqPago = b.vlLiqPago → a.banco = b.banco → a = b := by
      intro a b h1 h2 h3 h4 h5 h6 h7 h8 h9
      cases a; cases b; simp_all
    exact hext _ _ f1.1 f2.1 f3.1 f4.1 f5.1 f6.1 f7.1 f8.1 f9.1
/-! ## The loop body of the Recebimentos scan -/

theorem scanRecebimentosUpTo_succ (u : UnicodeTables) (lower : Char → Char)
    (ovf : ConvOverflow) (closest : Closest)
    (srt : (ContaEntry → ContaEntry → Bool) → List ContaEntry → List ContaEntry)
    (m : ContaMap) (idx dP cP : List Str) (rows : List (List Str)) (n : Nat) :
    scanRecebimentosUpTo u lower ovf closest srt m idx dP cP rows (n + 1) =
      recebimentosStep u lower ovf closest srt idx dP cP rows
        (scanRecebimentosUpTo u lower ovf closest srt m idx dP cP rows n) n := by
  unfold scanRecebimentosUpTo
  rw [List.range_succ, List.foldl_append]
  rfl

/-- The flag that `updateColumnHints` returns does not depend on the hints. -/
theorem updateColumnHints_flag (u : UnicodeTables) (hints : columnHints) (row : List Str) :
    (updateColumnHints u hints row).2 = decide (3 ≤ keywordCategories u row) := by
  have h := (updateColumnHints_eq u hints row).1
  cases hb : (updateColumnHints u hints row).2
  · rw [hb] at h
    simp only [Bool.false_eq_true, false_iff] at h
    simp [h]
  · rw [hb] at h
    simp [h.mp rfl]

/-- What `setCurrentDebit` leaves alone, and the description it sets. -/
theorem setCurrentDebit_frame (u : UnicodeTables) (closest : Closest)
    (srt : (ContaEntry → ContaEntry → Bool) → List ContaEntry → List ContaEntry)
    (idx dP : List Str) (st : RecState) (desc : Str) :
    (setCurrentDebit u closest srt idx dP st desc).finalRows = st.finalRows ∧
    (setCurrentDebit u closest srt idx dP st desc).hints = st.hints ∧
    (setCurrentDebit u closest srt idx dP st desc).blockDate = st.blockDate ∧
    (setCurrentDebit u closest srt idx dP st desc).blockDateSanitized = st.blockDateSanitized ∧
    (setCurrentDebit u closest srt idx dP st desc).credCache = st.credCache ∧
    (setCurrentDebit u closest srt idx dP st desc).currentDescDebito = trimSpace desc := by
  unfold setCurrentDebit
  simp only
  split
  · rename_i h
    have : trimSpace desc = [] := by simpa using h
    simp [this]
  · split <;> simp

/-- What the lookback for the debit party leaves alone; with a party at hand it does
nothing. -/
theorem debitAtLancamento_frame (u : UnicodeTables) (closest : Closest)
    (srt : (ContaEntry → ContaEntry → Bool) → List ContaEntry → List ContaEntry)
    (idx dP : List Str) (rows : List (List Str)) (rIdx : Nat) (st : RecState) :
    (debitAtLancamento u closest srt idx dP rows rIdx st).finalRows = st.finalRows ∧
    (debitAtLancamento u closest srt idx dP rows rIdx st).hints = st.hints ∧
    (debitAtLancamento u closest srt idx dP rows rIdx st).blockDate = st.blockDate ∧
    (debitAtLancamento u closest srt idx dP rows rIdx st).blockDateSanitized =
      st.blockDateSanitized ∧
    (debitAtLancamento u closest srt idx dP rows rIdx st).credCache = st.credCache ∧
    (st.currentDescDebito ≠ [] → debitAtLancamento u closest srt idx dP rows rIdx st = st) := by
  unfold debitAtLancamento
  split
  · rename_i h
    have h0 : st.currentDescDebito = [] := by simpa using h
    cases findLastPortadorBefore u rows rIdx 60 with
    | none => exact ⟨rfl, rfl, rfl, rfl, rfl, fun _ => rfl⟩
    | some p =>
      obtain ⟨f1, f2, f3, f4, f5, -⟩ := setCurrentDebit_frame u closest srt idx dP st p
      exact ⟨f1, f2, f3, f4, f5, fun h => absurd h0 h⟩
  · exact ⟨rfl, rfl, rfl, rfl, rfl, fun _ => rfl⟩

/-- The emission of a transaction line appends one row and leaves the hints and the block
date alone; with a debit party at hand, the row carries it and the party stays. -/
theorem emitLancamento_shape (u : UnicodeTables) (lower : Char → Char) (ovf : ConvOverflow)
    (closest : Closest)
    (srt : (ContaEntry → ContaEntry → Bool) → List ContaEntry → List ContaEntry)
    (idx dP cP : List Str) (rows : List (List Str)) (rIdx : Nat) (row : List Str)
    (lancIdx : ℤ) (st : RecState) :
    ∃ o, (emitLancamento u lower ovf closest srt idx dP cP rows rIdx row lancIdx st).finalRows =
        st.finalRows ++ [o] ∧
      (emitLancamento u lower ovf closest srt idx dP cP rows rIdx row lancIdx st).hints =
        st.hints ∧
      (emitLancamento u lower ovf closest srt idx dP cP rows rIdx row lancIdx st).blockDate =
        st.blockDate ∧
      (st.currentDescDebito ≠ [] →
        (emitLancamento u lower ovf closest srt idx dP cP rows rIdx row lancIdx
          st).currentDescDebito = st.currentDescDebito ∧
        (emitLancamento u lower ovf closest srt idx dP cP rows rIdx row lancIdx
          st).currentCodDebito = st.currentCodDebito ∧
        o.DescricaoDebito = sanitizeForCSV st.currentDescDebito ∧
        o.ContaDebito = sanitizeForCSV st.currentCodDebito) := by
  obtain ⟨f1, f2, f3, -, -, f6⟩ := debitAtLancamento_frame u closest srt idx dP rows rIdx st
  unfold emitLancamento appendLancamento
  simp only
  refine ⟨_, by rw [f1], f2, f3, fun h => ?_⟩
  rw [f6 h]
  exact ⟨rfl, rfl, rfl, rfl⟩

/-- The loop body by the kind of the row.  With `B` the flag of `updateBlockDate`, `H` the
test for three keyword categories, `pIdx` the column of the Portador marker and
`lancIdx` that of the transaction cell: the hints are the old ones or those that
`updateColumnHints` computes; a row is appended exactly when `B` and `H` fail, there is no
Portador marker and there is a transaction cell; the debit party changes at most in the
Portador branch, or in the emission when there is none at hand. -/
theorem recebimentosStep_kind (u : UnicodeTables) (lower : Char → Char) (ovf : ConvOverflow)
    (closest : Closest)
    (srt : (ContaEntry → ContaEntry → Bool) → List ContaEntry → List ContaEntry)
    (idx dP cP : List Str) (rows : List (List Str)) (st : RecState) (rIdx : Nat)
    (row : List Str) (hrow : row = rows.getD rIdx [])
    (st2 : RecState) (hst2 : st2 = recebimentosStep u lower ovf closest srt idx dP cP rows st rIdx) :
    (st2.hints = st.hints ∨ st2.hints = (updateColumnHints u st.hints row).1) ∧
    (((updateBlockDate ovf u lower row (firstIndex isLancamento row)).2 = false ∧
        ¬ 3 ≤ keywordCategories u row ∧ findPortadorIndex u row = -1 ∧
        firstIndex isLancamento row ≠ -1) →
      ∃ o, st2.finalRows = st.finalRows ++ [o] ∧
        (st.currentDescDebito ≠ [] →
          o.DescricaoDebito = sanitizeForCSV st.currentDescDebito ∧
          o.ContaDebito = sanitizeForCSV st.currentCodDebito)) ∧
    (¬ ((updateBlockDate ovf u lower row (firstIndex isLancamento row)).2 = false ∧
        ¬ 3 ≤ keywordCategories u row ∧ findPortadorIndex u row = -1 ∧
        firstIndex isLancamento row ≠ -1) →
      st2.finalRows = st.finalRows) ∧
    (((updateBlockDate ovf u lower row (firstIndex isLancamento row)).2 = true ∨
        3 ≤ keywordCategories u row) →
      st2.currentDescDebito = st.currentDescDebito ∧
      st2.currentCodDebito = st.currentCodDebito) ∧
    (findPortadorIndex u row = -1 → st.currentDescDebito ≠ [] →
      st2.currentDescDebito = st.currentDescDebito ∧
      st2.currentCodDebito = st.currentCodDebito) ∧
    (((updateBlockDate ovf u lower row (firstIndex isLancamento row)).2 = false ∧
        ¬ 3 ≤ keywordCategories u row ∧ findPortadorIndex u row ≠ -1) →
      st2.currentDescDebito = trimSpace (portadorText u row (findPortadorIndex u row)) ∧
      (trimSpace (portadorText u row (findPortadorIndex u row)) = [] →
        st2.currentCodDebito = sentinel)) := by
  -- the state after the block date was set
  obtain ⟨st1, hs1, g1, g2, g3, g4⟩ : ∃ st1 : RecState,
      st1 = applyBlockDate st (updateBlockDate ovf u lower row (firstIndex isLancamento row)).1 ∧
      st1.hints = st.hints ∧ st1.finalRows = st.finalRows ∧
      st1.currentDescDebito = st.currentDescDebito ∧
      st1.currentCodDebito = st.currentCodDebito := by
    refine ⟨_, rfl, ?_, ?_, ?_, ?_⟩ <;> unfold applyBlockDate <;> split <;> rfl
  have hstep : st2 =
      (if (updateBlockDate ovf u lower row (firstIndex isLancamento row)).2 = true then st1
       else if 3 ≤ keywordCategories u row then
         { st1 with hints := (updateColumnHints u st1.hints row).1 }
       else if findPortadorIndex u row ≠ -1 then
         (if trimSpace (portadorText u row (findPortadorIndex u row)) = [] then
           { st1 with
             hints := (updateColumnHints u st1.hints row).1
             currentDescDebito := []
             currentCodDebito := sentinel }
          else setCurrentDebit u closest srt idx dP
            { st1 with hints := (updateColumnHints u st1.hints row).1 }
            (portadorText u row (findPortadorIndex u row)))
       else if firstIndex isLancamento row = -1 then
         { st1 with hints := (updateColumnHints u st1.hints row).1 }
       else emitLancamento u lower ovf closest srt idx dP cP rows rIdx row
         (firstIndex isLancamento row)
         { st1 with hints := (updateColumnHints u st1.hints row).1 }) := by
    rw [hst2, hs1, hrow]
    unfold recebimentosStep portadorBranch
    simp only [updateColumnHints_flag, decide_eq_true_eq, bne_iff_ne, ne_eq, beq_iff_eq,
      ite_not]
  clear hst2 hs1
  by_cases hB : (updateBlockDate ovf u lower row (firstIndex isLancamento row)).2 = true
  · rw [if_pos hB] at hstep
    subst hstep
    exact ⟨Or.inl g1, fun h => absurd hB (by simp [h.1]), fun _ => g2, fun _ => ⟨g3, g4⟩,
      fun _ _ => ⟨g3, g4⟩, fun h => absurd hB (by simp [h.1])⟩
  · rw [if_neg hB] at hstep
    by_cases hH : 3 ≤ keywordCategories u row
    · rw [if_pos hH] at hstep
      subst hstep
      exact ⟨Or.inr (by rw [g1]), fun h => absurd hH h.2.1, fun _ => g2, fun _ => ⟨g3, g4⟩,
        fun _ _ => ⟨g3, g4⟩, fun h => absurd hH h.2.1⟩
    · rw [if_neg hH] at hstep
      have hBH : ¬ ((updateBlockDate ovf u lower row (firstIndex isLancamento row)).2 = true ∨
          3 ≤ keywordCategories u row) := by
        rintro (h | h)
        · exact hB h
        · exact hH h
      by_cases hP : findPortadorIndex u row = -1
      · rw [if_neg (not_not.mpr hP)] at hstep
        by_cases hL : firstIndex isLancamento row = -1
        · rw [if_pos hL] at hstep
          subst hstep
          exact ⟨Or.inr (by rw [g1]), fun h => absurd hL h.2.2.2, fun _ => g2,
            fun h => absurd h hBH, fun _ _ => ⟨g3, g4⟩, fun h => absurd hP h.2.2⟩
        · rw [if_neg hL] at hstep
          obtain ⟨o, e1, e2, e3, e4⟩ := emitLancamento_shape u lower ovf closest srt idx dP cP
            rows rIdx row (firstIndex isLancamento row)
            { st1 with hints := (updateColumnHints u st1.hints row).1 }
          subst hstep
          refine ⟨Or.inr (by rw [e2, g1]), fun _ => ⟨o, by rw [e1]; exact congrArg (· ++ [o]) g2,
            fun hne => ?_⟩, fun h => absurd ⟨by simpa using hB, hH, hP, hL⟩ h,
            fun h => absurd h hBH, fun _ hne => ?_, fun h => absurd hP h.2.2⟩
          · obtain ⟨-, -, t3, t4⟩ := e4 (by show st1.currentDescDebito ≠ []; rw [g3]; exact hne)
            rw [t3, t4]
            exact ⟨congrArg sanitizeForCSV g3, congrArg sanitizeForCSV g4⟩
          · obtain ⟨t1, t2, -, -⟩ := e4 (by show st1.currentDescDebito ≠ []; rw [g3]; exact hne)
            rw [t1, t2]
            exact ⟨g3, g4⟩
      · rw [if_pos hP] at hstep
        by_cases hT : trimSpace (portadorText u row (findPortadorIndex u row)) = []
        · rw [if_pos hT] at hstep
          subst hstep
          exact ⟨Or.inr (by rw [g1]), fun h => absurd h.2.2.1 hP, fun _ => g2,
            fun h => absurd h hBH, fun h _ => absurd h hP, fun _ => ⟨hT.symm, fun _ => rfl⟩⟩
        · rw [if_neg hT] at hstep
          obtain ⟨f1, f2, -, -, -, f6⟩ := setCurrentDebit_frame u closest srt idx dP
            { st1 with hints := (updateColumnHints u st1.hints row).1 }
            (portadorText u row (findPortadorIndex u row))
          subst hstep
          exact ⟨Or.inr (by rw [f2, g1]), fun h => absurd h.2.2.1 hP, fun _ => by rw [f1]; exact g2,
            fun h => absurd h hBH, fun h _ => absurd h hP, fun _ => ⟨f6, fun h => absurd h hT⟩⟩

theorem firstIndex_eq_neg_one (p : Str → Bool) (row : List Str) :
    firstIndex p row = -1 ↔ row.any p = false := by
  unfold firstIndex
  cases h : row.any p
  · simp
  · simp only [if_true, Bool.true_eq_false, iff_false]
    omega

/-- The row conditions of `recebimentosStep_kind` in terms of the row predicates. -/
theorem emitsLancamento_iff (ovf : ConvOverflow) (u : UnicodeTables) (lower : Char → Char)
    (row : List Str) :
    emitsLancamento ovf u lower row = true ↔
      ((updateBlockDate ovf u lower row (firstIndex isLancamento row)).2 = false ∧
        ¬ 3 ≤ keywordCategories u row ∧ findPortadorIndex u row = -1 ∧
        firstIndex isLancamento row ≠ -1) := by
  unfold emitsLancamento isPortadorRow isColumnHeaderRow isBlockDateRow
  rw [Ne, firstIndex_eq_neg_one]
  cases (updateBlockDate ovf u lower row (firstIndex isLancamento row)).2 <;>
    cases row.any isLancamento <;>
    by_cases h3 : 3 ≤ keywordCategories u row <;>
    by_cases hp : findPortadorIndex u row = -1 <;> simp [h3, hp]

theorem isPortadorRow_iff (ovf : ConvOverflow) (u : UnicodeTables) (lower : Char → Char)
    (row : List Str) :
    isPortadorRow ovf u lower row = true ↔
      ((updateBlockDate ovf u lower row (firstIndex isLancamento row)).2 = false ∧
        ¬ 3 ≤ keywordCategories u row ∧ findPortadorIndex u row ≠ -1) := by
  unfold isPortadorRow isBlockDateRow
  cases (updateBlockDate ovf u lower row (firstIndex isLancamento row)).2 <;>
    by_cases h3 : 3 ≤ keywordCategories u row <;>
    by_cases hp : findPortadorIndex u row = -1 <;> simp [h3, hp]

theorem hintsKept_refl (a : columnHints) : hintsKept a a :=
  ⟨fun _ => rfl, fun _ => rfl, fun _ => rfl, fun _ => rfl, fun _ => rfl, fun _ => rfl,
    fun _ => rfl, fun _ => rfl, fun _ => rfl⟩

theorem hintsKept_trans (a b c : columnHints) (h1 : hintsKept a b) (h2 : hintsKept b c) :
    hintsKept a c := by
  obtain ⟨a1, a2, a3, a4, a5, a6, a7, a8, a9⟩ := h1
  obtain ⟨b1, b2, b3, b4, b5, b6, b7, b8, b9⟩ := h2
  have key : ∀ x y z : ℤ, (x ≠ -1 → y = x) → (y ≠ -1 → z = y) → x ≠ -1 → z = x := by
    intro x y z hxy hyz hx
    have := hxy hx
    rw [this] at hyz
    exact hyz hx
  exact ⟨key _ _ _ a1 b1, key _ _ _ a2 b2, key _ _ _ a3 b3, key _ _ _ a4 b4, key _ _ _ a5 b5,
    key _ _ _ a6 b6, key _ _ _ a7 b7, key _ _ _ a8 b8, key _ _ _ a9 b9⟩

theorem updateColumnHints_kept (u : UnicodeTables) (hints : columnHints) (row : List Str) :
    hintsKept hints (updateColumnHints u hints row).1 := by
  rw [(updateColumnHints_eq u hints row).2]
  refine ⟨?_, ?_, ?_, ?_, ?_, ?_, ?_, ?_, ?_⟩ <;> intro h <;> exact if_neg h

theorem recebimentosStep_hintsKept (u : UnicodeTables) (lower : Char → Char)
    (ovf : ConvOverflow) (closest : Closest)
    (srt : (ContaEntry → ContaEntry → Bool) → List ContaEntry → List ContaEntry)
    (idx dP cP : List Str) (rows : List (List Str)) (st : RecState) (rIdx : Nat) :
    hintsKept st.hints (recebimentosStep u lower ovf closest srt idx dP cP rows st rIdx).hints := by
  rcases (recebimentosStep_kind u lower ovf closest srt idx dP cP rows st rIdx _ rfl _ rfl).1
    with h | h
  · rw [h]
    exact hintsKept_refl _
  · rw [h]
    exact updateColumnHints_kept u _ _

/-- The rows that the scan has appended after `n` rows of the sheet: one for each row
that `emitsLancamento` accepts, in the order of the sheet. -/
theorem scanRecebimentosUpTo_rows (u : UnicodeTables) (lower : Char → Char)
    (ovf : ConvOverflow) (closest : Closest)
    (srt : (ContaEntry → ContaEntry → Bool) → List ContaEntry → List ContaEntry)
    (m : ContaMap) (idx dP cP : List Str) (rows : List (List Str)) (n : Nat) :
    ∃ outs : List (Nat × AtoliniRecebimentosOutputRow),
      (scanRecebimentosUpTo u lower ovf closest srt m idx dP cP rows n).finalRows =
        outs.map Prod.snd ∧
      outs.map Prod.fst =
        (List.range n).filter (fun i => emitsLancamento ovf u lower (rows.getD i [])) := by
  induction n with
  | zero => exact ⟨[], rfl, rfl⟩
  | succ n ih =>
    obtain ⟨outs, h1, h2⟩ := ih
    obtain ⟨-, k2, k3, -⟩ := recebimentosStep_kind u lower ovf closest srt idx dP cP rows
      (scanRecebimentosUpTo u lower ovf closest srt m idx dP cP rows n) n _ rfl _ rfl
    rw [scanRecebimentosUpTo_succ, List.range_succ, List.filter_append]
    by_cases he : emitsLancamento ovf u lower (rows.getD n []) = true
    · obtain ⟨o, ho, -⟩ := k2 ((emitsLancamento_iff ovf u lower _).mp he)
      refine ⟨outs ++ [(n, o)], ?_, ?_⟩
      · rw [ho, h1, List.map_append]
        rfl
      · rw [List.map_append, h2, List.filter_cons_of_pos (by exact he), List.filter_nil]
        rfl
    · have := k3 (fun h => he ((emitsLancamento_iff ovf u lower _).mpr h))
      refine ⟨outs, ?_, ?_⟩
      · rw [this, h1]
      · rw [h2, List.filter_cons_of_neg (by exact he), List.filter_nil, List.append_nil]

/-- With a debit party at hand and no Portador row among the next `k` rows, the party and
its code stay. -/
theorem scanRecebimentosUpTo_debit_kept (u : UnicodeTables) (lower : Char → Char)
    (ovf : ConvOverflow) (closest : Closest)
    (srt : (ContaEntry → ContaEntry → Bool) → List ContaEntry → List ContaEntry)
    (m : ContaMap) (idx dP cP : List Str) (rows : List (List Str)) (a k : Nat)
    (hne : (scanRecebimentosUpTo u lower ovf closest srt m idx dP cP rows a).currentDescDebito
      ≠ [])
    (hno : ∀ j, a ≤ j → j < a + k → isPortadorRow ovf u lower (rows.getD j []) = false) :
    (scanRecebimentosUpTo u lower ovf closest srt m idx dP cP rows (a + k)).currentDescDebito =
      (scanRecebimentosUpTo u lower ovf closest srt m idx dP cP rows a).currentDescDebito ∧
    (scanRecebimentosUpTo u lower ovf closest srt m idx dP cP rows (a + k)).currentCodDebito =
      (scanRecebimentosUpTo u lower ovf closest srt m idx dP cP rows a).currentCodDebito := by
  induction k with
  | zero => exact ⟨rfl, rfl⟩
  | succ k ih =>
    obtain ⟨i1, i2⟩ := ih (fun j h1 h2 => hno j h1 (by omega))
    obtain ⟨-, -, -, k4, k5, -⟩ := recebimentosStep_kind u lower ovf closest srt idx dP cP rows
      (scanRecebimentosUpTo u lower ovf closest srt m idx dP cP rows (a + k)) (a + k) _ rfl _ rfl
    have hp := hno (a + k) (by omega) (by omega)
    rw [← Nat.add_assoc, scanRecebimentosUpTo_succ]
    have hcase : ((updateBlockDate ovf u lower (rows.getD (a + k) [])
          (firstIndex isLancamento (rows.getD (a + k) []))).2 = true ∨
        3 ≤ keywordCategories u (rows.getD (a + k) [])) ∨
        findPortadorIndex u (rows.getD (a + k) []) = -1 := by
      by_contra hc
      push_neg at hc
      have := (isPortadorRow_iff ovf u lower (rows.getD (a + k) [])).mpr
        ⟨by simpa using hc.1.1, by omega, hc.2⟩
      rw [hp] at this
      exact absurd this (by simp)
    rcases hcase with h | h
    · obtain ⟨t1, t2⟩ := k4 h
      exact ⟨t1.trans i1, t2.trans i2⟩
    · obtain ⟨t1, t2⟩ := k5 h (by rw [i1]; exact hne)
      exact ⟨t1.trans i1, t2.trans i2⟩

/-- C28: in the Recebimentos scan, a hint field that holds a column index after `n` rows
of the sheet holds the same index after every later row -- after `n + k` rows, for
every `k` -- for each of the nine fields (`hintsKept`). -/
theorem C28_hint_kept (u : UnicodeTables) (lower : Char → Char)
    (ovf : ConvOverflow) (closest : Closest)
    (srt : (ContaEntry → ContaEntry → Bool) → List ContaEntry → List ContaEntry)
    (m : ContaMap) (idx dP cP : List Str) (rows : List (List Str)) (n k : Nat) :
    hintsKept (scanRecebimentosUpTo u lower ovf closest srt m idx dP cP rows n).hints
      (scanRecebimentosUpTo u lower ovf closest srt m idx dP cP rows (n + k)).hints := by
  induction k with
  | zero => exact hintsKept_refl _
  | succ k ih =>
    rw [← Nat.add_assoc, scanRecebimentosUpTo_succ]
    exact hintsKept_trans _ _ _ ih (recebimentosStep_hintsKept u lower ovf closest srt idx dP cP
      rows _ _)

/-- Witness for C28: on the sheet `headerRows` the first row sets the hints of the
document, the memo and the interest to the columns 0, 1 and 2, and the second row, with
the keywords in the columns 2, 3 and 1, leaves them there. -/
theorem C28_hint_kept_witness :
    (scanRecebimentosUpTo latin1Tables latin1ToLower amd64Conv demoClosest sortSliceStable
      demoContaMap demoIndex [] [] headerRows 1).hints = ⟨0, 1, -1, 2, -1, -1, -1, -1, -1⟩ ∧
    (scanRecebimentosUpTo latin1Tables latin1ToLower amd64Conv demoClosest sortSliceStable
      demoContaMap demoIndex [] [] headerRows 2).hints = ⟨0, 1, -1, 2, -1, -1, -1, -1, -1⟩ ∧
    hintsKept
      (scanRecebimentosUpTo latin1Tables latin1ToLower amd64Conv demoClosest sortSliceStable
        demoContaMap demoIndex [] [] headerRows 1).hints
      (scanRecebimentosUpTo latin1Tables latin1ToLower amd64Conv demoClosest sortSliceStable
        demoContaMap demoIndex [] [] headerRows (1 + 1)).hints :=
  ⟨by decide!, by decide!,
    C28_hint_kept latin1Tables latin1ToLower amd64Conv demoClosest sortSliceStable
      demoContaMap demoIndex [] [] headerRows 1 1⟩

/-- C29 fails on the code: the transaction line "7 - Banco X" holds one keyword category
(the bank), `updateColumnHints` returns false for it, and yet it sets the hint of the bank
column to the column of that cell; the scan of the one-row sheet ends with that hint. -/
theorem C29_hint_learned_from_line :
    keywordCategories latin1Tables ["7 - Banco X".toList] = 1 ∧
    updateColumnHints latin1Tables noHints ["7 - Banco X".toList] =
      (⟨-1, -1, -1, -1, -1, -1, -1, -1, 0⟩, false) ∧
    (scanRecebimentos latin1Tables latin1ToLower amd64Conv demoClosest sortSliceStable
      demoContaMap demoIndex [] [] [["7 - Banco X".toList]]).hints.banco = 0 := by
  refine ⟨by decide, by decide, by decide!⟩

/-- C29, as the code has it: `updateColumnHints` returns true, so that the row is skipped
as a header, exactly when the row holds three keyword categories or more; on every row
it is called with, also on one with fewer categories, a hint field that holds -1 takes
the column of the first cell of its category (-1 again when the row has none), and a
field that holds an index keeps it. -/
theorem C29_hints_learned_on_every_row (u : UnicodeTables) (hints : columnHints)
    (row : List Str) :
    ((updateColumnHints u hints row).2 = true ↔ 3 ≤ keywordCategories u row) ∧
    (updateColumnHints u hints row).1 =
      { doc := if hints.doc = -1 then firstKeywordColumn u row kwDoc else hints.doc
        historico :=
          if hints.historico = -1 then firstKeywordColumn u row kwHist else hints.historico
        valorPrincipal :=
          if hints.valorPrincipal = -1 then firstKeywordColumn u row kwPrincipal
          else hints.valorPrincipal
        juros := if hints.juros = -1 then firstKeywordColumn u row kwJuros else hints.juros
        desconto :=
          if hints.desconto = -1 then firstKeywordColumn u row kwDesconto else hints.desconto
        despBanco :=
          if hints.despBanco = -1 then firstKeywordColumn u row kwDespBanco
          else hints.despBanco
        despCartorio :=
          if hints.despCartorio = -1 then firstKeywordColumn u row kwDespCartorio
          else hints.despCartorio
        vlLiqPago :=
          if hints.vlLiqPago = -1 then firstKeywordColumn u row kwVlLiq else hints.vlLiqPago
        banco := if hints.banco = -1 then firstKeywordColumn u row kwBanco else hints.banco } :=
  updateColumnHints_eq u hints row

/-- C30 fails on the code: the loop body tests for header keywords before it looks for a
Portador marker or a transaction cell.  The row "123 - JUROS DESCONTO HIST" matches the
transaction pattern, is no block-date header and has no Portador marker, but holds three
keyword categories: the scan emits nothing for it.  The row "Portador: Banco Juros
Desconto" has a Portador marker and names a party, and is no block-date header: the scan
leaves the debit party empty. -/
theorem C30_keyword_rows_are_headers :
    (["123 - JUROS DESCONTO HIST".toList].any isLancamento = true ∧
      isBlockDateRow amd64Conv latin1Tables latin1ToLower ["123 - JUROS DESCONTO HIST".toList]
        = false ∧
      findPortadorIndex latin1Tables ["123 - JUROS DESCONTO HIST".toList] = -1 ∧
      keywordCategories latin1Tables ["123 - JUROS DESCONTO HIST".toList] = 3 ∧
      (scanRecebimentos latin1Tables latin1ToLower amd64Conv demoClosest sortSliceStable
        demoContaMap demoIndex [] [] [["123 - JUROS DESCONTO HIST".toList]]).finalRows = []) ∧
    (findPortadorIndex latin1Tables ["Portador: Banco Juros Desconto".toList] = 0 ∧
      isBlockDateRow amd64Conv latin1Tables latin1ToLower
        ["Portador: Banco Juros Desconto".toList] = false ∧
      portadorText latin1Tables ["Portador: Banco Juros Desconto".toList] 0 =
        "Banco Juros Desconto".toList ∧
      (scanRecebimentos latin1Tables latin1ToLower amd64Conv demoClosest sortSliceStable
        demoContaMap demoIndex [] []
        [["Portador: Banco Juros Desconto".toList]]).currentDescDebito = []) := by
  refine ⟨⟨by decide, by decide!, by decide, by decide, by decide!⟩,
    ⟨by decide, by decide!, by decide, by decide!⟩⟩

/-- C30, as the code has it: the loop body tests in the order block-date header, header
keywords, Portador marker, transaction cell.  A row that is a block-date header or holds
three keyword categories or more emits nothing and leaves the debit party alone; a row
with a Portador marker that is neither (`isPortadorRow`) sets the debit party to the text
read from the row (empty when there is none) and emits nothing; a row with a transaction
cell that is none of the three (`emitsLancamento`) appends one ledger row. -/
theorem C30_priority_order (u : UnicodeTables) (lower : Char → Char) (ovf : ConvOverflow)
    (closest : Closest)
    (srt : (ContaEntry → ContaEntry → Bool) → List ContaEntry → List ContaEntry)
    (idx dP cP : List Str) (rows : List (List Str)) (st : RecState) (rIdx : Nat) :
    ((isBlockDateRow ovf u lower (rows.getD rIdx []) = true ∨
        3 ≤ keywordCategories u (rows.getD rIdx [])) →
      (recebimentosStep u lower ovf closest srt idx dP cP rows st rIdx).finalRows =
        st.finalRows ∧
      (recebimentosStep u lower ovf closest srt idx dP cP rows st rIdx).currentDescDebito =
        st.currentDescDebito ∧
      (recebimentosStep u lower ovf closest srt idx dP cP rows st rIdx).currentCodDebito =
        st.currentCodDebito) ∧
    (isPortadorRow ovf u lower (rows.getD rIdx []) = true →
      (recebimentosStep u lower ovf closest srt idx dP cP rows st rIdx).currentDescDebito =
        trimSpace (portadorText u (rows.getD rIdx [])
          (findPortadorIndex u (rows.getD rIdx []))) ∧
      (recebimentosStep u lower ovf closest srt idx dP cP rows st rIdx).finalRows =
        st.finalRows) ∧
    (emitsLancamento ovf u lower (rows.getD rIdx []) = true →
      ∃ o, (recebimentosStep u lower ovf closest srt idx dP cP rows st rIdx).finalRows =
        st.finalRows ++ [o]) := by
  obtain ⟨-, k2, k3, k4, -, k6⟩ := recebimentosStep_kind u lower ovf closest srt idx dP cP rows
    st rIdx _ rfl _ rfl
  refine ⟨fun h => ?_, fun h => ?_, fun h => ?_⟩
  · refine ⟨k3 (fun hc => ?_), k4 h⟩
    rcases h with h | h
    · unfold isBlockDateRow at h
      rw [h] at hc
      exact absurd hc.1 (by simp)
    · exact hc.2.1 h
  · have hp := (isPortadorRow_iff ovf u lower _).mp h
    exact ⟨(k6 hp).1, k3 (fun hc => hp.2.2 hc.2.2.1)⟩
  · obtain ⟨o, ho, -⟩ := k2 ((emitsLancamento_iff ovf u lower _).mp h)
    exact ⟨o, ho⟩

/-- Witness for C30: on the sheet `demoRecRows` the second row is a Portador row, and
the loop body sets the debit party to "7 - Banco X"; the third row is a transaction line,
and the loop body appends a ledger row. -/
theorem C30_priority_order_witness :
    isPortadorRow amd64Conv latin1Tables latin1ToLower (demoRecRows.getD 1 []) = true ∧
    (recebimentosStep latin1Tables latin1ToLower amd64Conv demoClosest sortSliceStable
      demoIndex [] [] demoRecRows (recInit demoContaMap) 1).currentDescDebito =
      "7 - Banco X".toList ∧
    emitsLancamento amd64Conv latin1Tables latin1ToLower (demoRecRows.getD 2 []) = true ∧
    ∃ o, (recebimentosStep latin1Tables latin1ToLower amd64Conv demoClosest sortSliceStable
      demoIndex [] [] demoRecRows (recInit demoContaMap) 2).finalRows =
      (recInit demoContaMap).finalRows ++ [o] := by
  have h1 : isPortadorRow amd64Conv latin1Tables latin1ToLower (demoRecRows.getD 1 []) = true :=
    by decide!
  have h2 : emitsLancamento amd64Conv latin1Tables latin1ToLower (demoRecRows.getD 2 []) = true :=
    by decide!
  refine ⟨h1, ?_, h2, ?_⟩
  · rw [((C30_priority_order latin1Tables latin1ToLower amd64Conv demoClosest sortSliceStable
      demoIndex [] [] demoRecRows (recInit demoContaMap) 1).2.1 h1).1]
    decide
  · exact (C30_priority_order latin1Tables latin1ToLower amd64Conv demoClosest sortSliceStable
      demoIndex [] [] demoRecRows (recInit demoContaMap) 2).2.2 h2

/-- C22 fails on the code: on the sheet `lookbackRows` the first row is a Portador row
(it names no party, so the debit party is cleared), the next two rows are transaction
lines and no Portador row stands between them; the first ledger row has an empty debit
description, and for the second `findLastPortadorBefore` takes the first transaction
line for a Portador, so that its debit description is "123 - FULANO". -/
theorem C22_lookback_takes_a_line :
    isPortadorRow amd64Conv latin1Tables latin1ToLower (lookbackRows.getD 0 []) = true ∧
    emitsLancamento amd64Conv latin1Tables latin1ToLower (lookbackRows.getD 1 []) = true ∧
    emitsLancamento amd64Conv latin1Tables latin1ToLower (lookbackRows.getD 2 []) = true ∧
    (scanRecebimentos latin1Tables latin1ToLower amd64Conv demoClosest sortSliceStable
      demoContaMap demoIndex [] [] lookbackRows).finalRows.map
        (fun o => (o.DescricaoDebito, o.ContaDebito)) =
      [([], "999999".toList), ("123 - FULANO".toList, "21".toList)] := by
  refine ⟨by decide!, by decide!, by decide!, by decide!⟩

/-- C22, as the code has it: when a Portador row that names a party (the text read from
it is not empty) is followed by two transaction lines, with no Portador row after it and
before the second line, the scan appends a ledger row for each of the two lines, and
the two rows have the same debit description, the party of the Portador row, and the
same debit account code. -/
theorem C22_same_debit_after_portador (u : UnicodeTables) (lower : Char → Char)
    (ovf : ConvOverflow) (closest : Closest)
    (srt : (ContaEntry → ContaEntry → Bool) → List ContaEntry → List ContaEntry)
    (m : ContaMap) (idx dP cP : List Str) (rows : List (List Str)) (p t1 t2 : Nat)
    (hp : p < t1) (h12 : t1 < t2)
    (hprow : isPortadorRow ovf u lower (rows.getD p []) = true)
    (htext : trimSpace (portadorText u (rows.getD p [])
      (findPortadorIndex u (rows.getD p []))) ≠ [])
    (hno : ∀ j, p < j → j < t2 → isPortadorRow ovf u lower (rows.getD j []) = false)
    (h1 : emitsLancamento ovf u lower (rows.getD t1 []) = true)
    (h2 : emitsLancamento ovf u lower (rows.getD t2 []) = true) :
    ∃ o1 o2,
      (scanRecebimentosUpTo u lower ovf closest srt m idx dP cP rows (t1 + 1)).finalRows =
        (scanRecebimentosUpTo u lower ovf closest srt m idx dP cP rows t1).finalRows ++ [o1] ∧
      (scanRecebimentosUpTo u lower ovf closest srt m idx dP cP rows (t2 + 1)).finalRows =
        (scanRecebimentosUpTo u lower ovf closest srt m idx dP cP rows t2).finalRows ++ [o2] ∧
      o1.DescricaoDebito = o2.DescricaoDebito ∧ o1.ContaDebito = o2.ContaDebito ∧
      o1.DescricaoDebito = sanitizeForCSV (trimSpace (portadorText u (rows.getD p [])
        (findPortadorIndex u (rows.getD p [])))) := by
  -- the party after the Portador row
  have hP := (recebimentosStep_kind u lower ovf closest srt idx dP cP rows
    (scanRecebimentosUpTo u lower ovf closest srt m idx dP cP rows p) p _ rfl _ rfl).2.2.2.2.2
    ((isPortadorRow_iff ovf u lower _).mp hprow)
  rw [← scanRecebimentosUpTo_succ] at hP
  have hne : (scanRecebimentosUpTo u lower ovf closest srt m idx dP cP rows
      (p + 1)).currentDescDebito ≠ [] := by
    rw [hP.1]
    exact htext
  -- it stays until the two lines
  obtain ⟨k1, hk1⟩ : ∃ k, t1 = p + 1 + k := ⟨t1 - (p + 1), by omega⟩
  obtain ⟨k2, hk2⟩ : ∃ k, t2 = p + 1 + k := ⟨t2 - (p + 1), by omega⟩
  have hno2 : isPortadorRow ovf u lower (rows.getD t2 []) = false := by
    cases hc : isPortadorRow ovf u lower (rows.getD t2 [])
    · rfl
    · unfold emitsLancamento at h2
      rw [hc] at h2
      simp at h2
  have d1 := scanRecebimentosUpTo_debit_kept u lower ovf closest srt m idx dP cP rows (p + 1) k1
    hne (fun j a b => hno j (by omega) (by omega))
  have d2 := scanRecebimentosUpTo_debit_kept u lower ovf closest srt m idx dP cP rows (p + 1) k2
    hne (fun j a b => hno j (by omega) (by omega))
  rw [← hk1] at d1
  rw [← hk2] at d2
  obtain ⟨o1, e1, f1⟩ := (recebimentosStep_kind u lower ovf closest srt idx dP cP rows
    (scanRecebimentosUpTo u lower ovf closest srt m idx dP cP rows t1) t1 _ rfl _ rfl).2.1
    ((emitsLancamento_iff ovf u lower _).mp h1)
  obtain ⟨o2, e2, f2⟩ := (recebimentosStep_kind u lower ovf closest srt idx dP cP rows
    (scanRecebimentosUpTo u lower ovf closest srt m idx dP cP rows t2) t2 _ rfl _ rfl).2.1
    ((emitsLancamento_iff ovf u lower _).mp h2)
  rw [← scanRecebimentosUpTo_succ] at e1 e2
  have g1 := f1 (by rw [d1.1]; exact hne)
  have g2 := f2 (by rw [d2.1]; exact hne)
  refine ⟨o1, o2, e1, e2, ?_, ?_, ?_⟩
  · rw [g1.1, g2.1, d1.1, d2.1]
  · rw [g1.2, g2.2, d1.2, d2.2]
  · rw [g1.1, d1.1, hP.1]

/-- Witness for C22: on the sheet `portadorRows` the row "Portador: 7 - Banco X" names a
party and is followed by two transaction lines. -/
theorem C22_same_debit_after_portador_witness :
    ∃ o1 o2,
      (scanRecebimentosUpTo latin1Tables latin1ToLower amd64Conv demoClosest sortSliceStable
        demoContaMap demoIndex [] [] portadorRows (1 + 1)).finalRows =
        (scanRecebimentosUpTo latin1Tables latin1ToLower amd64Conv demoClosest sortSliceStable
          demoContaMap demoIndex [] [] portadorRows 1).finalRows ++ [o1] ∧
      (scanRecebimentosUpTo latin1Tables latin1ToLower amd64Conv demoClosest sortSliceStable
        demoContaMap demoIndex [] [] portadorRows (2 + 1)).finalRows =
        (scanRecebimentosUpTo latin1Tables latin1ToLower amd64Conv demoClosest sortSliceStable
          demoContaMap demoIndex [] [] portadorRows 2).finalRows ++ [o2] ∧
      o1.DescricaoDebito = o2.DescricaoDebito ∧ o1.ContaDebito = o2.ContaDebito ∧
      o1.DescricaoDebito = sanitizeForCSV (trimSpace (portadorText latin1Tables
        (portadorRows.getD 0 []) (findPortadorIndex latin1Tables (portadorRows.getD 0 [])))) :=
  C22_same_debit_after_portador latin1Tables latin1ToLower amd64Conv demoClosest
    sortSliceStable demoContaMap demoIndex [] [] portadorRows 0 1 2 (by decide) (by decide)
    (by decide!) (by decide)
    (fun j a b => by
      have : j = 1 := by omega
      subst this
      decide!)
    (by decide!) (by decide!)

/-! ## The outcome of the two Process functions -/

/-- With both inputs read, `ProcessAtoliniRecebimentos` is `gerarCSVAtoliniRecebimentos`
on the rows of the scan from the chart of `lerContasRecebimentos`. -/
theorem ProcessAtoliniRecebimentos_ok {ε : Type} (u : UnicodeTables) (lower : Char → Char)
    (ovf : ConvOverflow) (closest : Closest)
    (srt : (ContaEntry → ContaEntry → Bool) → List ContaEntry → List ContaEntry)
    (repertoire : Char → Bool) (rows recs : List (List Str)) (dP cP : List Str) :
    (ProcessAtoliniRecebimentos u lower ovf closest srt repertoire (.ok rows) (.ok recs) dP cP :
        Except (ProcessError ε) (List (List Str))) =
      gerarCSVAtoliniRecebimentos repertoire
        (scanRecebimentos u lower ovf closest srt (buildIndex (contaOfRecord u) recs).byKey
          (buildIndex (contaOfRecord u) recs).order dP cP rows).finalRows := rfl

/-- The outcome of `gerarCSVAtoliniRecebimentos`: the records when the encoder supports
every code point of them, else an error that names a code point of the records that it
does not support. -/
theorem gerarCSVAtoliniRecebimentos_outcome {ε : Type} (repertoire : Char → Bool)
    (out : List AtoliniRecebimentosOutputRow) :
    ((∀ r ∈ (recebimentosRecords out).flatten.flatten, repertoire r = true) →
      (gerarCSVAtoliniRecebimentos repertoire out :
        Except (ProcessError ε) (List (List Str))) = .ok (recebimentosRecords out)) ∧
    ((∃ r ∈ (recebimentosRecords out).flatten.flatten, repertoire r = false) →
      ∃ r ∈ (recebimentosRecords out).flatten.flatten, repertoire r = false ∧
        (gerarCSVAtoliniRecebimentos repertoire out :
          Except (ProcessError ε) (List (List Str))) = .error (.unsupported r)) := by
  constructor
  · intro h
    unfold gerarCSVAtoliniRecebimentos
    have hnone : (recebimentosRecords out).flatten.flatten.find? (fun r => !repertoire r) =
        none := by
      rw [List.find?_eq_none]
      intro r hr
      simp [h r hr]
    simp only [hnone]
  · rintro ⟨r, hr, hf⟩
    unfold gerarCSVAtoliniRecebimentos
    cases hfind : (recebimentosRecords out).flatten.flatten.find? (fun r => !repertoire r) with
    | none =>
      rw [List.find?_eq_none] at hfind
      have := hfind r hr
      simp [hf] at this
    | some r2 =>
      have h1 := List.find?_some hfind
      have h2 := List.mem_of_find?_eq_some hfind
      exact ⟨r2, h2, by simpa using h1, by simp only [hfind]⟩

/-- C27 fails on the code: with the chart `demoRecords` read and a workbook of the one
row "1 - Ω" decoded, `ProcessAtoliniRecebimentos` returns an error, because the credit
description "Ω" of the ledger row is outside Windows-1252 and the encoder of the CSV
writer refuses it. -/
theorem C27_unsupported_rune_fails :
    (ProcessAtoliniRecebimentos latin1Tables latin1ToLower amd64Conv demoClosest
      sortSliceStable windows1252 (.ok [["1 - Ω".toList]]) (.ok demoRecords) [] [] :
      Except (ProcessError Unit) (List (List Str))) = .error (.unsupported 'Ω') := by
  decide!

/-- C27, as the code has it: once the accounts file and the workbook are read,
`ProcessAtoliniPagamentos` returns its records and no error, whatever the rows hold;
`ProcessAtoliniRecebimentos` returns its records and no error when the encoder supports
every code point of them, and otherwise returns an error that names a code point of the
records that the encoder does not support. -/
theorem C27_fails_only_on_unsupported_rune {ε : Type} (u : UnicodeTables)
    (lower : Char → Char) (ovf : ConvOverflow) (closest : Closest) (numericID : Str → Bool)
    (srt : (ContaEntry → ContaEntry → Bool) → List ContaEntry → List ContaEntry)
    (repertoire : Char → Bool) (rows recs : List (List Str)) (dP cP : List Str) :
    (∃ out, (ProcessAtoliniPagamentos u lower ovf closest numericID (.ok rows) (.ok recs) dP cP :
      Except ε (List (List Str))) = .ok out) ∧
    ((∀ r ∈ (recebimentosRecords (scanRecebimentos u lower ovf closest srt
          (buildIndex (contaOfRecord u) recs).byKey (buildIndex (contaOfRecord u) recs).order
          dP cP rows).finalRows).flatten.flatten, repertoire r = true) →
      (ProcessAtoliniRecebimentos u lower ovf closest srt repertoire (.ok rows) (.ok recs) dP cP :
        Except (ProcessError ε) (List (List Str))) =
        .ok (recebimentosRecords (scanRecebimentos u lower ovf closest srt
          (buildIndex (contaOfRecord u) recs).byKey (buildIndex (contaOfRecord u) recs).order
          dP cP rows).finalRows)) ∧
    ((∃ r ∈ (recebimentosRecords (scanRecebimentos u lower ovf closest srt
          (buildIndex (contaOfRecord u) recs).byKey (buildIndex (contaOfRecord u) recs).order
          dP cP rows).finalRows).flatten.flatten, repertoire r = false) →
      ∃ r ∈ (recebimentosRecords (scanRecebimentos u lower ovf closest srt
          (buildIndex (contaOfRecord u) recs).byKey (buildIndex (contaOfRecord u) recs).order
          dP cP rows).finalRows).flatten.flatten, repertoire r = false ∧
        (ProcessAtoliniRecebimentos u lower ovf closest srt repertoire (.ok rows) (.ok recs)
          dP cP : Except (ProcessError ε) (List (List Str))) = .error (.unsupported r)) := by
  refine ⟨⟨_, rfl⟩, ?_, ?_⟩
  · intro h
    rw [ProcessAtoliniRecebimentos_ok]
    exact (gerarCSVAtoliniRecebimentos_outcome repertoire _).1 h
  · intro h
    obtain ⟨r, hr, hf, he⟩ := (@gerarCSVAtoliniRecebimentos_outcome ε repertoire _).2 h
    exact ⟨r, hr, hf, by rw [ProcessAtoliniRecebimentos_ok]; exact he⟩

/-- Witness for C27: the chart `demoRecords` and the sheet `demoRecRows`, whose records
hold only code points of Windows-1252: the function returns the header and one record. -/
theorem C27_fails_only_on_unsupported_rune_witness :
    (ProcessAtoliniRecebimentos latin1Tables latin1ToLower amd64Conv demoClosest
      sortSliceStable windows1252 (.ok demoRecRows) (.ok demoRecords) [] [] :
      Except (ProcessError Unit) (List (List Str))) =
      .ok (recebimentosRecords (scanRecebimentos latin1Tables latin1ToLower amd64Conv
        demoClosest sortSliceStable (buildIndex (contaOfRecord latin1Tables) demoRecords).byKey
        (buildIndex (contaOfRecord latin1Tables) demoRecords).order [] []
        demoRecRows).finalRows) :=
  (C27_fails_only_on_unsupported_rune latin1Tables latin1ToLower amd64Conv demoClosest
    decimalID sortSliceStable windows1252 demoRecRows demoRecords [] []).2.1 (by decide!)

/-! ## The two sides of a run do not depend on the prefixes of the other side -/

/-- A `sort.Slice` that is the insertion sort on slices of at most `N` elements agrees
with the stable sort on the lists of a chart whose keys hold at most `N` entries. -/
theorem sortsStably_of_short
    (srt : (ContaEntry → ContaEntry → Bool) → List ContaEntry → List ContaEntry)
    (m : ContaMap) (N : Nat)
    (h1 : ∀ l : List ContaEntry, l.length ≤ N →
      srt (fun a b => decide (byteLen a.Classf > byteLen b.Classf)) l =
        sortSliceStable (fun a b => decide (byteLen a.Classf > byteLen b.Classf)) l)
    (h2 : ∀ k l, m k = some l → l.length ≤ N) : sortsStably srt m :=
  fun k l l2 hk hsub => h1 l2 (le_trans hsub.length_le (h2 k l hk))

/-- What the assignment of the block date leaves alone. -/
theorem applyBlockDate_frame (st : RecState) (c : Str) :
    (applyBlockDate st c).hints = st.hints ∧
    (applyBlockDate st c).finalRows = st.finalRows ∧
    (applyBlockDate st c).currentDescDebito = st.currentDescDebito ∧
    (applyBlockDate st c).currentCodDebito = st.currentCodDebito := by
  refine ⟨?_, ?_, ?_, ?_⟩ <;> unfold applyBlockDate <;> split <;> rfl

/-- The block date after the assignment. -/
theorem applyBlockDate_blockDate (st : RecState) (c : Str) :
    (applyBlockDate st c).blockDate = (if c = [] then st.blockDate else c) ∧
    (applyBlockDate st c).blockDateSanitized =
      (if c = [] then st.blockDateSanitized else sanitizeForCSV c) := by
  unfold applyBlockDate
  by_cases h : c = []
  · subst h
    exact ⟨rfl, rfl⟩
  · have : (c != []) = true := by simpa using h
    rw [if_pos this, if_neg h, if_neg h]
    exact ⟨rfl, rfl⟩

/-- The loop body as a case distinction on the row: a block-date header, a column-header
row, a Portador row, a row without a transaction cell, a transaction line. -/
theorem recebimentosStep_cases (u : UnicodeTables) (lower : Char → Char) (ovf : ConvOverflow)
    (closest : Closest)
    (srt : (ContaEntry → ContaEntry → Bool) → List ContaEntry → List ContaEntry)
    (idx dP cP : List Str) (rows : List (List Str)) (st : RecState) (rIdx : Nat)
    (row : List Str) (hrow : row = rows.getD rIdx []) (st1 : RecState)
    (hst1 : st1 = applyBlockDate st
      (updateBlockDate ovf u lower row (firstIndex isLancamento row)).1) :
    recebimentosStep u lower ovf closest srt idx dP cP rows st rIdx =
      (if (updateBlockDate ovf u lower row (firstIndex isLancamento row)).2 = true then st1
       else if 3 ≤ keywordCategories u row then
         { st1 with hints := (updateColumnHints u st1.hints row).1 }
       else if findPortadorIndex u row ≠ -1 then
         portadorBranch u closest srt idx dP row (findPortadorIndex u row)
           { st1 with hints := (updateColumnHints u st1.hints row).1 }
       else if firstIndex isLancamento row = -1 then
         { st1 with hints := (updateColumnHints u st1.hints row).1 }
       else emitLancamento u lower ovf closest srt idx dP cP rows rIdx row
         (firstIndex isLancamento row)
         { st1 with hints := (updateColumnHints u st1.hints row).1 }) := by
  rw [hst1, hrow]
  unfold recebimentosStep
  simp only [updateColumnHints_flag, decide_eq_true_eq, bne_iff_ne, ne_eq, beq_iff_eq,
    ite_not]

/-- The loop body on a transaction line. -/
theorem recebimentosStep_emit (u : UnicodeTables) (lower : Char → Char) (ovf : ConvOverflow)
    (closest : Closest)
    (srt : (ContaEntry → ContaEntry → Bool) → List ContaEntry → List ContaEntry)
    (idx dP cP : List Str) (rows : List (List Str)) (st : RecState) (rIdx : Nat)
    (row : List Str) (hrow : row = rows.getD rIdx []) (st1 : RecState)
    (hst1 : st1 = applyBlockDate st
      (updateBlockDate ovf u lower row (firstIndex isLancamento row)).1)
    (hemit : emitsLancamento ovf u lower row = true) :
    recebimentosStep u lower ovf closest srt idx dP cP rows st rIdx =
      emitLancamento u lower ovf closest srt idx dP cP rows rIdx row
        (firstIndex isLancamento row)
        { st1 with hints := (updateColumnHints u st.hints row).1 } := by
  obtain ⟨hB, hH, hP, hL⟩ := (emitsLancamento_iff ovf u lower row).mp hemit
  rw [recebimentosStep_cases u lower ovf closest srt idx dP cP rows st rIdx row hrow st1 hst1,
    if_neg (by simp [hB]), if_neg hH, if_neg (not_not.mpr hP), if_neg hL]
  have : st1.hints = st.hints := by rw [hst1]; exact (applyBlockDate_frame st _).1
  rw [this]

/-! ## The candidate columns of a field -/

/-- Dropping later copies of an element that gives nothing does not change the first
result. -/
theorem findSome_filter_ne {β : Type} (f : ℤ → Option β) (a : ℤ) (l : List ℤ)
    (ha : f a = none) : (l.filter (fun b => b != a)).findSome? f = l.findSome? f := by
  induction l with
  | nil => rfl
  | cons b l ih =>
    rw [List.filter_cons]
    by_cases hb : b = a
    · subst hb
      simp [ha, ih]
    · have : (b != a) = true := by simpa using hb
      rw [if_pos this, List.findSome?_cons, List.findSome?_cons, ih]

/-- The guard `seen` of the loops does not change the first result. -/
theorem findSome_dedupFirst {β : Type} (f : ℤ → Option β) (l : List ℤ) :
    (dedupFirst l).findSome? f = l.findSome? f := by
  induction l with
  | nil => rfl
  | cons a l ih =>
    rw [dedupFirst, List.findSome?_cons, List.findSome?_cons]
    cases ha : f a with
    | some v => rfl
    | none =>
      simp only
      rw [findSome_filter_ne f a _ ha, ih]

/-- Skipping the elements that give nothing does not change the first result. -/
theorem findSome_filter_of_none {β : Type} (f : ℤ → Option β) (p : ℤ → Bool) (l : List ℤ)
    (h : ∀ a, p a = false → f a = none) : (l.filter p).findSome? f = l.findSome? f := by
  induction l with
  | nil => rfl
  | cons a l ih =>
    rw [List.filter_cons]
    cases hp : p a
    · simp [h a hp, ih]
    · simp only [if_true]
      rw [List.findSome?_cons, List.findSome?_cons, ih]

/-- The first result over a list, when the results are those of `g` on the elements that
pass `p`. -/
theorem findSome_eq_find {β : Type} (g : ℤ → Option β) (p : ℤ → Bool) (l : List ℤ)
    (hg : ∀ a, p a = true → (g a).isSome = true) :
    l.findSome? (fun a => if p a = true then g a else none) =
      (match l.find? p with
       | some a => g a
       | none => none) := by
  induction l with
  | nil => rfl
  | cons a l ih =>
    rw [List.findSome?_cons, List.find?_cons]
    cases hp : p a
    · simp only [Bool.false_eq_true, if_false]
      exact ih
    · simp only [if_true]
      obtain ⟨v, hv⟩ := Option.isSome_iff_exists.mp (hg a hp)
      rw [hv]

/-- Closure `parseValueFrom` as a search over the candidates themselves. -/
theorem parseValueFrom_findSome (ovf : ConvOverflow) (row : List Str) (indices : List ℤ) :
    parseValueFrom ovf row indices =
      indices.findSome? (fun (idx : ℤ) => if parsesAt ovf row idx = true then
        (match parseBRLNumber ovf (trimmedCell row idx) with
         | .ok parsed => some parsed
         | .error _ => none) else none) := by
  unfold parseValueFrom visitOrder
  rw [findSome_dedupFirst]
  induction indices with
  | nil => rfl
  | cons a l ih =>
    rw [List.filter_cons, List.findSome?_cons]
    by_cases hr : 0 ≤ a ∧ a < row.length
    · rw [if_pos (by simpa using hr), List.findSome?_cons, ih]
      unfold parsesAt
      by_cases hv : trimmedCell row a = []
      · simp [hv, hr]
      · cases hp : parseBRLNumber ovf (trimmedCell row a) <;> simp [hv, hr, hp]
    · rw [if_neg (by simpa using hr), ih]
      have : parsesAt ovf row a = false := by
        unfold parsesAt
        simp [hr]
      simp [this]

/-- Closure `parseValueFrom`: the value of the first candidate that lies inside the row,
is not empty and parses. -/
theorem parseValueFrom_eq (ovf : ConvOverflow) (row : List Str) (indices : List ℤ) :
    parseValueFrom ovf row indices = firstParsed ovf row indices := by
  rw [parseValueFrom_findSome]
  unfold firstParsed
  refine (findSome_eq_find (fun idx => match parseBRLNumber ovf (trimmedCell row idx) with
    | .ok parsed => some parsed
    | .error _ => none) _ _ ?_).trans ?_
  swap
  · cases indices.find? (parsesAt ovf row) <;> rfl
  intro a ha
  unfold parsesAt at ha
  cases hp : parseBRLNumber ovf (trimmedCell row a) with
  | ok v => simp only [hp]; rfl
  | error e => rw [hp] at ha; simp at ha

/-- Closure `firstNonEmpty` as a search over the candidates themselves. -/
theorem firstNonEmpty_findSome (row : List Str) (indices : List ℤ) :
    firstNonEmpty row indices =
      (indices.findSome? (fun (idx : ℤ) =>
        if (decide (0 ≤ idx ∧ idx < row.length) && trimmedCell row idx != []) = true then
          some (trimmedCell row idx) else none)).getD [] := by
  unfold firstNonEmpty visitOrder
  rw [findSome_dedupFirst]
  refine congrArg (fun (o : Option Str) => o.getD []) ?_
  induction indices with
  | nil => rfl
  | cons a l ih =>
    rw [List.filter_cons, List.findSome?_cons]
    by_cases hr : 0 ≤ a ∧ a < row.length
    · rw [if_pos (by simpa using hr), List.findSome?_cons, ih]
      simp [hr]
    · rw [if_neg (by simpa using hr), ih]
      simp [hr]

/-- Closure `firstNonEmpty`: the trimmed text of the first candidate that lies inside the
row and is not empty. -/
theorem firstNonEmpty_eq (row : List Str) (indices : List ℤ) :
    firstNonEmpty row indices = firstText row indices := by
  rw [firstNonEmpty_findSome]
  unfold firstText
  rw [findSome_eq_find (fun idx => some (trimmedCell row idx)) _ _ (fun _ _ => rfl)]
  cases indices.find? (fun (idx : ℤ) => decide (0 ≤ idx ∧ idx < row.length) &&
      trimmedCell row idx != []) <;> rfl

/-- The candidates of `buildCandidates` give the first result of the absolute columns
followed by the relative ones, for every way `f` to read a cell that gives nothing
outside the row. -/
theorem findSome_buildCandidates {β : Type} (f : ℤ → Option β) (lancIdx : ℤ)
    (abs rel : List ℤ) (hf : ∀ a, a < 0 → f a = none) :
    (buildCandidates lancIdx abs rel).findSome? f =
      (abs ++ rel.map (fun off => lancIdx + off)).findSome? f := by
  unfold buildCandidates
  by_cases h0 : abs.length + rel.length = 0
  · have ha : abs = [] := List.length_eq_zero.mp (by omega)
    have hr : rel = [] := List.length_eq_zero.mp (by omega)
    subst ha hr
    rfl
  · have : (abs.length + rel.length == 0) = false := by simpa using h0
    rw [this]
    simp only [Bool.false_eq_true, if_false]
    rw [findSome_dedupFirst, ← List.filter_append]
    exact findSome_filter_of_none f _ _ (fun a ha => hf a (by simpa using ha))

/-- The candidates of `buildCandidates` under `parseValueFrom`: the absolute columns, then
the relative ones. -/
theorem parseValueFrom_buildCandidates (ovf : ConvOverflow) (row : List Str) (lancIdx : ℤ)
    (abs rel : List ℤ) :
    parseValueFrom ovf row (buildCandidates lancIdx abs rel) =
      firstParsed ovf row (abs ++ rel.map (fun off => lancIdx + off)) := by
  rw [← parseValueFrom_eq, parseValueFrom_findSome, parseValueFrom_findSome,
    findSome_buildCandidates _ _ _ _ (fun a ha => by
      have : parsesAt ovf row a = false := by
        unfold parsesAt
        have : ¬ (0 ≤ a ∧ a < row.length) := by omega
        simp [this]
      rw [this]
      rfl)]

/-- The candidates of `buildCandidates` under `firstNonEmpty`. -/
theorem firstNonEmpty_buildCandidates (row : List Str) (lancIdx : ℤ) (abs rel : List ℤ) :
    firstNonEmpty row (buildCandidates lancIdx abs rel) =
      firstText row (abs ++ rel.map (fun off => lancIdx + off)) := by
  rw [← firstNonEmpty_eq, firstNonEmpty_findSome, firstNonEmpty_findSome,
    findSome_buildCandidates _ _ _ _ (fun a ha => by
      have : ¬ (0 ≤ a ∧ a < row.length) := by omega
      simp [this])]

/-- The six value fields of the row that the emission of a transaction line appends. -/
theorem emitLancamento_values (u : UnicodeTables) (lower : Char → Char) (ovf : ConvOverflow)
    (closest : Closest)
    (srt : (ContaEntry → ContaEntry → Bool) → List ContaEntry → List ContaEntry)
    (idx dP cP : List Str) (rows : List (List Str)) (rIdx : Nat) (row : List Str)
    (lancIdx : ℤ) (st : RecState) :
    ∃ o, (emitLancamento u lower ovf closest srt idx dP cP rows rIdx row lancIdx st).finalRows =
        st.finalRows ++ [o] ∧
      o.ValorPrincipal = recValor ovf row lancIdx [st.hints.valorPrincipal, 12, 11, 13]
        [12, 11, 13, 10] ∧
      o.Juros = recValor ovf row lancIdx [st.hints.juros, 13, 12, 14] [13, 12, 14] ∧
      o.Desconto = recValor ovf row lancIdx [st.hints.desconto, 14, 13, 15] [14, 13, 15] ∧
      o.DespBanco = recValor ovf row lancIdx [st.hints.despBanco, 15, 14, 16] [15, 14, 16] ∧
      o.DespCartorio = recValor ovf row lancIdx [st.hints.despCartorio, 16, 15, 17]
        [16, 15, 17] ∧
      o.VlLiqPago = recValor ovf row lancIdx [st.hints.vlLiqPago, 17, 16, 18, 19]
        [17, 16, 18] := by
  obtain ⟨f1, f2, -⟩ := debitAtLancamento_frame u closest srt idx dP rows rIdx st
  unfold emitLancamento appendLancamento
  simp only
  refine ⟨_, by rw [f1], ?_, ?_, ?_, ?_, ?_, ?_⟩ <;> unfold recOutputRow <;> simp only <;>
    rw [f2]

/-- The text of a value field: the value of the first of the absolute columns, then of
the relative ones, that lies inside the row, is not empty and parses. -/
theorem recValor_eq (ovf : ConvOverflow) (row : List Str) (lancIdx : ℤ) (abs rel : List ℤ) :
    recValor ovf row lancIdx abs rel =
      moneyText (firstParsed ovf row (abs ++ rel.map (fun off => lancIdx + off))) := by
  unfold recValor moneyText
  rw [parseValueFrom_buildCandidates]

/-- C31 fails on the code: on the sheet `shiftedRows` the transaction cell is in column B
(index 1) and no hint is known.  The cell twelve columns after it (index 13, the first
relative candidate of the principal value) holds "2,00" and parses, and the claimed order
-- hint, relative offsets, fixed columns -- gives 2; `parseValueFrom` on the candidates
of `buildCandidates` gives 1, the value of the fixed column 12, and the ledger row has
"1,00". -/
theorem C31_fixed_before_relative :
    firstIndex isLancamento (shiftedRows.getD 0 []) = 1 ∧
    parsesAt amd64Conv (shiftedRows.getD 0 []) (1 + 12) = true ∧
    trimmedCell (shiftedRows.getD 0 []) (1 + 12) = "2,00".toList ∧
    firstParsed amd64Conv (shiftedRows.getD 0 [])
      ([-1] ++ [1 + 12, 1 + 11, 1 + 13, 1 + 10] ++ [12, 11, 13]) = some (.fin 2) ∧
    parseValueFrom amd64Conv (shiftedRows.getD 0 [])
      (buildCandidates 1 [-1, 12, 11, 13] [12, 11, 13, 10]) = some (.fin 1) ∧
    (scanRecebimentos latin1Tables latin1ToLower amd64Conv demoClosest sortSliceStable
      demoContaMap demoIndex [] [] shiftedRows).finalRows.map (fun o => o.ValorPrincipal) =
      ["1,00".toList] := by
  refine ⟨by decide, by decide!, by decide, by decide!, by decide!, by decide!⟩

/-- C31, as the code has it: the row that the scan appends for a transaction line (row
`n` of the sheet, with the transaction cell in column `l`) takes each of its six values
from the first candidate that lies inside the row, whose trimmed cell is not empty and
which `parseBRLNumber` accepts (`firstParsed`), zero when there is none, the candidates
being tried in the order: the hint of the field (as it stands after this row), the
fixed columns, the columns at the offsets from the transaction cell.  So does
`parseValueFrom` on every list of candidates, and `firstNonEmpty`, which reads the two
text fields, for the first candidate that is not empty. -/
theorem C31_hint_fixed_relative (u : UnicodeTables) (lower : Char → Char)
    (ovf : ConvOverflow) (closest : Closest)
    (srt : (ContaEntry → ContaEntry → Bool) → List ContaEntry → List ContaEntry)
    (m : ContaMap) (idx dP cP : List Str) (rows : List (List Str)) (n : Nat) (l : ℤ)
    (h : columnHints)
    (hl : l = firstIndex isLancamento (rows.getD n []))
    (hh : h = (scanRecebimentosUpTo u lower ovf closest srt m idx dP cP rows (n + 1)).hints)
    (hemit : emitsLancamento ovf u lower (rows.getD n []) = true) :
    (∃ o, (scanRecebimentosUpTo u lower ovf closest srt m idx dP cP rows (n + 1)).finalRows =
        (scanRecebimentosUpTo u lower ovf closest srt m idx dP cP rows n).finalRows ++ [o] ∧
      o.ValorPrincipal = moneyText (firstParsed ovf (rows.getD n [])
        ([h.valorPrincipal, 12, 11, 13] ++ [l + 12, l + 11, l + 13, l + 10])) ∧
      o.Juros = moneyText (firstParsed ovf (rows.getD n [])
        ([h.juros, 13, 12, 14] ++ [l + 13, l + 12, l + 14])) ∧
      o.Desconto = moneyText (firstParsed ovf (rows.getD n [])
        ([h.desconto, 14, 13, 15] ++ [l + 14, l + 13, l + 15])) ∧
      o.DespBanco = moneyText (firstParsed ovf (rows.getD n [])
        ([h.despBanco, 15, 14, 16] ++ [l + 15, l + 14, l + 16])) ∧
      o.DespCartorio = moneyText (firstParsed ovf (rows.getD n [])
        ([h.despCartorio, 16, 15, 17] ++ [l + 16, l + 15, l + 17])) ∧
      o.VlLiqPago = moneyText (firstParsed ovf (rows.getD n [])
        ([h.vlLiqPago, 17, 16, 18, 19] ++ [l + 17, l + 16, l + 18]))) ∧
    (∀ (row : List Str) (indices : List ℤ),
      parseValueFrom ovf row indices = firstParsed ovf row indices) ∧
    (∀ (row : List Str) (lancIdx : ℤ) (abs rel : List ℤ),
      parseValueFrom ovf row (buildCandidates lancIdx abs rel) =
        firstParsed ovf row (abs ++ rel.map (fun off => lancIdx + off)) ∧
      firstNonEmpty row (buildCandidates lancIdx abs rel) =
        firstText row (abs ++ rel.map (fun off => lancIdx + off))) := by
  refine ⟨?_, parseValueFrom_eq ovf, fun row lancIdx abs rel => ⟨?_, ?_⟩⟩
  · have hstep := recebimentosStep_emit u lower ovf closest srt idx dP cP rows
      (scanRecebimentosUpTo u lower ovf closest srt m idx dP cP rows n) n _ rfl _ rfl hemit
    rw [← scanRecebimentosUpTo_succ] at hstep
    obtain ⟨o, e1, v1, v2, v3, v4, v5, v6⟩ := emitLancamento_values u lower ovf closest srt
      idx dP cP rows n (rows.getD n []) (firstIndex isLancamento (rows.getD n []))
      { applyBlockDate (scanRecebimentosUpTo u lower ovf closest srt m idx dP cP rows n)
          (updateBlockDate ovf u lower (rows.getD n [])
            (firstIndex isLancamento (rows.getD n []))).1 with
        hints := (updateColumnHints u
          (scanRecebimentosUpTo u lower ovf closest srt m idx dP cP rows n).hints
          (rows.getD n [])).1 }
    obtain ⟨-, -, e2, -⟩ := emitLancamento_shape u lower ovf closest srt
      idx dP cP rows n (rows.getD n []) (firstIndex isLancamento (rows.getD n []))
      { applyBlockDate (scanRecebimentosUpTo u lower ovf closest srt m idx dP cP rows n)
          (updateBlockDate ovf u lower (rows.getD n [])
            (firstIndex isLancamento (rows.getD n []))).1 with
        hints := (updateColumnHints u
          (scanRecebimentosUpTo u lower ovf closest srt m idx dP cP rows n).hints
          (rows.getD n [])).1 }
    rw [← hstep] at e1 e2
    have hh2 : (updateColumnHints u
        (scanRecebimentosUpTo u lower ovf closest srt m idx dP cP rows n).hints
        (rows.getD n [])).1 = h := by
      rw [hh, e2]
    simp only [hh2] at v1 v2 v3 v4 v5 v6
    rw [← hl] at v1 v2 v3 v4 v5 v6
    refine ⟨o, ?_, ?_, ?_, ?_, ?_, ?_, ?_⟩
    · rw [e1]
      exact congrArg (· ++ [o]) (applyBlockDate_frame _ _).2.1
    · rw [v1, recValor_eq]; rfl
    · rw [v2, recValor_eq]; rfl
    · rw [v3, recValor_eq]; rfl
    · rw [v4, recValor_eq]; rfl
    · rw [v5, recValor_eq]; rfl
    · rw [v6, recValor_eq]; rfl
  · exact parseValueFrom_buildCandidates ovf row lancIdx abs rel
  · exact firstNonEmpty_buildCandidates row lancIdx abs rel

/-- Witness for C31: on the sheet `demoRecRows` the third row is a transaction line with
the transaction cell in column A; the only hint known is that of the bank column, and the
six values come from the fixed columns 12 to 17. -/
theorem C31_hint_fixed_relative_witness :
    emitsLancamento amd64Conv latin1Tables latin1ToLower (demoRecRows.getD 2 []) = true ∧
    firstIndex isLancamento (demoRecRows.getD 2 []) = 0 ∧
    (scanRecebimentosUpTo latin1Tables latin1ToLower amd64Conv demoClosest sortSliceStable
      demoContaMap demoIndex [] [] demoRecRows (2 + 1)).hints =
      ⟨-1, -1, -1, -1, -1, -1, -1, -1, 0⟩ ∧
    ∃ o, (scanRecebimentosUpTo latin1Tables latin1ToLower amd64Conv demoClosest
        sortSliceStable demoContaMap demoIndex [] [] demoRecRows (2 + 1)).finalRows =
        (scanRecebimentosUpTo latin1Tables latin1ToLower amd64Conv demoClosest
          sortSliceStable demoContaMap demoIndex [] [] demoRecRows 2).finalRows ++ [o] ∧
      o.ValorPrincipal = moneyText (firstParsed amd64Conv (demoRecRows.getD 2 [])
        ([(⟨-1, -1, -1, -1, -1, -1, -1, -1, 0⟩ : columnHints).valorPrincipal, 12, 11, 13] ++ [0 + 12, 0 + 11, 0 + 13, 0 + 10])) ∧
      o.Juros = moneyText (firstParsed amd64Conv (demoRecRows.getD 2 [])
        ([(⟨-1, -1, -1, -1, -1, -1, -1, -1, 0⟩ : columnHints).juros, 13, 12, 14] ++ [0 + 13, 0 + 12, 0 + 14])) ∧
      o.Desconto = moneyText (firstParsed amd64Conv (demoRecRows.getD 2 [])
        ([(⟨-1, -1, -1, -1, -1, -1, -1, -1, 0⟩ : columnHints).desconto, 14, 13, 15] ++ [0 + 14, 0 + 13, 0 + 15])) ∧
      o.DespBanco = moneyText (firstParsed amd64Conv (demoRecRows.getD 2 [])
        ([(⟨-1, -1, -1, -1, -1, -1, -1, -1, 0⟩ : columnHints).despBanco, 15, 14, 16] ++ [0 + 15, 0 + 14, 0 + 16])) ∧
      o.DespCartorio = moneyText (firstParsed amd64Conv (demoRecRows.getD 2 [])
        ([(⟨-1, -1, -1, -1, -1, -1, -1, -1, 0⟩ : columnHints).despCartorio, 16, 15, 17] ++ [0 + 16, 0 + 15, 0 + 17])) ∧
      o.VlLiqPago = moneyText (firstParsed amd64Conv (demoRecRows.getD 2 [])
        ([(⟨-1, -1, -1, -1, -1, -1, -1, -1, 0⟩ : columnHints).vlLiqPago, 17, 16, 18, 19] ++ [0 + 17, 0 + 16, 0 + 18])) :=
  ⟨by decide!, by decide!, by decide!,
    (C31_hint_fixed_relative latin1Tables latin1ToLower amd64Conv demoClosest sortSliceStable
      demoContaMap demoIndex [] [] demoRecRows 2 0 ⟨-1, -1, -1, -1, -1, -1, -1, -1, 0⟩ (by decide!) (by decide!)
      (by decide!)).1⟩

/-! ## Dates that are no dates, and the second pass of sanitizeForCSV -/

/-- C35: the match of the first pattern is returned as it stands: the text "31/02/2024" is
reported as a date, although `time.Parse` rejects it (`parseDMY`, and so does
`parseDateDayFirst`), and so is "99/99/9999"; the same day written "2024-02-31" goes
through `time.Parse` on the branch of the second pattern and is not reported. -/
theorem C35_unvalidated_match (ovf : ConvOverflow) :
    findDateInRow ovf ["31/02/2024".toList] = some "31/02/2024".toList ∧
    parseDMY "31/02/2024".toList = none ∧
    parseDateDayFirst ovf "31/02/2024".toList = none ∧
    findDateInRow ovf ["2024-02-31".toList] = none ∧
    findDateInRow ovf ["99/99/9999".toList] = some "99/99/9999".toList := by
  refine ⟨by rfl, by decide, by rfl, by rfl, by rfl⟩

/-- C36: a second pass changes the text.  The first pass of U+0001 "a" trims nothing and
writes a space for the control character, the second pass trims that space.  On the
sheet `controlRows` the credit description of the ledger row is " Banco X", and the
record written for that row has "Banco X". -/
theorem C36_second_pass_trims :
    sanitizeForCSV [Char.ofNat 1, 'a'] = [' ', 'a'] ∧
    sanitizeForCSV (sanitizeForCSV [Char.ofNat 1, 'a']) = ['a'] ∧
    (scanRecebimentos latin1Tables latin1ToLower amd64Conv demoClosest sortSliceStable
      demoContaMap demoIndex [] [] controlRows).finalRows.map (fun o => o.DescricaoCredito) =
      [" Banco X".toList] ∧
    (scanRecebimentos latin1Tables latin1ToLower amd64Conv demoClosest sortSliceStable
      demoContaMap demoIndex [] [] controlRows).finalRows.map
        (fun o => (recebimentosRecord o).getD 1 []) = ["Banco X".toList] := by
  refine ⟨by decide, by decide, by decide!, by decide!⟩

/-! ## The prefixes read from a form field -/

/-- The loop of `getPrefixesFromForm` over the parts, from the prefixes `acc` collected so
far. -/
theorem prefixesLoop_eq (parts : List Str) (acc : List Str) :
    parts.foldl (fun prefixes part =>
        if trimSpace part != [] then prefixes ++ [trimSpace part] else prefixes) acc =
      acc ++ (parts.map trimSpace).filter (fun p => p != []) := by
  induction parts generalizing acc with
  | nil => simp
  | cons p ps ih =>
    rw [List.foldl_cons, ih, List.map_cons, List.filter_cons]
    by_cases h : (trimSpace p != []) = true
    · rw [if_pos h, if_pos h, List.append_assoc]
      rfl
    · rw [if_neg h, if_neg h]

/-- No part of a split holds the separator. -/
theorem splitOn_not_mem (x : Char) (s : Str) : ∀ part ∈ s.splitOn x, x ∉ part := by
  unfold List.splitOn
  induction s with
  | nil =>
    intro part hp
    rw [List.splitOnP_nil, List.mem_singleton] at hp
    rw [hp]
    exact List.not_mem_nil x
  | cons c cs ih =>
    intro part hp
    rw [List.splitOnP_cons] at hp
    by_cases hc : (c == x) = true
    · rw [if_pos hc] at hp
      rcases List.mem_cons.mp hp with h | h
      · rw [h]
        exact List.not_mem_nil x
      · exact ih part h
    · rw [if_neg hc] at hp
      cases hs : List.splitOnP (fun c => c == x) cs with
      | nil => rw [hs] at hp; exact absurd hp (List.not_mem_nil part)
      | cons a l =>
        rw [hs] at hp ih
        simp only [List.modifyHead_cons, List.mem_cons] at hp
        rcases hp with h | h
        · rw [h]
          intro hx
          rcases List.mem_cons.mp hx with h2 | h2
          · exact hc (by simp [h2])
          · exact ih a (List.mem_cons_self _ _) h2
        · exact ih part (List.mem_cons_of_mem _ h)

/-- Every character of a part of a split is a character of the text. -/
theorem splitOn_mem (x : Char) (s : Str) : ∀ part ∈ s.splitOn x, ∀ c ∈ part, c ∈ s := by
  unfold List.splitOn
  induction s with
  | nil =>
    intro part hp c hc
    rw [List.splitOnP_nil, List.mem_singleton] at hp
    rw [hp] at hc
    exact hc
  | cons a cs ih =>
    intro part hp c hc
    rw [List.splitOnP_cons] at hp
    by_cases ha : (a == x) = true
    · rw [if_pos ha] at hp
      rcases List.mem_cons.mp hp with h | h
      · rw [h] at hc
        exact absurd hc (List.not_mem_nil c)
      · exact List.mem_cons_of_mem _ (ih part h c hc)
    · rw [if_neg ha] at hp
      cases hs : List.splitOnP (fun c => c == x) cs with
      | nil => rw [hs] at hp; exact absurd hp (List.not_mem_nil part)
      | cons b l =>
        rw [hs] at hp ih
        simp only [List.modifyHead_cons, List.mem_cons] at hp
        rcases hp with h | h
        · rw [h] at hc
          rcases List.mem_cons.mp hc with h2 | h2
          · rw [h2]
            exact List.mem_cons_self _ _
          · exact List.mem_cons_of_mem _ (ih b (List.mem_cons_self _ _) c h2)
        · exact List.mem_cons_of_mem _ (ih part (List.mem_cons_of_mem _ h) c hc)

/-- A text of white space only is trimmed to the empty text. -/
theorem trimSpace_of_all_space (s : Str) (h : ∀ c ∈ s, isSpace c = true) : trimSpace s = [] := by
  cases hts : trimSpace s with
  | nil => rfl
  | cons a l =>
    have h1 := trimSpace_head s a (by rw [hts]; rfl)
    have h2 := h a ((trimSpace_sub s).subset (by rw [hts]; exact List.mem_cons_self _ _))
    rw [h1] at h2
    exact absurd h2 (by decide)

theorem getPrefixesFromForm_eq (s : Str) :
    getPrefixesFromForm s = ((s.splitOn ',').map trimSpace).filter (fun p => p != []) := by
  unfold getPrefixesFromForm
  by_cases h : s = []
  · subst h
    rfl
  · have h2 : (s == []) = false := by simpa using h
    rw [h2]
    simp only [Bool.false_eq_true, if_false]
    have := prefixesLoop_eq (s.splitOn ',') []
    simpa using this

/-- C38: the list of `getPrefixesFromForm` is made of the parts of the form value between
its commas (the parts hold no comma and, joined by commas, give the value back): their
trimmed texts in the original order, without the empty ones.  So it holds no empty
string -- a list with an empty prefix passes every classification through
`matchesAny` -- each of its elements is trimmed, every part that is not blank has its
trimmed text in it, and a value made of white space and commas only, the empty one
included, gives the empty list. -/
theorem C38_prefixes_of_form (s : Str) :
    getPrefixesFromForm s = ((s.splitOn ',').map trimSpace).filter (fun p => p != []) ∧
    [','].intercalate (s.splitOn ',') = s ∧
    (∀ part ∈ s.splitOn ',', ',' ∉ part) ∧
    (getPrefixesFromForm s).Sublist ((s.splitOn ',').map trimSpace) ∧
    [] ∉ getPrefixesFromForm s ∧
    (∀ p ∈ getPrefixesFromForm s, trimSpace p = p) ∧
    (∀ part ∈ s.splitOn ',', trimSpace part ≠ [] → trimSpace part ∈ getPrefixesFromForm s) ∧
    ((∀ c ∈ s, isSpace c = true ∨ c = ',') → getPrefixesFromForm s = []) ∧
    (∀ (ps : List Str) (classif : Str), [] ∈ ps → matchesAny ps classif = true) := by
  have heq := getPrefixesFromForm_eq s
  refine ⟨heq, List.intercalate_splitOn s ',', splitOn_not_mem ',' s, ?_, ?_, ?_, ?_, ?_, ?_⟩
  · rw [heq]
    exact List.filter_sublist _
  · rw [heq, List.mem_filter]
    rintro ⟨-, h⟩
    simp at h
  · intro p hp
    rw [heq, List.mem_filter, List.mem_map] at hp
    obtain ⟨⟨part, -, rfl⟩, -⟩ := hp
    exact trimSpace_idem part
  · intro part hp hne
    rw [heq, List.mem_filter]
    exact ⟨List.mem_map_of_mem _ hp, by simpa using hne⟩
  · intro hall
    rw [heq, List.filter_eq_nil_iff]
    intro p hp
    rw [List.mem_map] at hp
    obtain ⟨part, hpart, rfl⟩ := hp
    have hsp : ∀ c ∈ part, isSpace c = true := by
      intro c hc
      have hmem : c ∈ s := splitOn_mem ',' s part hpart c hc
      rcases hall c hmem with h | h
      · exact h
      · exact absurd (h ▸ hc) (splitOn_not_mem ',' s part hpart)
    simp [trimSpace_of_all_space part hsp]
  · intro ps classif hmem
    rw [matchesAny_iff]
    exact ⟨[], hmem, List.nil_prefix⟩

/-! ## The lookback for a date -/

/-- The loop of `findDateInPreviousRows` from a row `i` inside the sheet, for at most
`i + 1` iterations: it reads no row outside the sheet, returns the date of the nearest
row among the `n` rows `i`, `i - 1`, ... that has one, and nothing when none has. -/
theorem previousRowsLoop_spec (ovf : ConvOverflow) (lower : Char → Char)
    (sheet : List (List Str)) (n : Nat) (i : ℤ) (hi : i < sheet.length)
    (hn : (n : ℤ) ≤ i + 1) :
    ∃ r, previousRowsLoop ovf lower sheet n i = .ok r ∧
      (∀ d, r = some d → ∃ j : ℤ, i - n < j ∧ j ≤ i ∧
        dateOfEarlierRow ovf lower (sheet.getD j.toNat []) = some d ∧
        ∀ k : ℤ, j < k → k ≤ i → dateOfEarlierRow ovf lower (sheet.getD k.toNat []) = none) ∧
      (r = none → ∀ j : ℤ, i - n < j → j ≤ i →
        dateOfEarlierRow ovf lower (sheet.getD j.toNat []) = none) := by
  induction n generalizing i with
  | zero =>
    refine ⟨none, rfl, fun d h => by simp at h, fun _ j h1 h2 => ?_⟩
    simp at h1
    omega
  | succ n ih =>
    have hi0 : ¬ (i < 0 ∨ i ≥ sheet.length) := by push_cast at hn; omega
    unfold previousRowsLoop
    rw [if_neg hi0]
    cases hf : dateOfEarlierRow ovf lower (sheet.getD i.toNat []) with
    | some d =>
      refine ⟨some d, rfl, fun d2 h => ?_, fun h => by simp at h⟩
      have : d2 = d := by simpa using h.symm
      subst this
      exact ⟨i, by push_cast; omega, le_refl i, hf, fun k h1 h2 => by omega⟩
    | none =>
      obtain ⟨r, h1, h2, h3⟩ := ih (i - 1) (by omega) (by push_cast at hn; omega)
      refine ⟨r, h1, fun d h => ?_, fun h j a b => ?_⟩
      · obtain ⟨j, a, b, c, e⟩ := h2 d h
        refine ⟨j, by push_cast; omega, by omega, c, fun k k1 k2 => ?_⟩
        by_cases hk : k = i
        · rw [hk]; exact hf
        · exact e k k1 (by omega)
      · by_cases hj : j = i
        · rw [hj]; exact hf
        · exact h3 h j (by push_cast at a; omega) (by omega)

/-- The loop reads only the rows `i`, `i - 1`, ... of its `n` iterations: on a second
sheet with the same rows at these places it returns the same. -/
theorem previousRowsLoop_congr (ovf : ConvOverflow) (lower : Char → Char)
    (sheet sheet2 : List (List Str)) (n : Nat) (i : ℤ) (hi : i < sheet.length)
    (hi2 : i < sheet2.length) (hn : (n : ℤ) ≤ i + 1)
    (hrows : ∀ j : ℤ, i - n < j → j ≤ i → sheet2.getD j.toNat [] = sheet.getD j.toNat []) :
    previousRowsLoop ovf lower sheet2 n i = previousRowsLoop ovf lower sheet n i := by
  induction n generalizing i with
  | zero => rfl
  | succ n ih =>
    have hi0 : ¬ (i < 0 ∨ i ≥ sheet.length) := by push_cast at hn; omega
    have hi02 : ¬ (i < 0 ∨ i ≥ sheet2.length) := by push_cast at hn; omega
    unfold previousRowsLoop
    rw [if_neg hi0, if_neg hi02, hrows i (by push_cast; omega) (le_refl i)]
    cases hf : dateOfEarlierRow ovf lower (sheet.getD i.toNat []) with
    | some d => rfl
    | none =>
      exact ih (i - 1) (by omega) (by omega) (by push_cast at hn; omega)
        (fun j a b => hrows j (by push_cast; omega) (by omega))

/-- The loop and the search over the rows before `k`, nearest first, of the embedding that
the scan uses. -/
theorem previousRowsLoop_eq (ovf : ConvOverflow) (lower : Char → Char)
    (sheet : List (List Str)) (n k : Nat) (hk : k ≤ sheet.length) (hn : n ≤ k) :
    previousRowsLoop ovf lower sheet n ((k : ℤ) - 1) =
      .ok (((sheet.take k).reverse.take n).findSome? (dateOfEarlierRow ovf lower)) := by
  induction n generalizing k with
  | zero => rfl
  | succ n ih =>
    obtain ⟨k, rfl⟩ : ∃ k2, k = k2 + 1 := ⟨k - 1, by omega⟩
    have hi0 : ¬ (((k + 1 : Nat) : ℤ) - 1 < 0 ∨ ((k + 1 : Nat) : ℤ) - 1 ≥ sheet.length) := by
      push_cast; omega
    have htn : (((k + 1 : Nat) : ℤ) - 1).toNat = k := by push_cast; omega
    have hrev : (sheet.take (k + 1)).reverse = sheet.getD k [] :: (sheet.take k).reverse := by
      have hlt : k < sheet.length := by omega
      rw [List.take_succ, List.reverse_append, List.getD_eq_getElem?_getD,
        List.getElem?_eq_getElem hlt]
      rfl
    unfold previousRowsLoop
    rw [if_neg hi0, htn, hrev, List.take_succ_cons, List.findSome?_cons]
    cases hf : dateOfEarlierRow ovf lower (sheet.getD k []) with
    | some d => rfl
    | none =>
      have := ih k (by omega) (by omega)
      simp only
      rw [← this]
      congr 1
      push_cast
      ring

/-- C32: for an index `idx` from 0 to the length of the sheet and a lookback that is not
negative, `findDateInPreviousRows` reads no row outside the sheet (it does not panic) and
returns what the search of the embedding used by the scan returns; a date that it
returns is the one that the loop body reads from a row `i` of the window
`max(0, idx - lookback) <= i < idx`, no row of the window after `i` giving a date; it
returns not-found exactly when no row of the window gives a date; and it reads only the
rows of the window -- on every sheet with the same rows there it returns the same. -/
theorem C32_lookback_window (ovf : ConvOverflow) (lower : Char → Char)
    (sheet : List (List Str)) (idx lookback : ℤ)
    (h0 : 0 ≤ idx) (h1 : idx ≤ sheet.length) (hl : 0 ≤ lookback) :
    ∃ r, findDateInPreviousRowsInt ovf lower sheet idx lookback = .ok r ∧
      r = findDateInPreviousRows ovf lower sheet idx.toNat lookback.toNat ∧
      (∀ d, r = some d → ∃ i : ℤ, max 0 (idx - lookback) ≤ i ∧ i < idx ∧
        dateOfEarlierRow ovf lower (sheet.getD i.toNat []) = some d ∧
        ∀ k : ℤ, i < k → k < idx →
          dateOfEarlierRow ovf lower (sheet.getD k.toNat []) = none) ∧
      (r = none ↔ ∀ i : ℤ, max 0 (idx - lookback) ≤ i → i < idx →
        dateOfEarlierRow ovf lower (sheet.getD i.toNat []) = none) ∧
      (∀ sheet2 : List (List Str), idx ≤ sheet2.length →
        (∀ i : ℤ, max 0 (idx - lookback) ≤ i → i < idx →
          sheet2.getD i.toNat [] = sheet.getD i.toNat []) →
        findDateInPreviousRowsInt ovf lower sheet2 idx lookback = .ok r) := by
  have hend : (if idx - lookback < 0 then (0 : ℤ) else idx - lookback) =
      max 0 (idx - lookback) := by
    rw [max_def]
    split_ifs <;> omega
  obtain ⟨n, hn⟩ : ∃ n : Nat, n = (idx - 1 - max 0 (idx - lookback) + 1).toNat := ⟨_, rfl⟩
  have hmax : max 0 (idx - lookback) ≤ idx := max_le h0 (by omega)
  have hmax0 : 0 ≤ max 0 (idx - lookback) := le_max_left _ _
  have hmaxl : idx - lookback ≤ max 0 (idx - lookback) := le_max_right _ _
  have hnz : (n : ℤ) = idx - max 0 (idx - lookback) := by rw [hn]; omega
  have hdef : ∀ s : List (List Str), findDateInPreviousRowsInt ovf lower s idx lookback =
      previousRowsLoop ovf lower s n (idx - 1) := by
    intro s
    unfold findDateInPreviousRowsInt
    simp only [hend]
    rw [hn]
  obtain ⟨r, e1, e2, e3⟩ := previousRowsLoop_spec ovf lower sheet n (idx - 1) (by omega)
    (by omega)
  refine ⟨r, by rw [hdef, e1], ?_, fun d h => ?_, ⟨fun h i a b => ?_, fun h => ?_⟩,
    fun sheet2 hlen hrows => ?_⟩
  · have hk : ((idx.toNat : ℤ)) = idx := Int.toNat_of_nonneg h0
    have heq := previousRowsLoop_eq ovf lower sheet n idx.toNat (by omega) (by omega)
    rw [hk, e1] at heq
    have hr : r = ((sheet.take idx.toNat).reverse.take n).findSome?
        (dateOfEarlierRow ovf lower) := by
      injection heq
    rw [hr]
    unfold findDateInPreviousRows
    congr 1
    rw [List.take_eq_take]
    simp only [List.length_reverse, List.length_take]
    omega
  · obtain ⟨j, a, b, c, e⟩ := e2 d h
    exact ⟨j, by omega, by omega, c, fun k k1 k2 => e k k1 (by omega)⟩
  · exact e3 h i (by omega) (by omega)
  · cases hr : r with
    | none => rfl
    | some d =>
      obtain ⟨j, a, b, c, -⟩ := e2 d hr
      rw [h j (by omega) (by omega)] at c
      exact absurd c (by simp)
  · rw [hdef, ← e1]
    exact previousRowsLoop_congr ovf lower sheet sheet2 n (idx - 1) (by omega) (by omega)
      (by omega) (fun j a b => hrows j (by omega) (by omega))

/-- Witness for C32: on the sheet `datedRows`, from the row at index 3 with a lookback of
two rows, the row at index 2 bears no date and the date is that of the row at index 1;
the row at index 0, outside the window, bears another date. -/
theorem C32_lookback_window_witness :
    findDateInPreviousRowsInt amd64Conv latin1ToLower datedRows 3 2 =
      .ok (some "10/05/2024".toList) ∧
    dateOfEarlierRow amd64Conv latin1ToLower (datedRows.getD 0 []) =
      some "01/02/2024".toList ∧
    ∃ r, findDateInPreviousRowsInt amd64Conv latin1ToLower datedRows 3 2 = .ok r ∧
      r = findDateInPreviousRows amd64Conv latin1ToLower datedRows (3 : ℤ).toNat
        (2 : ℤ).toNat ∧
      (∀ d, r = some d → ∃ i : ℤ, max 0 (3 - 2) ≤ i ∧ i < 3 ∧
        dateOfEarlierRow amd64Conv latin1ToLower (datedRows.getD i.toNat []) = some d ∧
        ∀ k : ℤ, i < k → k < 3 →
          dateOfEarlierRow amd64Conv latin1ToLower (datedRows.getD k.toNat []) = none) ∧
      (r = none ↔ ∀ i : ℤ, max 0 (3 - 2) ≤ i → i < 3 →
        dateOfEarlierRow amd64Conv latin1ToLower (datedRows.getD i.toNat []) = none) ∧
      (∀ sheet2 : List (List Str), (3 : ℤ) ≤ sheet2.length →
        (∀ i : ℤ, max 0 (3 - 2) ≤ i → i < 3 →
          sheet2.getD i.toNat [] = datedRows.getD i.toNat []) →
        findDateInPreviousRowsInt amd64Conv latin1ToLower sheet2 3 2 = .ok r) :=
  ⟨by decide!, by decide!,
    C32_lookback_window amd64Conv latin1ToLower datedRows 3 2 (by decide) (by decide)
      (by decide)⟩

/-! ## The debit party after a Portador row that names none -/

/-- The emission of a transaction line with no debit party at hand, when the lookback
finds none: the row has an empty debit description and the code at hand, and party and
code stay. -/
theorem emitLancamento_no_party (u : UnicodeTables) (lower : Char → Char)
    (ovf : ConvOverflow) (closest : Closest)
    (srt : (ContaEntry → ContaEntry → Bool) → List ContaEntry → List ContaEntry)
    (idx dP cP : List Str) (rows : List (List Str)) (rIdx : Nat) (row : List Str)
    (lancIdx : ℤ) (st : RecState) (hd : st.currentDescDebito = [])
    (hlook : findLastPortadorBefore u rows rIdx 60 = none) :
    (emitLancamento u lower ovf closest srt idx dP cP rows rIdx row lancIdx
      st).currentDescDebito = [] ∧
    (emitLancamento u lower ovf closest srt idx dP cP rows rIdx row lancIdx
      st).currentCodDebito = st.currentCodDebito ∧
    ∃ o, (emitLancamento u lower ovf closest srt idx dP cP rows rIdx row lancIdx st).finalRows =
        st.finalRows ++ [o] ∧
      o.DescricaoDebito = [] ∧ o.ContaDebito = sanitizeForCSV st.currentCodDebito := by
  have hdeb : debitAtLancamento u closest srt idx dP rows rIdx st = st := by
    unfold debitAtLancamento
    rw [hlook, hd]
    rfl
  unfold emitLancamento appendLancamento
  rw [hdeb]
  refine ⟨hd, rfl, _, rfl, ?_, rfl⟩
  show sanitizeForCSV st.currentDescDebito = []
  rw [hd]
  rfl

/-- The loop body with no debit party at hand, on a row that is no Portador row and for
which, when it is a transaction line, the lookback finds no party: party and code stay,
and the row of a transaction line has an empty debit description and the code at hand. -/
theorem recebimentosStep_no_party (u : UnicodeTables) (lower : Char → Char)
    (ovf : ConvOverflow) (closest : Closest)
    (srt : (ContaEntry → ContaEntry → Bool) → List ContaEntry → List ContaEntry)
    (idx dP cP : List Str) (rows : List (List Str)) (st : RecState) (rIdx : Nat)
    (row : List Str) (hrow : row = rows.getD rIdx []) (hd : st.currentDescDebito = [])
    (hno : isPortadorRow ovf u lower row = false)
    (hlook : emitsLancamento ovf u lower row = true →
      findLastPortadorBefore u rows rIdx 60 = none) :
    (recebimentosStep u lower ovf closest srt idx dP cP rows st rIdx).currentDescDebito = [] ∧
    (recebimentosStep u lower ovf closest srt idx dP cP rows st rIdx).currentCodDebito =
      st.currentCodDebito ∧
    (emitsLancamento ovf u lower row = true →
      ∃ o, (recebimentosStep u lower ovf closest srt idx dP cP rows st rIdx).finalRows =
          st.finalRows ++ [o] ∧
        o.DescricaoDebito = [] ∧ o.ContaDebito = sanitizeForCSV st.currentCodDebito) := by
  obtain ⟨st1, hst1⟩ : ∃ st1 : RecState, st1 = applyBlockDate st
      (updateBlockDate ovf u lower row (firstIndex isLancamento row)).1 := ⟨_, rfl⟩
  obtain ⟨g1, g2, g3, g4⟩ : st1.hints = st.hints ∧ st1.finalRows = st.finalRows ∧
      st1.currentDescDebito = st.currentDescDebito ∧
      st1.currentCodDebito = st.currentCodDebito := by
    rw [hst1]
    exact applyBlockDate_frame st _
  by_cases hemit : emitsLancamento ovf u lower row = true
  · rw [recebimentosStep_emit u lower ovf closest srt idx dP cP rows st rIdx row hrow st1 hst1
      hemit]
    obtain ⟨e1, e2, o, e3, e4, e5⟩ := emitLancamento_no_party u lower ovf closest srt idx dP cP
      rows rIdx row (firstIndex isLancamento row)
      { st1 with hints := (updateColumnHints u st.hints row).1 }
      (by show st1.currentDescDebito = []; rw [g3]; exact hd) (hlook hemit)
    refine ⟨e1, e2.trans g4, fun _ => ⟨o, ?_, e4, ?_⟩⟩
    · rw [e3]
      exact congrArg (· ++ [o]) g2
    · rw [e5]
      exact congrArg sanitizeForCSV g4
  · rw [recebimentosStep_cases u lower ovf closest srt idx dP cP rows st rIdx row hrow st1 hst1]
    refine ⟨?_, ?_, fun h => absurd h hemit⟩
    · by_cases hB : (updateBlockDate ovf u lower row (firstIndex isLancamento row)).2 = true
      · rw [if_pos hB, g3]; exact hd
      · rw [if_neg hB]
        by_cases hH : 3 ≤ keywordCategories u row
        · rw [if_pos hH]; exact g3.trans hd
        · rw [if_neg hH]
          have hP : findPortadorIndex u row = -1 := by
            by_contra hP
            have := (isPortadorRow_iff ovf u lower row).mpr ⟨by simpa using hB, hH, hP⟩
            rw [hno] at this
            exact absurd this (by simp)
          rw [if_neg (not_not.mpr hP)]
          have hL : firstIndex isLancamento row = -1 := by
            by_contra hL
            exact hemit ((emitsLancamento_iff ovf u lower row).mpr
              ⟨by simpa using hB, hH, hP, hL⟩)
          rw [if_pos hL]
          exact g3.trans hd
    · by_cases hB : (updateBlockDate ovf u lower row (firstIndex isLancamento row)).2 = true
      · rw [if_pos hB, g4]
      · rw [if_neg hB]
        by_cases hH : 3 ≤ keywordCategories u row
        · rw [if_pos hH]; exact g4
        · rw [if_neg hH]
          have hP : findPortadorIndex u row = -1 := by
            by_contra hP
            have := (isPortadorRow_iff ovf u lower row).mpr ⟨by simpa using hB, hH, hP⟩
            rw [hno] at this
            exact absurd this (by simp)
          rw [if_neg (not_not.mpr hP)]
          have hL : firstIndex isLancamento row = -1 := by
            by_contra hL
            exact hemit ((emitsLancamento_iff ovf u lower row).mpr
              ⟨by simpa using hB, hH, hP, hL⟩)
          rw [if_pos hL]
          exact g4

/-- With no debit party at hand after `a` rows, no Portador row among the next `k` rows
and no party found by the lookback at the transaction lines among them, there is still
no party after these rows, and the code has stayed. -/
theorem scanRecebimentosUpTo_no_party (u : UnicodeTables) (lower : Char → Char)
    (ovf : ConvOverflow) (closest : Closest)
    (srt : (ContaEntry → ContaEntry → Bool) → List ContaEntry → List ContaEntry)
    (m : ContaMap) (idx dP cP : List Str) (rows : List (List Str)) (a k : Nat)
    (hd : (scanRecebimentosUpTo u lower ovf closest srt m idx dP cP rows a).currentDescDebito
      = [])
    (hno : ∀ j, a ≤ j → j < a + k → isPortadorRow ovf u lower (rows.getD j []) = false)
    (hlook : ∀ j, a ≤ j → j < a + k → emitsLancamento ovf u lower (rows.getD j []) = true →
      findLastPortadorBefore u rows j 60 = none) :
    (scanRecebimentosUpTo u lower ovf closest srt m idx dP cP rows (a + k)).currentDescDebito =
      [] ∧
    (scanRecebimentosUpTo u lower ovf closest srt m idx dP cP rows (a + k)).currentCodDebito =
      (scanRecebimentosUpTo u lower ovf closest srt m idx dP cP rows a).currentCodDebito := by
  induction k with
  | zero => exact ⟨hd, rfl⟩
  | succ k ih =>
    obtain ⟨i1, i2⟩ := ih (fun j h1 h2 => hno j h1 (by omega))
      (fun j h1 h2 => hlook j h1 (by omega))
    obtain ⟨s1, s2, -⟩ := recebimentosStep_no_party u lower ovf closest srt idx dP cP rows
      (scanRecebimentosUpTo u lower ovf closest srt m idx dP cP rows (a + k)) (a + k) _ rfl i1
      (hno (a + k) (by omega) (by omega)) (hlook (a + k) (by omega) (by omega))
    rw [← Nat.add_assoc, scanRecebimentosUpTo_succ]
    exact ⟨s1, s2.trans i2⟩

/-- C33 fails on the code: on the sheet `clearedRows` the second row is a Portador row
that names no party, and after it the debit party is the empty description with the code
"999999"; the third row is a transaction line, and its ledger row has the debit
description "7 - Banco X" and the code "21", which the lookback took from the first
row. -/
theorem C33_lookback_restores_party :
    isPortadorRow amd64Conv latin1Tables latin1ToLower (clearedRows.getD 1 []) = true ∧
    trimSpace (portadorText latin1Tables (clearedRows.getD 1 [])
      (findPortadorIndex latin1Tables (clearedRows.getD 1 []))) = [] ∧
    (scanRecebimentosUpTo latin1Tables latin1ToLower amd64Conv demoClosest sortSliceStable
      demoContaMap demoIndex [] [] clearedRows 2).currentDescDebito = [] ∧
    (scanRecebimentosUpTo latin1Tables latin1ToLower amd64Conv demoClosest sortSliceStable
      demoContaMap demoIndex [] [] clearedRows 2).currentCodDebito = "999999".toList ∧
    emitsLancamento amd64Conv latin1Tables latin1ToLower (clearedRows.getD 2 []) = true ∧
    (scanRecebimentos latin1Tables latin1ToLower amd64Conv demoClosest sortSliceStable
      demoContaMap demoIndex [] [] clearedRows).finalRows.map
        (fun o => (o.DescricaoDebito, o.ContaDebito)) =
      [("7 - Banco X".toList, "21".toList)] := by
  refine ⟨by decide!, by decide!, by decide!, by decide!, by decide!, by decide!⟩

/-- C33, as the code has it: when the row `p` is a Portador row that yields no party
text, the debit party after it is the empty description with the code "999999"; and a
transaction line `t` after it, with no Portador row after `p` up to `t`, is emitted with
an empty debit description and the debit code "999999" when at each transaction line
after `p` up to `t` the lookback over the sixty rows before the line
(`findLastPortadorBefore`) finds no party text. -/
theorem C33_cleared_party_persists (u : UnicodeTables) (lower : Char → Char)
    (ovf : ConvOverflow) (closest : Closest)
    (srt : (ContaEntry → ContaEntry → Bool) → List ContaEntry → List ContaEntry)
    (m : ContaMap) (idx dP cP : List Str) (rows : List (List Str)) (p t : Nat)
    (hp : p < t)
    (hprow : isPortadorRow ovf u lower (rows.getD p []) = true)
    (htext : trimSpace (portadorText u (rows.getD p [])
      (findPortadorIndex u (rows.getD p []))) = [])
    (hno : ∀ j, p < j → j ≤ t → isPortadorRow ovf u lower (rows.getD j []) = false)
    (hlook : ∀ j, p < j → j ≤ t → emitsLancamento ovf u lower (rows.getD j []) = true →
      findLastPortadorBefore u rows j 60 = none)
    (ht : emitsLancamento ovf u lower (rows.getD t []) = true) :
    (scanRecebimentosUpTo u lower ovf closest srt m idx dP cP rows (p + 1)).currentDescDebito =
      [] ∧
    (scanRecebimentosUpTo u lower ovf closest srt m idx dP cP rows (p + 1)).currentCodDebito =
      "999999".toList ∧
    ∃ o, (scanRecebimentosUpTo u lower ovf closest srt m idx dP cP rows (t + 1)).finalRows =
        (scanRecebimentosUpTo u lower ovf closest srt m idx dP cP rows t).finalRows ++ [o] ∧
      o.DescricaoDebito = [] ∧ o.ContaDebito = "999999".toList := by
  have hP := (recebimentosStep_kind u lower ovf closest srt idx dP cP rows
    (scanRecebimentosUpTo u lower ovf closest srt m idx dP cP rows p) p _ rfl _ rfl).2.2.2.2.2
    ((isPortadorRow_iff ovf u lower _).mp hprow)
  rw [← scanRecebimentosUpTo_succ] at hP
  have hd : (scanRecebimentosUpTo u lower ovf closest srt m idx dP cP rows
      (p + 1)).currentDescDebito = [] := hP.1.trans htext
  have hc : (scanRecebimentosUpTo u lower ovf closest srt m idx dP cP rows
      (p + 1)).currentCodDebito = sentinel := hP.2 htext
  obtain ⟨k, hk⟩ : ∃ k, t = p + 1 + k := ⟨t - (p + 1), by omega⟩
  obtain ⟨d1, d2⟩ := scanRecebimentosUpTo_no_party u lower ovf closest srt m idx dP cP rows
    (p + 1) k hd (fun j a b => hno j (by omega) (by omega))
    (fun j a b => hlook j (by omega) (by omega))
  rw [← hk] at d1 d2
  obtain ⟨-, -, s3⟩ := recebimentosStep_no_party u lower ovf closest srt idx dP cP rows
    (scanRecebimentosUpTo u lower ovf closest srt m idx dP cP rows t) t _ rfl d1
    (hno t hp (le_refl t)) (hlook t hp (le_refl t))
  obtain ⟨o, o1, o2, o3⟩ := s3 ht
  rw [← scanRecebimentosUpTo_succ] at o1
  refine ⟨hd, hc, o, o1, o2, ?_⟩
  rw [o3, d2, hc]
  rfl

/-- Witness for C33: on the sheet `noPartyRows` the row "Portador:" names no party, the
two transaction lines after it have more than six cells that are not empty, so that the
lookback takes neither for a Portador, and the ledger row of the second line has an empty
debit description and the code "999999". -/
theorem C33_cleared_party_persists_witness :
    (scanRecebimentos latin1Tables latin1ToLower amd64Conv demoClosest sortSliceStable
      demoContaMap demoIndex [] [] noPartyRows).finalRows.map
        (fun o => (o.DescricaoDebito, o.ContaDebito)) =
      [([], "999999".toList), ([], "999999".toList)] ∧
    (scanRecebimentosUpTo latin1Tables latin1ToLower amd64Conv demoClosest sortSliceStable
      demoContaMap demoIndex [] [] noPartyRows (0 + 1)).currentDescDebito = [] ∧
    (scanRecebimentosUpTo latin1Tables latin1ToLower amd64Conv demoClosest sortSliceStable
      demoContaMap demoIndex [] [] noPartyRows (0 + 1)).currentCodDebito = "999999".toList ∧
    ∃ o, (scanRecebimentosUpTo latin1Tables latin1ToLower amd64Conv demoClosest
        sortSliceStable demoContaMap demoIndex [] [] noPartyRows (2 + 1)).finalRows =
        (scanRecebimentosUpTo latin1Tables latin1ToLower amd64Conv demoClosest
          sortSliceStable demoContaMap demoIndex [] [] noPartyRows 2).finalRows ++ [o] ∧
      o.DescricaoDebito = [] ∧ o.ContaDebito = "999999".toList :=
  ⟨by decide!,
    C33_cleared_party_persists latin1Tables latin1ToLower amd64Conv demoClosest
      sortSliceStable demoContaMap demoIndex [] [] noPartyRows 0 2 (by decide) (by decide!)
      (by decide!)
      (fun j a b => by
        have : j = 1 ∨ j = 2 := by omega
        rcases this with h | h <;> subst h <;> decide!)
      (fun j a b _ => by
        have : j = 1 ∨ j = 2 := by omega
        rcases this with h | h <;> subst h <;> decide!)
      (by decide!)⟩

/-! ## The block date of the two scans -/

theorem isDateChar_props (c : Char) (h : isDateChar c = true) :
    isSpace c = false ∧ (c == '\r' || c == '\n' || c == '\t') = false ∧ ¬ c.toNat < 32 := by
  unfold isDateChar at h
  simp only [Bool.or_eq_true, beq_iff_eq] at h
  rcases h with (h | h) | h
  · have hn : 48 ≤ c.toNat ∧ c.toNat ≤ 57 := by simpa [isDigit] using h
    refine ⟨(isDigit_props c h).1, ?_, by omega⟩
    have hne : ∀ d : Char, d.toNat ≠ c.toNat → (c == d) = false := fun d hd => by
      simp only [beq_eq_false_iff_ne, ne_eq]
      exact fun e => hd (e ▸ rfl)
    rw [hne '\r' (by show (13 : Nat) ≠ _; omega), hne '\n' (by show (10 : Nat) ≠ _; omega),
      hne '\t' (by show (9 : Nat) ≠ _; omega)]
    rfl
  · subst h; decide
  · subst h; decide

/-- A text of date characters goes through `sanitizeForCSV` unchanged. -/
theorem sanitizeForCSV_of_dateChars (d : Str) (h : ∀ c ∈ d, isDateChar c = true) :
    sanitizeForCSV d = d := by
  rw [sanitizeForCSV_eq, trimSpace_eq_self d
    (fun c hc => (isDateChar_props c (h c (List.mem_of_mem_head? hc))).1)
    (fun c hc => (isDateChar_props c (h c (List.mem_of_mem_getLast? hc))).1)]
  have h1 : d.filter (fun r => !(r == '\r' || r == '\n' || r == '\t')) = d := by
    rw [List.filter_eq_self]
    intro c hc
    rw [(isDateChar_props c (h c hc)).2.1]
    rfl
  rw [h1]
  conv_rhs => rw [← List.map_id d]
  apply List.map_congr_left
  intro c hc
  rw [if_neg (isDateChar_props c (h c hc)).2.2]
  rfl

theorem padDigits_dateChars (w n : Nat) : ∀ c ∈ padDigits w n, isDateChar c = true := by
  intro c hc
  unfold padDigits at hc
  simp only [List.mem_append, List.mem_replicate, List.mem_map, List.mem_reverse] at hc
  rcases hc with ⟨-, rfl⟩ | ⟨d, hd, rfl⟩
  · decide
  · unfold isDateChar
    rw [(digitChar_spec d (digitsLE_lt n n d hd)).1]
    rfl

theorem appendInt_dateChars (x : ℤ) (w : Nat) : ∀ c ∈ appendInt x w, isDateChar c = true := by
  intro c hc
  unfold appendInt at hc
  split at hc
  · rcases List.mem_cons.mp hc with h | h
    · subst h; decide
    · exact padDigits_dateChars _ _ c h
  · exact padDigits_dateChars _ _ c hc

/-- The text of `Format("02/01/2006")` is not empty and made of date characters. -/
theorem formatDMY_dateChars (d : Date) :
    formatDMY d ≠ [] ∧ ∀ c ∈ formatDMY d, isDateChar c = true := by
  unfold formatDMY
  refine ⟨fun h => ?_, fun c hc => ?_⟩
  · have := congrArg List.length h
    simp at this
  · simp only [List.mem_append, List.mem_cons] at hc
    rcases hc with (h | h | h) | h | h
    · exact appendInt_dateChars _ _ c h
    · subst h; decide
    · exact appendInt_dateChars _ _ c h
    · subst h; decide
    · exact appendInt_dateChars _ _ c h

theorem matchDMYAt_dateChars (s m : Str) (h : matchDMYAt s = some m) :
    m ≠ [] ∧ ∀ c ∈ m, isDateChar c = true := by
  unfold matchDMYAt at h
  split at h
  · split at h
    · rename_i hc
      simp only [Option.some.injEq] at h
      subst h
      simp only [Bool.and_eq_true, beq_iff_eq, List.all_cons, List.all_nil, Bool.and_true]
        at hc
      obtain ⟨⟨⟨h1, h2⟩, d1, d2, d3, d4, d5, d6, d7, d8⟩, -⟩ := hc
      refine ⟨by simp, fun c hc => ?_⟩
      simp only [List.mem_cons, List.mem_nil_iff, or_false] at hc
      unfold isDateChar
      rcases hc with h | h | h | h | h | h | h | h | h | h <;> subst h <;>
        simp [d1, d2, d3, d4, d5, d6, d7, d8, h1, h2]
    · exact absurd h (by simp)
  · exact absurd h (by simp)

theorem findFrom_some (matchAt : Str → Option Str) (b : Bool) (s m : Str)
    (h : findFrom matchAt b s = some m) : ∃ t, matchAt t = some m := by
  induction s generalizing b with
  | nil => simp [findFrom] at h
  | cons c cs ih =>
    unfold findFrom at h
    split at h
    · rename_i m2 hm
      simp only [Option.some.injEq] at h
      subst h
      cases b
      · exact ⟨_, by simpa using hm⟩
      · simp at hm
    · exact ih _ h

/-- A date that `findDateInRow` returns is not empty and made of date characters. -/
theorem findDateInRow_dateChars (ovf : ConvOverflow) (row : List Str) (d : Str)
    (h : findDateInRow ovf row = some d) : d ≠ [] ∧ ∀ c ∈ d, isDateChar c = true := by
  induction row with
  | nil => simp [findDateInRow] at h
  | cons c row ih =>
    unfold findDateInRow at h
    simp only at h
    split at h
    · exact ih h
    · split at h
      · rename_i m hm
        simp only [Option.some.injEq] at h
        subst h
        obtain ⟨t, ht⟩ := findFrom_some _ _ _ _ hm
        exact matchDMYAt_dateChars t _ ht
      · split at h
        · simp only [Option.some.injEq] at h
          subst h
          exact formatDMY_dateChars _
        · split at h
          · split at h
            · simp only [Option.some.injEq] at h
              subst h
              exact formatDMY_dateChars _
            · exact ih h
          · exact ih h

/-- A date that `parseDateDayFirst` returns is not empty and made of date characters. -/
theorem parseDateDayFirst_dateChars (ovf : ConvOverflow) (s d : Str)
    (h : parseDateDayFirst ovf s = some d) : d ≠ [] ∧ ∀ c ∈ d, isDateChar c = true := by
  unfold parseDateDayFirst at h
  simp only at h
  split at h
  · exact absurd h (by simp)
  · split at h
    · simp only [Option.some.injEq] at h
      subst h
      exact formatDMY_dateChars _
    · split at h
      · simp only [Option.some.injEq] at h
        subst h
        exact formatDMY_dateChars _
      · split at h
        · split at h
          · simp only [Option.some.injEq] at h
            subst h
            exact formatDMY_dateChars _
          · exact absurd h (by simp)
        · exact absurd h (by simp)

theorem orDate_dateChars (c : Str) (d : Option Str) (hc : ∀ x ∈ c, isDateChar x = true)
    (hd : ∀ t, d = some t → ∀ x ∈ t, isDateChar x = true) :
    ∀ x ∈ orDate c d, isDateChar x = true := by
  unfold orDate
  split
  · cases d with
    | none => exact hc
    | some t => exact hd t rfl
  · exact hc

theorem markerDate_dateChars (ovf : ConvOverflow) (u : UnicodeTables) (row : List Str) :
    ∀ x ∈ markerDate ovf u row, isDateChar x = true := by
  unfold markerDate
  simp only
  split
  · refine orDate_dateChars _ _ (orDate_dateChars _ _ (orDate_dateChars _ _
      (orDate_dateChars _ _ ?_ ?_) ?_) ?_) ?_
    · split
      · rename_i d hd
        obtain ⟨rest, -, hp⟩ := Option.bind_eq_some.mp hd
        exact (parseDateDayFirst_dateChars ovf _ _ hp).2
      · intro x hx
        exact absurd hx (List.not_mem_nil x)
    · exact fun t ht => (parseDateDayFirst_dateChars ovf _ _ ht).2
    · exact fun t ht => (parseDateDayFirst_dateChars ovf _ _ ht).2
    · exact fun t ht => (parseDateDayFirst_dateChars ovf _ _ ht).2
    · exact fun t ht => (findDateInRow_dateChars ovf _ _ ht).2
  · intro x hx
    exact absurd hx (List.not_mem_nil x)

theorem labelDate_dateChars (ovf : ConvOverflow) (lower : Char → Char) (row : List Str)
    (is : List Nat) : ∀ x ∈ labelDate ovf lower row is, isDateChar x = true := by
  induction is with
  | nil =>
    intro x hx
    exact absurd hx (List.not_mem_nil x)
  | cons i is ih =>
    unfold labelDate
    simp only
    split
    · exact ih
    · split
      · split
        · rename_i d hd
          exact (findDateInRow_dateChars ovf _ _ hd).2
        · split
          · refine orDate_dateChars _ _ ?_ (fun t ht => (findDateInRow_dateChars ovf _ _ ht).2)
            split
            · rename_i d hd
              obtain ⟨a, -, ha⟩ := List.exists_of_findSome?_eq_some hd
              exact (parseDateDayFirst_dateChars ovf _ _ ha).2
            · intro x hx
              exact absurd hx (List.not_mem_nil x)
          · exact ih
      · exact ih

/-- The candidate of `updateBlockDate` is made of date characters. -/
theorem updateBlockDate_dateChars (ovf : ConvOverflow) (u : UnicodeTables)
    (lower : Char → Char) (row : List Str) (lancIdx : ℤ) :
    ∀ x ∈ (updateBlockDate ovf u lower row lancIdx).1, isDateChar x = true := by
  have h2 : ∀ x ∈ (if markerDate ovf u row == [] then
      labelDate ovf lower row (List.range (min row.length 6)) else markerDate ovf u row),
      isDateChar x = true := by
    split
    · exact labelDate_dateChars ovf lower row _
    · exact markerDate_dateChars ovf u row
  unfold updateBlockDate
  simp only
  generalize hc2 : (if markerDate ovf u row == [] then
      labelDate ovf lower row (List.range (min row.length 6)) else markerDate ovf u row) = c2
  rw [hc2] at h2
  generalize hc3 : (if (c2 == [] && lancIdx == -1 && countNonEmpty row == 1) = true then
      orDate c2 (findDateInRow ovf row) else c2) = c3
  have h3 : ∀ x ∈ c3, isDateChar x = true := by
    rw [← hc3]
    split
    · exact orDate_dateChars _ _ h2 (fun t ht => (findDateInRow_dateChars ovf _ _ ht).2)
    · exact h2
  split
  · exact h3
  · intro x hx
    exact absurd hx (List.not_mem_nil x)

/-- The date that `updateBlockDateIfHeader` reads is not empty and made of date
characters. -/
theorem updateBlockDateIfHeader_dateChars (ovf : ConvOverflow) (lower : Char → Char)
    (row : List Str) (d : Str) (h : updateBlockDateIfHeader ovf lower row = some d) :
    d ≠ [] ∧ ∀ c ∈ d, isDateChar c = true := by
  unfold updateBlockDateIfHeader at h
  simp only at h
  split at h
  · exact absurd h (by simp)
  · split at h
    · rename_i d2 hd
      simp only [Option.some.injEq] at h
      subst h
      obtain ⟨a, -, ha⟩ := List.exists_of_findSome?_eq_some hd
      exact parseDateDayFirst_dateChars ovf _ _ ha
    · exact findDateInRow_dateChars ovf _ _ h

/-- The block date of the Pagamentos scan is made of date characters, and its sanitised
copy is the same text. -/
theorem scanPagamentos_dateChars (u : UnicodeTables) (lower : Char → Char)
    (ovf : ConvOverflow) (closest : Closest) (m : AccMap) (idx dP cP : List Str)
    (rows : List (List Str)) :
    (∀ c ∈ (scanPagamentos u lower ovf closest m idx dP cP rows).blockDate,
      isDateChar c = true) ∧
    (scanPagamentos u lower ovf closest m idx dP cP rows).blockDateSanitized =
      (scanPagamentos u lower ovf closest m idx dP cP rows).blockDate := by
  induction rows using List.reverseRecOn with
  | nil => exact ⟨fun c hc => absurd hc (List.not_mem_nil c), rfl⟩
  | append_singleton rows row ih =>
    rw [scanPagamentos_snoc]
    cases hh : updateBlockDateIfHeader ovf lower row with
    | some d =>
      rw [pagamentosStep_header _ _ _ _ _ _ _ _ _ _ hh]
      have hd := (updateBlockDateIfHeader_dateChars ovf lower row d hh).2
      exact ⟨hd, sanitizeForCSV_of_dateChars d hd⟩
    | none =>
      obtain ⟨h1, h2, -⟩ := pagamentosStep_other u lower ovf closest idx dP cP
        (scanPagamentos u lower ovf closest m idx dP cP rows) row hh
      rw [h1, h2]
      exact ih

/-- The loop body of the Recebimentos scan changes the block date only by the assignment
of `updateBlockDate`. -/
theorem recebimentosStep_blockDate (u : UnicodeTables) (lower : Char → Char)
    (ovf : ConvOverflow) (closest : Closest)
    (srt : (ContaEntry → ContaEntry → Bool) → List ContaEntry → List ContaEntry)
    (idx dP cP : List Str) (rows : List (List Str)) (st : RecState) (rIdx : Nat)
    (row : List Str) (hrow : row = rows.getD rIdx []) (st1 : RecState)
    (hst1 : st1 = applyBlockDate st
      (updateBlockDate ovf u lower row (firstIndex isLancamento row)).1) :
    (recebimentosStep u lower ovf closest srt idx dP cP rows st rIdx).blockDate =
      st1.blockDate ∧
    (recebimentosStep u lower ovf closest srt idx dP cP rows st rIdx).blockDateSanitized =
      st1.blockDateSanitized := by
  rw [recebimentosStep_cases u lower ovf closest srt idx dP cP rows st rIdx row hrow st1 hst1]
  by_cases hB : (updateBlockDate ovf u lower row (firstIndex isLancamento row)).2 = true
  · rw [if_pos hB]
    exact ⟨rfl, rfl⟩
  · rw [if_neg hB]
    by_cases hH : 3 ≤ keywordCategories u row
    · rw [if_pos hH]
      exact ⟨rfl, rfl⟩
    · rw [if_neg hH]
      by_cases hP : findPortadorIndex u row ≠ -1
      · rw [if_pos hP]
        unfold portadorBranch
        simp only
        split
        · exact ⟨rfl, rfl⟩
        · obtain ⟨-, -, f3, f4, -⟩ := setCurrentDebit_frame u closest srt idx dP
            { st1 with hints := (updateColumnHints u st1.hints row).1 }
            (portadorText u row (findPortadorIndex u row))
          exact ⟨f3, f4⟩
      · rw [if_neg hP]
        by_cases hL : firstIndex isLancamento row = -1
        · rw [if_pos hL]
          exact ⟨rfl, rfl⟩
        · rw [if_neg hL]
          obtain ⟨-, -, f3, f4, -⟩ := debitAtLancamento_frame u closest srt idx dP rows rIdx
            { st1 with hints := (updateColumnHints u st1.hints row).1 }
          unfold emitLancamento appendLancamento
          exact ⟨f3, f4⟩

/-- The block date of the Recebimentos scan is made of date characters, and its sanitised
copy is the same text. -/
theorem scanRecebimentosUpTo_dateChars (u : UnicodeTables) (lower : Char → Char)
    (ovf : ConvOverflow) (closest : Closest)
    (srt : (ContaEntry → ContaEntry → Bool) → List ContaEntry → List ContaEntry)
    (m : ContaMap) (idx dP cP : List Str) (rows : List (List Str)) (n : Nat) :
    (∀ c ∈ (scanRecebimentosUpTo u lower ovf closest srt m idx dP cP rows n).blockDate,
      isDateChar c = true) ∧
    (scanRecebimentosUpTo u lower ovf closest srt m idx dP cP rows n).blockDateSanitized =
      (scanRecebimentosUpTo u lower ovf closest srt m idx dP cP rows n).blockDate := by
  induction n with
  | zero => exact ⟨fun c hc => absurd hc (List.not_mem_nil c), rfl⟩
  | succ n ih =>
    obtain ⟨b1, b2⟩ := recebimentosStep_blockDate u lower ovf closest srt idx dP cP rows
      (scanRecebimentosUpTo u lower ovf closest srt m idx dP cP rows n) n _ rfl _ rfl
    obtain ⟨a1, a2⟩ := applyBlockDate_blockDate
      (scanRecebimentosUpTo u lower ovf closest srt m idx dP cP rows n)
      (updateBlockDate ovf u lower (rows.getD n [])
        (firstIndex isLancamento (rows.getD n []))).1
    rw [scanRecebimentosUpTo_succ, b1, b2, a1, a2]
    have hc := updateBlockDate_dateChars ovf u lower (rows.getD n [])
      (firstIndex isLancamento (rows.getD n []))
    split
    · exact ih
    · exact ⟨hc, sanitizeForCSV_of_dateChars _ hc⟩

/-- The date of the row that the emission of a transaction line appends: with a block
date at hand, a text made of date characters whose sanitised copy is the same text, it is
the block date. -/
theorem emitLancamento_data (u : UnicodeTables) (lower : Char → Char) (ovf : ConvOverflow)
    (closest : Closest)
    (srt : (ContaEntry → ContaEntry → Bool) → List ContaEntry → List ContaEntry)
    (idx dP cP : List Str) (rows : List (List Str)) (rIdx : Nat) (row : List Str)
    (lancIdx : ℤ) (st : RecState) (hne : st.blockDate ≠ [])
    (hd : ∀ c ∈ st.blockDate, isDateChar c = true)
    (hs : st.blockDateSanitized = st.blockDate) :
    ∃ o, (emitLancamento u lower ovf closest srt idx dP cP rows rIdx row lancIdx st).finalRows =
        st.finalRows ++ [o] ∧ o.Data = st.blockDate := by
  obtain ⟨f1, -⟩ := debitAtLancamento_frame u closest srt idx dP rows rIdx st
  have he : (effectiveDate ovf lower rows rIdx row st).2 = st.blockDate := by
    unfold effectiveDate
    have : (st.blockDate == []) = false := by simpa using hne
    simp only [this, Bool.false_eq_true, if_false]
    exact hs
  unfold emitLancamento appendLancamento
  rw [he]
  refine ⟨_, by rw [f1], ?_⟩
  show sanitizeForCSV st.blockDate = st.blockDate
  exact sanitizeForCSV_of_dateChars _ hd

/-- C34: in the Pagamentos scan (after the rows `rows`, then after one more row `row`) and
in the Recebimentos scan (after the first `n` rows of `sheet`, then after the row `n`):
a block date that is set stays set after every later row; the block date changes only
at a row from which the scan read a date -- `updateBlockDateIfHeader` returned it,
`updateBlockDate` found it as its candidate -- and the new block date is that date; and
a ledger row appended at a row, with a block date set after that row, has this block
date as its date (in the Pagamentos scan no ledger row is appended without one). -/
theorem C34_block_date_stays (u : UnicodeTables) (lower : Char → Char)
    (ovf : ConvOverflow) (closest : Closest)
    (srt : (ContaEntry → ContaEntry → Bool) → List ContaEntry → List ContaEntry)
    (mP : AccMap) (mR : ContaMap) (idx dP cP : List Str) (rows : List (List Str))
    (row : List Str) (sheet : List (List Str)) (n : Nat) :
    ((∀ more : List (List Str),
        (scanPagamentos u lower ovf closest mP idx dP cP rows).blockDate ≠ [] →
        (scanPagamentos u lower ovf closest mP idx dP cP (rows ++ more)).blockDate ≠ []) ∧
      ((scanPagamentos u lower ovf closest mP idx dP cP (rows ++ [row])).blockDate ≠
          (scanPagamentos u lower ovf closest mP idx dP cP rows).blockDate →
        updateBlockDateIfHeader ovf lower row =
          some (scanPagamentos u lower ovf closest mP idx dP cP (rows ++ [row])).blockDate) ∧
      (∀ o, (scanPagamentos u lower ovf closest mP idx dP cP (rows ++ [row])).out =
          (scanPagamentos u lower ovf closest mP idx dP cP rows).out ++ [o] →
        (scanPagamentos u lower ovf closest mP idx dP cP (rows ++ [row])).blockDate ≠ [] ∧
        o.Data = (scanPagamentos u lower ovf closest mP idx dP cP (rows ++ [row])).blockDate)) ∧
    ((∀ k : Nat,
        (scanRecebimentosUpTo u lower ovf closest srt mR idx dP cP sheet n).blockDate ≠ [] →
        (scanRecebimentosUpTo u lower ovf closest srt mR idx dP cP sheet (n + k)).blockDate ≠
          []) ∧
      ((scanRecebimentosUpTo u lower ovf closest srt mR idx dP cP sheet (n + 1)).blockDate ≠
          (scanRecebimentosUpTo u lower ovf closest srt mR idx dP cP sheet n).blockDate →
        (updateBlockDate ovf u lower (sheet.getD n [])
            (firstIndex isLancamento (sheet.getD n []))).1 =
          (scanRecebimentosUpTo u lower ovf closest srt mR idx dP cP sheet (n + 1)).blockDate ∧
        (scanRecebimentosUpTo u lower ovf closest srt mR idx dP cP sheet (n + 1)).blockDate ≠
          []) ∧
      (∀ o, (scanRecebimentosUpTo u lower ovf closest srt mR idx dP cP sheet (n + 1)).finalRows =
          (scanRecebimentosUpTo u lower ovf closest srt mR idx dP cP sheet n).finalRows ++ [o] →
        (scanRecebimentosUpTo u lower ovf closest srt mR idx dP cP sheet (n + 1)).blockDate ≠
          [] →
        o.Data =
          (scanRecebimentosUpTo u lower ovf closest srt mR idx dP cP sheet (n + 1)).blockDate)) := by
  -- one step of the Pagamentos scan
  have hPstep : ∀ (rs : List (List Str)) (r : List Str),
      (scanPagamentos u lower ovf closest mP idx dP cP rs).blockDate ≠ [] →
      (scanPagamentos u lower ovf closest mP idx dP cP (rs ++ [r])).blockDate ≠ [] := by
    intro rs r h
    rw [scanPagamentos_snoc]
    cases hh : updateBlockDateIfHeader ovf lower r with
    | some d =>
      rw [pagamentosStep_header _ _ _ _ _ _ _ _ _ _ hh]
      exact (updateBlockDateIfHeader_dateChars ovf lower r d hh).1
    | none =>
      rw [(pagamentosStep_other u lower ovf closest idx dP cP _ r hh).1]
      exact h
  -- one step of the Recebimentos scan
  obtain ⟨b1, -⟩ := recebimentosStep_blockDate u lower ovf closest srt idx dP cP sheet
    (scanRecebimentosUpTo u lower ovf closest srt mR idx dP cP sheet n) n _ rfl _ rfl
  rw [← scanRecebimentosUpTo_succ, (applyBlockDate_blockDate _ _).1] at b1
  refine ⟨⟨fun more h => ?_, fun h => ?_, fun o ho => ?_⟩, ⟨fun k h => ?_, fun h => ?_,
    fun o ho hne => ?_⟩⟩
  · induction more using List.reverseRecOn with
    | nil => rw [List.append_nil]; exact h
    | append_singleton more r ih =>
      rw [← List.append_assoc]
      exact hPstep _ r ih
  · rw [scanPagamentos_snoc] at h ⊢
    cases hh : updateBlockDateIfHeader ovf lower row with
    | some d => rw [pagamentosStep_header _ _ _ _ _ _ _ _ _ _ hh]
    | none =>
      exact absurd (pagamentosStep_other u lower ovf closest idx dP cP _ row hh).1 h
  · rw [scanPagamentos_snoc] at ho ⊢
    have hlen : ∀ l : List AtoliniPagamentosOutputRow, l ≠ l ++ [o] := by
      intro l hl
      have := congrArg List.length hl
      simp at this
    cases hh : updateBlockDateIfHeader ovf lower row with
    | some d =>
      rw [pagamentosStep_header _ _ _ _ _ _ _ _ _ _ hh] at ho
      exact absurd ho (hlen _)
    | none =>
      obtain ⟨h1, -, h3⟩ := pagamentosStep_other u lower ovf closest idx dP cP
        (scanPagamentos u lower ovf closest mP idx dP cP rows) row hh
      rcases h3 with h3 | ⟨o2, h3, hdata, -, hbd⟩
      · rw [h3] at ho
        exact absurd ho (hlen _)
      · rw [h3] at ho
        have ho2 : o2 = o := by
          have := List.append_cancel_left ho
          simpa using this
        subst ho2
        rw [h1, hdata, (scanPagamentos_dateChars u lower ovf closest mP idx dP cP rows).2]
        exact ⟨hbd, rfl⟩
  · induction k with
    | zero => exact h
    | succ k ih =>
      obtain ⟨c1, -⟩ := recebimentosStep_blockDate u lower ovf closest srt idx dP cP sheet
        (scanRecebimentosUpTo u lower ovf closest srt mR idx dP cP sheet (n + k)) (n + k) _ rfl
        _ rfl
      rw [← Nat.add_assoc, scanRecebimentosUpTo_succ, c1, (applyBlockDate_blockDate _ _).1]
      split
      · exact ih
      · assumption
  · rw [b1] at h ⊢
    by_cases hc : (updateBlockDate ovf u lower (sheet.getD n [])
        (firstIndex isLancamento (sheet.getD n []))).1 = []
    · rw [if_pos hc] at h
      exact absurd rfl h
    · rw [if_neg hc]
      exact ⟨rfl, hc⟩
  · have hlen : ∀ l : List AtoliniRecebimentosOutputRow, l ≠ l ++ [o] := by
      intro l hl
      have := congrArg List.length hl
      simp at this
    obtain ⟨-, -, k3, -⟩ := recebimentosStep_kind u lower ovf closest srt idx dP cP sheet
      (scanRecebimentosUpTo u lower ovf closest srt mR idx dP cP sheet n) n _ rfl _ rfl
    rw [← scanRecebimentosUpTo_succ] at k3
    have hemit : emitsLancamento ovf u lower (sheet.getD n []) = true := by
      by_contra hc
      have := k3 (fun h => hc ((emitsLancamento_iff ovf u lower _).mpr h))
      rw [this] at ho
      exact hlen _ ho
    have hstep := recebimentosStep_emit u lower ovf closest srt idx dP cP sheet
      (scanRecebimentosUpTo u lower ovf closest srt mR idx dP cP sheet n) n _ rfl _ rfl hemit
    rw [← scanRecebimentosUpTo_succ] at hstep
    obtain ⟨c1, c2⟩ := recebimentosStep_blockDate u lower ovf closest srt idx dP cP sheet
      (scanRecebimentosUpTo u lower ovf closest srt mR idx dP cP sheet n) n _ rfl _ rfl
    rw [← scanRecebimentosUpTo_succ] at c1 c2
    obtain ⟨i1, i2⟩ := scanRecebimentosUpTo_dateChars u lower ovf closest srt mR idx dP cP
      sheet (n + 1)
    obtain ⟨o2, e1, e2⟩ := emitLancamento_data u lower ovf closest srt idx dP cP sheet n
      (sheet.getD n []) (firstIndex isLancamento (sheet.getD n []))
      { applyBlockDate (scanRecebimentosUpTo u lower ovf closest srt mR idx dP cP sheet n)
          (updateBlockDate ovf u lower (sheet.getD n [])
            (firstIndex isLancamento (sheet.getD n []))).1 with
        hints := (updateColumnHints u
          (scanRecebimentosUpTo u lower ovf closest srt mR idx dP cP sheet n).hints
          (sheet.getD n [])).1 }
      (by rw [← c1]; exact hne) (by rw [← c1]; exact i1) (by
        show (applyBlockDate _ _).blockDateSanitized = (applyBlockDate _ _).blockDate
        rw [← c1, ← c2]; exact i2)
    rw [← hstep] at e1
    have hfr : (applyBlockDate (scanRecebimentosUpTo u lower ovf closest srt mR idx dP cP sheet n)
        (updateBlockDate ovf u lower (sheet.getD n [])
          (firstIndex isLancamento (sheet.getD n []))).1).finalRows =
        (scanRecebimentosUpTo u lower ovf closest srt mR idx dP cP sheet n).finalRows :=
      (applyBlockDate_frame _ _).2.1
    rw [ho] at e1
    have e1' : (scanRecebimentosUpTo u lower ovf closest srt mR idx dP cP sheet n).finalRows ++ [o] =
        (scanRecebimentosUpTo u lower ovf closest srt mR idx dP cP sheet n).finalRows ++ [o2] := by
      rw [e1]
      exact congrArg (· ++ [o2]) hfr
    have ho2 : o = o2 := by
      have := List.append_cancel_left e1'
      simpa using this
    rw [ho2, e2, c1]

/-! ## The groups of the Sicredi conversion -/

/-- The groups that the loop of `splitBy` has closed come first. -/
theorem splitByLoop_append {α : Type} (r : α → α → Bool) (l : List α) (a : α) (g : List α)
    (gs : List (List α)) :
    List.splitBy.loop r l a g gs = gs.reverse ++ List.splitBy.loop r l a g [] := by
  induction l generalizing a g gs with
  | nil => simp [List.splitBy.loop]
  | cons b l ih =>
    simp only [List.splitBy.loop]
    split
    · rw [ih]
    · rw [ih, ih _ _ [_]]
      simp

/-- The head of the open group of the loop of `splitBy` ends up at the head of the first
group. -/
theorem splitByLoop_acc {α : Type} (r : α → α → Bool) (l : List α) (b : α) (g g0 : List α) :
    List.splitBy.loop r l b (g ++ g0) [] =
      (List.splitBy.loop r l b g []).modifyHead (fun x => g0.reverse ++ x) := by
  induction l generalizing b g with
  | nil => simp [List.splitBy.loop]
  | cons c l ih =>
    simp only [List.splitBy.loop]
    split
    · rw [← List.cons_append, ih]
    · rw [splitByLoop_append, splitByLoop_append r l c [] [_]]
      simp

/-- The groups of a list with two elements or more, from those of its tail. -/
theorem splitBy_cons_cons {α : Type} (r : α → α → Bool) (a b : α) (l : List α) :
    (a :: b :: l).splitBy r =
      if r a b = true then ((b :: l).splitBy r).modifyHead (fun x => a :: x)
      else [a] :: (b :: l).splitBy r := by
  show List.splitBy.loop r (b :: l) a [] [] = _
  rw [List.splitBy.loop]
  cases h : r a b
  · simp only [Bool.false_eq_true, if_false]
    rw [splitByLoop_append]
    rfl
  · simp only [if_true]
    have := splitByLoop_acc r l b [] [a]
    simp only [List.nil_append, List.reverse_cons, List.reverse_nil] at this
    rw [this]
    rfl

/-- A list that is not empty has a first group. -/
theorem splitBy_cons_ne_nil {α : Type} (r : α → α → Bool) (a : α) (l : List α) :
    (a :: l).splitBy r ≠ [] := by
  intro h
  have := List.flatten_splitBy r (a :: l)
  rw [h] at this
  exact absurd this (by simp)

/-- The number of groups of entries sorted by settlement date is the number of distinct
settlement dates. -/
theorem splitBy_sameDate_length (l : List Lancamento)
    (hs : l.Pairwise (fun a b => a.DataLiquidacao ≤ b.DataLiquidacao)) :
    (l.splitBy sameDate).length = (l.map (fun x => x.DataLiquidacao)).dedup.length := by
  induction l with
  | nil => rfl
  | cons a l ih =>
    cases l with
    | nil => rfl
    | cons b l =>
      have ih2 := ih hs.tail
      rw [splitBy_cons_cons]
      have hab : a.DataLiquidacao ≤ b.DataLiquidacao :=
        List.rel_of_pairwise_cons hs (List.mem_cons_self _ _)
      by_cases h : a.DataLiquidacao = b.DataLiquidacao
      · have hr : sameDate a b = true := by simp [sameDate, h]
        have hd : ((a :: b :: l).map (fun x => x.DataLiquidacao)).dedup =
            ((b :: l).map (fun x => x.DataLiquidacao)).dedup := by
          rw [List.map_cons, List.dedup_cons_of_mem]
          rw [h]
          simp
        rw [if_pos hr, List.length_modifyHead, ih2, hd]
      · have hr : ¬ sameDate a b = true := by simp [sameDate, h]
        have hd : ((a :: b :: l).map (fun x => x.DataLiquidacao)).dedup =
            a.DataLiquidacao :: ((b :: l).map (fun x => x.DataLiquidacao)).dedup := by
          rw [List.map_cons, List.dedup_cons_of_not_mem]
          intro hmem
          rw [List.mem_map] at hmem
          obtain ⟨x, hx, hxa⟩ := hmem
          have h1 : a.DataLiquidacao ≤ x.DataLiquidacao := List.rel_of_pairwise_cons hs hx
          rcases List.mem_cons.mp hx with hxb | hxl
          · subst hxb
            exact h hxa.symm
          · have h2 : b.DataLiquidacao ≤ x.DataLiquidacao :=
              List.rel_of_pairwise_cons hs.tail hxl
            omega
        rw [if_neg hr, List.length_cons, ih2, hd, List.length_cons]

/-- The loop of `processarGrupoSicredi` over the entries appends a "C" row for each, in
order. -/
theorem sicrediCRows (u : UnicodeTables) (closest : Closest)
    (srt : (ContaSicredi → ContaSicredi → Bool) → List ContaSicredi → List ContaSicredi)
    (rangeOrder : Nat → List Str) (allKeys classPrefixes : List Str) (d : Str)
    (g : List Lancamento) (st : List OutputRow × SicrediMap) :
    ((g.foldl (fun st l =>
        let r := matchContaSicredi u closest srt (rangeOrder st.1.length) l.Descricao st.2
          allKeys classPrefixes
        (st.1 ++ [rowC d l r.1.1], r.2)) st).1).map withoutMatchedCode =
      st.1.map withoutMatchedCode ++ g.map (fun l => rowC d l []) := by
  induction g generalizing st with
  | nil => simp
  | cons l g ih =>
    rw [List.foldl_cons, ih]
    simp only [List.map_append, List.map_cons, List.map_nil, List.append_assoc,
      List.singleton_append]
    rfl

/-- The entries of a group of `splitBy sameDate` have one settlement date. -/
theorem splitBy_sameDate_const (l g : List Lancamento) (hg : g ∈ l.splitBy sameDate) :
    ∀ x ∈ g, ∀ y ∈ g, x.DataLiquidacao = y.DataLiquidacao := by
  have hc : g.Chain' (fun a b => a.DataLiquidacao = b.DataLiquidacao) :=
    (List.chain'_of_mem_splitBy hg).imp (fun a b h => by simpa [sameDate] using h)
  haveI : IsTrans Lancamento (fun a b => a.DataLiquidacao = b.DataLiquidacao) :=
    ⟨fun a b c h1 h2 => h1.trans h2⟩
  have hp := List.chain'_iff_pairwise.mp hc
  intro x hx y hy
  by_cases hxy : x = y
  · rw [hxy]
  · exact List.Pairwise.forall (fun a b h => h.symm) hp hx hy hxy

/-! ## The round trip of an amount of cents -/

/-- The nearest integer is at most one half away. -/
theorem roundNearestEven_abs_sub_le (y : ℚ) : |(roundNearestEven y : ℚ) - y| ≤ 1 / 2 := by
  unfold roundNearestEven
  simp only
  have h1 : (⌊y⌋ : ℚ) ≤ y := Int.floor_le y
  have h2 : y < (⌊y⌋ : ℚ) + 1 := Int.lt_floor_add_one y
  rw [abs_le]
  split_ifs with a b c
  · constructor <;> linarith
  · push_cast
    constructor <;> linarith
  · constructor <;> linarith
  · push_cast
    constructor <;> linarith

/-- A number less than one half away from an integer rounds to it. -/
theorem roundNearestEven_of_near (y : ℚ) (k : ℤ) (h : |y - k| < 1 / 2) :
    roundNearestEven y = k := by
  rw [abs_lt] at h
  have h1 := roundNearestEven_abs_sub_le y
  rw [abs_le] at h1
  have h2 : ((roundNearestEven y - k : ℤ) : ℚ) < 1 := by push_cast; linarith
  have h3 : (-1 : ℚ) < ((roundNearestEven y - k : ℤ) : ℚ) := by push_cast; linarith
  have h4 : roundNearestEven y - k < 1 := by exact_mod_cast h2
  have h5 : -1 < roundNearestEven y - k := by exact_mod_cast h3
  omega

/-- Rounding to 53 bits moves a normal magnitude by at most the fraction `2^-53` of it. -/
theorem roundMag_rel_error (a : ℚ) (ha : 0 < a) (he : -1022 ≤ floorLog2 a) :
    |roundMag a - a| ≤ a * 2 ^ (-53 : ℤ) := by
  have hmax : max (floorLog2 a) (-1022) = floorLog2 a := max_eq_left he
  have hu := two_zpow_pos (floorLog2 a - 52)
  unfold roundMag
  simp only
  rw [hmax]
  have h1 := roundNearestEven_abs_sub_le (a / 2 ^ (floorLog2 a - 52))
  have h2 : (roundNearestEven (a / 2 ^ (floorLog2 a - 52)) : ℚ) * 2 ^ (floorLog2 a - 52) - a =
      ((roundNearestEven (a / 2 ^ (floorLog2 a - 52)) : ℚ) - a / 2 ^ (floorLog2 a - 52)) *
        2 ^ (floorLog2 a - 52) := by
    field_simp
  rw [h2, abs_mul, abs_of_pos hu]
  have h3 : (1 / 2 : ℚ) * 2 ^ (floorLog2 a - 52) = 2 ^ floorLog2 a * 2 ^ (-53 : ℤ) := by
    rw [← zpow_add₀ (by norm_num : (2 : ℚ) ≠ 0)]
    have : floorLog2 a + -53 = (floorLog2 a - 52) + (-1) := by ring
    rw [this, zpow_add₀ (by norm_num : (2 : ℚ) ≠ 0)]
    norm_num
    ring
  calc |(roundNearestEven (a / 2 ^ (floorLog2 a - 52)) : ℚ) - a / 2 ^ (floorLog2 a - 52)| *
        2 ^ (floorLog2 a - 52) ≤ 1 / 2 * 2 ^ (floorLog2 a - 52) :=
          mul_le_mul_of_nonneg_right h1 hu.le
    _ = 2 ^ floorLog2 a * 2 ^ (-53 : ℤ) := h3
    _ ≤ a * 2 ^ (-53 : ℤ) :=
          mul_le_mul_of_nonneg_right (floorLog2_spec a ha).1 (two_zpow_pos _).le

/-- Rounding to 53 bits commutes with the multiplication of a normal magnitude by 4. -/
theorem roundMag_mul_four (q : ℚ) (hq : 0 < q) (he : -1022 ≤ floorLog2 q) :
    roundMag (4 * q) = 4 * roundMag q := by
  obtain ⟨s1, s2⟩ := floorLog2_spec q hq
  have h4 : (4 : ℚ) = 2 ^ (2 : ℤ) := by norm_num
  have hfl : floorLog2 (4 * q) = floorLog2 q + 2 := by
    apply floorLog2_unique _ (by positivity)
    · rw [zpow_add₀ (by norm_num : (2 : ℚ) ≠ 0), ← h4]
      linarith
    · have : floorLog2 q + 2 + 1 = (floorLog2 q + 1) + 2 := by ring
      rw [this, zpow_add₀ (by norm_num : (2 : ℚ) ≠ 0), ← h4]
      linarith
  unfold roundMag
  simp only
  rw [hfl, max_eq_left (by omega : (-1022 : ℤ) ≤ floorLog2 q + 2), max_eq_left he]
  have hexp : (2 : ℚ) ^ (floorLog2 q + 2 - 52) = 4 * 2 ^ (floorLog2 q - 52) := by
    have : floorLog2 q + 2 - 52 = (floorLog2 q - 52) + 2 := by ring
    rw [this, zpow_add₀ (by norm_num : (2 : ℚ) ≠ 0), ← h4]
    ring
  have hu := two_zpow_pos (floorLog2 q - 52)
  rw [hexp]
  have harg : 4 * q / (4 * 2 ^ (floorLog2 q - 52)) = q / 2 ^ (floorLog2 q - 52) := by
    field_simp
    ring
  rw [harg]
  ring

/-- Rounding keeps a magnitude of at least a quarter on its side of a quarter of a
natural number below `2^53`. -/
theorem roundMag_quarter (q : ℚ) (hq : 1 / 4 ≤ q) (B : ℕ) (hB1 : 1 ≤ B) (hB53 : B < 2 ^ 53) :
    (q ≤ (B : ℚ) / 4 → roundMag q ≤ (B : ℚ) / 4) ∧
    ((B : ℚ) / 4 ≤ q → (B : ℚ) / 4 ≤ roundMag q) := by
  have hq0 : 0 < q := by linarith
  have he : -1022 ≤ floorLog2 q := by
    have := le_floorLog2_of_le q hq0 (-2) (by norm_num; linarith)
    omega
  have hmul := roundMag_mul_four q hq0 he
  constructor
  · intro h
    have := roundMag_le_natCast (4 * q) (by positivity) B (by linarith) hB53
    rw [hmul] at this
    linarith
  · intro h
    have := natCast_le_roundMag (4 * q) B hB1 (by linarith) hB53
    rw [hmul] at this
    linarith

/-- The `float64` nearest to a positive amount of `c` cents, `c < 2^51`: a hundred times
its value is less than a quarter away from `c`, `mathRound` to two decimals sends it to
itself, and the conversion to `int64` inside `mathRound` is in range. -/
theorem mathRound_cents (ovf : ConvOverflow) (c : ℕ) (hc0 : 0 < c) (hc : c < 2 ^ 51) :
    ∃ r : ℚ, 0 < r ∧ roundF64 ((c : ℚ) / 100) = .fin r ∧
      |r * 100 - (c : ℚ)| ≤ 1 / 4 ∧
      inInt64 (mathRoundArg (.fin r) 2) = true ∧
      mathRound ovf (.fin r) 2 = .fin r := by
  have hcq : (1 : ℚ) ≤ c := by exact_mod_cast hc0
  have hcq2 : (c : ℚ) < 2 ^ 51 := by exact_mod_cast hc
  have ha : (0 : ℚ) < (c : ℚ) / 100 := by positivity
  have he : -1022 ≤ floorLog2 ((c : ℚ) / 100) := by
    have := le_floorLog2_of_le ((c : ℚ) / 100) ha (-7) (by
      rw [le_div_iff₀ (by norm_num)]
      norm_num
      linarith)
    omega
  have herr := roundMag_rel_error _ ha he
  have h53 : (2 : ℚ) ^ (-53 : ℤ) = 1 / 2 ^ 53 := by norm_num
  rw [h53, abs_le] at herr
  -- a hundred times the rounded value is within a quarter of c
  have hquarter : |roundMag ((c : ℚ) / 100) * 100 - (c : ℚ)| ≤ 1 / 4 := by
    rw [abs_le]
    have hb : (c : ℚ) / 100 * (1 / 2 ^ 53) * 100 ≤ 1 / 4 := by
      have : (c : ℚ) / 100 * (1 / 2 ^ 53) * 100 = (c : ℚ) / 2 ^ 53 := by
        field_simp
        ring
      rw [this, div_le_iff₀ (by positivity)]
      norm_num at hcq2 ⊢
      linarith
    constructor <;> linarith [herr.1, herr.2]
  rw [abs_le] at hquarter
  have hr0 : 0 < roundMag ((c : ℚ) / 100) := by linarith [hquarter.1]
  have hrlt : ¬ (2 : ℚ) ^ (1024 : ℤ) ≤ roundMag ((c : ℚ) / 100) := by
    have h1 : (2 : ℚ) ^ (51 : ℤ) ≤ (2 : ℚ) ^ (1024 : ℤ) :=
      zpow_le_zpow_right₀ (by norm_num) (by norm_num)
    have h2 : (2 : ℚ) ^ (51 : ℤ) = 2 ^ 51 := by norm_num
    have h3 : roundMag ((c : ℚ) / 100) * 100 ≤ (c : ℚ) + 1 / 4 := by linarith [hquarter.2]
    intro h
    nlinarith
  have hround : roundF64 ((c : ℚ) / 100) = .fin (roundMag ((c : ℚ) / 100)) := by
    rw [roundF64_of_pos _ ha, if_neg hrlt]
  obtain ⟨r, hr⟩ : ∃ r, r = roundMag ((c : ℚ) / 100) := ⟨_, rfl⟩
  rw [← hr] at hquarter hr0 hround
  -- the product with 100
  have hp14 : (1 : ℚ) / 4 ≤ r * 100 := by linarith [hquarter.1]
  have hB1 : 4 * c - 1 < 2 ^ 53 := by omega
  have hB2 : 4 * c + 1 < 2 ^ 53 := by omega
  have hcast1 : ((4 * c - 1 : ℕ) : ℚ) / 4 = (c : ℚ) - 1 / 4 := by
    rw [Nat.cast_sub (by omega)]
    push_cast
    ring
  have hcast2 : ((4 * c + 1 : ℕ) : ℚ) / 4 = (c : ℚ) + 1 / 4 := by
    push_cast
    ring
  have hcast3 : ((4 * c + 3 : ℕ) : ℚ) / 4 = (c : ℚ) + 3 / 4 := by
    push_cast
    ring
  have hm1 := (roundMag_quarter (r * 100) hp14 (4 * c - 1) (by omega) hB1).2
    (by rw [hcast1]; linarith [hquarter.1])
  have hm2 := (roundMag_quarter (r * 100) hp14 (4 * c + 1) (by omega) hB2).1
    (by rw [hcast2]; linarith [hquarter.2])
  rw [hcast1] at hm1
  rw [hcast2] at hm2
  have hbig : ∀ z : ℚ, z ≤ (c : ℚ) + 3 / 4 → ¬ (2 : ℚ) ^ (1024 : ℤ) ≤ z := by
    intro z hz h
    have h1 : (2 : ℚ) ^ (52 : ℤ) ≤ (2 : ℚ) ^ (1024 : ℤ) :=
      zpow_le_zpow_right₀ (by norm_num) (by norm_num)
    have h2 : (2 : ℚ) ^ (52 : ℤ) = 2 ^ 52 := by norm_num
    have h3 : (2 : ℚ) ^ 52 = 2 * 2 ^ 51 := by norm_num
    rw [h2, h3] at h1
    linarith
  have hmul : (F64.fin r).mul (.fin 100) = .fin (roundMag (r * 100)) := by
    show roundF64 (r * 100) = _
    rw [roundF64_of_pos _ (by linarith), if_neg (hbig _ (by linarith))]
  -- the sum with one half
  have hs14 : (1 : ℚ) / 4 ≤ roundMag (r * 100) + 1 / 2 := by linarith
  have hn1 := (roundMag_quarter (roundMag (r * 100) + 1 / 2) hs14 (4 * c + 1) (by omega) hB2).2
    (by rw [hcast2]; linarith)
  have hn2 := (roundMag_quarter (roundMag (r * 100) + 1 / 2) hs14 (4 * c + 3) (by omega)
    (by omega)).1 (by rw [hcast3]; linarith)
  rw [hcast2] at hn1
  rw [hcast3] at hn2
  obtain ⟨A, hA⟩ : ∃ A, A = roundMag (roundMag (r * 100) + 1 / 2) := ⟨_, rfl⟩
  rw [← hA] at hn1 hn2
  have hadd : (F64.fin (roundMag (r * 100))).add (.fin (1 / 2)) = .fin A := by
    show roundF64 (roundMag (r * 100) + 1 / 2) = _
    rw [roundF64_of_pos _ (by linarith), ← hA, if_neg (hbig _ hn2)]
  have harg : mathRoundArg (.fin r) 2 = .fin A := by
    have g1 : (F64.fin r).ge (.fin 0) = true := by simp [F64.ge, hr0.le]
    simp only [mathRoundArg, g1, if_true, powLoop_two, hmul, hadd]
  -- the conversion to int64
  have htrunc : truncQ A = (c : ℤ) := by
    unfold truncQ
    rw [if_pos (by linarith)]
    rw [Int.floor_eq_iff]
    push_cast
    constructor <;> linarith
  have hin : inInt64 (.fin A) = true := by
    simp only [inInt64, htrunc, Bool.and_eq_true, decide_eq_true_eq]
    constructor <;> omega
  refine ⟨r, hr0, hround, abs_le.mpr hquarter, by rw [harg]; exact hin, ?_⟩
  unfold mathRound
  rw [harg, toInt64_of_inInt64 ovf A hin, htrunc, powLoop_two]
  have hof : ofInt64 (c : ℤ) = .fin (c : ℚ) := by
    unfold ofInt64
    rw [Int.cast_natCast]
    exact roundF64_natCast c (by omega)
  rw [hof]
  simp only [F64.div]
  rw [if_neg (by norm_num), hround]

/-- The digits that `padDigits` writes denote the number. -/
theorem padDigits_spec (w n : Nat) :
    (∀ c ∈ padDigits w n, isDigit c = true) ∧ decimalValue (padDigits w n) = n := by
  unfold padDigits
  simp only
  constructor
  · intro c hc
    simp only [List.mem_append, List.mem_replicate, List.mem_map, List.mem_reverse] at hc
    rcases hc with ⟨-, rfl⟩ | ⟨d, hd, rfl⟩
    · decide
    · exact (digitChar_spec d (digitsLE_lt n n d hd)).1
  · rw [decimalValue_append, decimalValue_digits _ (digitsLE_lt n n),
      digitsLE_value n n (Nat.le_refl n)]
    have hz : ∀ k, decimalValue (List.replicate k '0') = 0 := by
      intro k
      induction k with
      | zero => rfl
      | succ k ih =>
        rw [List.replicate_succ']
        rw [decimalValue_append_singleton, ih]
        rfl
    rw [hz]
    simp

theorem padDigits_two_length : ∀ k < 100, (padDigits 2 k).length = 2 := by decide!

theorem padDigits_ne_nil (n : Nat) : padDigits 1 n ≠ [] := by
  unfold padDigits
  simp only
  intro h
  have h1 := congrArg List.length h
  simp only [List.length_append, List.length_replicate, List.length_map, List.length_reverse,
    List.length_nil] at h1
  omega

/-- `strings.Replace(s, ".", ",", 1)` on digits, a point and more text. -/
theorem replaceFirst_point (ip rest : Str) (hip : ∀ c ∈ ip, isDigit c = true) :
    replaceFirst ".".toList ",".toList (ip ++ '.' :: rest) = ip ++ ',' :: rest := by
  induction ip with
  | nil =>
    show replaceFirst ['.'] [','] ('.' :: rest) = ',' :: rest
    unfold replaceFirst
    simp
  | cons a ip ih =>
    have ha : a ≠ '.' := (isDigit_props a (hip a (List.mem_cons_self _ _))).2.2.2.2.1
    have hne : ('.' == a) = false := by
      simp only [beq_eq_false_iff_ne, ne_eq]
      exact fun h => ha h.symm
    show replaceFirst ['.'] [','] (a :: (ip ++ '.' :: rest)) = a :: (ip ++ ',' :: rest)
    unfold replaceFirst
    have hpre : List.isPrefixOf ['.'] (a :: (ip ++ '.' :: rest)) = false := by
      simp [List.isPrefixOf, hne]
    rw [hpre]
    simp only [Bool.false_eq_true, if_false]
    exact congrArg (a :: ·) (ih (fun c hc => hip c (List.mem_cons_of_mem _ hc)))

/-- `strings.ReplaceAll` of one character by another. -/
theorem replaceAll_char (a b : Char) (s : Str) :
    replaceAll s [a] [b] = s.map (fun c => if c = a then b else c) := by
  unfold replaceAll
  induction s with
  | nil => rfl
  | cons c cs ih =>
    unfold replaceAllAux
    by_cases h : c = a
    · subst h
      simp only [List.isPrefixOf, beq_self_eq_true, Bool.true_and, if_true, List.length_singleton,
        Nat.sub_self, List.map_cons, List.singleton_append]
      exact congrArg (b :: ·) ih
    · have hne : (a == c) = false := by
        simp only [beq_eq_false_iff_ne, ne_eq]
        exact fun e => h e.symm
      simp only [List.isPrefixOf, hne, Bool.false_and, Bool.false_eq_true, if_false,
        List.map_cons, h]
      exact congrArg (c :: ·) ih

theorem lastIndex_nonneg (s : Str) (c : Char) (h : c ∈ s) : 0 ≤ lastIndex s c := by
  unfold lastIndex
  have hc : s.contains c = true := by simpa using h
  rw [if_pos hc]
  have : s.reverse.indexOf c < s.reverse.length :=
    List.indexOf_lt_length.mpr (List.mem_reverse.mpr h)
  rw [List.length_reverse] at this
  omega

theorem lastIndex_not_mem (s : Str) (c : Char) (h : c ∉ s) : lastIndex s c = -1 := by
  unfold lastIndex
  have hc : ¬ s.contains c = true := by simpa using h
  rw [if_neg hc]

/-- The separators of a text of digits with one comma: the comma becomes the decimal
point. -/
theorem brlSeparators_comma (ip fp : Str) (hip : ∀ c ∈ ip, isDigit c = true)
    (hfp : ∀ c ∈ fp, isDigit c = true) :
    brlSeparators (ip ++ ',' :: fp) = ip ++ '.' :: fp := by
  have hdig : ∀ c ∈ ip ++ ',' :: fp, isDigit c = true ∨ c = ',' := by
    intro c hc
    rcases List.mem_append.mp hc with h | h
    · exact Or.inl (hip c h)
    · rcases List.mem_cons.mp h with h | h
      · exact Or.inr h
      · exact Or.inl (hfp c h)
  have hnodot : '.' ∉ ip ++ ',' :: fp := by
    intro h
    rcases hdig '.' h with h | h
    · exact absurd h (by decide)
    · exact absurd h (by decide)
  have h1 := lastIndex_not_mem _ _ hnodot
  have h2 := lastIndex_nonneg (ip ++ ',' :: fp) ',' (by simp)
  have hmapd : ∀ l : Str, (∀ c ∈ l, isDigit c = true) →
      l.map (fun c => if c = ',' then '.' else c) = l := by
    intro l hl
    conv_rhs => rw [← List.map_id l]
    apply List.map_congr_left
    intro c hc
    have : c ≠ ',' := fun e => absurd (e ▸ hl c hc) (by decide)
    simp [this]
  unfold brlSeparators
  simp only [h1]
  have e1 : replaceAll (ip ++ ',' :: fp) ".".toList [] = ip ++ ',' :: fp :=
    replaceAll_noop '.' [] [] _ hnodot
  have e2 : replaceAll (ip ++ ',' :: fp) ",".toList ".".toList =
      (ip ++ ',' :: fp).map (fun c => if c = ',' then '.' else c) :=
    replaceAll_char ',' '.' _
  rw [if_pos (by omega), e1, e2, List.map_append, List.map_cons, hmapd ip hip, hmapd fp hfp,
    if_pos rfl, List.filter_eq_self]
  intro c hc
  rcases List.mem_append.mp hc with h | h
  · simp [hip c h]
  · rcases List.mem_cons.mp h with h | h
    · simp [h]
    · simp [hfp c h]

/-- The text that `formatTwoDecimalsComma` writes for a `float64` that is less than half
a cent away from `c` cents, and for its negation. -/
theorem formatTwoDecimalsComma_cents (r : ℚ) (c : ℕ) (hr : 0 < r)
    (hc : |r * 100 - (c : ℚ)| ≤ 1 / 4) :
    formatTwoDecimalsComma (.fin r) = decimalText (c / 100) ++ ',' :: padDigits 2 (c % 100) ∧
    formatTwoDecimalsComma (.fin (-r)) =
      '-' :: (decimalText (c / 100) ++ ',' :: padDigits 2 (c % 100)) := by
  have hrne : roundNearestEven (r * 100) = (c : ℤ) := by
    apply roundNearestEven_of_near
    push_cast
    exact lt_of_le_of_lt hc (by norm_num)
  have hdig : ∀ x ∈ decimalText (c / 100), isDigit x = true := (padDigits_spec 1 _).1
  constructor
  · unfold formatTwoDecimalsComma formatFixed2
    simp only [abs_of_pos hr, hrne, Int.toNat_ofNat, not_lt.mpr hr.le, if_false,
      List.nil_append]
    exact replaceFirst_point _ _ hdig
  · unfold formatTwoDecimalsComma formatFixed2
    have hneg : -r < 0 := by linarith
    simp only [abs_neg, abs_of_pos hr, hrne, Int.toNat_ofNat, hneg, if_true,
      List.singleton_append, List.cons_append]
    show replaceFirst ['.'] [','] ('-' :: _) = _
    unfold replaceFirst
    have hpre : List.isPrefixOf ['.'] ('-' :: (decimalText (c / 100) ++
        '.' :: padDigits 2 (c % 100))) = false := by
      simp [List.isPrefixOf]
    simp only [List.nil_append]
    rw [hpre]
    simp only [Bool.false_eq_true, if_false]
    exact congrArg ('-' :: ·) (replaceFirst_point _ _ hdig)

/-- What `parseBRLNumber` hands to `strconv.ParseFloat` for the text of `c` cents, with
and without a minus sign, and the outcome of the conversion. -/
theorem brlScan_cents (c : ℕ) :
    brlScan (decimalText (c / 100) ++ ',' :: padDigits 2 (c % 100)) =
      some (false, decimalText (c / 100) ++ '.' :: padDigits 2 (c % 100)) ∧
    brlScan ('-' :: (decimalText (c / 100) ++ ',' :: padDigits 2 (c % 100))) =
      some (true, decimalText (c / 100) ++ '.' :: padDigits 2 (c % 100)) ∧
    parseFloat (decimalText (c / 100) ++ '.' :: padDigits 2 (c % 100)) =
      (match roundF64 ((c : ℚ) / 100) with
       | .fin v => .ok (.fin v)
       | _ => .error .outOfRange) := by
  obtain ⟨i1, i2⟩ := padDigits_spec 1 (c / 100)
  obtain ⟨f1, f2⟩ := padDigits_spec 2 (c % 100)
  have flen := padDigits_two_length (c % 100) (Nat.mod_lt _ (by norm_num))
  have hnum : ∀ x ∈ decimalText (c / 100) ++ ',' :: padDigits 2 (c % 100),
      isNumChar x = true := by
    intro x hx
    unfold isNumChar
    rcases List.mem_append.mp hx with h | h
    · simp [i1 x h]
    · rcases List.mem_cons.mp h with h | h
      · simp [h]
      · simp [f1 x h]
  have hsep := brlSeparators_comma (decimalText (c / 100)) (padDigits 2 (c % 100)) i1 f1
  have hne : (decimalText (c / 100) ++ '.' :: padDigits 2 (c % 100) == []) = false := by
    simp
  refine ⟨?_, ?_, ?_⟩
  · rw [brlScan_numChars _ hnum, hsep, hne]
    rfl
  · rw [brlScan_minus _ hnum, hsep, hne]
    rfl
  · have hplain : ∀ x ∈ decimalText (c / 100) ++ '.' :: padDigits 2 (c % 100),
        isDigit x = true ∨ x = '.' := by
      intro x hx
      rcases List.mem_append.mp hx with h | h
      · exact Or.inl (i1 x h)
      · rcases List.mem_cons.mp h with h | h
        · exact Or.inr h
        · exact Or.inl (f1 x h)
    obtain ⟨s1, s2⟩ := plainText_no_sign _ hplain
    rw [parseFloat_unsigned _ hplain, parseUnsigned_frac (decimalText (c / 100))
      (padDigits 2 (c % 100)) i1 f1 (Or.inl (padDigits_ne_nil _))]
    have hval : plainValue (decimalText (c / 100)) (padDigits 2 (c % 100)) =
        (c : ℚ) / 100 := by
      unfold plainValue
      have i2' : decimalValue (decimalText (c / 100)) = c / 100 := i2
      rw [i2', f2, flen]
      have hdm : (c : ℚ) = ((c / 100 : ℕ) : ℚ) * 100 + ((c % 100 : ℕ) : ℚ) := by
        have := Nat.div_add_mod c 100
        have h2 : ((100 * (c / 100) + c % 100 : ℕ) : ℚ) = (c : ℚ) := by rw [this]
        push_cast at h2
        linarith
      rw [hdm]
      norm_num
      ring
    simp only [hval]

/-- C37: for every whole number `n` of cents with `|n| < 2^51`, the `float64` nearest to
`n / 100` -- positive, zero or negative -- is written by `formatTwoDecimalsComma` as a
text that `parseBRLNumber` parses, without error, back to the same `float64`. -/
theorem C37_money_round_trip (ovf : ConvOverflow) (n : ℤ) (hn : |n| < 2 ^ 51) :
    parseBRLNumber ovf (formatTwoDecimalsComma (roundF64 ((n : ℚ) / 100))) =
      .ok (roundF64 ((n : ℚ) / 100)) := by
  rw [abs_lt] at hn
  rcases lt_trichotomy n 0 with hneg | h0 | hpos
  · obtain ⟨c, hc⟩ : ∃ c : ℕ, (c : ℤ) = -n := ⟨(-n).toNat, by omega⟩
    have hnc : (n : ℚ) / 100 = -((c : ℚ) / 100) := by
      have : (n : ℚ) = -(c : ℚ) := by
        have : n = -(c : ℤ) := by omega
        rw [this]
        push_cast
        rfl
      rw [this]
      ring
    obtain ⟨r, hr0, hround, hq, hin, hmr⟩ := mathRound_cents ovf c (by omega) (by omega)
    obtain ⟨-, t2⟩ := formatTwoDecimalsComma_cents r c hr0 hq
    obtain ⟨-, s2, s3⟩ := brlScan_cents c
    rw [hround] at s3
    rw [hnc, roundF64_neg, hround]
    show parseBRLNumber ovf (formatTwoDecimalsComma (.fin (-r))) = .ok (.fin (-r))
    rw [t2]
    unfold parseBRLNumber
    rw [s2]
    simp only [s3, if_true]
    show Except.ok (mathRound ovf (.fin (-r)) 2) = _
    rw [mathRound_neg ovf r hin, hmr]
    rfl
  · subst h0
    have e0 : roundF64 (((0 : ℤ) : ℚ) / 100) = .fin 0 := by decide!
    rw [e0]
    have hsc : brlScan (formatTwoDecimalsComma (.fin 0)) = some (false, "0.00".toList) := by
      decide!
    have hpf : parseFloat "0.00".toList = .ok (.fin 0) := by decide!
    have hr0 : inInt64 (mathRoundArg (.fin 0) 2) = true := by decide!
    rw [parseBRLNumber_indep ovf amd64Conv _ (fun neg t f h1 h2 => by
      rw [hsc] at h1
      simp only [Option.some.injEq, Prod.mk.injEq] at h1
      obtain ⟨rfl, rfl⟩ := h1
      rw [hpf] at h2
      simp only [Except.ok.injEq] at h2
      subst h2
      exact hr0)]
    decide!
  · obtain ⟨c, hc⟩ : ∃ c : ℕ, (c : ℤ) = n := ⟨n.toNat, by omega⟩
    have hnc : (n : ℚ) / 100 = (c : ℚ) / 100 := by
      rw [← hc]
      push_cast
      rfl
    obtain ⟨r, hr0, hround, hq, hin, hmr⟩ := mathRound_cents ovf c (by omega) (by omega)
    obtain ⟨t1, -⟩ := formatTwoDecimalsComma_cents r c hr0 hq
    obtain ⟨s1, -, s3⟩ := brlScan_cents c
    rw [hround] at s3
    rw [hnc, hround, t1]
    unfold parseBRLNumber
    rw [s1]
    simp only [s3, Bool.false_eq_true, if_false]
    exact congrArg Except.ok hmr

/-- Witness for C37: 1234.56 and -1234.56, that is 123456 and -123456 cents, are written
"1234,56" and "-1234,56" and parsed back. -/
theorem C37_money_round_trip_witness :
    formatTwoDecimalsComma (roundF64 (((123456 : ℤ) : ℚ) / 100)) = "1234,56".toList ∧
    formatTwoDecimalsComma (roundF64 (((-123456 : ℤ) : ℚ) / 100)) = "-1234,56".toList ∧
    parseBRLNumber amd64Conv (formatTwoDecimalsComma (roundF64 (((123456 : ℤ) : ℚ) / 100))) =
      .ok (roundF64 (((123456 : ℤ) : ℚ) / 100)) ∧
    parseBRLNumber amd64Conv (formatTwoDecimalsComma (roundF64 (((-123456 : ℤ) : ℚ) / 100))) =
      .ok (roundF64 (((-123456 : ℤ) : ℚ) / 100)) :=
  ⟨by decide!, by decide!, C37_money_round_trip amd64Conv 123456 (by decide),
    C37_money_round_trip amd64Conv (-123456) (by decide)⟩

/-! ## mathRound rounds the float64 product -/

/-- The two products that the amended C6 leaves out. At the `float64` next below 0.005 the
product is the `float64` next below one half, whose nearest integer is 0, and `mathRound`
returns 0.01; at 45035996273704.96875 the product is the odd number `2^52 + 1` and
`mathRound` returns the `float64` nearest to `(2^52 + 2) / 100`. -/
theorem mathRound_product_exceptions :
    (F64.fin (2882303761517117 / 576460752303423488)).mul (powLoop 2) =
      .fin (1 / 2 - 1 / 2 ^ 54) ∧
    roundHalfAway (1 / 2 - 1 / 2 ^ 54) = 0 ∧
    mathRound amd64Conv (.fin (2882303761517117 / 576460752303423488)) 2 =
      roundF64 (1 / 100) ∧
    roundF64 (1 / 100) ≠ roundF64 (0 / 100) ∧
    (F64.fin (1441151880758559 / 32)).mul (powLoop 2) = .fin (2 ^ 52 + 1) ∧
    roundHalfAway (2 ^ 52 + 1) = 2 ^ 52 + 1 ∧
    mathRound amd64Conv (.fin (1441151880758559 / 32)) 2 = roundF64 ((2 ^ 52 + 2) / 100) ∧
    roundF64 ((2 ^ 52 + 2) / 100) ≠ roundF64 ((2 ^ 52 + 1) / 100) := by
  refine ⟨by decide!, by decide!, by decide!, by decide!, by decide!, by decide!,
    by decide!, by decide!⟩

/-! ## The second call under the contract of sort.Slice alone -/

/-- The `float64` of a whole number of cents lies within the fraction `2^-53` of it. -/
theorem roundF64_cents_near (c : ℕ) (hc : c ≤ 2 ^ 49) :
    ∃ w : ℚ, roundF64 ((c : ℚ) / 100) = .fin w ∧ 0 ≤ w ∧
      |w - (c : ℚ) / 100| ≤ (c : ℚ) / 100 * 2 ^ (-53 : ℤ) := by
  rcases Nat.eq_zero_or_pos c with h0 | hpos
  · subst h0
    refine ⟨0, by decide!, le_refl _, ?_⟩
    simp
  · have hc1 : (1 : ℚ) ≤ (c : ℚ) := by exact_mod_cast hpos
    have hcq : (c : ℚ) ≤ 2 ^ 49 := by exact_mod_cast hc
    have ha : (0 : ℚ) < (c : ℚ) / 100 := by positivity
    have he : -1022 ≤ floorLog2 ((c : ℚ) / 100) := by
      have := le_floorLog2_of_le _ ha (-7) (by
        rw [le_div_iff₀ (by norm_num : (0 : ℚ) < 100)]
        norm_num
        linarith)
      omega
    have herr := roundMag_rel_error _ ha he
    have h53 : (2 : ℚ) ^ (-53 : ℤ) ≤ 1 := by norm_num
    have hle : roundMag ((c : ℚ) / 100) ≤ 2 * ((c : ℚ) / 100) := by
      have := (abs_le.mp herr).2
      have h2 : (c : ℚ) / 100 * 2 ^ (-53 : ℤ) ≤ (c : ℚ) / 100 * 1 :=
        mul_le_mul_of_nonneg_left h53 ha.le
      linarith
    have hge : 0 ≤ roundMag ((c : ℚ) / 100) := by
      have := (abs_le.mp herr).1
      have h2 : (c : ℚ) / 100 * 2 ^ (-53 : ℤ) ≤ (c : ℚ) / 100 * 1 :=
        mul_le_mul_of_nonneg_left h53 ha.le
      linarith
    have hfin : ¬ (2 : ℚ) ^ (1024 : ℤ) ≤ roundMag ((c : ℚ) / 100) := by
      have h1 : roundMag ((c : ℚ) / 100) ≤ 2 ^ 49 := by linarith
      have h2 : (2 : ℚ) ^ 49 < 2 ^ (1024 : ℤ) := by norm_num
      linarith
    refine ⟨roundMag ((c : ℚ) / 100), ?_, hge, herr⟩
    rw [roundF64_of_pos _ ha, if_neg hfin]

/-- The `float64` sum of whole numbers of cents, added one after the other from zero,
lies within the fraction `n * 2^-51` of the exact sum, `n` being the number of terms. -/
theorem floatSum_cents (cs : List ℕ) (hb : cs.length * cs.sum ≤ 2 ^ 49) :
    ∃ r : ℚ, cs.foldl (fun (t : F64) (c : ℕ) => t.add (roundF64 ((c : ℚ) / 100))) (.fin 0) =
        .fin r ∧ 0 ≤ r ∧
      |r - (cs.sum : ℚ) / 100| ≤ (cs.length : ℚ) * ((cs.sum : ℚ) / 100) * 2 ^ (-51 : ℤ) := by
  induction cs using List.reverseRecOn with
  | nil => exact ⟨0, rfl, le_refl _, by simp⟩
  | append_singleton cs c ih =>
    rw [List.length_append, List.sum_append, List.length_singleton, List.sum_singleton] at hb
    have hb0 : cs.length * cs.sum ≤ 2 ^ 49 := by
      calc cs.length * cs.sum ≤ (cs.length + 1) * (cs.sum + c) :=
            Nat.mul_le_mul (Nat.le_succ _) (Nat.le_add_right _ _)
        _ ≤ 2 ^ 49 := hb
    have hcb : c ≤ 2 ^ 49 := by
      calc c ≤ 1 * (cs.sum + c) := by omega
        _ ≤ (cs.length + 1) * (cs.sum + c) := Nat.mul_le_mul (by omega) (le_refl _)
        _ ≤ 2 ^ 49 := hb
    obtain ⟨r, hr, hr0, hrerr⟩ := ih hb0
    obtain ⟨w, hw, hw0, hwerr⟩ := roundF64_cents_near c hcb
    rw [List.foldl_append, List.foldl_cons, List.foldl_nil, hr, hw]
    rw [List.length_append, List.sum_append, List.length_singleton, List.sum_singleton]
    show ∃ r2 : ℚ, roundF64 (r + w) = .fin r2 ∧ _
    have hcast : ((cs.sum + c : ℕ) : ℚ) = (cs.sum : ℚ) + (c : ℚ) := Nat.cast_add _ _
    have hlen : ((cs.length + 1 : ℕ) : ℚ) = (cs.length : ℚ) + 1 := Nat.cast_succ _
    rw [hcast, hlen]
    -- abbreviations
    obtain ⟨K, hK⟩ : ∃ K : ℚ, K = (cs.length : ℚ) := ⟨_, rfl⟩
    obtain ⟨X, hX⟩ : ∃ X : ℚ, X = (cs.sum : ℚ) / 100 := ⟨_, rfl⟩
    obtain ⟨Y, hY⟩ : ∃ Y : ℚ, Y = (c : ℚ) / 100 := ⟨_, rfl⟩
    have hsum : ((cs.sum : ℚ) + (c : ℚ)) / 100 = X + Y := by rw [hX, hY]; ring
    rw [hsum, ← hK]
    rw [← hK, ← hX] at hrerr
    rw [← hY] at hwerr
    have hK0 : 0 ≤ K := by rw [hK]; positivity
    have hX0 : 0 ≤ X := by rw [hX]; positivity
    have hY0 : 0 ≤ Y := by rw [hY]; positivity
    have e53 : (2 : ℚ) ^ (-53 : ℤ) = 1 / 2 ^ 53 := by norm_num
    have e51 : (2 : ℚ) ^ (-51 : ℤ) = 4 * (1 / 2 ^ 53) := by norm_num
    rw [e53] at hwerr
    rw [e51] at hrerr ⊢
    obtain ⟨e, he⟩ : ∃ e : ℚ, e = 1 / 2 ^ 53 := ⟨_, rfl⟩
    rw [← he] at hwerr hrerr ⊢
    have he0 : 0 < e := by rw [he]; positivity
    -- the number of terms is small
    have hKe : (K + 1) * (X + Y) * (4 * e) ≤ (X + Y) / 4 ∨ X + Y = 0 := by
      by_cases hz : cs.sum + c = 0
      · right
        have h1 : cs.sum = 0 := by omega
        have h2 : c = 0 := by omega
        rw [hX, hY, h1, h2]
        simp
      · left
        have h1 : 1 ≤ cs.sum + c := by omega
        have h2 : cs.length + 1 ≤ 2 ^ 49 := by
          calc cs.length + 1 = (cs.length + 1) * 1 := by ring
            _ ≤ (cs.length + 1) * (cs.sum + c) := Nat.mul_le_mul (le_refl _) h1
            _ ≤ 2 ^ 49 := hb
        have h3 : K + 1 ≤ 2 ^ 49 := by
          rw [hK]
          exact_mod_cast h2
        have h4 : (K + 1) * (4 * e) ≤ 1 / 4 := by
          rw [he]
          have : (K + 1) * (4 * (1 / 2 ^ 53)) ≤ 2 ^ 49 * (4 * (1 / 2 ^ 53)) :=
            mul_le_mul_of_nonneg_right h3 (by positivity)
          have h5 : (2 : ℚ) ^ 49 * (4 * (1 / 2 ^ 53)) ≤ 1 / 4 := by norm_num
          linarith
        have h6 := mul_le_mul_of_nonneg_left h4 (add_nonneg hX0 hY0)
        calc (K + 1) * (X + Y) * (4 * e) = (X + Y) * ((K + 1) * (4 * e)) := by ring
          _ ≤ (X + Y) * (1 / 4) := h6
          _ = (X + Y) / 4 := by ring
    have hKX : K * X * (4 * e) ≤ K * (X + Y) * (4 * e) := by
      apply mul_le_mul_of_nonneg_right _ (by positivity)
      exact mul_le_mul_of_nonneg_left (by linarith) hK0
    obtain ⟨r1, r2⟩ := abs_le.mp hrerr
    obtain ⟨w1, w2⟩ := abs_le.mp hwerr
    have hYe : Y * e ≤ (X + Y) * e := mul_le_mul_of_nonneg_right (by linarith) he0.le
    rcases hKe with hKe | hzero
    · -- the bound on the exact sum of the two terms
      have hKe2 : K * (X + Y) * (4 * e) + (X + Y) * (4 * e) ≤ (X + Y) / 4 := by
        have : (K + 1) * (X + Y) * (4 * e) = K * (X + Y) * (4 * e) + (X + Y) * (4 * e) := by
          ring
        linarith
      have hXYe : 0 ≤ (X + Y) * e := mul_nonneg (add_nonneg hX0 hY0) he0.le
      have hB : (X + Y) * (4 * e) = 4 * ((X + Y) * e) := by ring
      have ha_le : r + w ≤ 2 * (X + Y) := by linarith
      by_cases hpos : 0 < r + w
      · have hlow : (X + Y) / 2 ≤ r + w ∨ X + Y = 0 := by
          left
          nlinarith
        have hXY1 : 1 / 100 ≤ X + Y := by
          by_contra hcon
          have hz : cs.sum + c = 0 := by
            by_contra hne
            have h1 : (1 : ℚ) ≤ ((cs.sum + c : ℕ) : ℚ) := by
              exact_mod_cast Nat.one_le_iff_ne_zero.mpr hne
            rw [hcast] at h1
            rw [hX, hY] at hcon
            apply hcon
            rw [← add_div]
            exact div_le_div_of_nonneg_right h1 (by norm_num)
          have h1 : cs.sum = 0 := by omega
          have h2 : c = 0 := by omega
          have hX00 : X = 0 := by rw [hX, h1]; simp
          have hY00 : Y = 0 := by rw [hY, h2]; simp
          rw [hX00] at r1 r2
          rw [hY00] at w1 w2
          linarith
        have hlow2 : 1 / 200 ≤ r + w := by
          rcases hlow with h | h
          · linarith
          · linarith
        have hfl : -1022 ≤ floorLog2 (r + w) := by
          have := le_floorLog2_of_le _ hpos (-8) (by norm_num; linarith)
          omega
        have herr := roundMag_rel_error _ hpos hfl
        rw [e53, ← he] at herr
        obtain ⟨a1, a2⟩ := abs_le.mp herr
        have hae : (r + w) * e ≤ 2 * (X + Y) * e := mul_le_mul_of_nonneg_right ha_le he0.le
        have hfin : ¬ (2 : ℚ) ^ (1024 : ℤ) ≤ roundMag (r + w) := by
          have hXYb : X + Y ≤ 2 ^ 49 := by
            have h1 : cs.sum + c ≤ 2 ^ 49 := by
              calc cs.sum + c = 1 * (cs.sum + c) := by ring
                _ ≤ (cs.length + 1) * (cs.sum + c) := Nat.mul_le_mul (by omega) (le_refl _)
                _ ≤ 2 ^ 49 := hb
            have h2 : ((cs.sum + c : ℕ) : ℚ) ≤ 2 ^ 49 := by exact_mod_cast h1
            rw [hcast] at h2
            rw [hX, hY, ← add_div]
            have : ((cs.sum : ℚ) + (c : ℚ)) / 100 ≤ (cs.sum : ℚ) + (c : ℚ) := by
              apply div_le_self (by positivity) (by norm_num)
            linarith
          have he1 : e ≤ 1 := by rw [he]; norm_num
          have h3 : (r + w) * e ≤ (r + w) * 1 := mul_le_mul_of_nonneg_left he1 hpos.le
          have h4 : (2 : ℚ) ^ 51 < 2 ^ (1024 : ℤ) := by norm_num
          have h5 : (2 : ℚ) ^ 51 = 4 * 2 ^ 49 := by norm_num
          linarith
        refine ⟨roundMag (r + w), ?_, ?_, ?_⟩
        · rw [roundF64_of_pos _ hpos, if_neg hfin]
        · have he1 : e ≤ 1 := by rw [he]; norm_num
          have h3 : (r + w) * e ≤ (r + w) * 1 := mul_le_mul_of_nonneg_left he1 hpos.le
          linarith
        · have hexp : (K + 1) * (X + Y) * (4 * e) =
              K * (X + Y) * (4 * e) + (X + Y) * (4 * e) := by ring
          rw [abs_le, hexp]
          constructor
          · linarith
          · linarith
      · have hz : r + w = 0 := le_antisymm (not_lt.mp hpos) (add_nonneg hr0 hw0)
        have hr00 : r = 0 := by linarith
        have hw00 : w = 0 := by linarith
        refine ⟨0, by rw [hz]; decide!, le_refl _, ?_⟩
        rw [hr00] at r1 r2
        rw [hw00] at w1 w2
        have hexp : (K + 1) * (X + Y) * (4 * e) =
            K * (X + Y) * (4 * e) + (X + Y) * (4 * e) := by ring
        rw [abs_le, hexp]
        constructor
        · linarith
        · linarith
    · have hX00 : X = 0 := by linarith
      have hY00 : Y = 0 := by linarith
      have hr00 : r = 0 := by
        rw [hX00] at r1 r2
        linarith
      have hw00 : w = 0 := by
        rw [hY00] at w1 w2
        linarith
      refine ⟨0, by rw [hr00, hw00]; decide!, le_refl _, ?_⟩
      rw [hX00, hY00]
      simp

/-- The sum that `processarGrupoSicredi` computes is the sum of the values of the group in
their order. -/
theorem totalDiario_eq (g : List Lancamento) :
    totalDiario g = sumInOrder (g.map (fun l => l.Valor)) := by
  unfold totalDiario sumInOrder
  rw [List.foldr_reverse, List.foldl_map]

/-- The rows that `processarGrupoSicredi` appends for a group that is not empty and whose
entries have one settlement date. -/
theorem processarGrupoSicredi_rows (u : UnicodeTables) (closest : Closest)
    (srt : (ContaSicredi → ContaSicredi → Bool) → List ContaSicredi → List ContaSicredi)
    (rangeOrder : Nat → List Str) (allKeys classPrefixes : List Str)
    (g : List Lancamento) (st : List OutputRow × SicrediMap) (d : ℤ) (hne : g ≠ [])
    (hd : ∀ x ∈ g, x.DataLiquidacao = d) :
    ((processarGrupoSicredi u closest srt rangeOrder g st allKeys classPrefixes).1).map
        withoutMatchedCode =
      st.1.map withoutMatchedCode ++ groupRows g := by
  unfold processarGrupoSicredi
  have hlen : (g.length == 0) = false := by
    cases g with
    | nil => exact absurd rfl hne
    | cons a g => rfl
  rw [hlen]
  simp only [Bool.false_eq_true, if_false]
  rw [sicrediCRows]
  have hhead : (g.head?.map (fun l => l.DataLiquidacao)).getD 0 = d := by
    cases g with
    | nil => exact absurd rfl hne
    | cons a g => exact hd a (List.mem_cons_self _ _)
  rw [hhead]
  unfold groupRows
  rw [hhead]
  simp only [List.map_append, List.map_cons, List.map_nil, List.append_assoc,
    List.singleton_append]
  congr 2
  · unfold rowD withoutMatchedCode
    rw [hhead, totalDiario_eq]
    rfl
  · apply List.map_congr_left
    intro x hx
    rw [hd x hx]
    rfl

/-- The loop of `montarOutputSicredi` from an open group whose entries have the current
date, followed by the call for the last group: the rows of the groups that `splitBy`
makes of the open group and the entries to come. -/
theorem sicrediLoop_rows (u : UnicodeTables) (closest : Closest)
    (srt : (ContaSicredi → ContaSicredi → Bool) → List ContaSicredi → List ContaSicredi)
    (rangeOrder : Nat → List Str) (allKeys classPrefixes : List Str)
    (rest : List Lancamento) (a : Lancamento) (g : List Lancamento) (rows : List OutputRow)
    (m : SicrediMap) (d : ℤ) (hd : ∀ x ∈ a :: g, x.DataLiquidacao = d) :
    ((processarGrupoSicredi u closest srt rangeOrder
        (rest.foldl (sicrediStep u closest srt rangeOrder allKeys classPrefixes)
          ⟨rows, m, (a :: g).reverse, d⟩).group
        ((rest.foldl (sicrediStep u closest srt rangeOrder allKeys classPrefixes)
          ⟨rows, m, (a :: g).reverse, d⟩).finalRows,
         (rest.foldl (sicrediStep u closest srt rangeOrder allKeys classPrefixes)
          ⟨rows, m, (a :: g).reverse, d⟩).contasEntries)
        allKeys classPrefixes).1).map withoutMatchedCode =
      rows.map withoutMatchedCode ++
        (List.splitBy.loop sameDate rest a g []).flatMap groupRows := by
  induction rest generalizing a g rows m d with
  | nil =>
    simp only [List.foldl_nil, List.splitBy.loop]
    rw [processarGrupoSicredi_rows u closest srt rangeOrder allKeys classPrefixes _ _ d
      (by simp) (fun x hx => hd x (List.mem_reverse.mp hx))]
    simp
  | cons l rest ih =>
    rw [List.foldl_cons, List.splitBy.loop]
    have ha : a.DataLiquidacao = d := hd a (List.mem_cons_self _ _)
    by_cases hl : l.DataLiquidacao = d
    · have hstep : sicrediStep u closest srt rangeOrder allKeys classPrefixes
          ⟨rows, m, (a :: g).reverse, d⟩ l = ⟨rows, m, (l :: a :: g).reverse, d⟩ := by
        unfold sicrediStep
        simp [hl]
      have hr : sameDate a l = true := by simp [sameDate, ha, hl]
      rw [hstep, hr]
      exact ih l (a :: g) rows m d (fun x hx => by
        rcases List.mem_cons.mp hx with h | h
        · rw [h]; exact hl
        · exact hd x h)
    · have hstep : sicrediStep u closest srt rangeOrder allKeys classPrefixes
          ⟨rows, m, (a :: g).reverse, d⟩ l =
          ⟨(processarGrupoSicredi u closest srt rangeOrder (a :: g).reverse (rows, m) allKeys
              classPrefixes).1,
           (processarGrupoSicredi u closest srt rangeOrder (a :: g).reverse (rows, m) allKeys
              classPrefixes).2, (l :: []).reverse, l.DataLiquidacao⟩ := by
        unfold sicrediStep
        simp [hl]
      have hr : sameDate a l = false := by
        simp only [sameDate, ha, beq_eq_false_iff_ne, ne_eq]
        exact fun h => hl h.symm
      rw [hstep, hr]
      simp only
      rw [ih l [] _ _ l.DataLiquidacao (fun x hx => by
        have : x = l := by simpa using hx
        rw [this]), splitByLoop_append sameDate rest l [] [(a :: g).reverse],
        processarGrupoSicredi_rows u closest srt rangeOrder allKeys classPrefixes _ _ d
          (by simp) (fun x hx => hd x (List.mem_reverse.mp hx))]
      simp

/-- The number of rows of the groups: one per group and one per entry. -/
theorem groupRows_length (G : List (List Lancamento)) :
    (G.flatMap groupRows).length = G.flatten.length + G.length := by
  induction G with
  | nil => rfl
  | cons g G ih =>
    rw [List.flatMap_cons, List.length_append, ih, List.flatten_cons, List.length_append,
      List.length_cons]
    unfold groupRows
    rw [List.length_cons, List.length_map]
    omega

/-- The text of the sum of a group whose values are whole numbers of cents, when the
number of entries times the sum of the cents is at most `2^49`: the exact sum of the
cents, written with two decimals. -/
theorem totalDiario_cents (g : List Lancamento) (cs : List ℕ)
    (hv : g.map (fun l => l.Valor) = cs.map (fun (c : ℕ) => roundF64 ((c : ℚ) / 100)))
    (hb : cs.length * cs.sum ≤ 2 ^ 49) :
    valorText (totalDiario g) =
      decimalText (cs.sum / 100) ++ ',' :: padDigits 2 (cs.sum % 100) := by
  obtain ⟨r, hr, hr0, herr⟩ := floatSum_cents cs hb
  have htot : totalDiario g = .fin r := by
    unfold totalDiario
    rw [← List.foldl_map (fun l : Lancamento => l.Valor) (fun (t : F64) v => t.add v),
      hv, List.foldl_map]
    exact hr
  rw [htot]
  by_cases hz : cs.sum = 0
  · have hr00 : r = 0 := by
      rw [hz] at herr
      simpa using herr
    rw [hr00, hz]
    decide!
  · have hbq : ((cs.length * cs.sum : ℕ) : ℚ) ≤ 2 ^ 49 := by exact_mod_cast hb
    rw [Nat.cast_mul] at hbq
    have e51 : (2 : ℚ) ^ (-51 : ℤ) = 1 / 2 ^ 51 := by norm_num
    rw [e51] at herr
    obtain ⟨a1, a2⟩ := abs_le.mp herr
    have hb2 : (cs.length : ℚ) * ((cs.sum : ℚ) / 100) * (1 / 2 ^ 51) ≤ 1 / 400 := by
      have : (cs.length : ℚ) * ((cs.sum : ℚ) / 100) * (1 / 2 ^ 51) =
          (cs.length : ℚ) * (cs.sum : ℚ) * (1 / (100 * 2 ^ 51)) := by ring
      rw [this]
      have h2 := mul_le_mul_of_nonneg_right hbq
        (by positivity : (0 : ℚ) ≤ 1 / (100 * 2 ^ 51))
      have h3 : (2 : ℚ) ^ 49 * (1 / (100 * 2 ^ 51)) = 1 / 400 := by norm_num
      linarith
    have hq : |r * 100 - (cs.sum : ℚ)| ≤ 1 / 4 := by
      rw [abs_le]
      constructor <;> linarith
    have h1 : (1 : ℚ) ≤ (cs.sum : ℚ) := by
      exact_mod_cast Nat.one_le_iff_ne_zero.mpr hz
    have hpos : 0 < r := by
      have := (abs_le.mp hq).1
      linarith
    exact (formatTwoDecimalsComma_cents r cs.sum hpos hq).1

/-- C39: the rows of `montarOutputSicredi`, apart from the account codes that the matcher
gives to the "C" rows, are the rows of the groups that `splitBy` makes of the entries --
the runs of entries with the same settlement date, which are not empty, give the list
back when joined, and of which two adjacent ones have different dates --, group by
group (`groupRows`): one "D" row, whose value is the text of the sum of the values of the
group, then one "C" row per entry in order, every row dated the day after the settlement
date of the entries of the group.  The sum is the `float64` sum of the values in the order
of the group (`sumInOrder`, which is what the loop of `totalDiario` computes), and for a
group whose values are whole numbers of cents, with the number of entries times the sum
of the cents at most `2^49`, its text is the exact sum of the cents with two decimals.
So the number of rows is the number of entries plus the number of groups, which for
entries sorted by settlement date is the number of distinct dates; and no entry gives no
row. -/
theorem C39_rows_group_by_group (u : UnicodeTables) (closest : Closest)
    (srt : (ContaSicredi → ContaSicredi → Bool) → List ContaSicredi → List ContaSicredi)
    (rangeOrder : Nat → List Str) (lancamentos : List Lancamento)
    (contasEntries : SicrediMap) (allKeys classPrefixes : List Str) :
    (montarOutputSicredi u closest srt rangeOrder lancamentos contasEntries allKeys
        classPrefixes).map withoutMatchedCode =
      (lancamentos.splitBy sameDate).flatMap groupRows ∧
    (lancamentos.splitBy sameDate).flatten = lancamentos ∧
    (∀ g ∈ lancamentos.splitBy sameDate, g ≠ [] ∧
      (∀ x ∈ g, ∀ y ∈ g, x.DataLiquidacao = y.DataLiquidacao) ∧
      (∀ x ∈ g, ∀ r ∈ groupRows g, r.Data = nextDayText x.DataLiquidacao) ∧
      (groupRows g).map (fun r => r.Operacao) = "D".toList :: g.map (fun _ => "C".toList) ∧
      (groupRows g).map (fun r => r.Valor) =
        valorText (sumInOrder (g.map (fun x => x.Valor))) ::
          g.map (fun x => valorText x.Valor) ∧
      totalDiario g = sumInOrder (g.map (fun x => x.Valor)) ∧
      (∀ cs : List ℕ, g.map (fun x => x.Valor) = cs.map (fun (c : ℕ) => roundF64 ((c : ℚ) / 100)) →
        cs.length * cs.sum ≤ 2 ^ 49 →
        valorText (sumInOrder (g.map (fun x => x.Valor))) =
          decimalText (cs.sum / 100) ++ ',' :: padDigits 2 (cs.sum % 100))) ∧
    (lancamentos.splitBy sameDate).Chain'
      (fun g h => ∀ x ∈ g, ∀ y ∈ h, x.DataLiquidacao ≠ y.DataLiquidacao) ∧
    (montarOutputSicredi u closest srt rangeOrder lancamentos contasEntries allKeys
        classPrefixes).length = lancamentos.length + (lancamentos.splitBy sameDate).length ∧
    (lancamentos.Pairwise (fun a b => a.DataLiquidacao ≤ b.DataLiquidacao) →
      (montarOutputSicredi u closest srt rangeOrder lancamentos contasEntries allKeys
        classPrefixes).length =
        lancamentos.length + (lancamentos.map (fun x => x.DataLiquidacao)).dedup.length) ∧
    montarOutputSicredi u closest srt rangeOrder [] contasEntries allKeys classPrefixes = [] ∧
    (∀ d : Date, nextDayText (timeOfDate d) = formatDMY (civilFromDays (daysFromCivil d + 1))) := by
  have hrows : (montarOutputSicredi u closest srt rangeOrder lancamentos contasEntries allKeys
      classPrefixes).map withoutMatchedCode =
      (lancamentos.splitBy sameDate).flatMap groupRows := by
    cases lancamentos with
    | nil => rfl
    | cons first rest =>
      unfold montarOutputSicredi
      simp only
      have hfirst : sicrediStep u closest srt rangeOrder allKeys classPrefixes
          ⟨[], contasEntries, [], first.DataLiquidacao⟩ first =
          ⟨[], contasEntries, (first :: []).reverse, first.DataLiquidacao⟩ := by
        unfold sicrediStep
        simp
      rw [List.foldl_cons, hfirst, sicrediLoop_rows u closest srt rangeOrder allKeys
        classPrefixes rest first [] [] contasEntries first.DataLiquidacao (fun x hx => by
          have : x = first := by simpa using hx
          rw [this])]
      rfl
  have hlen : (montarOutputSicredi u closest srt rangeOrder lancamentos contasEntries allKeys
      classPrefixes).length = lancamentos.length + (lancamentos.splitBy sameDate).length := by
    have := congrArg List.length hrows
    rw [List.length_map, groupRows_length, List.flatten_splitBy] at this
    exact this
  refine ⟨hrows, List.flatten_splitBy _ _, fun g hg => ⟨List.ne_nil_of_mem_splitBy _ hg,
    splitBy_sameDate_const _ g hg, fun x hx r hr => ?_, ?_, ?_, totalDiario_eq g,
    fun cs hv hb => ?_⟩, ?_, hlen, fun hs => ?_, rfl, fun d => ?_⟩
  · unfold groupRows at hr
    rcases List.mem_cons.mp hr with h | h
    · rw [h]
      cases g with
      | nil => exact absurd hx (List.not_mem_nil x)
      | cons a g =>
        show nextDayText a.DataLiquidacao = _
        rw [splitBy_sameDate_const _ _ hg a (List.mem_cons_self _ _) x hx]
    · rw [List.mem_map] at h
      obtain ⟨y, hy, rfl⟩ := h
      show nextDayText y.DataLiquidacao = _
      rw [splitBy_sameDate_const _ _ hg y hy x hx]
  · unfold groupRows
    rw [List.map_cons, List.map_map]
    rfl
  · unfold groupRows
    rw [List.map_cons, List.map_map]
    rfl
  · rw [← totalDiario_eq]
    exact totalDiario_cents g cs hv hb
  · have h1 := List.Chain'.iff_mem.mp (List.chain'_getLast_head_splitBy sameDate lancamentos)
    refine h1.imp (fun g h hgh x hx y hy => ?_)
    obtain ⟨hg, hh, ha, hb, hne⟩ := hgh
    have e1 := splitBy_sameDate_const _ g hg x hx (g.getLast ha) (List.getLast_mem ha)
    have e2 := splitBy_sameDate_const _ h hh y hy (h.head hb) (List.head_mem hb)
    rw [e1, e2]
    simpa [sameDate] using hne
  · rw [hlen, splitBy_sameDate_length lancamentos hs]
  · unfold nextDayText
    have := dateOfTime_add_days d 1
    rw [one_mul] at this
    rw [this]

/-- Witness for C39: the three entries of `demoLancamentos`, of 1.50 and 2.00 on
2024-05-10 and of 5.00 on 2024-05-13, sorted by date, give five rows: the "D" row of
11/05/2024 with the sum "3,50" and its two "C" rows, the "D" row of 14/05/2024 with
"5,00" and its "C" row. -/
theorem C39_rows_group_by_group_witness :
    demoLancamentos.Pairwise (fun a b => a.DataLiquidacao ≤ b.DataLiquidacao) ∧
    (montarOutputSicredi latin1Tables demoClosest sortSliceStable (fun _ => [])
        demoLancamentos demoSicrediMap ["CAIXA".toList] []).map
        (fun r => (r.Operacao, r.Data, r.Valor)) =
      [("D".toList, "11/05/2024".toList, "3,50".toList),
       ("C".toList, "11/05/2024".toList, "1,50".toList),
       ("C".toList, "11/05/2024".toList, "2,00".toList),
       ("D".toList, "14/05/2024".toList, "5,00".toList),
       ("C".toList, "14/05/2024".toList, "5,00".toList)] ∧
    (montarOutputSicredi latin1Tables demoClosest sortSliceStable (fun _ => [])
        demoLancamentos demoSicrediMap ["CAIXA".toList] []).map withoutMatchedCode =
      (demoLancamentos.splitBy sameDate).flatMap groupRows ∧
    (montarOutputSicredi latin1Tables demoClosest sortSliceStable (fun _ => [])
        demoLancamentos demoSicrediMap ["CAIXA".toList] []).length =
      demoLancamentos.length +
        (demoLancamentos.map (fun x => x.DataLiquidacao)).dedup.length ∧
    valorText (sumInOrder ((demoLancamentos.take 2).map (fun x => x.Valor))) =
      decimalText (demoCents.sum / 100) ++ ',' :: padDigits 2 (demoCents.sum % 100) := by
  have hs : demoLancamentos.Pairwise (fun a b => a.DataLiquidacao ≤ b.DataLiquidacao) := by
    decide
  have h := C39_rows_group_by_group latin1Tables demoClosest sortSliceStable (fun _ => [])
    demoLancamentos demoSicrediMap ["CAIXA".toList] []
  refine ⟨hs, by decide!, h.1, h.2.2.2.2.2.1 hs, ?_⟩
  exact (h.2.2.1 (demoLancamentos.take 2) (by decide!)).2.2.2.2.2.2 demoCents (by decide!)
    (by decide)

end Converter
